import Mathlib

/-!
# PTCX codec: shallow embedding and verification

Embedding of the PTCX encoder (`encode.cpp`), decoder (`decode.cpp`), the byte
stream (`stream.cpp`, `ring_buffer.h`) and the pixel buffer (`image.cpp`).

Conventions of the embedding
* unsigned machine integers are `Nat`, reduced `% 2^w` where the C++ type wraps;
  signed 16/32-bit temporaries are `Int`;
* a function whose C++ body can touch memory outside a buffer, divide by zero or
  shift by an out-of-range amount returns `Option`; `none` stands for undefined
  behaviour;
* a `status` is returned next to the state the C++ code leaves behind;
* multi-byte objects copied through `read_data` / `write_data` are laid out
  little-endian without padding (`#pragma pack(1)` on the x86 targets of the
  project).
-/

namespace Ptcx

/-! ## base.h (not part of the sources at hand) -/

/-- Modelled from the spec: `base.h` is missing; these are the status codes the
sources use, named as there (§7 of the specification lists the error kinds). -/
inductive status where
  | BASE_SUCCESS
  | BASE_ERROR_INVALIDARG
  | BASE_ERROR_INVALID_RESOURCE
  | BASE_ERROR_EXECUTION_FAILURE
  | BASE_ERROR_OUTOFMEMORY
  | BASE_ERROR_CAPACITY_LIMIT
  deriving DecidableEq, Repr

open status

/-- Modelled from the spec: `base_failed` of the missing `base.h`; a status is a
failure when it is not `BASE_SUCCESS`. -/
def base_failed (s : status) : Bool := decide (s ≠ BASE_SUCCESS)

/-- Modelled from the spec: `base_post_error` of the missing `base.h` reports the
error and hands the same code back to its caller (§7: every component reports
failure by returning an error to its immediate caller). -/
def base_post_error (s : status) : status := s

/-- Modelled from the spec: `BASE_PARAM_CHECK` of the missing `base.h`; argument
validation is active (§7: null or zero-sized inputs give `InvalidArgument`). -/
def BASE_PARAM_CHECK : Bool := true

/-- Modelled from the spec: `BASE_MB` of the missing `base.h`, one mebibyte. -/
def BASE_MB : Nat := 1048576

/-- `BASE_MAX_UINT32` (math.h): `0xFFFFFFFF`. -/
def BASE_MAX_UINT32 : Nat := 4294967295

/-- Number of values of a `uint32`. -/
def U32 : Nat := 4294967296

/-- Conversion of an integer to `uint8`. -/
def to_uint8 (v : Int) : Nat := (v % 256).toNat

/-- Conversion of an integer to `int16` (two's complement wrap). -/
def to_int16 (v : Int) : Int := (v + 32768) % 65536 - 32768

/-! ## ring_buffer.h -/

/-- `BASE_MAX_ARRAY_SIZE` of ring_buffer.h. -/
def BASE_MAX_ARRAY_SIZE : Nat := 4 * BASE_MB

/-- `ring_buffer<uint8>`: the backing vector and the two free-running `uint32`
indices. -/
structure ring_buffer where
  data : List Nat
  read_index : Nat
  write_index : Nat
  deriving DecidableEq, Repr

/-- `std::vector<uint8>::resize` : keeps the leading elements, zero-fills new ones. -/
def vector_resize (v : List Nat) (n : Nat) : List Nat :=
  v.take n ++ List.replicate (n - v.length) 0

namespace ring_buffer

/-- Constructor `ring_buffer()`. -/
def new : ring_buffer := { data := [], read_index := 0, write_index := 0 }

/-- `query_capacity`: `data.size()` returned as `uint32`. -/
def query_capacity (rb : ring_buffer) : Nat := rb.data.length % U32

/-- `query_occupancy`: `write_index - read_index` in `uint32` arithmetic. -/
def query_occupancy (rb : ring_buffer) : Nat :=
  (rb.write_index + U32 - rb.read_index) % U32

/-- `is_full`: `(write_index - read_index) >= data.size()`. -/
def is_full (rb : ring_buffer) : Bool := decide (rb.data.length ≤ rb.query_occupancy)

/-- `is_empty`: `(write_index - read_index) == 0`. -/
def is_empty (rb : ring_buffer) : Bool := decide (rb.query_occupancy = 0)

/-- `resize_capacity`: returns the value handed back and the buffer. -/
def resize_capacity (rb : ring_buffer) (new_capacity : Nat) : Nat × ring_buffer :=
  if BASE_PARAM_CHECK && decide (BASE_MAX_ARRAY_SIZE < new_capacity) then (0, rb)
  else (new_capacity,
        { data := vector_resize rb.data new_capacity, read_index := 0, write_index := 0 })

/-- `write`: stores at `write_index % data.size()` when not full. -/
def write (rb : ring_buffer) (element : Nat) : status × ring_buffer :=
  if !rb.is_full then
    (BASE_SUCCESS,
      { rb with data := rb.data.set (rb.write_index % rb.data.length) element,
                write_index := (rb.write_index + 1) % U32 })
  else (BASE_ERROR_CAPACITY_LIMIT, rb)

/-- `empty`: evicts the occupants. -/
def empty (rb : ring_buffer) : ring_buffer := { rb with read_index := 0, write_index := 0 }

/-- `query_write_position`: `write_index % data.size()`; undefined for an empty vector. -/
def query_write_position (rb : ring_buffer) : Option Nat :=
  if rb.data.length = 0 then none else some (rb.write_index % rb.data.length)

/-- `query_read_position`: `read_index % data.size()`; undefined for an empty vector. -/
def query_read_position (rb : ring_buffer) : Option Nat :=
  if rb.data.length = 0 then none else some (rb.read_index % rb.data.length)

/-- `advance_write_position`. -/
def advance_write_position (rb : ring_buffer) (amount : Nat) : status × ring_buffer :=
  if BASE_PARAM_CHECK && decide (amount = 0) then (base_post_error BASE_ERROR_INVALIDARG, rb)
  else if (rb.query_capacity + U32 - rb.query_occupancy) % U32 < amount then
    (base_post_error BASE_ERROR_OUTOFMEMORY, rb)
  else (BASE_SUCCESS, { rb with write_index := (rb.write_index + amount) % U32 })

/-- `advance_read_position`. -/
def advance_read_position (rb : ring_buffer) (amount : Nat) : status × ring_buffer :=
  if BASE_PARAM_CHECK && decide (amount = 0) then (base_post_error BASE_ERROR_INVALIDARG, rb)
  else if rb.query_occupancy < amount then (base_post_error BASE_ERROR_OUTOFMEMORY, rb)
  else (BASE_SUCCESS, { rb with read_index := (rb.read_index + amount) % U32 })

/-- The `n` elements that a `memcpy` from `peek()` reads: they start at
`read_index % data.size()` and must lie inside the vector. `peek()` is `NULL`
for an empty buffer, which the callers test before copying. -/
def peek_bytes (rb : ring_buffer) (n : Nat) : Option (List Nat) :=
  if rb.data.length = 0 then none
  else if rb.read_index % rb.data.length + n ≤ rb.data.length then
    some ((rb.data.drop (rb.read_index % rb.data.length)).take n)
  else none

end ring_buffer

/-! ## stream.cpp -/

/-- `memory_stream`: a stream over one ring buffer of bytes. -/
structure memory_stream where
  data : ring_buffer
  deriving DecidableEq, Repr

namespace memory_stream

/-- Constructor `memory_stream()`. -/
def new : memory_stream := { data := ring_buffer.new }

/-- `resize_capacity`. -/
def resize_capacity (s : memory_stream) (new_capacity : Nat) : Nat × memory_stream :=
  ((s.data.resize_capacity new_capacity).1, { data := (s.data.resize_capacity new_capacity).2 })

/-- `query_occupancy`. -/
def query_occupancy (s : memory_stream) : Nat := s.data.query_occupancy

/-- `is_full`. -/
def is_full (s : memory_stream) : Bool := s.data.is_full

/-- `is_empty`. -/
def is_empty (s : memory_stream) : Bool := s.data.is_empty

/-- `read_data(output, size, bytes_read)`: the result carries the status, the
stream, the bytes copied to `output` (in order, possibly fewer than `size`) and
the value stored through `bytes_read` (`none` when it is left untouched). -/
def read_data (s : memory_stream) (size : Nat) :
    Option (status × memory_stream × List Nat × Option Nat) :=
  if BASE_PARAM_CHECK && decide (size = 0) then
    some (base_post_error BASE_ERROR_INVALIDARG, s, [], none)
  else if s.is_empty then some (BASE_ERROR_INVALID_RESOURCE, s, [], some 0)
  else
    let internal_to_read := min size s.data.query_occupancy
    match s.data.peek_bytes internal_to_read with
    | none => none
    | some bytes =>
      some (BASE_SUCCESS, { data := (s.data.advance_read_position internal_to_read).2 },
            bytes, some internal_to_read)

/-- `write_data(input, size, bytes_written)`: `input` lists the `size` bytes
behind the pointer, the empty list standing for a null pointer or a zero size. -/
def write_data (s : memory_stream) (input : List Nat) :
    Option (status × memory_stream × Option Nat) :=
  if BASE_PARAM_CHECK && decide (input.length = 0) then
    some (base_post_error BASE_ERROR_INVALIDARG, s, none)
  else if s.is_full || decide (s.data.query_capacity = 0) then
    some (BASE_ERROR_INVALID_RESOURCE, s, some 0)
  else
    let internal_space_avail := (s.data.query_capacity + U32 - s.data.query_occupancy) % U32
    match s.data.query_write_position with
    | none => none
    | some internal_write_index =>
      let internal_to_write := min (input.length % U32) internal_space_avail
      if internal_write_index + internal_to_write ≤ s.data.data.length then
        let copied : ring_buffer :=
          { s.data with
            data := s.data.data.take internal_write_index ++ input.take internal_to_write ++
                    s.data.data.drop (internal_write_index + internal_to_write) }
        some (BASE_SUCCESS, { data := (copied.advance_write_position internal_to_write).2 },
              some internal_to_write)
      else none

/-- The bytes behind `query_read_pointer()` for a copy of `query_occupancy()`
bytes, as `quantize_image` hands them to `write_data`. -/
def read_pointer_bytes (s : memory_stream) : Option (List Nat) :=
  match s.data.query_read_position with
  | none => none
  | some read_index =>
    if read_index + s.query_occupancy ≤ s.data.data.length then
      some ((s.data.data.drop read_index).take s.query_occupancy)
    else none

end memory_stream

/-! ## loops -/

/-- A counted loop `for (i = first; ...; i++)` running `count` times over a state;
the body may be undefined. -/
def for_loop {σ : Type} (body : Nat → σ → Option σ) : Nat → Nat → σ → Option σ
  | 0, _, s => some s
  | n + 1, i, s =>
    match body i s with
    | none => none
    | some s1 => for_loop body n (i + 1) s1

/-- A counted loop whose body can leave the enclosing function with a failure
status: the loop stops at the first status that is not `BASE_SUCCESS`. -/
def for_loop_status {σ : Type} (body : Nat → σ → Option (status × σ)) :
    Nat → Nat → σ → Option (status × σ)
  | 0, _, s => some (BASE_SUCCESS, s)
  | n + 1, i, s =>
    match body i s with
    | none => none
    | some (st, s1) =>
      if st = BASE_SUCCESS then for_loop_status body n (i + 1) s1 else some (st, s1)

/-- Number of iterations of `for (i = 0; i < bound; i += step)`; `none` when the
loop cannot end (`step = 0` with a positive bound). -/
def strided_count (bound step : Nat) : Option Nat :=
  if bound = 0 then some 0
  else if step = 0 then none
  else some ((bound + step - 1) / step)

/-! ## image.h, image.cpp -/

/-- `IGN_IMAGE_FORMAT`. -/
inductive IGN_IMAGE_FORMAT where
  | IGN_IMAGE_FORMAT_NONE
  | IGN_IMAGE_FORMAT_R8G8B8
  deriving DecidableEq, Repr

open IGN_IMAGE_FORMAT

/-- Numeric value of the enumerator, as stored in the header's `source_format`. -/
def IGN_IMAGE_FORMAT.value : IGN_IMAGE_FORMAT → Nat
  | IGN_IMAGE_FORMAT_NONE => 0
  | IGN_IMAGE_FORMAT_R8G8B8 => 1

/-- `channel_count_from_format`. -/
def channel_count_from_format : IGN_IMAGE_FORMAT → Nat
  | IGN_IMAGE_FORMAT_NONE => 0
  | IGN_IMAGE_FORMAT_R8G8B8 => 3

/-- `pixel_rate_from_format`. -/
def pixel_rate_from_format : IGN_IMAGE_FORMAT → Nat
  | IGN_IMAGE_FORMAT_NONE => 0
  | IGN_IMAGE_FORMAT_R8G8B8 => 24

/-- Three 8-bit channels, the `uint8 [3]` arrays of the sources. -/
structure color where
  c0 : Nat
  c1 : Nat
  c2 : Nat
  deriving DecidableEq, Repr

/-- `class image`: format, dimensions and the row-major byte buffer. -/
structure image where
  image_format : IGN_IMAGE_FORMAT
  width_in_pixels : Nat
  height_in_pixels : Nat
  bits_per_pixel : Nat
  channel_count : Nat
  data_buffer : List Nat
  deriving DecidableEq, Repr

namespace image

/-- Constructor `image()`. -/
def new : image :=
  { image_format := IGN_IMAGE_FORMAT_NONE, width_in_pixels := 0, height_in_pixels := 0,
    bits_per_pixel := 0, channel_count := 0, data_buffer := [] }

/-- `query_width`. -/
def query_width (img : image) : Nat := img.width_in_pixels

/-- `query_height`. -/
def query_height (img : image) : Nat := img.height_in_pixels

/-- `query_image_format`. -/
def query_image_format (img : image) : IGN_IMAGE_FORMAT := img.image_format

/-- `query_bits_per_pixel`, a `uint8`. -/
def query_bits_per_pixel (img : image) : Nat := img.bits_per_pixel % 256

/-- `query_row_pitch`: `(width_in_pixels * bits_per_pixel) >> 3` in `uint32`. -/
def query_row_pitch (img : image) : Nat :=
  ((img.width_in_pixels * img.bits_per_pixel) % U32) >>> 3

/-- `query_block_offset`: `(query_row_pitch() * j) + ((i * bits_per_pixel) >> 3)` in `uint32`. -/
def query_block_offset (img : image) (i j : Nat) : Nat :=
  ((img.query_row_pitch * j) % U32 + (((i * img.bits_per_pixel) % U32) >>> 3)) % U32

/-- The three bytes `p[0], p[1], p[2]` behind `p = query_data() + offset`;
`none` when one of them lies outside the buffer. -/
def load_pixel (img : image) (offset : Nat) : Option color :=
  match img.data_buffer[offset]?, img.data_buffer[offset + 1]?, img.data_buffer[offset + 2]? with
  | some a, some b, some c => some { c0 := a, c1 := b, c2 := c }
  | _, _, _ => none

/-- The three stores `p[0] = c0; p[1] = c1; p[2] = c2` behind
`p = query_data() + offset`; `none` when one of them lies outside the buffer. -/
def store_pixel (img : image) (offset : Nat) (c : color) : Option image :=
  if offset + 2 < img.data_buffer.length then
    some { img with
      data_buffer := ((img.data_buffer.set offset c.c0).set (offset + 1) c.c1).set (offset + 2) c.c2 }
  else none

/-- The pixel behind `query_data() + query_block_offset(i, j)`. -/
def pixel_at (img : image) (i j : Nat) : Option color :=
  img.load_pixel (img.query_block_offset i j)

/-- `set_image_format`. -/
def set_image_format (img : image) (format : IGN_IMAGE_FORMAT) : status × image :=
  if BASE_PARAM_CHECK && decide (channel_count_from_format format = 0) then
    (base_post_error BASE_ERROR_INVALIDARG, img)
  else if pixel_rate_from_format format % 8 ≠ 0 then (base_post_error BASE_ERROR_INVALIDARG, img)
  else (BASE_SUCCESS,
        { img with image_format := format, bits_per_pixel := pixel_rate_from_format format,
                   channel_count := channel_count_from_format format })

/-- `set_dimension`. -/
def set_dimension (img : image) (width height : Nat) : status × image :=
  if BASE_PARAM_CHECK && (decide (width = 0) || decide (height = 0)) then
    (base_post_error BASE_ERROR_INVALIDARG, img)
  else if img.bits_per_pixel = 0 ∨ img.image_format = IGN_IMAGE_FORMAT_NONE then
    (base_post_error BASE_ERROR_INVALID_RESOURCE, img)
  else (BASE_SUCCESS, { img with width_in_pixels := width, height_in_pixels := height })

/-- `allocate`: a fresh zero-filled buffer of `size` bytes. -/
def allocate (img : image) (size : Nat) : status × image :=
  if BASE_PARAM_CHECK && decide (size = 0) then (base_post_error BASE_ERROR_INVALIDARG, img)
  else (BASE_SUCCESS, { img with data_buffer := List.replicate size 0 })

end image

/-- `create_image(format, width, height, output)`. -/
def create_image (format : IGN_IMAGE_FORMAT) (width height : Nat) (output : image) :
    status × image :=
  if BASE_PARAM_CHECK && (decide (width = 0) || decide (height = 0)) then
    (base_post_error BASE_ERROR_INVALIDARG, output)
  else
    let r1 := output.set_image_format format
    if base_failed r1.1 then (base_post_error BASE_ERROR_EXECUTION_FAILURE, r1.2)
    else
      let r2 := r1.2.set_dimension width height
      if base_failed r2.1 then (base_post_error BASE_ERROR_EXECUTION_FAILURE, r2.2)
      else
        let r3 := r2.2.allocate (((width * height * r2.2.query_bits_per_pixel) % U32) >>> 3)
        if base_failed r3.1 then (base_post_error BASE_ERROR_OUTOFMEMORY, r3.2)
        else (BASE_SUCCESS, r3.2)

/-! ## ptcx_internal.h -/

/-- `PTCX_MAJOR_VERSION`. -/
def PTCX_MAJOR_VERSION : Nat := 2
/-- `PTCX_MAGIC_VALUE`, the characters PTCX. -/
def PTCX_MAGIC_VALUE : Nat := 0x50544358
/-- `PTCX_MAX_BLOCK_SIZE`. -/
def PTCX_MAX_BLOCK_SIZE : Nat := 16
/-- `PTCX_MAX_QUANT_CONTROL_BITS`. -/
def PTCX_MAX_QUANT_CONTROL_BITS : Nat := 16
/-- `PTCX_DEFAULT_IMAGE_DEPTH`. -/
def PTCX_DEFAULT_IMAGE_DEPTH : Nat := 1
/-- `PTCX_MAX_QUANT_STEP_BITS`. -/
def PTCX_MAX_QUANT_STEP_BITS : Nat := 4
/-- `PTCX_QUALITY_DELTA`, the value `64.0f`; the `uint32` errors compared with it
are whole numbers, so the comparison is the one on naturals. -/
def PTCX_QUALITY_DELTA : Nat := 64
/-- `PTCX_MAX_MB_TABLE_SIZE`. -/
def PTCX_MAX_MB_TABLE_SIZE : Nat := PTCX_MAX_BLOCK_SIZE * PTCX_MAX_BLOCK_SIZE
/-- `PTCX_MAX_BLOCK_DATA_SIZE`. -/
def PTCX_MAX_BLOCK_DATA_SIZE : Nat :=
  (PTCX_MAX_MB_TABLE_SIZE * PTCX_MAX_QUANT_STEP_BITS + (PTCX_MAX_QUANT_CONTROL_BITS <<< 1)) >>> 3

/-- `PTCX_FILE_HEADER` (packed, 24 bytes). -/
structure PTCX_FILE_HEADER where
  magic : Nat
  version : Nat
  header_size : Nat
  image_width : Nat
  image_height : Nat
  image_depth : Nat
  block_width : Nat
  block_height : Nat
  quant_step_bits : Nat
  quant_control_bits : Nat
  source_format : Nat
  deriving DecidableEq, Repr

/-- `sizeof(PTCX_FILE_HEADER)` under `#pragma pack(1)`: 4+2+2+2+2+2+2+2+1+1+4. -/
def sizeof_PTCX_FILE_HEADER : Nat := 24

/-- `PTCX_PIXEL_RANGE`. -/
structure PTCX_PIXEL_RANGE where
  min_value : color
  max_value : color
  deriving DecidableEq, Repr

/-- The two bytes of a `uint16`, low byte first. -/
def bytes_of_u16 (v : Nat) : List Nat := [v % 256, (v / 256) % 256]

/-- The four bytes of a `uint32`, low byte first. -/
def bytes_of_u32 (v : Nat) : List Nat :=
  [v % 256, (v / 256) % 256, (v / 65536) % 256, (v / 16777216) % 256]

/-- The object representation of a header, the bytes `write_data(&pxh, sizeof)` copies. -/
def header_bytes (h : PTCX_FILE_HEADER) : List Nat :=
  bytes_of_u32 h.magic ++ bytes_of_u16 h.version ++ bytes_of_u16 h.header_size ++
  bytes_of_u16 h.image_width ++ bytes_of_u16 h.image_height ++ bytes_of_u16 h.image_depth ++
  bytes_of_u16 h.block_width ++ bytes_of_u16 h.block_height ++
  [h.quant_step_bits % 256, h.quant_control_bits % 256] ++ bytes_of_u32 h.source_format

/-- The `uint16` stored at byte offset `i` of a byte sequence (absent bytes are the
zeroes of the `= {0}` initialiser). -/
def u16_at (bs : List Nat) (i : Nat) : Nat := bs.getD i 0 + 256 * bs.getD (i + 1) 0

/-- The `uint32` stored at byte offset `i` of a byte sequence. -/
def u32_at (bs : List Nat) (i : Nat) : Nat :=
  bs.getD i 0 + 256 * bs.getD (i + 1) 0 + 65536 * bs.getD (i + 2) 0 + 16777216 * bs.getD (i + 3) 0

/-- The header object after `read_data(&pxh, sizeof, ...)` copied `bs` over the
zero-initialised `pxh`. -/
def header_of_bytes (bs : List Nat) : PTCX_FILE_HEADER :=
  { magic := u32_at bs 0, version := u16_at bs 4, header_size := u16_at bs 6,
    image_width := u16_at bs 8, image_height := u16_at bs 10, image_depth := u16_at bs 12,
    block_width := u16_at bs 14, block_height := u16_at bs 16,
    quant_step_bits := bs.getD 18 0, quant_control_bits := bs.getD 19 0,
    source_format := u32_at bs 20 }

/-- The header that describes the microblocks of a macroblock at a shift:
`block_width >> shift` and `block_height >> shift`, each raised to 2 when smaller
(the `trial_header` of `quantize_macroblock` and the `temp_header` of
`inverse_quantize`, which compute it with the same statements). -/
def microblock_header (header : PTCX_FILE_HEADER) (block_shift : Nat) : PTCX_FILE_HEADER :=
  { header with
    block_width := if (header.block_width >>> block_shift) % 65536 < 2 then 2
      else (header.block_width >>> block_shift) % 65536,
    block_height := if (header.block_height >>> block_shift) % 65536 < 2 then 2
      else (header.block_height >>> block_shift) % 65536 }

/-! ## size table (encode.cpp, decode.cpp) -/

/-- `write_macroblock_table_entry`: read-modify-write of one table byte;
`none` when `byte_index` lies outside the table. -/
def write_macroblock_table_entry (mb_table : List Nat) (x width_in_blocks y value : Nat) :
    Option (List Nat) :=
  let block_index := (y * width_in_blocks + x) % U32
  let byte_index := block_index >>> 2
  let bit_shift := ((block_index % 4) <<< 1) % 256
  let bit_mask := (0x3 <<< bit_shift) % 256
  match mb_table[byte_index]? with
  | none => none
  | some bit_data =>
    some (mb_table.set byte_index
      ((bit_data &&& ((value <<< bit_shift) ||| (U32 - 1 - bit_mask))) % 256))

/-- `query_macroblock_shift`: the two bits of a macroblock; `none` when
`byte_index` lies outside the table. -/
def query_macroblock_shift (input : List Nat) (x width_in_blocks y : Nat) : Option Nat :=
  let block_index := (y * width_in_blocks + x) % U32
  let byte_index := block_index >>> 2
  match input[byte_index]? with
  | none => none
  | some bit_data => some (((bit_data >>> ((block_index % 4) <<< 1)) &&& 0x3) % 256)

/-! ## math.h -/

/-- `is_pow2`: `0 == (value & (value - 1))` on `uint32`. -/
def is_pow2 (value : Nat) : Bool := decide (value &&& ((value + U32 - 1) % U32) = 0)

/-! ## estimate.cpp -/

/-- One step of the scan of `range_estimate_min_max`: the six comparisons. -/
def range_accumulate (range : PTCX_PIXEL_RANGE) (src_pixel : color) : PTCX_PIXEL_RANGE :=
  { min_value :=
      { c0 := if src_pixel.c0 < range.min_value.c0 then src_pixel.c0 else range.min_value.c0,
        c1 := if src_pixel.c1 < range.min_value.c1 then src_pixel.c1 else range.min_value.c1,
        c2 := if src_pixel.c2 < range.min_value.c2 then src_pixel.c2 else range.min_value.c2 },
    max_value :=
      { c0 := if src_pixel.c0 > range.max_value.c0 then src_pixel.c0 else range.max_value.c0,
        c1 := if src_pixel.c1 > range.max_value.c1 then src_pixel.c1 else range.max_value.c1,
        c2 := if src_pixel.c2 > range.max_value.c2 then src_pixel.c2 else range.max_value.c2 } }

/-- The body of the scan of `range_estimate_min_max` at `(subi, subj)`. -/
def range_estimate_step (input : image) (x y subj subi : Nat) (range : PTCX_PIXEL_RANGE) :
    Option PTCX_PIXEL_RANGE :=
  match input.pixel_at ((x + subi) % U32) ((y + subj) % U32) with
  | none => none
  | some src_pixel => some (range_accumulate range src_pixel)

/-- `range_estimate_min_max`: per-channel minimum and maximum of a block. -/
def range_estimate_min_max (header : PTCX_FILE_HEADER) (input : image) (x y : Nat) :
    Option (status × PTCX_PIXEL_RANGE) :=
  match
    for_loop (fun subj => for_loop (range_estimate_step input x y subj) header.block_width 0)
      header.block_height 0
      { min_value := { c0 := 255, c1 := 255, c2 := 255 },
        max_value := { c0 := 0, c1 := 0, c2 := 0 } }
  with
  | none => none
  | some range => some (BASE_SUCCESS, range)

/-! ## encode.cpp -/

/-- `configure_quality_quant_step_bits`. -/
def configure_quality_quant_step_bits (quality : Nat) : Nat :=
  match quality with
  | 0 => 2
  | 1 => 2
  | 2 => 4
  | 3 => 4
  | 4 => 4
  | _ => 4

/-- `configure_quality_block_width`. -/
def configure_quality_block_width (quality : Nat) : Nat :=
  match quality with
  | 0 => PTCX_MAX_BLOCK_SIZE
  | 1 => PTCX_MAX_BLOCK_SIZE
  | 2 => PTCX_MAX_BLOCK_SIZE >>> 1
  | 3 => PTCX_MAX_BLOCK_SIZE >>> 2
  | 4 => PTCX_MAX_BLOCK_SIZE >>> 3
  | _ => PTCX_MAX_BLOCK_SIZE >>> 2

/-- `configure_quality_block_height`. -/
def configure_quality_block_height (quality : Nat) : Nat := configure_quality_block_width quality

/-- `sum_square_differences` over two byte arrays; `none` when an index leaves
one of them. -/
def sum_square_differences (list_a list_b : List Nat) (count : Nat) : Option Nat :=
  for_loop (fun i total =>
      match list_a[i]?, list_b[i]? with
      | some value_a, some value_b =>
        some ((total + (((value_b : Int) - (value_a : Int)) * ((value_b : Int) - (value_a : Int))).toNat) % U32)
      | _, _ => none)
    count 0 0

/-- `quantize_pixel`: the step value and, when `want_error` (a non-null `error`
pointer), the squared reconstruction error. `sqrt` is `base::sqrt(uint32)` of
math.h, a floating-point approximation that is kept abstract. -/
def quantize_pixel (sqrt : Nat → Nat) (quant_step_bits : Nat) (range : PTCX_PIXEL_RANGE)
    (source_pixel : color) (want_error : Bool) : Option (Nat × Nat) :=
  if 31 ≤ quant_step_bits then none
  else
    let min_value0 : Int := to_int16 range.min_value.c0
    let min_value1 : Int := to_int16 range.min_value.c1
    let min_value2 : Int := to_int16 range.min_value.c2
    let max_value0 : Int := to_int16 range.max_value.c0
    let max_value1 : Int := to_int16 range.max_value.c1
    let max_value2 : Int := to_int16 range.max_value.c2
    let range_delta0 : Int := to_int16 (max_value0 - min_value0)
    let range_delta1 : Int := to_int16 (max_value1 - min_value1)
    let range_delta2 : Int := to_int16 (max_value2 - min_value2)
    let range_dot : Int :=
      range_delta0 * range_delta0 + range_delta1 * range_delta1 + range_delta2 * range_delta2
    let range_length : Int := to_int16 (sqrt range_dot.toNat)
    let step_count : Nat := to_uint8 ((1 <<< quant_step_bits : Nat) - 1 : Int)
    let unit_length : Int :=
      if step_count ≠ 0 then to_int16 (Int.tdiv range_length step_count) else 0
    let pixel_values0 : Int := to_int16 source_pixel.c0
    let pixel_values1 : Int := to_int16 source_pixel.c1
    let pixel_values2 : Int := to_int16 source_pixel.c2
    let pixel_delta0 : Int := to_int16 (pixel_values0 - min_value0)
    let pixel_delta1 : Int := to_int16 (pixel_values1 - min_value1)
    let pixel_delta2 : Int := to_int16 (pixel_values2 - min_value2)
    let pixel_dot : Int :=
      pixel_delta0 * pixel_delta0 + pixel_delta1 * pixel_delta1 + pixel_delta2 * pixel_delta2
    let pixel_length : Int := to_int16 (sqrt pixel_dot.toNat)
    let step_value : Nat :=
      to_uint8 (if unit_length ≠ 0 then Int.tdiv pixel_length unit_length else 0)
    if want_error then
      if step_count = 0 then none
      else
        let reconstruction : List Nat :=
          [ to_uint8 (min_value0 + Int.tdiv range_delta0 step_count * step_value),
            to_uint8 (min_value1 + Int.tdiv range_delta1 step_count * step_value),
            to_uint8 (min_value2 + Int.tdiv range_delta2 step_count * step_value) ]
        match sum_square_differences [source_pixel.c0, source_pixel.c1, source_pixel.c2]
            reconstruction 3 with
        | none => none
        | some error => some (step_value, error)
    else some (step_value, 0)

/-- The body of the packing loop of `write_quantization_table` (lines 109-130)
at `(subi, subj)`; the state is `quant_look_aside` and the output buffer, and
`clamped_index` supplies the value of `clamped_index` at that position. -/
def write_quantization_table_step (quant_step_bits block_width : Nat)
    (clamped_index : Nat → Nat → Option Nat) (subj subi : Nat) (st : Nat × ring_buffer) :
    Option (Nat × ring_buffer) :=
  let linear_sub_index := (subi + subj * block_width) % U32
  match clamped_index subi subj with
  | none => none
  | some index =>
    if 8 < quant_step_bits then none
    else
      let shifted := st.1 >>> quant_step_bits
      let quant_look_aside := (shifted ||| ((index <<< (8 - quant_step_bits)) % U32)) % 256
      if linear_sub_index ≠ 0 ∧
          8 - quant_step_bits = ((quant_step_bits * linear_sub_index) % U32) % 8 then
        some (quant_look_aside, (st.2.write quant_look_aside).2)
      else some (quant_look_aside, st.2)

/-- The packing loop of `write_quantization_table` (lines 106-131). -/
def write_quantization_table_loop (quant_step_bits block_width block_height : Nat)
    (clamped_index : Nat → Nat → Option Nat) (output : ring_buffer) : Option ring_buffer :=
  match
    for_loop (fun subj => for_loop
        (write_quantization_table_step quant_step_bits block_width clamped_index subj)
        block_width 0) block_height 0 (0, output)
  with
  | none => none
  | some st => some st.2

/-- The value of `clamped_index` in `write_quantization_table` at `(subi, subj)`:
the step value `quantize_pixel` returns for the source pixel. -/
def clamped_index_at (sqrt : Nat → Nat) (header : PTCX_FILE_HEADER) (range : PTCX_PIXEL_RANGE)
    (input : image) (x y subi subj : Nat) : Option Nat :=
  match input.pixel_at ((x + subi) % U32) ((y + subj) % U32) with
  | none => none
  | some src_pixel =>
    match quantize_pixel sqrt header.quant_step_bits range src_pixel false with
    | none => none
    | some r => some r.1

/-- `write_quantization_table`. -/
def write_quantization_table (sqrt : Nat → Nat) (header : PTCX_FILE_HEADER)
    (range : PTCX_PIXEL_RANGE) (input : image) (x y : Nat) (output : ring_buffer) :
    Option ring_buffer :=
  write_quantization_table_loop header.quant_step_bits header.block_width header.block_height
    (clamped_index_at sqrt header range input x y) output

/-- The 16-bit word of a control colour: 5 bits of channel 2, 6 bits of channel 1,
5 bits of channel 0. -/
def control_word (c : color) : Nat :=
  (((((c.c2 / 8) &&& 0x1F) <<< 11) ||| (((c.c1 / 4) &&& 0x3F) <<< 5)) ||| ((c.c0 / 8) &&& 0x1F))
    % 65536

/-- `write_control_values`. -/
def write_control_values (range : PTCX_PIXEL_RANGE) (header : PTCX_FILE_HEADER)
    (output : ring_buffer) : ring_buffer :=
  if header.quant_control_bits = 16 then
    let min_combined := control_word range.min_value
    let max_combined := control_word range.max_value
    let o1 := (output.write ((min_combined &&& 0xFF) % 256)).2
    let o2 := (o1.write ((min_combined >>> 8) % 256)).2
    let o3 := (o2.write ((max_combined &&& 0xFF) % 256)).2
    (o3.write ((max_combined >>> 8) % 256)).2
  else output

/-- The body of the loop of `estimate_quantization_error` at `(subi, subj)`. -/
def estimate_quantization_error_step (sqrt : Nat → Nat) (header : PTCX_FILE_HEADER)
    (range : PTCX_PIXEL_RANGE) (input : image) (pixel_x pixel_y subj subi : Nat) (error : Nat) :
    Option Nat :=
  match input.pixel_at ((pixel_x + subi) % U32) ((pixel_y + subj) % U32) with
  | none => none
  | some source_pixel =>
    match quantize_pixel sqrt header.quant_step_bits range source_pixel true with
    | none => none
    | some r => some ((error + r.2) % U32)

/-- `estimate_quantization_error`. -/
def estimate_quantization_error (sqrt : Nat → Nat) (header : PTCX_FILE_HEADER)
    (range : PTCX_PIXEL_RANGE) (input : image) (pixel_x pixel_y : Nat) : Option Nat :=
  for_loop (fun subj => for_loop
      (estimate_quantization_error_step sqrt header range input pixel_x pixel_y subj)
      header.block_width 0) header.block_height 0 0

/-- `quantize_microblock`: of the three estimators only `quant = 0` (min-max) is
run, the other two cases `continue`; returns the output buffer and `*error`. -/
def quantize_microblock (sqrt : Nat → Nat) (input : image) (header : PTCX_FILE_HEADER)
    (pixel_x pixel_y : Nat) (output : ring_buffer) (error : Nat) : Option (ring_buffer × Nat) :=
  match range_estimate_min_max header input pixel_x pixel_y with
  | none => none
  | some (_, range0) =>
    match estimate_quantization_error sqrt header range0 input pixel_x pixel_y with
    | none => none
    | some quant_error =>
      let lowest_quant_error :=
        if quant_error ≤ BASE_MAX_UINT32 then quant_error else BASE_MAX_UINT32
      let out1 := write_control_values range0 header output
      match write_quantization_table sqrt header range0 input pixel_x pixel_y out1 with
      | none => none
      | some out2 => some (out2, (error + lowest_quant_error) % U32)

/-- The body of the microblock loops of `quantize_macroblock` at `(micro_i, micro_j)`;
the state is the trial buffer and the accumulated error of the trial. -/
def quantize_macroblock_step (sqrt : Nat → Nat) (input : image)
    (trial_header : PTCX_FILE_HEADER) (pixel_x pixel_y micro_j micro_i : Nat)
    (st : ring_buffer × Nat) : Option (ring_buffer × Nat) :=
  quantize_microblock sqrt input trial_header
    ((pixel_x + micro_i * trial_header.block_width) % U32)
    ((pixel_y + micro_j * trial_header.block_height) % U32) st.1 st.2

/-- One pass of the `block_shift` loop of `quantize_macroblock`: fills the trial
buffer of that shift and returns it with the mean squared error of the trial. -/
def quantize_macroblock_trial (sqrt : Nat → Nat) (input : image) (header : PTCX_FILE_HEADER)
    (pixel_x pixel_y block_shift : Nat) (trial_buffer : ring_buffer) :
    Option (ring_buffer × Nat) :=
  match
    for_loop (fun micro_j => for_loop
        (quantize_macroblock_step sqrt input (microblock_header header block_shift)
          pixel_x pixel_y micro_j)
        (header.block_width / (microblock_header header block_shift).block_width) 0)
      (header.block_height / (microblock_header header block_shift).block_height) 0
      (trial_buffer.empty, 0)
  with
  | none => none
  | some st =>
    if (header.block_width * header.block_height) % U32 = 0 then none
    else some (st.1, st.2 / ((header.block_width * header.block_height) % U32))

/-- The bytes `write_data(buffer.peek(), buffer.query_occupancy())` is handed:
none for an empty buffer (`peek()` is `NULL`). -/
def peeked_occupants (buffer : ring_buffer) : Option (List Nat) :=
  if buffer.is_empty then some [] else buffer.peek_bytes buffer.query_occupancy

/-- `quantize_macroblock`: the state is the three trial buffers, the size table
and the output stream. -/
def quantize_macroblock (sqrt : Nat → Nat) (input : image) (header : PTCX_FILE_HEADER)
    (pixel_x pixel_y : Nat)
    (st : (ring_buffer × ring_buffer × ring_buffer) × List Nat × memory_stream) :
    Option (status × ((ring_buffer × ring_buffer × ring_buffer) × List Nat × memory_stream)) :=
  match quantize_macroblock_trial sqrt input header pixel_x pixel_y 0 st.1.1 with
  | none => none
  | some (buffer0, error0) =>
    match quantize_macroblock_trial sqrt input header pixel_x pixel_y 1 st.1.2.1 with
    | none => none
    | some (buffer1, error1) =>
      match quantize_macroblock_trial sqrt input header pixel_x pixel_y 2 st.1.2.2 with
      | none => none
      | some (buffer2, _) =>
        let final_macroblock_level : Nat :=
          if error0 ≤ PTCX_QUALITY_DELTA then 0
          else if error1 ≤ PTCX_QUALITY_DELTA then 1
          else 2
        let chosen :=
          if final_macroblock_level = 0 then buffer0
          else if final_macroblock_level = 1 then buffer1 else buffer2
        if header.block_width = 0 ∨ header.block_height = 0 then none
        else
          match write_macroblock_table_entry st.2.1 (pixel_x / header.block_width)
              (header.image_width / header.block_width) (pixel_y / header.block_height)
              final_macroblock_level with
          | none => none
          | some mb_table =>
            match peeked_occupants chosen with
            | none => none
            | some bytes =>
              match st.2.2.write_data bytes with
              | none => none
              | some w => some (BASE_SUCCESS, ((buffer0, buffer1, buffer2), mb_table, w.2.1))

/-- The body of the loops of `quantize_worker` for the macroblock in column `i` of
row `j` of the grid (pixel position `(i * block_width, j * block_height)`). -/
def quantize_worker_step (sqrt : Nat → Nat) (input : image) (header : PTCX_FILE_HEADER)
    (j i : Nat) (st : (ring_buffer × ring_buffer × ring_buffer) × List Nat × memory_stream) :
    Option (status × ((ring_buffer × ring_buffer × ring_buffer) × List Nat × memory_stream)) :=
  match quantize_macroblock sqrt input header (i * header.block_width)
      (j * header.block_height) st with
  | none => none
  | some r =>
    if base_failed r.1 then some (base_post_error BASE_ERROR_EXECUTION_FAILURE, r.2)
    else some (BASE_SUCCESS, r.2)

/-- `quantize_worker`: returns the status, the size table and the scratch stream. -/
def quantize_worker (sqrt : Nat → Nat) (input : image) (header : PTCX_FILE_HEADER)
    (mb_table : List Nat) (out_stream : memory_stream) :
    Option (status × List Nat × memory_stream) :=
  let t0 := ring_buffer.new.resize_capacity PTCX_MAX_BLOCK_DATA_SIZE
  let t1 := ring_buffer.new.resize_capacity PTCX_MAX_BLOCK_DATA_SIZE
  let t2 := ring_buffer.new.resize_capacity PTCX_MAX_BLOCK_DATA_SIZE
  if PTCX_MAX_BLOCK_DATA_SIZE ≠ t0.1 ∨ PTCX_MAX_BLOCK_DATA_SIZE ≠ t1.1 ∨
      PTCX_MAX_BLOCK_DATA_SIZE ≠ t2.1 then
    some (base_post_error BASE_ERROR_EXECUTION_FAILURE, mb_table, out_stream)
  else
    match strided_count input.query_height header.block_height,
          strided_count input.query_width header.block_width with
    | some rows, some columns =>
      match
        for_loop_status (fun j => for_loop_status (quantize_worker_step sqrt input header j)
          columns 0) rows 0 ((t0.2, t1.2, t2.2), mb_table, out_stream)
      with
      | none => none
      | some r => some (r.1, r.2.2.1, r.2.2.2)
    | _, _ => none

/-- `prepare_temporary_buffers`: returns the status, the scratch stream and the
size table. The products are formed in `int` (the operands are `uint16`), so a
value of `2^31` or more is undefined. -/
def prepare_temporary_buffers (header : PTCX_FILE_HEADER) (temp_stream : memory_stream)
    (macroblock_table : List Nat) : Option (status × memory_stream × List Nat) :=
  let max_image_size := (header.image_width / 2) * (header.image_height * 2) * (6 + 2)
  if 2147483648 ≤ max_image_size then none
  else if header.block_width = 0 ∨ header.block_height = 0 then none
  else
    let macroblock_count :=
      (header.image_width / header.block_width) * (header.image_height / header.block_height)
    if 2147483648 ≤ macroblock_count then none
    else
      let macroblock_table_size := ((macroblock_count <<< 1) % U32) >>> 3
      if macroblock_table_size = 0 then
        some (base_post_error BASE_ERROR_INVALID_RESOURCE, temp_stream, macroblock_table)
      else
        let table := vector_resize macroblock_table macroblock_table_size
        if macroblock_table_size ≠ table.length then
          some (base_post_error BASE_ERROR_EXECUTION_FAILURE, temp_stream, table)
        else
          let r := temp_stream.resize_capacity max_image_size
          if max_image_size ≠ r.1 then
            some (base_post_error BASE_ERROR_EXECUTION_FAILURE, r.2, table)
          else some (BASE_SUCCESS, r.2, table)

/-- `quantize_image`. -/
def quantize_image (sqrt : Nat → Nat) (input : image) (header : PTCX_FILE_HEADER)
    (out_stream : memory_stream) : Option (status × memory_stream) :=
  if BASE_PARAM_CHECK && !is_pow2 header.quant_step_bits then
    some (base_post_error BASE_ERROR_INVALIDARG, out_stream)
  else
    match prepare_temporary_buffers header memory_stream.new [] with
    | none => none
    | some (st1, image_stream, macroblock_table) =>
      if base_failed st1 then some (base_post_error BASE_ERROR_OUTOFMEMORY, out_stream)
      else
        match quantize_worker sqrt input header macroblock_table image_stream with
        | none => none
        | some (st2, table, scratch) =>
          if base_failed st2 then some (base_post_error BASE_ERROR_EXECUTION_FAILURE, out_stream)
          else
            match out_stream.write_data table with
            | none => none
            | some w1 =>
              if base_failed w1.1 then
                some (base_post_error BASE_ERROR_EXECUTION_FAILURE, w1.2.1)
              else
                match scratch.read_pointer_bytes with
                | none => none
                | some bytes =>
                  match w1.2.1.write_data bytes with
                  | none => none
                  | some w2 =>
                    if base_failed w2.1 then
                      some (base_post_error BASE_ERROR_EXECUTION_FAILURE, w2.2.1)
                    else some (BASE_SUCCESS, w2.2.1)

/-- `configure_header_quality`. -/
def configure_header_quality (header : PTCX_FILE_HEADER) (quality : Nat) : PTCX_FILE_HEADER :=
  { header with
    block_width := configure_quality_block_width quality,
    block_height := configure_quality_block_height quality,
    quant_step_bits := configure_quality_quant_step_bits quality }

/-- `configure_header`: the `uint16` fields keep the low 16 bits of the `uint32`
image dimensions. -/
def configure_header (input : image) (quality : Nat) : PTCX_FILE_HEADER :=
  configure_header_quality
    { magic := PTCX_MAGIC_VALUE,
      version := PTCX_MAJOR_VERSION,
      header_size := sizeof_PTCX_FILE_HEADER,
      image_width := input.query_width % 65536,
      image_height := input.query_height % 65536,
      image_depth := PTCX_DEFAULT_IMAGE_DEPTH,
      block_width := PTCX_MAX_BLOCK_SIZE / 4,
      block_height := PTCX_MAX_BLOCK_SIZE / 4,
      quant_step_bits := PTCX_MAX_QUANT_STEP_BITS,
      quant_control_bits := PTCX_MAX_QUANT_CONTROL_BITS,
      source_format := input.query_image_format.value }
    quality

/-- `save_ptcx`. -/
def save_ptcx (sqrt : Nat → Nat) (input : image) (quality : Nat) (output : memory_stream) :
    Option (status × memory_stream) :=
  if BASE_PARAM_CHECK && output.is_full then some (BASE_ERROR_INVALIDARG, output)
  else if BASE_PARAM_CHECK && decide (IGN_IMAGE_FORMAT_R8G8B8 ≠ input.query_image_format) then
    some (BASE_ERROR_INVALIDARG, output)
  else if input.query_width % 16 ≠ 0 ∨ input.query_height % 16 ≠ 0 then
    some (BASE_ERROR_INVALID_RESOURCE, output)
  else
    match output.write_data (header_bytes (configure_header input quality)) with
    | none => none
    | some w =>
      if base_failed w.1 then some (base_post_error BASE_ERROR_EXECUTION_FAILURE, w.2.1)
      else if w.2.2 ≠ some sizeof_PTCX_FILE_HEADER then
        some (base_post_error BASE_ERROR_EXECUTION_FAILURE, w.2.1)
      else
        match quantize_image sqrt input (configure_header input quality) w.2.1 with
        | none => none
        | some q =>
          if base_failed q.1 then some (base_post_error BASE_ERROR_EXECUTION_FAILURE, q.2)
          else some (BASE_SUCCESS, q.2)

/-! ## decode.cpp -/

/-- The colour `read_control_values` unpacks from a 16-bit word. -/
def control_color (word : Nat) : color :=
  { c0 := ((word &&& 0x1F) * 8) % 256,
    c1 := (((word >>> 5) &&& 0x3F) * 4) % 256,
    c2 := (((word >>> 11) &&& 0x1F) * 8) % 256 }

/-- `read_control_values`: the two `read_data` calls copy into zero-initialised
`uint16` variables and their status is not looked at. -/
def read_control_values (input : memory_stream) (range : PTCX_PIXEL_RANGE)
    (header : PTCX_FILE_HEADER) : Option (memory_stream × PTCX_PIXEL_RANGE) :=
  if header.quant_control_bits = 16 then
    match input.read_data 2 with
    | none => none
    | some r1 =>
      match r1.2.1.read_data 2 with
      | none => none
      | some r2 =>
        some (r2.2.1,
          { min_value := control_color (u16_at r1.2.2.1 0),
            max_value := control_color (u16_at r2.2.2.1 0) })
  else some (input, range)

/-- `read_macroblock_table`: returns the status, the stream and the table. -/
def read_macroblock_table (input : memory_stream) (header : PTCX_FILE_HEADER) :
    Option (status × memory_stream × List Nat) :=
  if header.block_width = 0 ∨ header.block_height = 0 then none
  else
    let macroblock_count :=
      (header.image_width / header.block_width) * (header.image_height / header.block_height)
    if 2147483648 ≤ macroblock_count then none
    else
      let table_byte_size := macroblock_count >>> 2
      let output := vector_resize [] table_byte_size
      if table_byte_size ≠ output.length then
        some (base_post_error BASE_ERROR_EXECUTION_FAILURE, input, output)
      else
        match input.read_data table_byte_size with
        | none => none
        | some r =>
          if base_failed r.1 then some (base_post_error BASE_ERROR_EXECUTION_FAILURE, r.2.1, output)
          else some (BASE_SUCCESS, r.2.1, r.2.2.1 ++ output.drop r.2.2.1.length)

/-- The value `min_value + range_delta / quant_step_mask * step_value` stored into
a `uint8`: `quant_step_mask` and `step_value` are `uint32`, so the `int16`
operands are converted to `uint32` first. -/
def dequantize_channel (min_value range_delta : Int) (quant_step_mask step_value : Nat) : Nat :=
  (((min_value % 4294967296).toNat +
      ((range_delta % 4294967296).toNat / quant_step_mask) * step_value) % U32) % 256

/-- The body of the extraction loop of `read_macroblock` (lines 97-118) at
`(subi, subj)`; the state is the stream, `quant_look_aside` and the destination,
and `store subi subj step_value` stands for the three stores into the pixel. -/
def read_macroblock_step {σ : Type} (quant_step_bits block_width : Nat)
    (store : Nat → Nat → Nat → σ → Option σ) (subj subi : Nat)
    (st : (memory_stream × Nat) × σ) : Option (status × ((memory_stream × Nat) × σ)) :=
  let linear_sub_index := (subi + subj * block_width) % U32
  let quant_step_mask := ((1 <<< quant_step_bits) + U32 - 1) % U32
  if ((quant_step_bits * linear_sub_index) % U32) % 8 = 0 then
    match st.1.1.read_data 1 with
    | none => none
    | some r =>
      if base_failed r.1 then
        some (base_post_error BASE_ERROR_EXECUTION_FAILURE, (r.2.1, st.1.2), st.2)
      else
        match store subi subj ((r.2.2.1.getD 0 st.1.2) &&& quant_step_mask) st.2 with
        | none => none
        | some out =>
          some (BASE_SUCCESS, (r.2.1, ((r.2.2.1.getD 0 st.1.2) >>> quant_step_bits) % 256), out)
  else
    match store subi subj (st.1.2 &&& quant_step_mask) st.2 with
    | none => none
    | some out => some (BASE_SUCCESS, (st.1.1, (st.1.2 >>> quant_step_bits) % 256), out)

/-- The extraction loop of `read_macroblock` (lines 94-119). -/
def read_macroblock_loop {σ : Type} (quant_step_bits block_width block_height : Nat)
    (store : Nat → Nat → Nat → σ → Option σ) (input : memory_stream) (output : σ) :
    Option (status × memory_stream × σ) :=
  if 31 ≤ quant_step_bits then none
  else
    match
      for_loop_status (fun subj => for_loop_status
          (read_macroblock_step quant_step_bits block_width store subj) block_width 0)
        block_height 0 ((input, 0), output)
    with
    | none => none
    | some r => some (r.1, r.2.1.1, r.2.2)

/-- The three stores of `read_macroblock` into the pixel at
`(start_x + subi, start_y + subj)`; dividing by a zero `quant_step_mask` is undefined. -/
def store_dequantized (quant_step_bits : Nat) (range : PTCX_PIXEL_RANGE) (start_x start_y : Nat)
    (subi subj step_value : Nat) (output : image) : Option image :=
  let min_value0 : Int := to_int16 range.min_value.c0
  let min_value1 : Int := to_int16 range.min_value.c1
  let min_value2 : Int := to_int16 range.min_value.c2
  let range_delta0 : Int := to_int16 (to_int16 range.max_value.c0 - min_value0)
  let range_delta1 : Int := to_int16 (to_int16 range.max_value.c1 - min_value1)
  let range_delta2 : Int := to_int16 (to_int16 range.max_value.c2 - min_value2)
  let quant_step_mask := ((1 <<< quant_step_bits) + U32 - 1) % U32
  if quant_step_mask = 0 then none
  else
    output.store_pixel
      (output.query_block_offset ((start_x + subi) % U32) ((start_y + subj) % U32))
      { c0 := dequantize_channel min_value0 range_delta0 quant_step_mask step_value,
        c1 := dequantize_channel min_value1 range_delta1 quant_step_mask step_value,
        c2 := dequantize_channel min_value2 range_delta2 quant_step_mask step_value }

/-- `read_macroblock`. -/
def read_macroblock (input : memory_stream) (header : PTCX_FILE_HEADER) (start_x start_y : Nat)
    (output : image) : Option (status × memory_stream × image) :=
  match read_control_values input
      { min_value := { c0 := 255, c1 := 255, c2 := 255 },
        max_value := { c0 := 0, c1 := 0, c2 := 0 } } header with
  | none => none
  | some (stream, range) =>
    read_macroblock_loop header.quant_step_bits header.block_width header.block_height
      (store_dequantized header.quant_step_bits range start_x start_y) stream output

/-- The body of the microblock loops of `inverse_quantize` at `(micro_i, micro_j)`
for the macroblock at pixel position `(i, j)`. -/
def inverse_quantize_step (temp_header : PTCX_FILE_HEADER) (i j micro_j micro_i : Nat)
    (st : memory_stream × image) : Option (status × (memory_stream × image)) :=
  match read_macroblock st.1 temp_header
      ((i + micro_i * temp_header.block_width) % U32)
      ((j + micro_j * temp_header.block_height) % U32) st.2 with
  | none => none
  | some r =>
    if base_failed r.1 then some (base_post_error BASE_ERROR_EXECUTION_FAILURE, r.2)
    else some (BASE_SUCCESS, r.2)

/-- The body of the macroblock loops of `inverse_quantize` for the macroblock in
column `ib` of row `jb` of the grid (pixel position `(ib * block_width,
jb * block_height)`). -/
def inverse_quantize_macroblock (header : PTCX_FILE_HEADER) (macroblock_table : List Nat)
    (jb ib : Nat) (st : memory_stream × image) : Option (status × (memory_stream × image)) :=
  if header.block_width = 0 ∨ header.block_height = 0 then none
  else
    match query_macroblock_shift macroblock_table ((ib * header.block_width) / header.block_width)
        (header.image_width / header.block_width)
        ((jb * header.block_height) / header.block_height) with
    | none => none
    | some macro_scale_bits =>
      for_loop_status (fun micro_j => for_loop_status
          (inverse_quantize_step (microblock_header header macro_scale_bits)
            (ib * header.block_width) (jb * header.block_height) micro_j)
          (header.block_width / (microblock_header header macro_scale_bits).block_width) 0)
        (header.block_height / (microblock_header header macro_scale_bits).block_height) 0 st

/-- `inverse_quantize`. -/
def inverse_quantize (input : memory_stream) (header : PTCX_FILE_HEADER) (output : image) :
    Option (status × memory_stream × image) :=
  match read_macroblock_table input header with
  | none => none
  | some (table_status, stream, macroblock_table) =>
    if base_failed table_status then
      some (base_post_error BASE_ERROR_EXECUTION_FAILURE, stream, output)
    else
      match strided_count output.query_height header.block_height,
            strided_count output.query_width header.block_width with
      | some rows, some columns =>
        for_loop_status (fun jb => for_loop_status
            (inverse_quantize_macroblock header macroblock_table jb) columns 0)
          rows 0 (stream, output)
      | _, _ => none

/-- `load_ptcx`. -/
def load_ptcx (input : memory_stream) (output : image) :
    Option (status × memory_stream × image) :=
  if BASE_PARAM_CHECK && input.is_empty then some (BASE_ERROR_INVALIDARG, input, output)
  else
    match input.read_data sizeof_PTCX_FILE_HEADER with
    | none => none
    | some r =>
      if base_failed r.1 then some (base_post_error BASE_ERROR_EXECUTION_FAILURE, r.2.1, output)
      else if r.2.2.2 ≠ some sizeof_PTCX_FILE_HEADER then
        some (base_post_error BASE_ERROR_EXECUTION_FAILURE, r.2.1, output)
      else
        let pxh := header_of_bytes r.2.2.1
        if PTCX_MAGIC_VALUE ≠ pxh.magic ∨ sizeof_PTCX_FILE_HEADER ≠ pxh.header_size then
          some (base_post_error BASE_ERROR_INVALID_RESOURCE, r.2.1, output)
        else if 2 ≠ pxh.version then
          some (base_post_error BASE_ERROR_INVALID_RESOURCE, r.2.1, output)
        else
          let created := create_image IGN_IMAGE_FORMAT_R8G8B8 pxh.image_width pxh.image_height output
          if base_failed created.1 then
            some (base_post_error BASE_ERROR_EXECUTION_FAILURE, r.2.1, created.2)
          else
            match inverse_quantize r.2.1 pxh created.2 with
            | none => none
            | some q =>
              if base_failed q.1 then some (base_post_error BASE_ERROR_EXECUTION_FAILURE, q.2)
              else some (BASE_SUCCESS, q.2)

/-! ## test data -/

/-- A freshly created `width x height` R8G8B8 image with every pixel set to `c`. -/
def solid_image (width height : Nat) (c : color) : image :=
  { image_format := IGN_IMAGE_FORMAT_R8G8B8, width_in_pixels := width,
    height_in_pixels := height, bits_per_pixel := 24, channel_count := 3,
    data_buffer := (List.replicate (width * height) [c.c0, c.c1, c.c2]).flatten }

/-- A `memory_stream` right after `resize_capacity(capacity)`. -/
def fresh_stream (capacity : Nat) : memory_stream := (memory_stream.new.resize_capacity capacity).2

/-! ## notions used in the statements -/

/-- A buffer that is being filled from its start: nothing has been consumed and
`bytes` are the elements written so far (the state of a trial buffer after
`empty()` and some `write` calls). -/
def ring_buffer.filling (rb : ring_buffer) (bytes : List Nat) : Prop :=
  rb.read_index = 0 ∧ rb.write_index = bytes.length ∧ bytes.length ≤ rb.data.length ∧
    rb.data.length < U32 ∧ rb.data.take bytes.length = bytes

/-- A stream whose ring buffer has not wrapped: the unread bytes lie between the
read and the write index inside the vector (the state after `resize_capacity`
followed by writes and reads). -/
def memory_stream.linear (s : memory_stream) : Prop :=
  s.data.read_index ≤ s.data.write_index ∧ s.data.write_index ≤ s.data.data.length ∧
    s.data.data.length < U32

/-- The bytes of a stream that have been written and not yet read. -/
def memory_stream.unread (s : memory_stream) : List Nat :=
  (s.data.data.take s.data.write_index).drop s.data.read_index

/-- The stream after `n` more bytes have been consumed. -/
def memory_stream.advance (s : memory_stream) (n : Nat) : memory_stream :=
  { data := { s.data with read_index := s.data.read_index + n } }

/-- The four bytes handed to `write` by `write_control_values`. -/
def control_bytes (range : PTCX_PIXEL_RANGE) : List Nat :=
  [ control_word range.min_value % 256, control_word range.min_value / 256,
    control_word range.max_value % 256, control_word range.max_value / 256 ]


instance (s : memory_stream) : Decidable s.linear := by
  unfold memory_stream.linear; infer_instance

instance (rb : ring_buffer) (bytes : List Nat) : Decidable (rb.filling bytes) := by
  unfold ring_buffer.filling; infer_instance


/-- The sum `f i + f (i+1) + ... + f (i+n-1)`. -/
def sum_range (f : Nat → Nat) : Nat → Nat → Nat
  | 0, _ => 0
  | n + 1, i => f i + sum_range f n (i + 1)


/-- An R8G8B8 image of `w x h` pixels whose buffer holds exactly its pixels (what
`create_image` sets up). -/
def image.shaped (img : image) (w h : Nat) : Prop :=
  img.width_in_pixels = w ∧ img.height_in_pixels = h ∧ img.bits_per_pixel = 24 ∧
    img.data_buffer.length = 3 * (w * h) ∧ img.image_format = IGN_IMAGE_FORMAT_R8G8B8

/-- Number of bytes the extraction loop of `read_macroblock` reads for a block:
one for every index whose bit offset is a multiple of 8. -/
def index_bytes (quant_step_bits block_width block_height : Nat) : Nat :=
  sum_range (fun subj => sum_range (fun subi =>
      if ((quant_step_bits * ((subi + subj * block_width) % U32)) % U32) % 8 = 0 then 1 else 0)
    block_width 0) block_height 0

/-- Number of bytes `read_macroblock` consumes for one microblock record: the
control values (when `quant_control_bits` is 16) and the index bytes. -/
def microblock_bytes (header : PTCX_FILE_HEADER) : Nat :=
  (if header.quant_control_bits = 16 then 4 else 0) +
    index_bytes header.quant_step_bits header.block_width header.block_height

/-- Number of bytes the records of one macroblock occupy at a given level. -/
def macroblock_bytes (header : PTCX_FILE_HEADER) (macro_scale_bits : Nat) : Nat :=
  (header.block_height / (microblock_header header macro_scale_bits).block_height) *
    ((header.block_width / (microblock_header header macro_scale_bits).block_width) *
      microblock_bytes (microblock_header header macro_scale_bits))

/-- Number of bytes of microblock records that a header and a size table imply:
the records of all macroblocks, each at the level its table entry selects. -/
def stream_bytes_needed (header : PTCX_FILE_HEADER) (table : List Nat) : Nat :=
  sum_range (fun jb => sum_range (fun ib =>
      macroblock_bytes header
        ((query_macroblock_shift table ib (header.image_width / header.block_width) jb).getD 0))
    (header.image_width / header.block_width) 0)
    (header.image_height / header.block_height) 0


/-- A stream that is being filled from its start: nothing has been consumed and
`bytes` have been written (the state after `resize_capacity` or `empty()`
followed by writes). -/
def memory_stream.holds (s : memory_stream) (bytes : List Nat) : Prop := s.data.filling bytes

instance (s : memory_stream) (bytes : List Nat) : Decidable (s.holds bytes) := by
  unfold memory_stream.holds; infer_instance

/-- Number of bytes the packing loop of `write_quantization_table` emits for a
block: one for every index at which the flush test holds. -/
def packed_index_bytes (quant_step_bits block_width block_height : Nat) : Nat :=
  sum_range (fun subj => sum_range (fun subi =>
      if (subi + subj * block_width) % U32 ≠ 0 ∧
          8 - quant_step_bits =
            ((quant_step_bits * ((subi + subj * block_width) % U32)) % U32) % 8 then 1 else 0)
    block_width 0) block_height 0

/-- Number of bytes one trial of `quantize_macroblock` puts into its buffer at a
shift: four control bytes and the index bytes for each microblock. -/
def trial_bytes (header : PTCX_FILE_HEADER) (block_shift : Nat) : Nat :=
  (header.block_height / (microblock_header header block_shift).block_height) *
    ((header.block_width / (microblock_header header block_shift).block_width) *
      (4 + packed_index_bytes header.quant_step_bits
        (microblock_header header block_shift).block_width
        (microblock_header header block_shift).block_height))


/-- The block size and step bits `configure_header_quality` can choose: 16 x 16 with
2 bits, or 8 x 8, 4 x 4, 2 x 2 with 4 bits, always with 16 control bits. -/
def PTCX_FILE_HEADER.configured (header : PTCX_FILE_HEADER) : Prop :=
  header.quant_control_bits = 16 ∧
  ((header.block_width = 16 ∧ header.block_height = 16 ∧ header.quant_step_bits = 2) ∨
   (header.block_width = 8 ∧ header.block_height = 8 ∧ header.quant_step_bits = 4) ∨
   (header.block_width = 4 ∧ header.block_height = 4 ∧ header.quant_step_bits = 4) ∨
   (header.block_width = 2 ∧ header.block_height = 2 ∧ header.quant_step_bits = 4))


/-- Number of bytes of the whole encoding of an image: the header, the size table
and the bytes `quantize_worker` leaves in the scratch stream, which are what
`save_ptcx` and `quantize_image` hand to `write_data`. -/
def encoding_size (sqrt : Nat → Nat) (input : image) (quality : Nat) : Option Nat :=
  match prepare_temporary_buffers (configure_header input quality) memory_stream.new [] with
  | none => none
  | some (_, image_stream, macroblock_table) =>
    match quantize_worker sqrt input (configure_header input quality) macroblock_table
        image_stream with
    | none => none
    | some (_, table, scratch) =>
      some (sizeof_PTCX_FILE_HEADER + table.length + scratch.query_occupancy)


/-- The specification's `dequantize(range, index)` for one channel:
`min + (max - min) / stepCount * index` with truncating integer division
(specification, section on dequantization; the counterpart of `dequantize_channel`
and of the `reconstruction` of `quantize_pixel`, to which it is compared). -/
def spec_dequantize (min max step_count index : Nat) : Nat :=
  min + (max - min) / step_count * index


/-- A freshly created `width x height` R8G8B8 image whose pixel in column `x` has
the colour `column x`, in every row. -/
def column_image (width height : Nat) (column : Nat → color) : image :=
  { image_format := IGN_IMAGE_FORMAT_R8G8B8, width_in_pixels := width,
    height_in_pixels := height, bits_per_pixel := 24, channel_count := 3,
    data_buffer := ((List.range (width * height)).map (fun k =>
      [(column (k % width)).c0, (column (k % width)).c1, (column (k % width)).c2])).flatten }

/-- The colour of column `x` in an image of vertical stripes one pixel wide: `a`
in the even columns and `b` in the odd ones. -/
def stripes (a b : color) (x : Nat) : color := if x % 2 = 0 then a else b

/-- The value of `quant_look_aside` in `write_quantization_table` after the first
`n` pixels of a block, `index t` being the step value of the pixel with linear
index `t` (the assignments of lines 116-117, from the initial value 0). -/
def look_aside_after (quant_step_bits : Nat) (index : Nat → Nat) : Nat → Nat
  | 0 => 0
  | n + 1 =>
    ((look_aside_after quant_step_bits index n >>> quant_step_bits) |||
      ((index n <<< (8 - quant_step_bits)) % U32)) % 256

/-- The bytes `write_quantization_table` emits for the first `n` pixels of a
block: the value of `quant_look_aside` after every pixel at which the flush test
of line 123 holds. -/
def packed_bytes (quant_step_bits : Nat) (index : Nat → Nat) (n : Nat) : List Nat :=
  (List.range n).filterMap (fun t =>
    if t ≠ 0 ∧ 8 - quant_step_bits = ((quant_step_bits * t) % U32) % 8 then
      some (look_aside_after quant_step_bits index (t + 1))
    else none)

/-- The step value `read_macroblock` extracts for the pixel with linear index `t`
of a block from the index bytes of its record, for a step width that divides 8:
the byte of the group of `t`, shifted right by the bits of the indices before it
in the group, under the step mask. -/
def extracted_index (quant_step_bits : Nat) (bytes : List Nat) (t : Nat) : Nat :=
  ((bytes.getD (t / (8 / quant_step_bits)) 0) >>>
      (quant_step_bits * (t % (8 / quant_step_bits)))) &&&
    (((1 <<< quant_step_bits) + U32 - 1) % U32)

/-- The mean squared error between an image and a reconstruction of it, the
measure of the quality property: `sum_square_differences` of encode.cpp over
all the samples of the two pixel buffers, divided by their number. -/
def mean_squared_error (original reconstruction : image) : Option ℚ :=
  match sum_square_differences original.data_buffer reconstruction.data_buffer
      original.data_buffer.length with
  | none => none
  | some total => some ((total : ℚ) / (original.data_buffer.length : ℚ))


/-- The origins of the microblocks of the macroblock at `(x, y)` for a shift, in
the order of the specification (rows of microblocks from top to bottom, each row
from left to right); every microblock has the size of `microblock_header`. -/
def microblock_origins (header : PTCX_FILE_HEADER) (shift x y : Nat) : List (Nat × Nat) :=
  (List.range (header.block_height / (microblock_header header shift).block_height)).flatMap
    (fun micro_j =>
      (List.range (header.block_width / (microblock_header header shift).block_width)).map
        (fun micro_i =>
          ((x + micro_i * (microblock_header header shift).block_width) % U32,
            (y + micro_j * (microblock_header header shift).block_height) % U32)))

/-- A traversal of a list of origins in order, by a body that may be undefined
(specification of the order in which the encoder visits the microblocks). -/
def visit_in_order {σ : Type} (body : Nat × Nat → σ → Option σ) :
    List (Nat × Nat) → σ → Option σ
  | [], s => some s
  | o :: os, s =>
    match body o s with
    | none => none
    | some s1 => visit_in_order body os s1

/-- A traversal of a list of origins in order that stops at the first status that
is not `BASE_SUCCESS` (specification of the order in which the decoder visits the
microblocks). -/
def visit_in_order_status {σ : Type} (body : Nat × Nat → σ → Option (status × σ)) :
    List (Nat × Nat) → σ → Option (status × σ)
  | [], s => some (BASE_SUCCESS, s)
  | o :: os, s =>
    match body o s with
    | none => none
    | some (st, s1) =>
      if st = BASE_SUCCESS then visit_in_order_status body os s1 else some (st, s1)

/-- The body of the gather loop of `range_estimate_regression` (estimate.cpp) at
`(subi, subj)`: `index = subj * block_width + subi`, then three stores
`pixel_set[index++] = src_pixel[c]`; `none` when the pixel cannot be read or a
store leaves `pixel_set`. -/
def range_estimate_regression_step (input : image) (block_width x y subj subi : Nat)
    (pixel_set : List Nat) : Option (List Nat) :=
  match input.pixel_at ((x + subi) % U32) ((y + subj) % U32) with
  | none => none
  | some src_pixel =>
    let index := (subj * block_width + subi) % U32
    if index + 2 < pixel_set.length then
      some (((pixel_set.set index src_pixel.c0).set (index + 1) src_pixel.c1).set (index + 2)
        src_pixel.c2)
    else none

/-- The gather loop of `range_estimate_regression`; `pixel_set` is the local
array of `PTCX_MAX_BLOCK_SIZE * PTCX_MAX_BLOCK_SIZE * 3` bytes, which is not
initialised, so its contents before the loop are a parameter. -/
def range_estimate_regression_gather (header : PTCX_FILE_HEADER) (input : image) (x y : Nat)
    (pixel_set : List Nat) : Option (List Nat) :=
  for_loop (fun subj => for_loop
      (range_estimate_regression_step input header.block_width x y subj)
      header.block_width 0) header.block_height 0 pixel_set

/-- The first loop of `compute_linear_squares_3`: `a_list` receives the bytes
`3i` and `3i + 1` of `pixel_set` and `b_list` the bytes `3i + 1` and `3i + 2`, for
every `i < pixel_count`; `none` when an index leaves an array. -/
def compute_linear_squares_3_lists (pixel_set : List Nat) (pixel_count : Nat)
    (a_list b_list : List Nat) : Option (List Nat × List Nat) :=
  for_loop (fun i st =>
      match pixel_set[(i * 3) % U32]?, pixel_set[(i * 3 + 1) % U32]?,
          pixel_set[(i * 3 + 2) % U32]? with
      | some p0, some p1, some p2 =>
        if (i * 2 + 1) % U32 < st.1.length ∧ (i * 2 + 1) % U32 < st.2.length then
          some ((st.1.set ((i * 2) % U32) p0).set ((i * 2 + 1) % U32) p1,
            (st.2.set ((i * 2) % U32) p1).set ((i * 2 + 1) % U32) p2)
        else none
      | _, _, _ => none)
    pixel_count 0 (a_list, b_list)

/-- `ring_buffer::read` (ring_buffer.h) with a non-null `element`: the element at
`read_index % data.size()` when the buffer is not empty; `none` when that index
lies outside the vector. -/
def ring_buffer.read (rb : ring_buffer) : Option (status × ring_buffer × Option Nat) :=
  if !rb.is_empty then
    match rb.data[rb.read_index % rb.data.length]? with
    | none => none
    | some element =>
      some (BASE_SUCCESS, { rb with read_index := (rb.read_index + 1) % U32 }, some element)
  else some (BASE_ERROR_CAPACITY_LIMIT, rb, none)

/-- `ring_buffer::skip`. -/
def ring_buffer.skip (rb : ring_buffer) : status × ring_buffer :=
  if !rb.is_empty then (BASE_SUCCESS, { rb with read_index := (rb.read_index + 1) % U32 })
  else (BASE_ERROR_CAPACITY_LIMIT, rb)

/-- A call of one of the four member functions `write`, `read`, `skip`, `empty`. -/
inductive ring_call where
  | write (element : Nat)
  | read
  | skip
  | empty
  deriving DecidableEq, Repr

/-- One call on a ring buffer: the status it returns (`empty()` returns nothing,
which is recorded as `BASE_SUCCESS`), the element a `read` delivers, and the
buffer afterwards. -/
def ring_buffer.call (rb : ring_buffer) : ring_call → Option ((status × Option Nat) × ring_buffer)
  | ring_call.write element => some (((rb.write element).1, none), (rb.write element).2)
  | ring_call.read =>
    match rb.read with
    | none => none
    | some r => some ((r.1, r.2.2), r.2.1)
  | ring_call.skip => some (((rb.skip).1, none), (rb.skip).2)
  | ring_call.empty => some ((BASE_SUCCESS, none), rb.empty)

/-- A sequence of calls on a ring buffer: what the calls return, in order, and the
buffer afterwards. -/
def ring_buffer.run (rb : ring_buffer) : List ring_call →
    Option (List (status × Option Nat) × ring_buffer)
  | [] => some ([], rb)
  | c :: cs =>
    match rb.call c with
    | none => none
    | some (out, rb1) =>
      match ring_buffer.run rb1 cs with
      | none => none
      | some (outs, rb2) => some (out :: outs, rb2)

/-- Specification of one call on a first-in, first-out queue of capacity
`capacity` holding `queue` (oldest element first). -/
def fifo_call (capacity : Nat) (queue : List Nat) : ring_call → (status × Option Nat) × List Nat
  | ring_call.write element =>
    if queue.length < capacity then ((BASE_SUCCESS, none), queue ++ [element])
    else ((BASE_ERROR_CAPACITY_LIMIT, none), queue)
  | ring_call.read =>
    match queue with
    | [] => ((BASE_ERROR_CAPACITY_LIMIT, none), [])
    | element :: rest => ((BASE_SUCCESS, some element), rest)
  | ring_call.skip =>
    match queue with
    | [] => ((BASE_ERROR_CAPACITY_LIMIT, none), [])
    | _ :: rest => ((BASE_SUCCESS, none), rest)
  | ring_call.empty => ((BASE_SUCCESS, none), [])

/-- Specification of a sequence of calls on a first-in, first-out queue. -/
def fifo_run (capacity : Nat) (queue : List Nat) : List ring_call →
    List (status × Option Nat) × List Nat
  | [] => ([], queue)
  | c :: cs =>
    ((fifo_call capacity queue c).1 :: (fifo_run capacity (fifo_call capacity queue c).2 cs).1,
      (fifo_run capacity (fifo_call capacity queue c).2 cs).2)

/-- A ring buffer of capacity `capacity` whose indices have not passed `2^32`
holds the queue `queue`: the `k`-th element of the queue stands at position
`(read_index + k) % capacity`. -/
def ring_buffer.represents (rb : ring_buffer) (capacity : Nat) (queue : List Nat) : Prop :=
  rb.data.length = capacity ∧ rb.write_index = rb.read_index + queue.length ∧
    queue.length ≤ capacity ∧ rb.write_index < U32 ∧
    ∀ k, k < queue.length → rb.data[(rb.read_index + k) % capacity]? = queue[k]?

/-- A freshly created 16 x 16 R8G8B8 image whose four pixels at (0,0), (1,0),
(0,1), (1,1) have the colours `p00`, `p10`, `p01`, `p11`; every other pixel is
(0,0,0). -/
def corner_image (p00 p10 p01 p11 : color) : image :=
  { image_format := IGN_IMAGE_FORMAT_R8G8B8, width_in_pixels := 16,
    height_in_pixels := 16, bits_per_pixel := 24, channel_count := 3,
    data_buffer := [p00.c0, p00.c1, p00.c2, p10.c0, p10.c1, p10.c2] ++ List.replicate 42 0 ++
      [p01.c0, p01.c1, p01.c2, p11.c0, p11.c1, p11.c2] ++ List.replicate 714 0 }

-- ===== Theorems =====

/-! ## basic facts -/

@[simp] theorem base_post_error_eq (s : status) : base_post_error s = s := rfl

@[simp] theorem BASE_PARAM_CHECK_eq : BASE_PARAM_CHECK = true := rfl

@[simp] theorem base_failed_success : base_failed BASE_SUCCESS = false := rfl

theorem base_failed_eq_true {s : status} (h : s ≠ BASE_SUCCESS) : base_failed s = true := by
  simp [base_failed, h]

/-! ## the size table -/

theorem getElem?_replicate_zero (n i : Nat) :
    (List.replicate n 0)[i]? = if i < n then some 0 else none := by
  simp [List.getElem?_replicate]

theorem set_replicate_zero (n i : Nat) : (List.replicate n 0).set i 0 = List.replicate n 0 := by
  apply List.ext_getElem?
  intro k
  rw [List.getElem?_set]
  by_cases h : i = k
  · subst h
    by_cases h2 : i < n <;> simp [h2, getElem?_replicate_zero]
  · simp [h]

/-- Whatever code is written, a table that holds only zero bytes is left as it
is: the update is `byte &= (value << shift) | ~mask`. -/
theorem write_macroblock_table_entry_zero (n x w y v : Nat) :
    write_macroblock_table_entry (List.replicate n 0) x w y v =
      if ((y * w + x) % U32) >>> 2 < n then some (List.replicate n 0) else none := by
  unfold write_macroblock_table_entry
  simp only [getElem?_replicate_zero]
  by_cases h : ((y * w + x) % U32) >>> 2 < n
  · simp [h, set_replicate_zero]
  · simp [h]

/-- Every entry of an all-zero table reads as level 0. -/
theorem query_macroblock_shift_zero (n x w y : Nat) :
    query_macroblock_shift (List.replicate n 0) x w y =
      if ((y * w + x) % U32) >>> 2 < n then some 0 else none := by
  unfold query_macroblock_shift
  simp only [getElem?_replicate_zero]
  by_cases h : ((y * w + x) % U32) >>> 2 < n
  · simp [h]
  · simp [h]

/-- C1 (code defect): the size table `prepare_temporary_buffers` allocates for a
2 x 2 macroblock grid is the single byte 0; writing code 2 for the macroblock at
(0,0) with `write_macroblock_table_entry` leaves the byte 0, and
`query_macroblock_shift` reads back 0, not the code 2 that was written. -/
theorem table_write_then_query_loses_code :
    (prepare_temporary_buffers (configure_header (solid_image 32 32 ⟨0, 0, 0⟩) 0)
        memory_stream.new []).map (fun r => (r.1, r.2.2)) = some (BASE_SUCCESS, [0]) ∧
    write_macroblock_table_entry [0] 0 2 0 2 = some [0] ∧
    (write_macroblock_table_entry [0] 0 2 0 2).bind (fun t => query_macroblock_shift t 0 2 0)
      = some 0 := by
  refine ⟨by decide!, by decide, by decide⟩

/-- C9 (code defect): for the 2 x 2 macroblock grid of a 32 x 32 image with
16 x 16 blocks, populating the zero-initialised one-byte table with the levels
2, 0, 0, 0 in raster order yields the byte 0x00, not 0x02. -/
theorem table_byte_for_levels_2_0_0_0_is_zero :
    (((write_macroblock_table_entry (vector_resize [] 1) 0 2 0 2).bind
        (fun t => write_macroblock_table_entry t 1 2 0 0)).bind
        (fun t => write_macroblock_table_entry t 0 2 1 0)).bind
        (fun t => write_macroblock_table_entry t 1 2 1 0) = some [0x00] := by
  decide

/-- C10 (code defect): for an 80 x 16 image at quality 0 (five 16 x 16
macroblocks) the encoder allocates, and the decoder reads, a table of
`5 / 4 = 1` byte, not `ceil (5 * 2 / 8) = 2`; the entry of the macroblock with
index 4 is at byte 1, outside the table, so both accesses are out of bounds. -/
theorem table_size_is_rounded_down :
    (prepare_temporary_buffers (configure_header (solid_image 80 16 ⟨0, 0, 0⟩) 0)
        memory_stream.new []).map (fun r => (r.1, r.2.2.length)) = some (BASE_SUCCESS, 1) ∧
    (read_macroblock_table (fresh_stream 8) (configure_header (solid_image 80 16 ⟨0, 0, 0⟩) 0)).map
        (fun r => r.2.2.length) = some 1 ∧
    (5 * 2 + 7) / 8 = 2 ∧
    write_macroblock_table_entry [0] 4 5 0 0 = none ∧
    query_macroblock_shift [0] 4 5 0 = none := by
  refine ⟨by decide!, by decide!, by decide, by decide, by decide⟩

/-! ## ring buffers that are being filled -/

theorem take_succ_set (l : List Nat) (i a : Nat) (h : i < l.length) :
    (l.set i a).take (i + 1) = l.take i ++ [a] := by
  rw [List.set_eq_take_append_cons_drop, if_pos h]
  have hl : (List.take i l).length = i := by simp [Nat.le_of_lt h]
  rw [List.take_append_eq_append_take, hl]
  simp [List.take_take]

theorem ring_buffer.filling_occupancy {rb : ring_buffer} {bytes : List Nat}
    (h : rb.filling bytes) : rb.query_occupancy = bytes.length := by
  obtain ⟨h0, h1, h2, h3, _⟩ := h
  unfold ring_buffer.query_occupancy
  rw [h0, h1]
  simp only [U32] at *
  omega

theorem ring_buffer.write_filling {rb : ring_buffer} {bytes : List Nat} (e : Nat)
    (h : rb.filling bytes) (hroom : bytes.length < rb.data.length) :
    (rb.write e).2.filling (bytes ++ [e]) ∧ (rb.write e).2.data.length = rb.data.length := by
  have hocc := ring_buffer.filling_occupancy h
  obtain ⟨h0, h1, h2, h3, h4⟩ := h
  have hfull : rb.is_full = false := by
    simp [ring_buffer.is_full, hocc, hroom]
  unfold ring_buffer.write
  simp only [hfull, Bool.not_false, if_true]
  have hmod : rb.write_index % rb.data.length = bytes.length := by
    rw [h1]; exact Nat.mod_eq_of_lt hroom
  have hmod2 : (rb.write_index + 1) % U32 = bytes.length + 1 := by
    rw [h1]; apply Nat.mod_eq_of_lt; omega
  refine ⟨⟨h0, ?_, ?_, ?_, ?_⟩, ?_⟩
  · simp [hmod2]
  · simp; omega
  · simpa using h3
  · simp only [hmod, List.length_append, List.length_singleton]
    rw [take_succ_set _ _ _ hroom, h4]
  · simp

theorem ring_buffer.write_filling_full {rb : ring_buffer} {bytes : List Nat} (e : Nat)
    (h : rb.filling bytes) (hroom : ¬ bytes.length < rb.data.length) :
    (rb.write e).2 = rb := by
  have hocc := ring_buffer.filling_occupancy h
  have hfull : rb.is_full = true := by
    simp [ring_buffer.is_full, hocc]; omega
  simp [ring_buffer.write, hfull]

theorem peeked_occupants_filling {rb : ring_buffer} {bytes : List Nat} (h : rb.filling bytes) :
    peeked_occupants rb = some bytes := by
  have hocc := ring_buffer.filling_occupancy h
  obtain ⟨h0, h1, h2, h3, h4⟩ := h
  unfold peeked_occupants ring_buffer.is_empty
  rw [hocc]
  by_cases hb : bytes.length = 0
  · have : bytes = [] := List.length_eq_zero.mp hb
    simp [this]
  · have hpos : rb.data.length ≠ 0 := by omega
    simp only [hb, decide_False, Bool.false_eq_true, if_false, ring_buffer.peek_bytes, hpos, h0,
      Nat.zero_mod, Nat.zero_add, List.drop_zero]
    simp [h2, h4]

theorem ring_buffer.empty_filling (rb : ring_buffer) (h : rb.data.length < U32) :
    rb.empty.filling [] := by
  simp [ring_buffer.filling, ring_buffer.empty, h]

theorem write_control_values_eq (range : PTCX_PIXEL_RANGE) (header : PTCX_FILE_HEADER)
    (rb : ring_buffer) (h16 : header.quant_control_bits = 16) :
    write_control_values range header rb =
      ((((rb.write ((control_word range.min_value &&& 0xFF) % 256)).2.write
        ((control_word range.min_value >>> 8) % 256)).2.write
        ((control_word range.max_value &&& 0xFF) % 256)).2.write
        ((control_word range.max_value >>> 8) % 256)).2 := by
  unfold write_control_values
  rw [if_pos h16]

theorem control_word_lt (c : color) : control_word c < 65536 := by
  unfold control_word; exact Nat.mod_lt _ (by norm_num)

theorem low_byte_eq (w : Nat) : (w &&& 0xFF) % 256 = w % 256 := by
  have : w &&& 0xFF = w % 256 := Nat.and_pow_two_sub_one_eq_mod w 8
  rw [this]; simp

theorem high_byte_eq (w : Nat) (hw : w < 65536) : (w >>> 8) % 256 = w / 256 := by
  rw [Nat.shiftRight_eq_div_pow]
  apply Nat.mod_eq_of_lt
  omega

theorem write_control_values_filling {rb : ring_buffer} {bytes : List Nat}
    (range : PTCX_PIXEL_RANGE) (header : PTCX_FILE_HEADER) (h16 : header.quant_control_bits = 16)
    (h : rb.filling bytes) (hroom : bytes.length + 4 ≤ rb.data.length) :
    (write_control_values range header rb).filling (bytes ++ control_bytes range) ∧
      (write_control_values range header rb).data.length = rb.data.length := by
  rw [write_control_values_eq range header rb h16, low_byte_eq, low_byte_eq,
    high_byte_eq _ (control_word_lt _), high_byte_eq _ (control_word_lt _)]
  obtain ⟨f1, l1⟩ := ring_buffer.write_filling (control_word range.min_value % 256) h (by omega)
  obtain ⟨f2, l2⟩ := ring_buffer.write_filling (control_word range.min_value / 256) f1
    (by simp; omega)
  obtain ⟨f3, l3⟩ := ring_buffer.write_filling (control_word range.max_value % 256) f2
    (by simp; omega)
  obtain ⟨f4, l4⟩ := ring_buffer.write_filling (control_word range.max_value / 256) f3
    (by simp; omega)
  refine ⟨?_, by omega⟩
  simpa [control_bytes] using f4


/-! ## control colours -/

theorem pack565 (a b c : Nat) (hb : b < 64) (hc : c < 32) :
    ((a <<< 11) ||| (b <<< 5)) ||| c = a * 2048 + b * 32 + c := by
  rw [Nat.or_assoc, Nat.shiftLeft_eq, Nat.shiftLeft_eq]
  have h1 : b * 2 ^ 5 ||| c = 2 ^ 5 * b + c := by
    rw [Nat.mul_comm]; exact (Nat.mul_add_lt_is_or (by norm_num; exact hc) b).symm
  have h2 : a * 2 ^ 11 ||| (2 ^ 5 * b + c) = 2 ^ 11 * a + (2 ^ 5 * b + c) := by
    rw [Nat.mul_comm]; exact (Nat.mul_add_lt_is_or (by norm_num; omega) a).symm
  rw [h1, h2]; ring

theorem control_word_eq (c : color) (h0 : c.c0 < 256) (h1 : c.c1 < 256) (h2 : c.c2 < 256) :
    control_word c = (c.c2 / 8) * 2048 + (c.c1 / 4) * 32 + c.c0 / 8 := by
  unfold control_word
  have e0 : (c.c0 / 8) &&& 0x1F = c.c0 / 8 := by
    have := Nat.and_pow_two_sub_one_eq_mod (c.c0 / 8) 5
    norm_num at this; rw [this]; omega
  have e1 : (c.c1 / 4) &&& 0x3F = c.c1 / 4 := by
    have := Nat.and_pow_two_sub_one_eq_mod (c.c1 / 4) 6
    norm_num at this; rw [this]; omega
  have e2 : (c.c2 / 8) &&& 0x1F = c.c2 / 8 := by
    have := Nat.and_pow_two_sub_one_eq_mod (c.c2 / 8) 5
    norm_num at this; rw [this]; omega
  rw [e0, e1, e2, pack565 _ _ _ (by omega) (by omega)]
  omega

theorem control_color_word (c : color) (h0 : c.c0 < 256) (h1 : c.c1 < 256) (h2 : c.c2 < 256) :
    control_color (control_word c) =
      { c0 := 8 * (c.c0 / 8), c1 := 4 * (c.c1 / 4), c2 := 8 * (c.c2 / 8) } := by
  rw [control_word_eq c h0 h1 h2]
  unfold control_color
  have a0 : ∀ w : Nat, w &&& 0x1F = w % 32 := fun w => by
    have := Nat.and_pow_two_sub_one_eq_mod w 5
    norm_num at this; exact this
  have a1 : ∀ w : Nat, w &&& 0x3F = w % 64 := fun w => by
    have := Nat.and_pow_two_sub_one_eq_mod w 6
    norm_num at this; exact this
  simp only [a0, a1, Nat.shiftRight_eq_div_pow]
  congr 1 <;> omega

theorem control_word_shift (c : color) (h0 : c.c0 < 256) (h1 : c.c1 < 256) (h2 : c.c2 < 256) :
    control_word c = ((c.c2 >>> 3) <<< 11) ||| ((c.c1 >>> 2) <<< 5) ||| (c.c0 >>> 3) := by
  rw [control_word_eq c h0 h1 h2]
  simp only [Nat.shiftRight_eq_div_pow]
  rw [pack565 _ _ _ (by norm_num; omega) (by norm_num; omega)]


/-! ## streams that have not wrapped -/

theorem memory_stream.unread_length {s : memory_stream} (h : s.linear) :
    s.unread.length = s.data.write_index - s.data.read_index := by
  obtain ⟨h1, h2, h3⟩ := h
  simp [memory_stream.unread, Nat.min_eq_left h2]

theorem memory_stream.occupancy_linear {s : memory_stream} (h : s.linear) :
    s.data.query_occupancy = s.unread.length := by
  rw [memory_stream.unread_length h]
  obtain ⟨h1, h2, h3⟩ := h
  unfold ring_buffer.query_occupancy
  simp only [U32] at *
  omega

theorem memory_stream.advance_linear {s : memory_stream} (h : s.linear) (n : Nat)
    (hn : n ≤ s.unread.length) :
    (s.advance n).linear ∧ (s.advance n).unread = s.unread.drop n := by
  rw [memory_stream.unread_length h] at hn
  obtain ⟨h1, h2, h3⟩ := h
  refine ⟨⟨?_, h2, h3⟩, ?_⟩
  · simp [memory_stream.advance]; omega
  · simp [memory_stream.advance, memory_stream.unread, Nat.add_comm]

theorem memory_stream.advance_zero (s : memory_stream) : s.advance 0 = s := by
  simp [memory_stream.advance]

theorem memory_stream.advance_advance (s : memory_stream) (m n : Nat) :
    (s.advance m).advance n = s.advance (m + n) := by
  simp [memory_stream.advance, Nat.add_assoc]

/-- Reading from a stream that still holds bytes: the first `min size n` unread
bytes are delivered and consumed, with status success. -/
theorem memory_stream.read_data_linear {s : memory_stream} (h : s.linear) {size : Nat}
    (hs : 0 < size) (hne : s.unread ≠ []) :
    s.read_data size =
      some (BASE_SUCCESS, s.advance (min size s.unread.length), s.unread.take size,
        some (min size s.unread.length)) := by
  have hocc := memory_stream.occupancy_linear h
  have hlen := memory_stream.unread_length h
  have hpos : 0 < s.unread.length := List.length_pos.mpr hne
  obtain ⟨h1, h2, h3⟩ := h
  have hsz : size ≠ 0 := by omega
  have hemp : s.is_empty = false := by
    have : s.unread.length ≠ 0 := by omega
    simp [memory_stream.is_empty, ring_buffer.is_empty, hocc, this]
  have hdl : s.data.data.length ≠ 0 := by omega
  have hmod : s.data.read_index % s.data.data.length = s.data.read_index :=
    Nat.mod_eq_of_lt (by omega)
  have hfit : s.data.read_index + min size s.unread.length ≤ s.data.data.length := by
    have := Nat.min_le_right size s.unread.length
    omega
  have hadv : (s.data.advance_read_position (min size s.unread.length)).2 =
      { s.data with read_index := s.data.read_index + min size s.unread.length } := by
    have hm : min size s.unread.length ≠ 0 := by
      have : 0 < min size s.unread.length := Nat.lt_min.mpr ⟨hs, hpos⟩
      omega
    have hm2 : ¬ s.unread.length < min size s.unread.length := by
      have := Nat.min_le_right size s.unread.length
      omega
    have hm3 : (s.data.read_index + min size s.unread.length) % U32 =
        s.data.read_index + min size s.unread.length := by
      apply Nat.mod_eq_of_lt; omega
    simp [ring_buffer.advance_read_position, hm, hocc, hm2, hm3]
  have hbytes : List.take (min size s.unread.length) (List.drop s.data.read_index s.data.data) =
      s.unread.take size := by
    rw [hlen]
    unfold memory_stream.unread
    rw [List.drop_take, List.take_take]
  unfold memory_stream.read_data
  simp only [BASE_PARAM_CHECK_eq, Bool.true_and, hsz, decide_False, Bool.false_eq_true, if_false,
    hemp, hocc, ring_buffer.peek_bytes, hdl, hmod, hfit, if_true, hadv, hbytes]
  rfl

/-- Reading from a stream without unread bytes fails and changes nothing. -/
theorem memory_stream.read_data_linear_nil {s : memory_stream} (h : s.linear) {size : Nat}
    (hs : 0 < size) (hnil : s.unread = []) :
    s.read_data size = some (BASE_ERROR_INVALID_RESOURCE, s, [], some 0) := by
  have hocc := memory_stream.occupancy_linear h
  have hsz : size ≠ 0 := by omega
  have hemp : s.is_empty = true := by
    simp [memory_stream.is_empty, ring_buffer.is_empty, hocc, hnil]
  unfold memory_stream.read_data
  simp [hsz, hemp]


/-- `read_data` on a stream that has not wrapped, in one formula: the status is
a failure exactly when nothing is left to read. -/
theorem memory_stream.read_data_linear_eq {s : memory_stream} (h : s.linear) {size : Nat}
    (hs : 0 < size) :
    s.read_data size =
      some (if s.unread = [] then BASE_ERROR_INVALID_RESOURCE else BASE_SUCCESS,
        s.advance (min size s.unread.length), s.unread.take size,
        some (min size s.unread.length)) := by
  by_cases hnil : s.unread = []
  · rw [memory_stream.read_data_linear_nil h hs hnil]
    simp [hnil, memory_stream.advance_zero]
  · rw [memory_stream.read_data_linear h hs hnil]
    simp [hnil]

theorem u16_at_take (bs : List Nat) : u16_at (bs.take 2) 0 = u16_at bs 0 := by
  simp [u16_at, List.getD_eq_getElem?_getD, List.getElem?_take]

theorem u16_at_drop_take (bs : List Nat) : u16_at ((bs.drop 2).take 2) 0 = u16_at bs 2 := by
  simp [u16_at, List.getD_eq_getElem?_getD, List.getElem?_take, List.getElem?_drop]

/-- `read_control_values` on a stream that has not wrapped: it consumes up to
four bytes and unpacks the two words found there (missing bytes count as 0). -/
theorem read_control_values_linear {s : memory_stream} (h : s.linear)
    (range : PTCX_PIXEL_RANGE) (header : PTCX_FILE_HEADER) (h16 : header.quant_control_bits = 16) :
    read_control_values s range header =
      some (s.advance (min 4 s.unread.length),
        { min_value := control_color (u16_at s.unread 0),
          max_value := control_color (u16_at s.unread 2) }) := by
  unfold read_control_values
  rw [if_pos h16, memory_stream.read_data_linear_eq h (by norm_num)]
  have hle : min 2 s.unread.length ≤ s.unread.length := Nat.min_le_right _ _
  obtain ⟨hl1, hu1⟩ := memory_stream.advance_linear h _ hle
  simp only []
  rw [memory_stream.read_data_linear_eq hl1 (by norm_num)]
  simp only [hu1, memory_stream.advance_advance]
  have e1 : min 2 s.unread.length + min 2 (List.drop (min 2 s.unread.length) s.unread).length =
      min 4 s.unread.length := by
    simp only [List.length_drop]; omega
  have e2 : List.take 2 (List.drop (min 2 s.unread.length) s.unread) =
      List.take 2 (List.drop 2 s.unread) := by
    by_cases hlen : 2 ≤ s.unread.length
    · rw [Nat.min_eq_left hlen]
    · rw [Nat.min_eq_right (by omega), List.drop_length, List.drop_eq_nil_of_le (by omega)]
  rw [e1, e2, u16_at_take, u16_at_drop_take]


/-! ## control values, header validation, index packing -/

/-- C7: with `quant_control_bits = 16`, `write_control_values` appends exactly four
bytes to a buffer that has room for them: the low then the high byte of the min
word, then the low and the high byte of the max word, the word of a colour being
`((c2 >> 3) << 11) | ((c1 >> 2) << 5) | (c0 >> 3)`; min (0,0,0) gives the word
0x0000, max (255,255,255) the word 0xFFFF and the bytes 00,00,FF,FF. -/
theorem write_control_values_emits_four_bytes (range : PTCX_PIXEL_RANGE)
    (header : PTCX_FILE_HEADER) (output : ring_buffer) (bytes : List Nat)
    (h16 : header.quant_control_bits = 16)
    (hmin : range.min_value.c0 < 256 ∧ range.min_value.c1 < 256 ∧ range.min_value.c2 < 256)
    (hmax : range.max_value.c0 < 256 ∧ range.max_value.c1 < 256 ∧ range.max_value.c2 < 256)
    (hfill : output.filling bytes) (hroom : bytes.length + 4 ≤ output.data.length) :
    peeked_occupants (write_control_values range header output) =
      some (bytes ++
        [ (((range.min_value.c2 >>> 3) <<< 11) ||| ((range.min_value.c1 >>> 2) <<< 5) |||
            (range.min_value.c0 >>> 3)) % 256,
          (((range.min_value.c2 >>> 3) <<< 11) ||| ((range.min_value.c1 >>> 2) <<< 5) |||
            (range.min_value.c0 >>> 3)) / 256,
          (((range.max_value.c2 >>> 3) <<< 11) ||| ((range.max_value.c1 >>> 2) <<< 5) |||
            (range.max_value.c0 >>> 3)) % 256,
          (((range.max_value.c2 >>> 3) <<< 11) ||| ((range.max_value.c1 >>> 2) <<< 5) |||
            (range.max_value.c0 >>> 3)) / 256 ]) ∧
    control_word ⟨0, 0, 0⟩ = 0x0000 ∧ control_word ⟨255, 255, 255⟩ = 0xFFFF ∧
    control_bytes ⟨⟨0, 0, 0⟩, ⟨255, 255, 255⟩⟩ = [0x00, 0x00, 0xFF, 0xFF] := by
  refine ⟨?_, by decide, by decide, by decide⟩
  rw [peeked_occupants_filling (write_control_values_filling range header h16 hfill hroom).1,
    ← control_word_shift _ hmin.1 hmin.2.1 hmin.2.2, ← control_word_shift _ hmax.1 hmax.2.1 hmax.2.2]
  rfl

/-- Witness of C7: a trial buffer of capacity 132 that was just emptied receives
the bytes 00,00,FF,FF for the range (0,0,0)..(255,255,255). -/
theorem write_control_values_emits_four_bytes_witness :
    peeked_occupants (write_control_values ⟨⟨0, 0, 0⟩, ⟨255, 255, 255⟩⟩
        (configure_header (solid_image 16 16 ⟨0, 0, 0⟩) 2)
        (ring_buffer.new.resize_capacity PTCX_MAX_BLOCK_DATA_SIZE).2.empty) =
      some [0x00, 0x00, 0xFF, 0xFF] := by
  have h := (write_control_values_emits_four_bytes ⟨⟨0, 0, 0⟩, ⟨255, 255, 255⟩⟩
    (configure_header (solid_image 16 16 ⟨0, 0, 0⟩) 2)
    (ring_buffer.new.resize_capacity PTCX_MAX_BLOCK_DATA_SIZE).2.empty [] rfl
    (by decide) (by decide) (ring_buffer.empty_filling _ (by decide!)) (by decide!)).1
  rw [h]
  decide

/-- C8: `read_control_values`, applied to a stream that starts with the four bytes
`write_control_values` emitted for a range, returns for min and for max alike
channel 0 and channel 2 rounded down to a multiple of 8 and channel 1 rounded
down to a multiple of 4, and consumes exactly those four bytes; each
reconstructed channel is at most the original, differs from it by less than 8
(less than 4 for channel 1), and `min <= max` per channel is preserved. -/
theorem read_control_values_of_written (range initial : PTCX_PIXEL_RANGE)
    (header : PTCX_FILE_HEADER) (output : ring_buffer) (emitted rest : List Nat)
    (input : memory_stream)
    (h16 : header.quant_control_bits = 16)
    (hmin : range.min_value.c0 < 256 ∧ range.min_value.c1 < 256 ∧ range.min_value.c2 < 256)
    (hmax : range.max_value.c0 < 256 ∧ range.max_value.c1 < 256 ∧ range.max_value.c2 < 256)
    (hcap : 4 ≤ output.data.length ∧ output.data.length < U32)
    (hemit : peeked_occupants (write_control_values range header output.empty) = some emitted)
    (hlin : input.linear) (hin : input.unread = emitted ++ rest) :
    read_control_values input initial header =
      some (input.advance 4,
        { min_value := ⟨8 * (range.min_value.c0 / 8), 4 * (range.min_value.c1 / 4),
                        8 * (range.min_value.c2 / 8)⟩,
          max_value := ⟨8 * (range.max_value.c0 / 8), 4 * (range.max_value.c1 / 4),
                        8 * (range.max_value.c2 / 8)⟩ }) ∧
    (input.advance 4).unread = rest ∧
    (8 * (range.min_value.c0 / 8) ≤ range.min_value.c0 ∧
      range.min_value.c0 - 8 * (range.min_value.c0 / 8) < 8 ∧
      4 * (range.min_value.c1 / 4) ≤ range.min_value.c1 ∧
      range.min_value.c1 - 4 * (range.min_value.c1 / 4) < 4 ∧
      8 * (range.min_value.c2 / 8) ≤ range.min_value.c2 ∧
      range.min_value.c2 - 8 * (range.min_value.c2 / 8) < 8) ∧
    (8 * (range.max_value.c0 / 8) ≤ range.max_value.c0 ∧
      range.max_value.c0 - 8 * (range.max_value.c0 / 8) < 8 ∧
      4 * (range.max_value.c1 / 4) ≤ range.max_value.c1 ∧
      range.max_value.c1 - 4 * (range.max_value.c1 / 4) < 4 ∧
      8 * (range.max_value.c2 / 8) ≤ range.max_value.c2 ∧
      range.max_value.c2 - 8 * (range.max_value.c2 / 8) < 8) ∧
    (range.min_value.c0 ≤ range.max_value.c0 →
      8 * (range.min_value.c0 / 8) ≤ 8 * (range.max_value.c0 / 8)) ∧
    (range.min_value.c1 ≤ range.max_value.c1 →
      4 * (range.min_value.c1 / 4) ≤ 4 * (range.max_value.c1 / 4)) ∧
    (range.min_value.c2 ≤ range.max_value.c2 →
      8 * (range.min_value.c2 / 8) ≤ 8 * (range.max_value.c2 / 8)) := by
  have hf := write_control_values_filling range header h16
    (ring_buffer.empty_filling output hcap.2) (by simpa [ring_buffer.empty] using hcap.1)
  rw [peeked_occupants_filling hf.1] at hemit
  have hem : emitted = control_bytes range := by
    simpa using (Option.some.inj hemit).symm
  have hw0 : u16_at input.unread 0 = control_word range.min_value := by
    rw [hin, hem]
    have := control_word_lt range.min_value
    simp [u16_at, control_bytes]
    omega
  have hw2 : u16_at input.unread 2 = control_word range.max_value := by
    rw [hin, hem]
    have := control_word_lt range.max_value
    simp [u16_at, control_bytes]
    omega
  have hlen : min 4 input.unread.length = 4 := by
    rw [hin, hem]; simp [control_bytes]
  refine ⟨?_, ?_, ?_, ?_, ?_, ?_, ?_⟩
  · rw [read_control_values_linear hlin initial header h16, hw0, hw2, hlen,
      control_color_word _ hmin.1 hmin.2.1 hmin.2.2, control_color_word _ hmax.1 hmax.2.1 hmax.2.2]
  · rw [(memory_stream.advance_linear hlin 4 (by omega)).2, hin, hem]
    simp [control_bytes]
  · omega
  · omega
  · intro h; omega
  · intro h; omega
  · intro h; omega


/-- Witness of C8: the range (100,150,200)..(100,150,200) is written as the bytes
AC,CC,AC,CC and read back as (96,148,200)..(96,148,200). -/
theorem read_control_values_of_written_witness :
    read_control_values ⟨⟨[172, 204, 172, 204], 0, 4⟩⟩
        ⟨⟨255, 255, 255⟩, ⟨0, 0, 0⟩⟩ (configure_header (solid_image 16 16 ⟨0, 0, 0⟩) 2) =
      some (memory_stream.advance ⟨⟨[172, 204, 172, 204], 0, 4⟩⟩ 4,
        { min_value := ⟨8 * (100 / 8), 4 * (150 / 4), 8 * (200 / 8)⟩,
          max_value := ⟨8 * (100 / 8), 4 * (150 / 4), 8 * (200 / 8)⟩ }) :=
  (read_control_values_of_written ⟨⟨100, 150, 200⟩, ⟨100, 150, 200⟩⟩ ⟨⟨255, 255, 255⟩, ⟨0, 0, 0⟩⟩
    (configure_header (solid_image 16 16 ⟨0, 0, 0⟩) 2)
    (ring_buffer.new.resize_capacity PTCX_MAX_BLOCK_DATA_SIZE).2 [172, 204, 172, 204] []
    ⟨⟨[172, 204, 172, 204], 0, 4⟩⟩ rfl (by decide) (by decide) (by decide!) (by decide!)
    (by decide) rfl).1

/-- C5: for every stream holding at least 24 unread bytes whose header has a magic
other than 0x50544358, or a header_size other than 24, or a version other than
2, `load_ptcx` returns `BASE_ERROR_INVALID_RESOURCE`, whatever the other header
fields and the following bytes are; the 24 header bytes are consumed and the
output image is not touched. -/
theorem load_ptcx_rejects_bad_header (input : memory_stream) (output : image)
    (hlin : input.linear) (hlen : sizeof_PTCX_FILE_HEADER ≤ input.unread.length)
    (hbad : (header_of_bytes (input.unread.take 24)).magic ≠ 0x50544358 ∨
      (header_of_bytes (input.unread.take 24)).header_size ≠ 24 ∨
      (header_of_bytes (input.unread.take 24)).version ≠ 2) :
    load_ptcx input output =
      some (BASE_ERROR_INVALID_RESOURCE, input.advance 24, output) := by
  have h24 : sizeof_PTCX_FILE_HEADER = 24 := rfl
  rw [h24] at hlen
  have hne : input.unread ≠ [] := by
    intro h; rw [h] at hlen; simp at hlen
  have hemp : input.is_empty = false := by
    have hocc := memory_stream.occupancy_linear hlin
    have : input.unread.length ≠ 0 := by omega
    simp [memory_stream.is_empty, ring_buffer.is_empty, hocc, this]
  unfold load_ptcx
  rw [h24, memory_stream.read_data_linear hlin (by norm_num) hne, Nat.min_eq_left hlen]
  simp only [BASE_PARAM_CHECK_eq, hemp, Bool.and_false, Bool.false_eq_true, if_false,
    base_failed_success, ne_eq, not_true_eq_false, base_post_error_eq, PTCX_MAGIC_VALUE]
  rcases hbad with h | h | h
  · rw [if_pos (Or.inl (Ne.symm h))]
  · rw [if_pos (Or.inr (Ne.symm h))]
  · by_cases hm : ¬ 1347699544 = (header_of_bytes (List.take 24 input.unread)).magic ∨
        ¬ 24 = (header_of_bytes (List.take 24 input.unread)).header_size
    · rw [if_pos hm]
    · rw [if_neg hm, if_pos (Ne.symm h)]

/-- Witness of C5: 24 zero bytes (magic 0) are rejected with
`BASE_ERROR_INVALID_RESOURCE`. -/
theorem load_ptcx_rejects_bad_header_witness :
    load_ptcx ⟨⟨List.replicate 24 0, 0, 24⟩⟩ image.new =
      some (BASE_ERROR_INVALID_RESOURCE,
        memory_stream.advance ⟨⟨List.replicate 24 0, 0, 24⟩⟩ 24, image.new) :=
  load_ptcx_rejects_bad_header ⟨⟨List.replicate 24 0, 0, 24⟩⟩ image.new (by decide) (by decide)
    (by decide)


/-- C2 (code defect): with `quant_step_bits = 8` and a 2 x 2 microblock whose
indices are 1, 2, 3, 4 in raster order, the packing loop of
`write_quantization_table` emits the three bytes 2, 3, 4 (the first index is
never written), while the extraction loop of `read_macroblock` consumes one byte
per index: on the emitted bytes it extracts 2, 3, 4 and then fails for lack of
a fourth byte, and it would return 1, 2, 3, 4 on the four bytes 1, 2, 3, 4. -/
theorem index_packing_drops_first_index_at_8_bits :
    (write_quantization_table_loop 8 2 2
        (fun subi subj => some ([1, 2, 3, 4].getD (subi + subj * 2) 0))
        (ring_buffer.new.resize_capacity PTCX_MAX_BLOCK_DATA_SIZE).2.empty).bind peeked_occupants
      = some [2, 3, 4] ∧
    (read_macroblock_loop 8 2 2 (fun _ _ step (acc : List Nat) => some (acc ++ [step]))
        ⟨⟨[2, 3, 4], 0, 3⟩⟩ []).map (fun r => (r.1, r.2.2))
      = some (BASE_ERROR_EXECUTION_FAILURE, [2, 3, 4]) ∧
    (read_macroblock_loop 8 2 2 (fun _ _ step (acc : List Nat) => some (acc ++ [step]))
        ⟨⟨[1, 2, 3, 4], 0, 4⟩⟩ []).map (fun r => (r.1, r.2.2))
      = some (BASE_SUCCESS, [1, 2, 3, 4]) := by
  refine ⟨by decide!, by decide!, by decide!⟩

/-! ## loops -/

theorem sum_range_const (c : Nat) : ∀ n i, sum_range (fun _ => c) n i = n * c := by
  intro n
  induction n with
  | zero => intro i; simp [sum_range]
  | succ n ih => intro i; simp [sum_range, ih]; ring

theorem sum_range_congr {f g : Nat → Nat} : ∀ n i, (∀ k, i ≤ k → k < i + n → f k = g k) →
    sum_range f n i = sum_range g n i := by
  intro n
  induction n with
  | zero => intro i _; rfl
  | succ n ih =>
    intro i h
    simp only [sum_range]
    rw [h i (Nat.le_refl _) (by omega), ih (i + 1) (fun k h1 h2 => h k (by omega) (by omega))]

@[simp] theorem for_loop_zero {σ : Type} (body : Nat → σ → Option σ) (i : Nat) (s : σ) :
    for_loop body 0 i s = some s := rfl

theorem for_loop_succ {σ : Type} (body : Nat → σ → Option σ) (n i : Nat) (s : σ) :
    for_loop body (n + 1) i s = (body i s).bind (for_loop body n (i + 1)) := by
  simp only [for_loop]
  cases body i s <;> rfl

@[simp] theorem for_loop_status_zero {σ : Type} (body : Nat → σ → Option (status × σ))
    (i : Nat) (s : σ) : for_loop_status body 0 i s = some (BASE_SUCCESS, s) := rfl

theorem for_loop_status_succ_of_success {σ : Type} {body : Nat → σ → Option (status × σ)}
    {i : Nat} {s s1 : σ} (n : Nat) (h : body i s = some (BASE_SUCCESS, s1)) :
    for_loop_status body (n + 1) i s = for_loop_status body n (i + 1) s1 := by
  simp [for_loop_status, h]

theorem for_loop_status_succ_of_failure {σ : Type} {body : Nat → σ → Option (status × σ)}
    {i : Nat} {s s1 : σ} {st : status} (n : Nat) (h : body i s = some (st, s1))
    (hst : st ≠ BASE_SUCCESS) :
    for_loop_status body (n + 1) i s = some (st, s1) := by
  simp [for_loop_status, h, hst]

/-- Partial correctness of a counted loop: an invariant that every completed
iteration carries over holds after the loop. -/
theorem for_loop_inv_of_some {σ : Type} (body : Nat → σ → Option σ) (I : Nat → σ → Prop) :
    ∀ n i s s', (∀ k, i ≤ k → k < i + n → ∀ a a', I k a → body k a = some a' → I (k + 1) a') →
      I i s → for_loop body n i s = some s' → I (i + n) s' := by
  intro n
  induction n with
  | zero =>
    intro i s s' _ hI h
    simp at h; subst h; simpa using hI
  | succ n ih =>
    intro i s s' hbody hI h
    rw [for_loop_succ] at h
    cases hb : body i s with
    | none => rw [hb] at h; simp at h
    | some s1 =>
      rw [hb] at h
      have h1 := hbody i (Nat.le_refl _) (by omega) s s1 hI hb
      have := ih (i + 1) s1 s' (fun k hk1 hk2 => hbody k (by omega) (by omega)) h1 h
      rwa [show i + 1 + n = i + (n + 1) by omega] at this

/-- Partial correctness of a loop with early exit: when the loop ends with
`BASE_SUCCESS`, every iteration ran and succeeded. -/
theorem for_loop_status_inv_of_some {σ : Type} (body : Nat → σ → Option (status × σ))
    (I : Nat → σ → Prop) :
    ∀ n i s s', (∀ k, i ≤ k → k < i + n → ∀ a a', I k a → body k a = some (BASE_SUCCESS, a') →
        I (k + 1) a') →
      I i s → for_loop_status body n i s = some (BASE_SUCCESS, s') → I (i + n) s' := by
  intro n
  induction n with
  | zero =>
    intro i s s' _ hI h
    simp at h; subst h; simpa using hI
  | succ n ih =>
    intro i s s' hbody hI h
    cases hb : body i s with
    | none => simp [for_loop_status, hb] at h
    | some r =>
      obtain ⟨st, s1⟩ := r
      by_cases hst : st = BASE_SUCCESS
      · subst hst
        rw [for_loop_status_succ_of_success n hb] at h
        have h1 := hbody i (Nat.le_refl _) (by omega) s s1 hI hb
        have := ih (i + 1) s1 s' (fun k hk1 hk2 => hbody k (by omega) (by omega)) h1 h
        rwa [show i + 1 + n = i + (n + 1) by omega] at this
      · rw [for_loop_status_succ_of_failure n hb hst] at h
        simp at h
        exact absurd h.1 hst

/-- A loop whose iterations consume bytes of a stream: iteration `k` needs
`cost k` unread bytes; it succeeds and consumes exactly that many when they are
there, and fails with `BASE_ERROR_EXECUTION_FAILURE` otherwise. Then the loop
succeeds exactly when the sum of the costs is there. -/
theorem for_loop_status_consume {α : Type} (body : Nat → α → Option (status × α))
    (strm : α → memory_stream) (cost : Nat → Nat) (I : Nat → α → Prop) :
    ∀ n i a,
      (∀ k, i ≤ k → k < i + n → ∀ a, (strm a).linear → I k a →
        (cost k ≤ (strm a).unread.length →
          ∃ a', body k a = some (BASE_SUCCESS, a') ∧ strm a' = (strm a).advance (cost k) ∧
            I (k + 1) a') ∧
        ((strm a).unread.length < cost k →
          ∃ a', body k a = some (BASE_ERROR_EXECUTION_FAILURE, a'))) →
      (strm a).linear → I i a →
      (sum_range cost n i ≤ (strm a).unread.length →
        ∃ a', for_loop_status body n i a = some (BASE_SUCCESS, a') ∧
          strm a' = (strm a).advance (sum_range cost n i) ∧ I (i + n) a') ∧
      ((strm a).unread.length < sum_range cost n i →
        ∃ a', for_loop_status body n i a = some (BASE_ERROR_EXECUTION_FAILURE, a')) := by
  intro n
  induction n with
  | zero =>
    intro i a _ hl hI
    refine ⟨fun _ => ⟨a, rfl, ?_, by simpa using hI⟩, fun h => ?_⟩
    · simp [sum_range, memory_stream.advance_zero]
    · simp [sum_range] at h
  | succ n ih =>
    intro i a hbody hl hI
    obtain ⟨hok, hfail⟩ := hbody i (Nat.le_refl _) (by omega) a hl hI
    by_cases hc : cost i ≤ (strm a).unread.length
    · obtain ⟨a1, hb, hs1, hI1⟩ := hok hc
      obtain ⟨hl1, hu1⟩ := memory_stream.advance_linear hl (cost i) hc
      rw [← hs1] at hl1 hu1
      obtain ⟨ihok, ihfail⟩ := ih (i + 1) a1
        (fun k hk1 hk2 => hbody k (by omega) (by omega)) hl1 hI1
      rw [for_loop_status_succ_of_success n hb]
      have hlen : (strm a1).unread.length = (strm a).unread.length - cost i := by
        rw [hu1]; simp
      constructor
      · intro htot
        simp only [sum_range] at htot
        obtain ⟨a', h1, h2, h3⟩ := ihok (by omega)
        refine ⟨a', h1, ?_, ?_⟩
        · rw [h2, hs1, memory_stream.advance_advance]; rfl
        · rwa [show i + 1 + n = i + (n + 1) by omega] at h3
      · intro htot
        simp only [sum_range] at htot
        exact ihfail (by omega)
    · constructor
      · intro htot
        simp only [sum_range] at htot
        omega
      · intro _
        obtain ⟨a1, hb⟩ := hfail (by omega)
        exact ⟨a1, by rw [for_loop_status_succ_of_failure n hb (by decide)]⟩


/-! ## pixel buffers -/

theorem image.offset_shaped {img : image} {w h x y : Nat} (hs : img.shaped w h)
    (hsz : 24 * (w * h) < U32) (hx : x < w) (hy : y < h) :
    img.query_block_offset x y = 3 * (w * y + x) := by
  obtain ⟨h1, h2, h3, h4, _⟩ := hs
  have hwh : w * (y + 1) ≤ w * h := Nat.mul_le_mul_left w hy
  have hxy : w * y + x < w * h := by nlinarith
  have hw : w ≤ w * h := by nlinarith
  simp only [U32] at hsz
  unfold image.query_block_offset image.query_row_pitch
  rw [h1, h3]
  simp only [Nat.shiftRight_eq_div_pow, U32]
  have e1 : w * 24 % 4294967296 = w * 24 := Nat.mod_eq_of_lt (by omega)
  have e2 : x * 24 % 4294967296 = x * 24 := Nat.mod_eq_of_lt (by omega)
  have e3 : w * 24 / 2 ^ 3 = 3 * w := by omega
  have e4 : x * 24 / 2 ^ 3 = 3 * x := by omega
  rw [e1, e2, e3, e4]
  have hwy : w * y ≤ w * h := Nat.mul_le_mul_left w (Nat.le_of_lt hy)
  have e5 : 3 * w * y % 4294967296 = 3 * (w * y) := by
    rw [Nat.mul_assoc]; exact Nat.mod_eq_of_lt (by omega)
  rw [e5, ← Nat.mul_add]
  exact Nat.mod_eq_of_lt (by omega)

theorem image.offset_in_bounds {img : image} {w h x y : Nat} (hs : img.shaped w h)
    (hx : x < w) (hy : y < h) : 3 * (w * y + x) + 2 < img.data_buffer.length := by
  obtain ⟨h1, h2, h3, h4, _⟩ := hs
  have hxy : w * y + x < w * h := by nlinarith [Nat.mul_le_mul_left w hy]
  omega

theorem image.store_pixel_shaped {img : image} {w h : Nat} (hs : img.shaped w h) {o : Nat}
    (ho : o + 2 < img.data_buffer.length) (c : color) :
    ∃ img', img.store_pixel o c = some img' ∧ img'.shaped w h := by
  obtain ⟨h1, h2, h3, h4, h5⟩ := hs
  refine ⟨{ img with data_buffer :=
      ((img.data_buffer.set o c.c0).set (o + 1) c.c1).set (o + 2) c.c2 }, ?_, ?_⟩
  · simp [image.store_pixel, ho]
  · simp [image.shaped, h1, h2, h3, h4, h5]

theorem image.store_pixel_at_shaped {img : image} {w h x y : Nat} (hs : img.shaped w h)
    (hsz : 24 * (w * h) < U32) (hx : x < w) (hy : y < h) (c : color) :
    ∃ img', img.store_pixel (img.query_block_offset x y) c = some img' ∧ img'.shaped w h := by
  rw [image.offset_shaped hs hsz hx hy]
  exact image.store_pixel_shaped hs (image.offset_in_bounds hs hx hy) c

/-! ## the extraction loop of read_macroblock -/

theorem index_bytes_pos (bits bw bh : Nat) (hw : 0 < bw) (hh : 0 < bh) :
    0 < index_bytes bits bw bh := by
  unfold index_bytes
  obtain ⟨n, rfl⟩ : ∃ n, bh = n + 1 := ⟨bh - 1, by omega⟩
  obtain ⟨m, rfl⟩ : ∃ m, bw = m + 1 := ⟨bw - 1, by omega⟩
  simp [sum_range]

theorem read_macroblock_step_consume {σ : Type} (bits bw : Nat)
    (store : Nat → Nat → Nat → σ → Option σ) (J : σ → Prop) (subj subi : Nat)
    (hstore : ∀ step out, J out → ∃ out', store subi subj step out = some out' ∧ J out')
    (a : (memory_stream × Nat) × σ) (hl : a.1.1.linear) (hJ : J a.2) :
    ((if ((bits * ((subi + subj * bw) % U32)) % U32) % 8 = 0 then 1 else 0) ≤
        a.1.1.unread.length →
      ∃ a', read_macroblock_step bits bw store subj subi a = some (BASE_SUCCESS, a') ∧
        a'.1.1 = a.1.1.advance
          (if ((bits * ((subi + subj * bw) % U32)) % U32) % 8 = 0 then 1 else 0) ∧ J a'.2) ∧
    (a.1.1.unread.length <
        (if ((bits * ((subi + subj * bw) % U32)) % U32) % 8 = 0 then 1 else 0) →
      ∃ a', read_macroblock_step bits bw store subj subi a =
        some (BASE_ERROR_EXECUTION_FAILURE, a')) := by
  obtain ⟨⟨bs, la⟩, bo⟩ := a
  simp only at hl hJ
  unfold read_macroblock_step
  by_cases hc : ((bits * ((subi + subj * bw) % U32)) % U32) % 8 = 0
  · simp only [hc, if_true]
    by_cases hne : bs.unread = []
    · constructor
      · intro h; simp [hne] at h
      · intro _
        rw [memory_stream.read_data_linear_nil hl (by norm_num) hne]
        exact ⟨((bs, la), bo), by simp [base_failed]⟩
    · have hpos : 0 < bs.unread.length := List.length_pos.mpr hne
      constructor
      · intro _
        rw [memory_stream.read_data_linear hl (by norm_num) hne]
        obtain ⟨out', ho, hJ'⟩ := hstore
          (((List.take 1 bs.unread).getD 0 la) &&& (((1 <<< bits) + U32 - 1) % U32)) bo hJ
        refine ⟨((bs.advance 1, (((List.take 1 bs.unread).getD 0 la) >>> bits) % 256), out'),
          ?_, rfl, hJ'⟩
        simp only [base_failed_success, Bool.false_eq_true, if_false, ho,
          Nat.min_eq_left (show 1 ≤ bs.unread.length by omega)]
      · intro h; omega
  · simp only [hc, if_false]
    constructor
    · intro _
      obtain ⟨out', ho, hJ'⟩ := hstore (la &&& (((1 <<< bits) + U32 - 1) % U32)) bo hJ
      exact ⟨((bs, (la >>> bits) % 256), out'), by simp only [ho],
        by simp [memory_stream.advance_zero], hJ'⟩
    · intro h; omega

/-- The extraction loop reads `index_bytes` bytes: it succeeds and consumes exactly
those when the stream holds them, and fails with `BASE_ERROR_EXECUTION_FAILURE`
otherwise; `J` is an invariant of the destination that every store keeps. -/
theorem read_macroblock_loop_consume {σ : Type} (bits bw bh : Nat)
    (store : Nat → Nat → Nat → σ → Option σ) (J : σ → Prop) (hbits : bits < 31)
    (hstore : ∀ subi subj step out, subi < bw → subj < bh → J out →
      ∃ out', store subi subj step out = some out' ∧ J out')
    (s : memory_stream) (out : σ) (hl : s.linear) (hJ : J out) :
    (index_bytes bits bw bh ≤ s.unread.length →
      ∃ out', read_macroblock_loop bits bw bh store s out =
          some (BASE_SUCCESS, s.advance (index_bytes bits bw bh), out') ∧ J out') ∧
    (s.unread.length < index_bytes bits bw bh →
      ∃ s' out', read_macroblock_loop bits bw bh store s out =
          some (BASE_ERROR_EXECUTION_FAILURE, s', out')) := by
  have hb31 : ¬ 31 ≤ bits := by omega
  have key := for_loop_status_consume
    (fun subj => for_loop_status (read_macroblock_step bits bw store subj) bw 0)
    (fun a => a.1.1)
    (fun subj => sum_range (fun subi =>
      if ((bits * ((subi + subj * bw) % U32)) % U32) % 8 = 0 then 1 else 0) bw 0)
    (fun _ a => J a.2) bh 0 ((s, 0), out)
    (by
      intro subj _ hsubj a hla hJa
      exact for_loop_status_consume (read_macroblock_step bits bw store subj)
        (fun a => a.1.1)
        (fun subi => if ((bits * ((subi + subj * bw) % U32)) % U32) % 8 = 0 then 1 else 0)
        (fun _ a => J a.2) bw 0 a
        (by
          intro subi _ hsubi b hlb hJb
          exact read_macroblock_step_consume bits bw store J subj subi
            (fun step out hJo => hstore subi subj step out (by omega) (by omega) hJo) b hlb hJb)
        hla hJa)
    hl hJ
  unfold read_macroblock_loop
  simp only [hb31, if_false]
  constructor
  · intro h
    obtain ⟨a', h1, h2, h3⟩ := key.1 h
    refine ⟨a'.2, ?_, h3⟩
    rw [h1]
    have h2' : a'.1.1 = s.advance (index_bytes bits bw bh) := h2
    rw [← h2']
  · intro h
    obtain ⟨a', h1⟩ := key.2 h
    exact ⟨a'.1.1, a'.2, by rw [h1]⟩


/-! ## read_macroblock -/

theorem quant_step_mask_ne_zero {bits : Nat} (h1 : 1 ≤ bits) (h2 : bits < 31) :
    ((1 <<< bits) + U32 - 1) % U32 ≠ 0 := by
  have hlt : 2 ^ bits < 2 ^ 31 := Nat.pow_lt_pow_right (by norm_num) h2
  have hge : 2 ^ 1 ≤ 2 ^ bits := Nat.pow_le_pow_right (by norm_num) h1
  rw [Nat.shiftLeft_eq, Nat.one_mul]
  simp only [U32]
  norm_num at hlt hge
  omega

theorem store_dequantized_shaped {bits : Nat} (h1 : 1 ≤ bits) (h2 : bits < 31)
    (range : PTCX_PIXEL_RANGE) {img : image} {w h x y subi subj : Nat} (step : Nat)
    (hs : img.shaped w h) (hsz : 24 * (w * h) < U32) (hx : x + subi < w) (hy : y + subj < h) :
    ∃ img', store_dequantized bits range x y subi subj step img = some img' ∧ img'.shaped w h := by
  unfold store_dequantized
  simp only [quant_step_mask_ne_zero h1 h2, if_false]
  have hw : w ≤ w * h := Nat.le_mul_of_pos_right w (by omega)
  have hh : h ≤ w * h := Nat.le_mul_of_pos_left h (by omega)
  rw [Nat.mod_eq_of_lt (show x + subi < U32 by omega),
    Nat.mod_eq_of_lt (show y + subj < U32 by omega)]
  exact image.store_pixel_at_shaped hs hsz hx hy _

/-- `read_macroblock` needs `microblock_bytes` unread bytes: with them it succeeds,
consumes exactly those and leaves an image of the same shape; without them it
fails with `BASE_ERROR_EXECUTION_FAILURE`. -/
theorem read_macroblock_consume (header : PTCX_FILE_HEADER) {x y w h : Nat}
    (s : memory_stream) (img : image)
    (hb1 : 1 ≤ header.quant_step_bits) (hb2 : header.quant_step_bits < 31)
    (hbw : 0 < header.block_width) (hbh : 0 < header.block_height)
    (hx : x + header.block_width ≤ w) (hy : y + header.block_height ≤ h)
    (hsz : 24 * (w * h) < U32) (hl : s.linear) (hs : img.shaped w h) :
    (microblock_bytes header ≤ s.unread.length →
      ∃ img', read_macroblock s header x y img =
          some (BASE_SUCCESS, s.advance (microblock_bytes header), img') ∧ img'.shaped w h) ∧
    (s.unread.length < microblock_bytes header →
      ∃ s' img', read_macroblock s header x y img =
          some (BASE_ERROR_EXECUTION_FAILURE, s', img')) := by
  have hpos := index_bytes_pos header.quant_step_bits _ _ hbw hbh
  unfold read_macroblock microblock_bytes
  by_cases h16 : header.quant_control_bits = 16
  · rw [read_control_values_linear hl _ header h16]
    simp only [h16, if_true]
    have hle : min 4 s.unread.length ≤ s.unread.length := Nat.min_le_right _ _
    obtain ⟨hl1, hu1⟩ := memory_stream.advance_linear hl _ hle
    have key := read_macroblock_loop_consume header.quant_step_bits header.block_width
      header.block_height
      (store_dequantized header.quant_step_bits
        { min_value := control_color (u16_at s.unread 0),
          max_value := control_color (u16_at s.unread 2) } x y)
      (fun img => img.shaped w h) hb2
      (fun subi subj step out hi hj ho =>
        store_dequantized_shaped hb1 hb2 _ step ho hsz (by omega) (by omega))
      (s.advance (min 4 s.unread.length)) img hl1 hs
    have hlen : (s.advance (min 4 s.unread.length)).unread.length =
        s.unread.length - min 4 s.unread.length := by rw [hu1]; simp
    constructor
    · intro hen
      have hm : min 4 s.unread.length = 4 := by omega
      obtain ⟨img', h1, h2⟩ := key.1 (by omega)
      refine ⟨img', ?_, h2⟩
      rw [h1, hm, memory_stream.advance_advance]
    · intro hsh
      exact key.2 (by omega)
  · unfold read_control_values
    simp only [h16, if_false, Nat.zero_add]
    exact read_macroblock_loop_consume header.quant_step_bits header.block_width
      header.block_height
      (store_dequantized header.quant_step_bits
        { min_value := { c0 := 255, c1 := 255, c2 := 255 },
          max_value := { c0 := 0, c1 := 0, c2 := 0 } } x y)
      (fun img => img.shaped w h) hb2
      (fun subi subj step out hi hj ho =>
        store_dequantized_shaped hb1 hb2 _ step ho hsz (by omega) (by omega))
      s img hl hs

theorem inverse_quantize_step_consume (header : PTCX_FILE_HEADER) {w h : Nat}
    (i j micro_j micro_i : Nat) (a : memory_stream × image)
    (hb1 : 1 ≤ header.quant_step_bits) (hb2 : header.quant_step_bits < 31)
    (hbw : 0 < header.block_width) (hbh : 0 < header.block_height)
    (hx : i + micro_i * header.block_width + header.block_width ≤ w)
    (hy : j + micro_j * header.block_height + header.block_height ≤ h)
    (hsz : 24 * (w * h) < U32) (hl : a.1.linear) (hs : a.2.shaped w h) :
    (microblock_bytes header ≤ a.1.unread.length →
      ∃ a', inverse_quantize_step header i j micro_j micro_i a = some (BASE_SUCCESS, a') ∧
        a'.1 = a.1.advance (microblock_bytes header) ∧ a'.2.shaped w h) ∧
    (a.1.unread.length < microblock_bytes header →
      ∃ a', inverse_quantize_step header i j micro_j micro_i a =
        some (BASE_ERROR_EXECUTION_FAILURE, a')) := by
  have hw : w ≤ w * h := Nat.le_mul_of_pos_right w (by omega)
  have hh : h ≤ w * h := Nat.le_mul_of_pos_left h (by omega)
  have key := read_macroblock_consume header (x := i + micro_i * header.block_width)
    (y := j + micro_j * header.block_height) a.1 a.2 hb1 hb2 hbw hbh hx hy hsz hl hs
  unfold inverse_quantize_step
  rw [Nat.mod_eq_of_lt (show i + micro_i * header.block_width < U32 by omega),
    Nat.mod_eq_of_lt (show j + micro_j * header.block_height < U32 by omega)]
  constructor
  · intro hen
    obtain ⟨img', h1, h2⟩ := key.1 hen
    exact ⟨(a.1.advance (microblock_bytes header), img'), by rw [h1]; rfl, rfl, h2⟩
  · intro hsh
    obtain ⟨s', img', h1⟩ := key.2 hsh
    exact ⟨(s', img'), by rw [h1]; rfl⟩


/-! ## inverse_quantize -/

theorem microblock_header_fields (header : PTCX_FILE_HEADER) (level : Nat) :
    (microblock_header header level).quant_step_bits = header.quant_step_bits ∧
    (microblock_header header level).quant_control_bits = header.quant_control_bits ∧
    2 ≤ (microblock_header header level).block_width ∧
    2 ≤ (microblock_header header level).block_height := by
  unfold microblock_header
  refine ⟨rfl, rfl, ?_, ?_⟩ <;> simp only [] <;> split <;> omega

theorem microblock_header_le (header : PTCX_FILE_HEADER) (level : Nat)
    (hw : 2 ≤ header.block_width) (hh : 2 ≤ header.block_height) :
    (microblock_header header level).block_width ≤ header.block_width ∧
    (microblock_header header level).block_height ≤ header.block_height := by
  have h1 : header.block_width >>> level ≤ header.block_width := by
    rw [Nat.shiftRight_eq_div_pow]; exact Nat.div_le_self _ _
  have h2 : header.block_height >>> level ≤ header.block_height := by
    rw [Nat.shiftRight_eq_div_pow]; exact Nat.div_le_self _ _
  have h3 := Nat.mod_le (header.block_width >>> level) 65536
  have h4 := Nat.mod_le (header.block_height >>> level) 65536
  unfold microblock_header
  constructor <;> simp only [] <;> split <;> omega

theorem macroblock_bytes_pos (header : PTCX_FILE_HEADER) (level : Nat)
    (hw : 2 ≤ header.block_width) (hh : 2 ≤ header.block_height) :
    0 < macroblock_bytes header level := by
  obtain ⟨_, _, f3, f4⟩ := microblock_header_fields header level
  obtain ⟨l1, l2⟩ := microblock_header_le header level hw hh
  unfold macroblock_bytes
  have p1 : 0 < header.block_height / (microblock_header header level).block_height :=
    Nat.div_pos l2 (by omega)
  have p2 : 0 < header.block_width / (microblock_header header level).block_width :=
    Nat.div_pos l1 (by omega)
  have p3 : 0 < microblock_bytes (microblock_header header level) := by
    unfold microblock_bytes
    have := index_bytes_pos (microblock_header header level).quant_step_bits _ _
      (show 0 < (microblock_header header level).block_width by omega)
      (show 0 < (microblock_header header level).block_height by omega)
    omega
  exact Nat.mul_pos p1 (Nat.mul_pos p2 p3)

/-- The records of one macroblock: `inverse_quantize` reads `macroblock_bytes` bytes
for it, or fails with `BASE_ERROR_EXECUTION_FAILURE` when they are not there. -/
theorem inverse_quantize_macroblock_consume (header : PTCX_FILE_HEADER) (table : List Nat)
    {w h : Nat} (jb ib level : Nat) (a : memory_stream × image)
    (hb1 : 1 ≤ header.quant_step_bits) (hb2 : header.quant_step_bits < 31)
    (hbw : 2 ≤ header.block_width) (hbh : 2 ≤ header.block_height)
    (hx : ib * header.block_width + header.block_width ≤ w)
    (hy : jb * header.block_height + header.block_height ≤ h)
    (hq : query_macroblock_shift table ib (header.image_width / header.block_width) jb =
      some level)
    (hsz : 24 * (w * h) < U32) (hl : a.1.linear) (hs : a.2.shaped w h) :
    (macroblock_bytes header level ≤ a.1.unread.length →
      ∃ a', inverse_quantize_macroblock header table jb ib a = some (BASE_SUCCESS, a') ∧
        a'.1 = a.1.advance (macroblock_bytes header level) ∧ a'.2.shaped w h) ∧
    (a.1.unread.length < macroblock_bytes header level →
      ∃ a', inverse_quantize_macroblock header table jb ib a =
        some (BASE_ERROR_EXECUTION_FAILURE, a')) := by
  obtain ⟨f1, f2, f3, f4⟩ := microblock_header_fields header level
  obtain ⟨l1, l2⟩ := microblock_header_le header level hbw hbh
  have hne : ¬ (header.block_width = 0 ∨ header.block_height = 0) := by omega
  have e1 : ib * header.block_width / header.block_width = ib :=
    Nat.mul_div_cancel _ (by omega)
  have e2 : jb * header.block_height / header.block_height = jb :=
    Nat.mul_div_cancel _ (by omega)
  have key := for_loop_status_consume
    (fun micro_j => for_loop_status
      (inverse_quantize_step (microblock_header header level)
        (ib * header.block_width) (jb * header.block_height) micro_j)
      (header.block_width / (microblock_header header level).block_width) 0)
    (fun a => a.1)
    (fun _ => sum_range (fun _ => microblock_bytes (microblock_header header level))
      (header.block_width / (microblock_header header level).block_width) 0)
    (fun _ a => a.2.shaped w h)
    (header.block_height / (microblock_header header level).block_height) 0 a
    (by
      intro micro_j _ hmj b hlb hsb
      exact for_loop_status_consume
        (inverse_quantize_step (microblock_header header level)
          (ib * header.block_width) (jb * header.block_height) micro_j)
        (fun a => a.1) (fun _ => microblock_bytes (microblock_header header level))
        (fun _ a => a.2.shaped w h)
        (header.block_width / (microblock_header header level).block_width) 0 b
        (by
          intro micro_i _ hmi c hlc hsc
          have h1 : (micro_i + 1) * (microblock_header header level).block_width ≤
              header.block_width :=
            Nat.le_trans (Nat.mul_le_mul_right _ (by omega)) (Nat.div_mul_le_self _ _)
          have h2 : (micro_j + 1) * (microblock_header header level).block_height ≤
              header.block_height :=
            Nat.le_trans (Nat.mul_le_mul_right _ (by omega)) (Nat.div_mul_le_self _ _)
          rw [Nat.add_mul, Nat.one_mul] at h1 h2
          exact inverse_quantize_step_consume (microblock_header header level) _ _ micro_j
            micro_i c (by rw [f1]; exact hb1) (by rw [f1]; exact hb2) (by omega) (by omega)
            (by omega) (by omega) hsz hlc hsc)
        hlb hsb)
    hl hs
  rw [sum_range_const, sum_range_const] at key
  unfold inverse_quantize_macroblock
  simp only [hne, if_false, e1, e2, hq]
  exact key


theorem strided_count_of_dvd {bound step : Nat} (hb : 0 < bound) (hs : 0 < step)
    (hd : bound % step = 0) : strided_count bound step = some (bound / step) := by
  unfold strided_count
  have h1 : bound ≠ 0 := by omega
  have h2 : step ≠ 0 := by omega
  simp only [h1, h2, if_false]
  obtain ⟨q, rfl⟩ : ∃ q, bound = step * q := ⟨bound / step, by
    have := Nat.div_add_mod bound step; omega⟩
  congr 1
  rw [Nat.mul_div_cancel_left _ hs]
  rw [show step * q + step - 1 = (step - 1) + step * q by omega, Nat.add_mul_div_left _ _ hs,
    Nat.div_eq_of_lt (by omega)]
  omega

theorem table_index_in_bounds {wb hb jb ib : Nat} (hj : jb < hb) (hi : ib < wb)
    (h4 : (wb * hb) % 4 = 0) (hlt : wb * hb < 2147483648) :
    ((jb * wb + ib) % U32) >>> 2 < (wb * hb) >>> 2 := by
  have h1 : jb * wb + ib < wb * hb := by nlinarith [Nat.mul_le_mul_right wb (show jb + 1 ≤ hb by omega)]
  simp only [U32, Nat.shiftRight_eq_div_pow]
  rw [Nat.mod_eq_of_lt (by omega)]
  omega

theorem stream_bytes_needed_pos (header : PTCX_FILE_HEADER) (table : List Nat)
    (hbw : 2 ≤ header.block_width) (hbh : 2 ≤ header.block_height)
    (hw : 0 < header.image_width / header.block_width)
    (hh : 0 < header.image_height / header.block_height) :
    0 < stream_bytes_needed header table := by
  unfold stream_bytes_needed
  obtain ⟨n, hn⟩ : ∃ n, header.image_height / header.block_height = n + 1 :=
    ⟨header.image_height / header.block_height - 1, by omega⟩
  obtain ⟨m, hm⟩ : ∃ m, header.image_width / header.block_width = m + 1 :=
    ⟨header.image_width / header.block_width - 1, by omega⟩
  rw [hn, hm]
  simp only [sum_range]
  have := macroblock_bytes_pos header
    ((query_macroblock_shift table 0 (m + 1) 0).getD 0) hbw hbh
  omega

/-- The table and the microblock records: on a stream that has not wrapped,
`inverse_quantize` succeeds exactly when the stream holds the size table and the
`stream_bytes_needed` bytes of records that the header and the table imply; it
then consumes exactly those bytes; otherwise it fails with
`BASE_ERROR_EXECUTION_FAILURE`. -/
theorem inverse_quantize_consume (header : PTCX_FILE_HEADER) (s : memory_stream) (img : image)
    (hb1 : 1 ≤ header.quant_step_bits) (hb2 : header.quant_step_bits < 31)
    (hbw : 2 ≤ header.block_width) (hbh : 2 ≤ header.block_height)
    (hw : 0 < header.image_width) (hh : 0 < header.image_height)
    (hdw : header.image_width % header.block_width = 0)
    (hdh : header.image_height % header.block_height = 0)
    (h4 : ((header.image_width / header.block_width) *
      (header.image_height / header.block_height)) % 4 = 0)
    (hsz : 24 * (header.image_width * header.image_height) < U32)
    (hl : s.linear) (hs : img.shaped header.image_width header.image_height) :
    (((header.image_width / header.block_width) *
          (header.image_height / header.block_height)) >>> 2 +
        stream_bytes_needed header
          (s.unread.take (((header.image_width / header.block_width) *
              (header.image_height / header.block_height)) >>> 2) ++
            List.replicate ((((header.image_width / header.block_width) *
              (header.image_height / header.block_height)) >>> 2) - s.unread.length) 0)
        ≤ s.unread.length →
      ∃ img', inverse_quantize s header img =
          some (BASE_SUCCESS,
            s.advance (((header.image_width / header.block_width) *
                (header.image_height / header.block_height)) >>> 2 +
              stream_bytes_needed header
                (s.unread.take (((header.image_width / header.block_width) *
                    (header.image_height / header.block_height)) >>> 2) ++
                  List.replicate ((((header.image_width / header.block_width) *
                    (header.image_height / header.block_height)) >>> 2) - s.unread.length) 0)),
            img') ∧
          img'.shaped header.image_width header.image_height) ∧
    (s.unread.length <
        ((header.image_width / header.block_width) *
          (header.image_height / header.block_height)) >>> 2 +
        stream_bytes_needed header
          (s.unread.take (((header.image_width / header.block_width) *
              (header.image_height / header.block_height)) >>> 2) ++
            List.replicate ((((header.image_width / header.block_width) *
              (header.image_height / header.block_height)) >>> 2) - s.unread.length) 0) →
      ∃ s' img', inverse_quantize s header img =
          some (BASE_ERROR_EXECUTION_FAILURE, s', img')) := by
  -- abbreviations
  generalize hwb : header.image_width / header.block_width = wb at *
  generalize hhb : header.image_height / header.block_height = hb at *
  have hwbpos : 0 < wb := by
    rw [← hwb]; exact Nat.div_pos (Nat.le_of_dvd hw (Nat.dvd_of_mod_eq_zero hdw)) (by omega)
  have hhbpos : 0 < hb := by
    rw [← hhb]; exact Nat.div_pos (Nat.le_of_dvd hh (Nat.dvd_of_mod_eq_zero hdh)) (by omega)
  have hwe : wb * header.block_width = header.image_width := by
    rw [← hwb]; exact Nat.div_mul_cancel (Nat.dvd_of_mod_eq_zero hdw)
  have hhe : hb * header.block_height = header.image_height := by
    rw [← hhb]; exact Nat.div_mul_cancel (Nat.dvd_of_mod_eq_zero hdh)
  have hcount : wb * hb < 2147483648 := by
    have h1 : wb ≤ header.image_width := by rw [← hwb]; exact Nat.div_le_self _ _
    have h2 : hb ≤ header.image_height := by rw [← hhb]; exact Nat.div_le_self _ _
    have h3 : wb * hb ≤ header.image_width * header.image_height := Nat.mul_le_mul h1 h2
    simp only [U32] at hsz
    omega
  have hTpos : 0 < (wb * hb) >>> 2 := by
    have : 0 < wb * hb := Nat.mul_pos hwbpos hhbpos
    simp only [Nat.shiftRight_eq_div_pow]
    omega
  generalize hT : (wb * hb) >>> 2 = T at *
  have hne : ¬ (header.block_width = 0 ∨ header.block_height = 0) := by omega
  have hcnt : ¬ 2147483648 ≤ wb * hb := by omega
  have hres : vector_resize [] T = List.replicate T 0 := by simp [vector_resize]
  have htable : read_macroblock_table s header =
      some (if s.unread = [] then BASE_ERROR_EXECUTION_FAILURE else BASE_SUCCESS,
        s.advance (min T s.unread.length),
        if s.unread = [] then vector_resize [] T
        else s.unread.take T ++ List.replicate (T - s.unread.length) 0) := by
    unfold read_macroblock_table
    simp only [hne, if_false, hwb, hhb, hcnt, hT, hres, List.length_replicate, ne_eq,
      not_true_eq_false]
    rw [memory_stream.read_data_linear_eq hl hTpos]
    by_cases hnil : s.unread = []
    · simp [hnil, base_failed]
    · have e : List.drop (List.take T s.unread).length (List.replicate T 0) =
          List.replicate (T - s.unread.length) 0 := by
        simp only [List.drop_replicate, List.length_take]
        congr 1
        omega
      simp only [hnil, if_false, base_failed_success, Bool.false_eq_true, e]
  have hrows : strided_count img.query_height header.block_height = some hb := by
    rw [show img.query_height = header.image_height from hs.2.1,
      strided_count_of_dvd hh (by omega) hdh, hhb]
  have hcols : strided_count img.query_width header.block_width = some wb := by
    rw [show img.query_width = header.image_width from hs.1,
      strided_count_of_dvd hw (by omega) hdw, hwb]
  unfold inverse_quantize
  rw [htable]
  by_cases hnil : s.unread = []
  · constructor
    · intro h; rw [hnil] at h; simp at h; omega
    · intro _
      exact ⟨s.advance (min T s.unread.length), img, by simp [hnil, base_failed]⟩
  · simp only [hnil, if_false, base_failed_success, Bool.false_eq_true, hrows, hcols]
    generalize htab : s.unread.take T ++ List.replicate (T - s.unread.length) 0 = table
    have htl : table.length = T := by
      rw [← htab]; simp only [List.length_append, List.length_take, List.length_replicate]; omega
    have hle : min T s.unread.length ≤ s.unread.length := Nat.min_le_right _ _
    obtain ⟨hl1, hu1⟩ := memory_stream.advance_linear hl _ hle
    have key := for_loop_status_consume
      (fun jb => for_loop_status (inverse_quantize_macroblock header table jb) wb 0)
      (fun a => a.1)
      (fun jb => sum_range (fun ib => macroblock_bytes header
        ((query_macroblock_shift table ib wb jb).getD 0)) wb 0)
      (fun _ a => a.2.shaped header.image_width header.image_height) hb 0
      (s.advance (min T s.unread.length), img)
      (by
        intro jb _ hjb b hlb hsb
        exact for_loop_status_consume (inverse_quantize_macroblock header table jb)
          (fun a => a.1)
          (fun ib => macroblock_bytes header ((query_macroblock_shift table ib wb jb).getD 0))
          (fun _ a => a.2.shaped header.image_width header.image_height) wb 0 b
          (by
            intro ib _ hib c hlc hsc
            have hq : ∃ level, query_macroblock_shift table ib wb jb = some level := by
              have hin := table_index_in_bounds (show jb < hb by omega) (show ib < wb by omega)
                h4 hcount
              rw [hT, ← htl] at hin
              unfold query_macroblock_shift
              simp only [List.getElem?_eq_getElem hin]
              exact ⟨_, rfl⟩
            obtain ⟨level, hq⟩ := hq
            simp only [hq, Option.getD_some]
            have hx : ib * header.block_width + header.block_width ≤ header.image_width := by
              rw [← hwe]
              have := Nat.mul_le_mul_right header.block_width (show ib + 1 ≤ wb by omega)
              rw [Nat.add_mul, Nat.one_mul] at this
              exact this
            have hy : jb * header.block_height + header.block_height ≤ header.image_height := by
              rw [← hhe]
              have := Nat.mul_le_mul_right header.block_height (show jb + 1 ≤ hb by omega)
              rw [Nat.add_mul, Nat.one_mul] at this
              exact this
            exact inverse_quantize_macroblock_consume header table jb ib level c hb1 hb2 hbw
              hbh hx hy (by rw [hwb]; exact hq) hsz hlc hsc)
          hlb hsb)
      hl1 hs
    have hneed : sum_range (fun jb => sum_range (fun ib => macroblock_bytes header
        ((query_macroblock_shift table ib wb jb).getD 0)) wb 0) hb 0 =
        stream_bytes_needed header table := by
      unfold stream_bytes_needed; rw [hwb, hhb]
    rw [hneed] at key
    have hpos := stream_bytes_needed_pos header table hbw hbh (by rw [hwb]; exact hwbpos)
      (by rw [hhb]; exact hhbpos)
    have hlen1 : (s.advance (min T s.unread.length)).unread.length =
        s.unread.length - min T s.unread.length := by rw [hu1]; simp
    constructor
    · intro hen
      have hm : min T s.unread.length = T := by omega
      obtain ⟨a', h1, h2, h3⟩ := key.1 (by simp only []; omega)
      refine ⟨a'.2, ?_, h3⟩
      rw [h1]
      have h2' : a'.1 = (s.advance (min T s.unread.length)).advance
          (stream_bytes_needed header table) := h2
      rw [hm, memory_stream.advance_advance] at h2'
      rw [← h2']
    · intro hsh
      obtain ⟨a', h1⟩ := key.2 (by simp only []; omega)
      exact ⟨a'.1, a'.2, by rw [h1]⟩


/-! ## load_ptcx -/

theorem create_image_shaped (w h : Nat) (output : image) (hw : 0 < w) (hh : 0 < h)
    (hsz : 24 * (w * h) < U32) :
    ∃ img, create_image IGN_IMAGE_FORMAT_R8G8B8 w h output = (BASE_SUCCESS, img) ∧
      img.shaped w h ∧ img.image_format = IGN_IMAGE_FORMAT_R8G8B8 := by
  have hw0 : w ≠ 0 := by omega
  have hh0 : h ≠ 0 := by omega
  have hpos : 0 < w * h := Nat.mul_pos hw hh
  have e1 : (w * h * 24) % U32 = w * h * 24 := Nat.mod_eq_of_lt (by omega)
  have e2 : (w * h * 24) >>> 3 = 3 * (w * h) := by
    rw [Nat.shiftRight_eq_div_pow]; omega
  have e3 : 3 * (w * h) ≠ 0 := by omega
  refine ⟨{ image_format := IGN_IMAGE_FORMAT_R8G8B8, bits_per_pixel := 24,
            channel_count := 3, width_in_pixels := w, height_in_pixels := h,
            data_buffer := List.replicate (3 * (w * h)) 0 }, ?_, ?_, rfl⟩
  · simp [create_image, image.set_image_format, image.set_dimension, image.allocate,
      image.query_bits_per_pixel, channel_count_from_format, pixel_rate_from_format, hw0, hh0,
      base_failed, e1, e2, e3]
  · simp [image.shaped]

/-- `load_ptcx` on a stream that has not wrapped and starts with a valid,
well-formed header: it succeeds exactly when the stream holds the header, the
size table and the records the header and the table imply, and then consumes
exactly those bytes and returns an image of the declared dimensions; otherwise
it fails with `BASE_ERROR_EXECUTION_FAILURE`. -/
theorem load_ptcx_consume (input : memory_stream) (output : image) (header : PTCX_FILE_HEADER)
    (hlin : input.linear) (hlen : 24 ≤ input.unread.length)
    (hhdr : header_of_bytes (input.unread.take 24) = header)
    (hmagic : header.magic = 0x50544358) (hsize : header.header_size = 24)
    (hversion : header.version = 2)
    (hb1 : 1 ≤ header.quant_step_bits) (hb2 : header.quant_step_bits < 31)
    (hbw : 2 ≤ header.block_width) (hbh : 2 ≤ header.block_height)
    (hw : 0 < header.image_width) (hh : 0 < header.image_height)
    (hdw : header.image_width % header.block_width = 0)
    (hdh : header.image_height % header.block_height = 0)
    (h4 : ((header.image_width / header.block_width) *
      (header.image_height / header.block_height)) % 4 = 0)
    (hsz : 24 * (header.image_width * header.image_height) < U32)
    (T : Nat) (hT : T = ((header.image_width / header.block_width) *
      (header.image_height / header.block_height)) >>> 2)
    (table : List Nat)
    (htable : table = (input.unread.drop 24).take T ++
      List.replicate (T - (input.unread.length - 24)) 0) :
    (24 + T + stream_bytes_needed header table ≤ input.unread.length →
      ∃ img, load_ptcx input output =
          some (BASE_SUCCESS, input.advance (24 + T + stream_bytes_needed header table), img) ∧
        img.shaped header.image_width header.image_height ∧
        img.image_format = IGN_IMAGE_FORMAT_R8G8B8) ∧
    (input.unread.length < 24 + T + stream_bytes_needed header table →
      ∃ s' img, load_ptcx input output = some (BASE_ERROR_EXECUTION_FAILURE, s', img)) := by
  have hne : input.unread ≠ [] := by
    intro h; rw [h] at hlen; simp at hlen
  have hemp : input.is_empty = false := by
    have hocc := memory_stream.occupancy_linear hlin
    have : input.unread.length ≠ 0 := by omega
    simp [memory_stream.is_empty, ring_buffer.is_empty, hocc, this]
  obtain ⟨img0, hc, hs0, hf0⟩ := create_image_shaped header.image_width header.image_height
    output hw hh hsz
  obtain ⟨hl1, hu1⟩ := memory_stream.advance_linear hlin 24 hlen
  have key := inverse_quantize_consume header (input.advance 24) img0 hb1 hb2 hbw hbh hw hh
    hdw hdh h4 hsz hl1 hs0
  rw [← hT, hu1, List.length_drop, ← htable] at key
  have hload : load_ptcx input output =
      match inverse_quantize (input.advance 24) header img0 with
      | none => none
      | some q =>
        if base_failed q.1 then some (BASE_ERROR_EXECUTION_FAILURE, q.2)
        else some (BASE_SUCCESS, q.2) := by
    unfold load_ptcx
    have h24 : sizeof_PTCX_FILE_HEADER = 24 := rfl
    rw [h24, memory_stream.read_data_linear hlin (by norm_num) hne, Nat.min_eq_left hlen]
    simp only [BASE_PARAM_CHECK_eq, hemp, Bool.and_false, Bool.false_eq_true, if_false,
      base_failed_success, ne_eq, not_true_eq_false, base_post_error_eq, PTCX_MAGIC_VALUE,
      hhdr, hmagic, hsize, hversion, hc, or_self]
    try rfl
  rw [hload]
  constructor
  · intro hen
    obtain ⟨img, h1, h2⟩ := key.1 (by omega)
    refine ⟨img, ?_, ?_, ?_⟩
    · rw [h1]
      simp only [base_failed_success, Bool.false_eq_true, if_false, memory_stream.advance_advance]
      rw [Nat.add_assoc]
    · exact h2
    · exact h2.2.2.2.2
  · intro hsh
    obtain ⟨s', img, h1⟩ := key.2 (by omega)
    exact ⟨s', img, by rw [h1]; simp [base_failed]⟩


/-- C6: a stream that starts with a header passing validation (magic, version 2,
header_size 24) with non-zero dimensions that the block size divides, a block
size of at least 2 x 2 (so any of 2, 4, 8, 16), between 1 and 30 step bits (so
any of 1, 2, 4, 8), a pixel buffer size that fits 32 bits and a macroblock count
that is a multiple of 4 (every table entry lies inside the table), and that ends
before the size table and the microblock records the header implies are
complete, makes `load_ptcx` return `BASE_ERROR_EXECUTION_FAILURE`; this covers a
stream holding only the header and part of the size table. -/
theorem load_ptcx_fails_on_truncated_stream (input : memory_stream) (output : image)
    (header : PTCX_FILE_HEADER) (T : Nat) (table : List Nat)
    (hlin : input.linear) (hlen : 24 ≤ input.unread.length)
    (hhdr : header_of_bytes (input.unread.take 24) = header)
    (hmagic : header.magic = 0x50544358) (hsize : header.header_size = 24)
    (hversion : header.version = 2)
    (hbits : 1 ≤ header.quant_step_bits ∧ header.quant_step_bits < 31)
    (hblock : 2 ≤ header.block_width ∧ 2 ≤ header.block_height)
    (hdims : 0 < header.image_width ∧ 0 < header.image_height)
    (hdiv : header.image_width % header.block_width = 0 ∧
      header.image_height % header.block_height = 0)
    (h4 : ((header.image_width / header.block_width) *
      (header.image_height / header.block_height)) % 4 = 0)
    (hsz : 24 * (header.image_width * header.image_height) < U32)
    (hT : T = ((header.image_width / header.block_width) *
      (header.image_height / header.block_height)) >>> 2)
    (htable : table = (input.unread.drop 24).take T ++
      List.replicate (T - (input.unread.length - 24)) 0)
    (hshort : input.unread.length < 24 + T + stream_bytes_needed header table) :
    ∃ s' img, load_ptcx input output = some (BASE_ERROR_EXECUTION_FAILURE, s', img) :=
  (load_ptcx_consume input output header hlin hlen hhdr hmagic hsize hversion hbits.1 hbits.2
    hblock.1 hblock.2 hdims.1 hdims.2 hdiv.1 hdiv.2 h4 hsz T hT table htable).2 hshort

/-- Witness of C6: the header of a 32 x 32 image at quality 3 (table of 16 bytes)
followed by only 5 table bytes. -/
theorem load_ptcx_fails_on_truncated_stream_witness :
    ∃ s' img, load_ptcx
      ⟨⟨header_bytes (configure_header (solid_image 32 32 ⟨0, 0, 0⟩) 3) ++ [0, 0, 0, 0, 0], 0, 29⟩⟩
      image.new = some (BASE_ERROR_EXECUTION_FAILURE, s', img) :=
  load_ptcx_fails_on_truncated_stream
    ⟨⟨header_bytes (configure_header (solid_image 32 32 ⟨0, 0, 0⟩) 3) ++ [0, 0, 0, 0, 0], 0, 29⟩⟩
    image.new (configure_header (solid_image 32 32 ⟨0, 0, 0⟩) 3) 16
    ([0, 0, 0, 0, 0] ++ List.replicate 11 0)
    (by decide!) (by decide!) (by decide!) (by decide!) (by decide!) (by decide!) (by decide!)
    (by decide!) (by decide!) (by decide!) (by decide!) (by decide!) (by decide!) (by decide!)
    (by decide!)


/-! ## streams that are being filled -/

theorem memory_stream.holds_linear {s : memory_stream} {bytes : List Nat} (h : s.holds bytes) :
    s.linear ∧ s.unread = bytes := by
  obtain ⟨h0, h1, h2, h3, h4⟩ := h
  refine ⟨⟨by omega, by omega, h3⟩, ?_⟩
  simp [memory_stream.unread, h0, h1, h4]

theorem take_append_drop_take (data input : List Nat) (w n : Nat) (hw : w ≤ data.length)
    (hn : n ≤ input.length) :
    (data.take w ++ input.take n ++ data.drop (w + n)).take (w + n) = data.take w ++ input.take n := by
  have hl : (data.take w ++ input.take n).length = w + n := by
    simp [Nat.min_eq_left hw, Nat.min_eq_left hn]
  rw [List.take_append_eq_append_take, hl]
  simp [List.take_of_length_le (Nat.le_of_eq hl)]

/-- `write_data` on a stream that is being filled: a full stream refuses the write
with `BASE_ERROR_INVALID_RESOURCE`; otherwise as many bytes as fit are appended
and the status is `BASE_SUCCESS`, also when not all of them fit. -/
theorem memory_stream.write_data_holds {s : memory_stream} {bytes : List Nat}
    (h : s.holds bytes) (input : List Nat) (hne : input ≠ []) (hin : input.length < U32) :
    (bytes.length = s.data.data.length →
      s.write_data input = some (BASE_ERROR_INVALID_RESOURCE, s, some 0)) ∧
    (bytes.length < s.data.data.length →
      ∃ s', s.write_data input =
          some (BASE_SUCCESS, s', some (min input.length (s.data.data.length - bytes.length))) ∧
        s'.holds (bytes ++ input.take (s.data.data.length - bytes.length)) ∧
        s'.data.data.length = s.data.data.length) := by
  have hocc := ring_buffer.filling_occupancy h
  obtain ⟨h0, h1, h2, h3, h4⟩ := h
  have hlen : input.length ≠ 0 := by
    intro hc; exact hne (List.length_eq_zero.mp hc)
  have hcap : s.data.query_capacity = s.data.data.length := by
    unfold ring_buffer.query_capacity; exact Nat.mod_eq_of_lt h3
  constructor
  · intro hfull
    have : s.is_full = true := by
      simp [memory_stream.is_full, ring_buffer.is_full, hocc, hfull]
    simp [memory_stream.write_data, hlen, this]
  · intro hroom
    have hnf : s.is_full = false := by
      simp [memory_stream.is_full, ring_buffer.is_full, hocc, hroom]
    have hc0 : s.data.data.length ≠ 0 := by omega
    set n := min input.length (s.data.data.length - bytes.length) with hn
    have hnpos : n ≠ 0 := by
      have : 0 < n := Nat.lt_min.mpr ⟨by omega, by omega⟩
      omega
    have hnle : n ≤ s.data.data.length - bytes.length := Nat.min_le_right _ _
    have hnle2 : n ≤ input.length := Nat.min_le_left _ _
    have havail : (s.data.data.length + U32 - s.data.query_occupancy) % U32 =
        s.data.data.length - bytes.length := by
      rw [hocc]; simp only [U32] at *; omega
    have hwp : s.data.query_write_position = some bytes.length := by
      simp [ring_buffer.query_write_position, hc0, h1, Nat.mod_eq_of_lt hroom]
    have hinmod : input.length % U32 = input.length := Nat.mod_eq_of_lt hin
    have htake : input.take n = input.take (s.data.data.length - bytes.length) := by
      rw [hn, ← List.take_take]
      simp
    obtain ⟨D, hD⟩ : ∃ D, D = s.data.data.take bytes.length ++ input.take n ++
      s.data.data.drop (bytes.length + n) := ⟨_, rfl⟩
    have hlen2 : D.length = s.data.data.length := by
      rw [hD]
      simp only [List.length_append, List.length_take, List.length_drop]
      omega
    have hDtake : D.take (bytes.length + n) = bytes ++ input.take n := by
      rw [hD, take_append_drop_take _ _ _ _ h2 hnle2, h4]
    refine ⟨⟨⟨D, s.data.read_index, bytes.length + n⟩⟩, ?_, ?_, ?_⟩
    · unfold memory_stream.write_data
      simp only [BASE_PARAM_CHECK_eq, Bool.true_and, hlen, decide_False, Bool.false_eq_true,
        if_false, hnf, hcap, hc0, Bool.or_self, havail, hwp, hinmod, ← hn,
        show bytes.length + n ≤ s.data.data.length by omega, if_true, ← hD]
      have hadv : (ring_buffer.advance_write_position
          ⟨D, s.data.read_index, s.data.write_index⟩ n).2 =
          ⟨D, s.data.read_index, bytes.length + n⟩ := by
        have c1 : ring_buffer.query_capacity ⟨D, s.data.read_index, s.data.write_index⟩ =
            s.data.data.length := by
          unfold ring_buffer.query_capacity
          simp only [hlen2]; exact Nat.mod_eq_of_lt h3
        have c2 : ring_buffer.query_occupancy ⟨D, s.data.read_index, s.data.write_index⟩ =
            bytes.length := hocc
        have c3 : ¬ (s.data.data.length + U32 - bytes.length) % U32 < n := by
          simp only [U32] at *; omega
        have c4 : (s.data.write_index + n) % U32 = bytes.length + n := by
          rw [h1]; apply Nat.mod_eq_of_lt; omega
        simp only [ring_buffer.advance_write_position, BASE_PARAM_CHECK_eq, Bool.true_and, hnpos,
          decide_False, Bool.false_eq_true, if_false, c1, c2, c3, c4]
      rw [hadv]
    · refine ⟨h0, ?_, ?_, ?_, ?_⟩
      · simp only [List.length_append, List.length_take]
        omega
      · simp only [List.length_append, List.length_take, hlen2]
        omega
      · simp only [hlen2]; exact h3
      · have e : (bytes ++ List.take (s.data.data.length - bytes.length) input).length =
            bytes.length + n := by
          simp only [List.length_append, List.length_take]; omega
        rw [e, ← htake]
        exact hDtake
    · exact hlen2


/-! ## the packing loop of write_quantization_table -/

theorem sum_range_pred (f : Nat → Nat) {m : Nat} (i : Nat) (hm : 0 < m) :
    sum_range f m i = f i + sum_range f (m - 1) (i + 1) := by
  obtain ⟨k, rfl⟩ : ∃ k, m = k + 1 := ⟨m - 1, by omega⟩
  simp [sum_range]

/-- The packing loop appends exactly `packed_index_bytes` bytes to a buffer that is
being filled and has room for them. -/
theorem write_quantization_table_loop_filling (bits bw bh : Nat)
    (clamped : Nat → Nat → Option Nat) (output out' : ring_buffer) (bytes : List Nat)
    (hf : output.filling bytes)
    (hroom : bytes.length + packed_index_bytes bits bw bh ≤ output.data.length)
    (h : write_quantization_table_loop bits bw bh clamped output = some out') :
    ∃ extra, out'.filling (bytes ++ extra) ∧ extra.length = packed_index_bytes bits bw bh ∧
      out'.data.length = output.data.length := by
  unfold write_quantization_table_loop at h
  cases hloop : for_loop (fun subj => for_loop
      (write_quantization_table_step bits bw clamped subj) bw 0) bh 0 (0, output) with
  | none => rw [hloop] at h; simp at h
  | some st =>
    rw [hloop] at h
    simp only [Option.some.injEq] at h
    subst h
    -- the flush indicator and its row sums
    let flush : Nat → Nat → Nat := fun subj subi =>
      if (subi + subj * bw) % U32 ≠ 0 ∧
          8 - bits = ((bits * ((subi + subj * bw) % U32)) % U32) % 8 then 1 else 0
    let rowsum : Nat → Nat := fun subj => sum_range (flush subj) bw 0
    have htotal : packed_index_bytes bits bw bh = sum_range rowsum bh 0 := rfl
    have key := for_loop_inv_of_some
      (fun subj => for_loop (write_quantization_table_step bits bw clamped subj) bw 0)
      (fun j (st : Nat × ring_buffer) => ∃ extra, st.2.filling (bytes ++ extra) ∧
        st.2.data.length = output.data.length ∧
        extra.length + sum_range rowsum (bh - j) j = packed_index_bytes bits bw bh)
      bh 0 (0, output) st
      (by
        intro j _ hj a a' hIa hbody
        obtain ⟨extra, hfa, hla, hca⟩ := hIa
        have hj' : j < bh := by omega
        rw [sum_range_pred rowsum j (by omega)] at hca
        have inner := for_loop_inv_of_some (write_quantization_table_step bits bw clamped j)
          (fun i (st : Nat × ring_buffer) => ∃ extra, st.2.filling (bytes ++ extra) ∧
            st.2.data.length = output.data.length ∧
            extra.length + sum_range (flush j) (bw - i) i + sum_range rowsum (bh - j - 1) (j + 1) =
              packed_index_bytes bits bw bh)
          bw 0 a a'
          (by
            intro i _ hi b b' hIb hstep
            obtain ⟨ex, hfb, hlb, hcb⟩ := hIb
            have hi' : i < bw := by omega
            rw [sum_range_pred (flush j) i (by omega)] at hcb
            unfold write_quantization_table_step at hstep
            cases hci : clamped i j with
            | none => rw [hci] at hstep; simp at hstep
            | some index =>
              rw [hci] at hstep
              simp only [] at hstep
              by_cases h8 : 8 < bits
              · simp [h8] at hstep
              · simp only [h8, if_false] at hstep
                by_cases hfl : (i + j * bw) % U32 ≠ 0 ∧
                    8 - bits = ((bits * ((i + j * bw) % U32)) % U32) % 8
                · have hflush : flush j i = 1 := by simp only [flush]; rw [if_pos hfl]
                  rw [if_pos hfl] at hstep
                  simp only [Option.some.injEq] at hstep
                  subst hstep
                  rw [hflush] at hcb
                  have hroom2 : (bytes ++ ex).length < b.2.data.length := by
                    simp only [List.length_append]; omega
                  obtain ⟨f1, l1⟩ := ring_buffer.write_filling
                    ((b.1 >>> bits ||| (index <<< (8 - bits)) % U32) % 256) hfb hroom2
                  refine ⟨ex ++ [(b.1 >>> bits ||| (index <<< (8 - bits)) % U32) % 256], ?_, ?_, ?_⟩
                  · simpa using f1
                  · simp only []; omega
                  · simp only [List.length_append, List.length_singleton]
                    rw [show bw - (i + 1) = bw - i - 1 by omega]
                    omega
                · have hflush : flush j i = 0 := by simp only [flush]; rw [if_neg hfl]
                  rw [if_neg hfl] at hstep
                  simp only [Option.some.injEq] at hstep
                  subst hstep
                  rw [hflush] at hcb
                  refine ⟨ex, hfb, hlb, ?_⟩
                  rw [show bw - (i + 1) = bw - i - 1 by omega]
                  omega)
          ⟨extra, hfa, hla, by simp only [rowsum, Nat.sub_zero] at hca ⊢; omega⟩ hbody
        obtain ⟨ex, h1, h2, h3⟩ := inner
        refine ⟨ex, h1, h2, ?_⟩
        simp only [Nat.zero_add, Nat.sub_self, sum_range, Nat.add_zero] at h3
        rw [show bh - (j + 1) = bh - j - 1 by omega]
        exact h3)
      ⟨[], by simpa using hf, rfl, by simp [htotal]⟩ hloop
    obtain ⟨extra, h1, h2, h3⟩ := key
    simp only [Nat.zero_add, Nat.sub_self, sum_range, Nat.add_zero] at h3
    exact ⟨extra, h1, h3, h2⟩


/-! ## nested loops -/

/-- Two nested counted loops, seen as one pass over `nh * nw` positions in raster
order: an invariant indexed by the number of positions done. -/
theorem nested_for_loop_inv {σ : Type} (step : Nat → Nat → σ → Option σ) (I : Nat → σ → Prop)
    (nh nw : Nat) (s s' : σ)
    (hstep : ∀ j i a a', j < nh → i < nw → I (j * nw + i) a → step j i a = some a' →
      I (j * nw + i + 1) a')
    (h0 : I 0 s)
    (hloop : for_loop (fun j => for_loop (step j) nw 0) nh 0 s = some s') :
    I (nh * nw) s' := by
  have key := for_loop_inv_of_some (fun j => for_loop (step j) nw 0)
    (fun j a => I (j * nw) a) nh 0 s s'
    (by
      intro j _ hj a a' hIa hbody
      have inner := for_loop_inv_of_some (step j) (fun i a => I (j * nw + i) a) nw 0 a a'
        (by
          intro i _ hi b b' hIb hs
          exact hstep j i b b' (by omega) (by omega) hIb hs)
        (by simpa using hIa) hbody
      simp only [Nat.zero_add] at inner
      rw [Nat.add_mul, Nat.one_mul]
      exact inner)
    (by simpa using h0) hloop
  simpa using key

/-- The same for loops with early exit that ended with `BASE_SUCCESS`. -/
theorem nested_for_loop_status_inv {σ : Type} (step : Nat → Nat → σ → Option (status × σ))
    (I : Nat → σ → Prop) (nh nw : Nat) (s s' : σ)
    (hstep : ∀ j i a a', j < nh → i < nw → I (j * nw + i) a →
      step j i a = some (BASE_SUCCESS, a') → I (j * nw + i + 1) a')
    (h0 : I 0 s)
    (hloop : for_loop_status (fun j => for_loop_status (step j) nw 0) nh 0 s =
      some (BASE_SUCCESS, s')) :
    I (nh * nw) s' := by
  have key := for_loop_status_inv_of_some (fun j => for_loop_status (step j) nw 0)
    (fun j a => I (j * nw) a) nh 0 s s'
    (by
      intro j _ hj a a' hIa hbody
      have inner := for_loop_status_inv_of_some (step j) (fun i a => I (j * nw + i) a) nw 0 a a'
        (by
          intro i _ hi b b' hIb hs
          exact hstep j i b b' (by omega) (by omega) hIb hs)
        (by simpa using hIa) hbody
      simp only [Nat.zero_add] at inner
      rw [Nat.add_mul, Nat.one_mul]
      exact inner)
    (by simpa using h0) hloop
  simpa using key


/-! ## quantize_microblock and the trials of quantize_macroblock -/

theorem range_estimate_min_max_status {header : PTCX_FILE_HEADER} {input : image} {x y : Nat}
    {st : status} {range : PTCX_PIXEL_RANGE}
    (h : range_estimate_min_max header input x y = some (st, range)) : st = BASE_SUCCESS := by
  unfold range_estimate_min_max at h
  split at h
  · simp at h
  · simp only [Option.some.injEq, Prod.mk.injEq] at h
    exact h.1.symm

/-- `quantize_microblock` appends the four control bytes of the range it
estimated and `packed_index_bytes` index bytes to a buffer with room for them. -/
theorem quantize_microblock_filling (sqrt : Nat → Nat) (input : image)
    (header : PTCX_FILE_HEADER) (x y : Nat) (output out2 : ring_buffer) (error e2 : Nat)
    (bytes : List Nat) (h16 : header.quant_control_bits = 16) (hf : output.filling bytes)
    (hroom : bytes.length + (4 + packed_index_bytes header.quant_step_bits header.block_width
      header.block_height) ≤ output.data.length)
    (h : quantize_microblock sqrt input header x y output error = some (out2, e2)) :
    ∃ range q extra,
      range_estimate_min_max header input x y = some (BASE_SUCCESS, range) ∧
      estimate_quantization_error sqrt header range input x y = some q ∧
      out2.filling (bytes ++ (control_bytes range ++ extra)) ∧
      extra.length = packed_index_bytes header.quant_step_bits header.block_width
        header.block_height ∧
      out2.data.length = output.data.length ∧
      e2 = (error + (if q ≤ BASE_MAX_UINT32 then q else BASE_MAX_UINT32)) % U32 := by
  unfold quantize_microblock at h
  cases hre : range_estimate_min_max header input x y with
  | none => rw [hre] at h; simp at h
  | some r =>
    obtain ⟨st, range⟩ := r
    have hst := range_estimate_min_max_status hre
    subst hst
    rw [hre] at h
    simp only [] at h
    cases hq : estimate_quantization_error sqrt header range input x y with
    | none => rw [hq] at h; simp at h
    | some q =>
      rw [hq] at h
      simp only [] at h
      obtain ⟨f1, l1⟩ := write_control_values_filling range header h16 hf (by omega)
      cases hw : write_quantization_table sqrt header range input x y
          (write_control_values range header output) with
      | none => rw [hw] at h; simp at h
      | some o2 =>
        rw [hw] at h
        simp only [Option.some.injEq, Prod.mk.injEq] at h
        obtain ⟨ho, he⟩ := h
        subst ho
        unfold write_quantization_table at hw
        obtain ⟨extra, g1, g2, g3⟩ := write_quantization_table_loop_filling _ _ _ _ _ _ _ f1
          (by simp only [List.length_append, control_bytes, List.length_cons, List.length_nil]
              omega) hw
        refine ⟨range, q, extra, rfl, hq, ?_, g2, by omega, he.symm⟩
        simpa using g1

theorem microblock_count_le {nh nw j i : Nat} (hj : j < nh) (hi : i < nw) :
    j * nw + i + 1 ≤ nh * nw := by
  have : (j + 1) * nw ≤ nh * nw := Nat.mul_le_mul_right nw hj
  rw [Nat.add_mul, Nat.one_mul] at this
  omega

/-- One trial of `quantize_macroblock` leaves exactly `trial_bytes` bytes in its
buffer when the buffer is large enough for them. -/
theorem quantize_macroblock_trial_filling (sqrt : Nat → Nat) (input : image)
    (header : PTCX_FILE_HEADER) (px py level : Nat) (buf buf' : ring_buffer) (mse : Nat)
    (h16 : header.quant_control_bits = 16) (hcap : buf.data.length < U32)
    (hroom : trial_bytes header level ≤ buf.data.length)
    (h : quantize_macroblock_trial sqrt input header px py level buf = some (buf', mse)) :
    ∃ bytes, buf'.filling bytes ∧ bytes.length = trial_bytes header level ∧
      buf'.data.length = buf.data.length := by
  obtain ⟨f1, f2, _, _⟩ := microblock_header_fields header level
  unfold quantize_macroblock_trial at h
  split at h
  · simp at h
  · rename_i st hloop
    split at h
    · simp at h
    · simp only [Option.some.injEq, Prod.mk.injEq] at h
      obtain ⟨hb, _⟩ := h
      subst hb
      have key := nested_for_loop_inv
        (quantize_macroblock_step sqrt input (microblock_header header level) px py)
        (fun k (a : ring_buffer × Nat) => ∃ bs, a.1.filling bs ∧
          bs.length = k * (4 + packed_index_bytes header.quant_step_bits
            (microblock_header header level).block_width
            (microblock_header header level).block_height) ∧
          a.1.data.length = buf.data.length)
        (header.block_height / (microblock_header header level).block_height)
        (header.block_width / (microblock_header header level).block_width)
        (buf.empty, 0) st
        (by
          intro j i a a' hj hi hI hs
          obtain ⟨bs, hfa, hla, hca⟩ := hI
          unfold quantize_macroblock_step at hs
          have hcnt := microblock_count_le hj hi
          have hmul := Nat.mul_le_mul_right (4 + packed_index_bytes header.quant_step_bits
            (microblock_header header level).block_width
            (microblock_header header level).block_height) hcnt
          have htb : trial_bytes header level =
              header.block_height / (microblock_header header level).block_height *
                (header.block_width / (microblock_header header level).block_width) *
              (4 + packed_index_bytes header.quant_step_bits
                (microblock_header header level).block_width
                (microblock_header header level).block_height) := by
            unfold trial_bytes; ring
          obtain ⟨range, q, extra, _, _, g1, g2, g3, _⟩ := quantize_microblock_filling sqrt input
            (microblock_header header level) _ _ a.1 a'.1 a.2 a'.2 bs (by rw [f2]; exact h16) hfa
            (by rw [f1, hca, hla]; rw [Nat.add_mul, Nat.one_mul] at hmul; omega) hs
          refine ⟨bs ++ (control_bytes range ++ extra), g1, ?_, by omega⟩
          simp only [List.length_append, control_bytes, List.length_cons, List.length_nil, g2, hla,
            f1]
          ring)
        ⟨[], ring_buffer.empty_filling buf hcap, by simp, rfl⟩ hloop
      obtain ⟨bs, k1, k2, k3⟩ := key
      refine ⟨bs, k1, ?_, k3⟩
      rw [k2]; unfold trial_bytes; ring


/-! ## the headers of configure_header -/

theorem configure_header_configured (input : image) (quality : Nat) :
    (configure_header input quality).configured := by
  refine ⟨rfl, ?_⟩
  match quality with
  | 0 => exact Or.inl ⟨rfl, rfl, rfl⟩
  | 1 => exact Or.inl ⟨rfl, rfl, rfl⟩
  | 2 => exact Or.inr (Or.inl ⟨rfl, rfl, rfl⟩)
  | 3 => exact Or.inr (Or.inr (Or.inl ⟨rfl, rfl, rfl⟩))
  | 4 => exact Or.inr (Or.inr (Or.inr ⟨rfl, rfl, rfl⟩))
  | n + 5 => exact Or.inr (Or.inr (Or.inl ⟨rfl, rfl, rfl⟩))

theorem configure_header_fields (input : image) (quality : Nat) :
    (configure_header input quality).magic = 0x50544358 ∧
    (configure_header input quality).version = 2 ∧
    (configure_header input quality).header_size = 24 ∧
    (configure_header input quality).image_width = input.query_width % 65536 ∧
    (configure_header input quality).image_height = input.query_height % 65536 :=
  ⟨rfl, rfl, rfl, rfl, rfl⟩

/-- Sizes of the trial buffers for the configured headers: every trial fits the
132 bytes of a trial buffer and the 8 bytes per pixel reserved in the scratch
stream, and holds at least the bytes the decoder reads for the macroblock at
level 0; at shift 0 it is exactly that many. -/
theorem trial_bytes_configured (header : PTCX_FILE_HEADER) (hc : header.configured)
    (level : Nat) (hl : level ≤ 2) :
    trial_bytes header level ≤ 132 ∧ 1 ≤ trial_bytes header level ∧
    macroblock_bytes header 0 ≤ trial_bytes header level ∧
    trial_bytes header level ≤ 8 * (header.block_width * header.block_height) ∧
    trial_bytes header 0 = macroblock_bytes header 0 ∧
    macroblock_bytes header 0 =
      4 + packed_index_bytes header.quant_step_bits header.block_width header.block_height ∧
    microblock_header header 0 = header := by
  obtain ⟨h16, hcase⟩ := hc
  have hmh : microblock_header header 0 = header := by
    rcases hcase with ⟨h1, h2, h3⟩ | ⟨h1, h2, h3⟩ | ⟨h1, h2, h3⟩ | ⟨h1, h2, h3⟩ <;>
    · cases header
      simp only [microblock_header] at *
      subst h1 h2
      simp
  rcases hcase with ⟨h1, h2, h3⟩ | ⟨h1, h2, h3⟩ | ⟨h1, h2, h3⟩ | ⟨h1, h2, h3⟩ <;>
  · refine ⟨?_, ?_, ?_, ?_, ?_, ?_, hmh⟩ <;>
    · simp only [trial_bytes, macroblock_bytes, microblock_bytes, microblock_header, h1, h2, h3,
        h16]
      interval_cases level <;> decide


/-! ## quantize_macroblock -/

theorem ring_buffer.filling_unique {rb : ring_buffer} {a b : List Nat} (ha : rb.filling a)
    (hb : rb.filling b) : a = b := by
  obtain ⟨_, a1, _, _, a4⟩ := ha
  obtain ⟨_, b1, _, _, b4⟩ := hb
  rw [← a4, ← b4, ← a1, ← b1]

/-- What one call of `quantize_macroblock` does to its state when the table holds
only zero bytes and the scratch stream is being filled: the three trials run,
the table entry lies inside the table and the table stays zero, and the buffer
of the selected level is appended to the stream. -/
theorem quantize_macroblock_spec (sqrt : Nat → Nat) (input : image) (header : PTCX_FILE_HEADER)
    (px py : Nat)
    (st st' : (ring_buffer × ring_buffer × ring_buffer) × List Nat × memory_stream)
    (status : status) (acc : List Nat) (T : Nat)
    (hc : header.configured)
    (hb0 : st.1.1.data.length = 132) (hb1 : st.1.2.1.data.length = 132)
    (hb2 : st.1.2.2.data.length = 132)
    (htab : st.2.1 = List.replicate T 0) (hacc : st.2.2.holds acc)
    (h : quantize_macroblock sqrt input header px py st = some (status, st')) :
    status = BASE_SUCCESS ∧ st'.1.1.data.length = 132 ∧ st'.1.2.1.data.length = 132 ∧
    st'.1.2.2.data.length = 132 ∧ st'.2.1 = List.replicate T 0 ∧
    (((py / header.block_height) * (header.image_width / header.block_width) +
        px / header.block_width) % U32) >>> 2 < T ∧
    st'.2.2.data.data.length = st.2.2.data.data.length ∧
    ∃ level block b0 e0 bs0 acc', level ≤ 2 ∧ block.length = trial_bytes header level ∧
      quantize_macroblock_trial sqrt input header px py 0 st.1.1 = some (b0, e0) ∧
      b0.filling bs0 ∧ (e0 ≤ PTCX_QUALITY_DELTA → block = bs0) ∧ st'.2.2.holds acc' ∧
      (acc.length + block.length ≤ st.2.2.data.data.length → acc' = acc ++ block) := by
  have h16 := hc.1
  have hU : (132 : Nat) < U32 := by decide
  have hbwne : ¬ (header.block_width = 0 ∨ header.block_height = 0) := by
    obtain ⟨_, hcase⟩ := hc
    rcases hcase with ⟨h1, h2, _⟩ | ⟨h1, h2, _⟩ | ⟨h1, h2, _⟩ | ⟨h1, h2, _⟩ <;> omega
  unfold quantize_macroblock at h
  cases ht0 : quantize_macroblock_trial sqrt input header px py 0 st.1.1 with
  | none => rw [ht0] at h; simp at h
  | some r0 =>
    obtain ⟨b0, e0⟩ := r0
    rw [ht0] at h
    simp only [] at h
    cases ht1 : quantize_macroblock_trial sqrt input header px py 1 st.1.2.1 with
    | none => rw [ht1] at h; simp at h
    | some r1 =>
      obtain ⟨b1, e1⟩ := r1
      rw [ht1] at h
      simp only [] at h
      cases ht2 : quantize_macroblock_trial sqrt input header px py 2 st.1.2.2 with
      | none => rw [ht2] at h; simp at h
      | some r2 =>
        obtain ⟨b2, e2⟩ := r2
        rw [ht2] at h
        simp only [hbwne, if_false, htab, write_macroblock_table_entry_zero] at h
        obtain ⟨bs0, f0, l0, c0⟩ := quantize_macroblock_trial_filling sqrt input header px py 0
          st.1.1 b0 e0 h16 (by omega) (by have := (trial_bytes_configured header hc 0 (by omega)).1; omega) ht0
        obtain ⟨bs1, f1, l1, c1⟩ := quantize_macroblock_trial_filling sqrt input header px py 1
          st.1.2.1 b1 e1 h16 (by omega) (by have := (trial_bytes_configured header hc 1 (by omega)).1; omega) ht1
        obtain ⟨bs2, f2, l2, c2⟩ := quantize_macroblock_trial_filling sqrt input header px py 2
          st.1.2.2 b2 e2 h16 (by omega) (by have := (trial_bytes_configured header hc 2 (by omega)).1; omega) ht2
        by_cases hin : (((py / header.block_height) * (header.image_width / header.block_width) +
            px / header.block_width) % U32) >>> 2 < T
        · rw [if_pos hin] at h
          simp only [] at h
          -- the selected level and its bytes
          obtain ⟨level, block, chosen, hlev, hblk, hfill, hsel, hchosen⟩ :
              ∃ level block chosen, level ≤ 2 ∧ block.length = trial_bytes header level ∧
                ring_buffer.filling chosen block ∧ (e0 ≤ PTCX_QUALITY_DELTA → block = bs0) ∧
                chosen = (if (if e0 ≤ PTCX_QUALITY_DELTA then 0
                    else if e1 ≤ PTCX_QUALITY_DELTA then 1 else 2) = 0 then b0
                  else if (if e0 ≤ PTCX_QUALITY_DELTA then 0
                    else if e1 ≤ PTCX_QUALITY_DELTA then 1 else 2) = 1 then b1 else b2) := by
            by_cases h0 : e0 ≤ PTCX_QUALITY_DELTA
            · exact ⟨0, bs0, b0, by omega, l0, f0, fun _ => rfl, by simp [h0]⟩
            · by_cases h1 : e1 ≤ PTCX_QUALITY_DELTA
              · exact ⟨1, bs1, b1, by omega, l1, f1, fun hh => absurd hh h0, by simp [h0, h1]⟩
              · exact ⟨2, bs2, b2, by omega, l2, f2, fun hh => absurd hh h0, by simp [h0, h1]⟩
          rw [← hchosen, peeked_occupants_filling hfill] at h
          simp only [] at h
          obtain ⟨_, hpos, _, _, _, _, _⟩ := trial_bytes_configured header hc level hlev
          have hble := (trial_bytes_configured header hc level hlev).1
          have hne : block ≠ [] := by
            intro hnil; rw [hnil] at hblk; simp at hblk; omega
          have hlt : block.length < U32 := by rw [hblk]; omega
          obtain ⟨wfull, wroom⟩ := memory_stream.write_data_holds hacc block hne hlt
          have haccle : acc.length ≤ st.2.2.data.data.length := hacc.2.2.1
          by_cases hfull : acc.length = st.2.2.data.data.length
          · rw [wfull hfull] at h
            simp only [Option.some.injEq, Prod.mk.injEq] at h
            obtain ⟨hs, hst⟩ := h
            subst hst
            refine ⟨hs.symm, c0 ▸ hb0, c1 ▸ hb1, c2 ▸ hb2, rfl, hin, rfl, level, block, b0, e0, bs0,
              acc, hlev, hblk, rfl, f0, hsel, hacc, ?_⟩
            intro hroom; omega
          · obtain ⟨s', hw, hh, hl⟩ := wroom (by omega)
            rw [hw] at h
            simp only [Option.some.injEq, Prod.mk.injEq] at h
            obtain ⟨hs, hst⟩ := h
            subst hst
            refine ⟨hs.symm, c0 ▸ hb0, c1 ▸ hb1, c2 ▸ hb2, rfl, hin, hl, level, block, b0, e0, bs0,
              _, hlev, hblk, rfl, f0, hsel, hh, ?_⟩
            intro hroom
            rw [List.take_of_length_le (by omega)]
        · rw [if_neg hin] at h
          simp at h


/-! ## quantize_worker -/

theorem strided_count_of_multiple {bound step : Nat} (hs : 0 < step) (hd : bound % step = 0) :
    strided_count bound step = some (bound / step) := by
  by_cases hb : bound = 0
  · subst hb; simp [strided_count]
  · exact strided_count_of_dvd (by omega) hs hd

theorem raster_unique {cols j i j2 i2 : Nat} (hi : i < cols) (hi2 : i2 < cols)
    (h : j2 * cols + i2 = j * cols + i) : j2 = j ∧ i2 = i := by
  have hc : 0 < cols := by omega
  have e1 : (j2 * cols + i2) / cols = j2 := by
    rw [Nat.mul_comm, Nat.mul_add_div hc, Nat.div_eq_of_lt hi2]; simp
  have e2 : (j * cols + i) / cols = j := by
    rw [Nat.mul_comm, Nat.mul_add_div hc, Nat.div_eq_of_lt hi]; simp
  have hj : j2 = j := by rw [← e1, ← e2, h]
  subst hj
  exact ⟨rfl, by omega⟩

/-- The block sizes of a configured header divide every multiple of 16, also
after the multiple is cut to 16 bits. -/
theorem configured_divides (header : PTCX_FILE_HEADER) (hc : header.configured) {n : Nat}
    (hn : n % 16 = 0) :
    2 ≤ header.block_width ∧ 2 ≤ header.block_height ∧
    header.block_width ≤ 16 ∧ header.block_height ≤ 16 ∧
    n % header.block_width = 0 ∧ n % header.block_height = 0 ∧
    (n % 65536) % header.block_width = 0 ∧ (n % 65536) % header.block_height = 0 ∧
    (n % 65536) % 2 = 0 ∧
    (n % 65536) / header.block_width ≤ n / header.block_width ∧
    (n % 65536) / header.block_height ≤ n / header.block_height ∧
    (n / header.block_width = (n % 65536) / header.block_width → n = n % 65536) ∧
    (n / header.block_height = (n % 65536) / header.block_height → n = n % 65536) := by
  obtain ⟨_, hcase⟩ := hc
  rcases hcase with ⟨h1, h2, _⟩ | ⟨h1, h2, _⟩ | ⟨h1, h2, _⟩ | ⟨h1, h2, _⟩ <;>
    (rw [h1, h2]; omega)

/-- The scratch stream of `prepare_temporary_buffers` has room for 8 bytes per pixel. -/
theorem scratch_capacity_eq {w h bw bh : Nat}
    (hw : w % bw = 0) (hh : h % bh = 0) (h2 : w % 2 = 0) :
    (h / bh) * (w / bw) * (8 * (bw * bh)) = (w / 2) * (h * 2) * 8 := by
  have e1 : bw * (w / bw) = w := by have := Nat.div_add_mod w bw; omega
  have e2 : bh * (h / bh) = h := by have := Nat.div_add_mod h bh; omega
  have e3 : 2 * (w / 2) = w := by omega
  calc (h / bh) * (w / bw) * (8 * (bw * bh))
      = 8 * (bw * (w / bw)) * (bh * (h / bh)) := by ring
    _ = 8 * (2 * (w / 2)) * h := by rw [e1, e2, e3]
    _ = (w / 2) * (h * 2) * 8 := by ring

/-- When every table write of a pass over `rows x cols` macroblocks lies inside
the table of a `wb x hb` grid, the pass covers exactly that grid, and the number
of macroblocks is a multiple of 4. -/
theorem grid_of_table_writes {wb hb rows cols T : Nat}
    (hT : T = (((wb * hb) <<< 1) % U32) >>> 3) (hT0 : T ≠ 0) (hlt : wb * hb < 2147483648)
    (hr : hb ≤ rows) (hc : wb ≤ cols)
    (hin : ∀ j i, j < rows → i < cols → ((j * wb + i) % U32) >>> 2 < T) :
    rows = hb ∧ cols = wb ∧ (wb * hb) % 4 = 0 := by
  have hT4 : T = (wb * hb) / 4 := by
    rw [hT]
    simp only [U32, Nat.shiftLeft_eq, Nat.shiftRight_eq_div_pow]
    rw [Nat.mod_eq_of_lt (by omega)]
    omega
  have hn : 4 ≤ wb * hb := by omega
  have hwb : 0 < wb := by
    rcases Nat.eq_zero_or_pos wb with h | h
    · rw [h] at hn; simp at hn
    · exact h
  have hhb : 0 < hb := by
    rcases Nat.eq_zero_or_pos hb with h | h
    · rw [h] at hn; simp at hn
    · exact h
  have key : ∀ j i, j < rows → i < cols → j * wb + i < 2147483648 →
      (j * wb + i) / 4 < (wb * hb) / 4 := by
    intro j i hj hi hb2
    have := hin j i hj hi
    simp only [U32, Nat.shiftRight_eq_div_pow] at this
    rw [Nat.mod_eq_of_lt (by omega)] at this
    omega
  have e0 : (hb - 1) * wb + wb = wb * hb := by
    have : hb - 1 + 1 = hb := by omega
    calc (hb - 1) * wb + wb = (hb - 1 + 1) * wb := by ring
      _ = wb * hb := by rw [this]; ring
  have hcols : cols = wb := by
    by_contra hne
    have := key (hb - 1) wb (by omega) (by omega) (by omega)
    rw [e0] at this
    omega
  have hrows : rows = hb := by
    by_contra hne
    have := key hb 0 (by omega) (by omega) (by rw [Nat.mul_comm]; omega)
    rw [Nat.mul_comm] at this
    omega
  refine ⟨hrows, hcols, ?_⟩
  have := key (hb - 1) (wb - 1) (by omega) (by omega) (by omega)
  have e1 : (hb - 1) * wb + (wb - 1) = wb * hb - 1 := by omega
  rw [e1] at this
  omega

theorem trial_buffer_eq :
    ring_buffer.new.resize_capacity PTCX_MAX_BLOCK_DATA_SIZE =
      (132, ⟨List.replicate 132 0, 0, 0⟩) := by decide

/-- What a successful `quantize_worker` leaves behind when it starts from the
zero table and the empty scratch stream that `prepare_temporary_buffers` sets up:
the table is still zero, the image is as large as the header says, the number of
macroblocks is a multiple of 4, and the scratch stream holds the blocks of the
macroblocks in raster order. `R` is any property of the scratch contents that
appending the block of a macroblock carries over. -/
theorem quantize_worker_spec (sqrt : Nat → Nat) (input : image) (header : PTCX_FILE_HEADER)
    (T : Nat) (out_stream : memory_stream) (table' : List Nat) (scratch' : memory_stream)
    (R : Nat → List Nat → Prop)
    (hc : header.configured)
    (hW : input.query_width % 16 = 0) (hH : input.query_height % 16 = 0)
    (hw : header.image_width = input.query_width % 65536)
    (hh : header.image_height = input.query_height % 65536)
    (hT : T = ((((header.image_width / header.block_width) *
      (header.image_height / header.block_height)) <<< 1) % U32) >>> 3)
    (hT0 : T ≠ 0)
    (hcount : (header.image_width / header.block_width) *
      (header.image_height / header.block_height) < 2147483648)
    (hs : out_stream.holds [])
    (hcap : out_stream.data.data.length = (header.image_width / 2) * (header.image_height * 2) * 8)
    (hR0 : R 0 [])
    (hRstep : ∀ j i acc block level b b0 e0 bs0,
      j < input.query_height / header.block_height →
      i < input.query_width / header.block_width →
      R (j * (input.query_width / header.block_width) + i) acc →
      level ≤ 2 → block.length = trial_bytes header level → b.data.length = 132 →
      quantize_macroblock_trial sqrt input header (i * header.block_width)
        (j * header.block_height) 0 b = some (b0, e0) →
      b0.filling bs0 → (e0 ≤ PTCX_QUALITY_DELTA → block = bs0) →
      R (j * (input.query_width / header.block_width) + i + 1) (acc ++ block))
    (h : quantize_worker sqrt input header (List.replicate T 0) out_stream =
      some (BASE_SUCCESS, table', scratch')) :
    table' = List.replicate T 0 ∧ input.query_width = header.image_width ∧
    input.query_height = header.image_height ∧
    ((header.image_width / header.block_width) *
      (header.image_height / header.block_height)) % 4 = 0 ∧
    ∃ acc, scratch'.holds acc ∧ acc.length ≤ 8 * (header.image_width * header.image_height) ∧
      R ((header.image_height / header.block_height) *
        (header.image_width / header.block_width)) acc := by
  obtain ⟨hbw2, hbh2, hbw16, hbh16, dW, _, dw, _, ew, leW, _, eqW, _⟩ :=
    configured_divides header hc hW
  obtain ⟨_, _, _, _, _, dH, _, dh, _, _, leH, _, eqH⟩ := configured_divides header hc hH
  rw [← hw] at dw ew leW eqW
  rw [← hh] at dh leH eqH
  unfold quantize_worker at h
  rw [trial_buffer_eq] at h
  rw [strided_count_of_multiple (by omega) dH, strided_count_of_multiple (by omega) dW] at h
  simp only [PTCX_MAX_BLOCK_DATA_SIZE, ne_eq, not_true_eq_false, or_self, if_false] at h
  generalize hrows : input.query_height / header.block_height = rows at h hRstep leH eqH
  generalize hcols : input.query_width / header.block_width = cols at h hRstep leW eqW
  cases hloop : for_loop_status (fun j => for_loop_status
      (quantize_worker_step sqrt input header j) cols 0) rows 0
      ((⟨List.replicate 132 0, 0, 0⟩, ⟨List.replicate 132 0, 0, 0⟩,
        ⟨List.replicate 132 0, 0, 0⟩), List.replicate T 0, out_stream) with
  | none => rw [hloop] at h; simp at h
  | some r =>
    obtain ⟨st, a⟩ := r
    rw [hloop] at h
    simp only [Option.some.injEq, Prod.mk.injEq] at h
    obtain ⟨hst, htab, hscr⟩ := h
    have key := nested_for_loop_status_inv (quantize_worker_step sqrt input header)
      (fun k (a : (ring_buffer × ring_buffer × ring_buffer) × List Nat × memory_stream) =>
        a.1.1.data.length = 132 ∧ a.1.2.1.data.length = 132 ∧ a.1.2.2.data.length = 132 ∧
        a.2.1 = List.replicate T 0 ∧
        a.2.2.data.data.length = (header.image_width / 2) * (header.image_height * 2) * 8 ∧
        (∀ j i, j < rows → i < cols → j * cols + i < k →
          ((j * (header.image_width / header.block_width) + i) % U32) >>> 2 < T) ∧
        ∃ acc, a.2.2.holds acc ∧
          (k * (8 * (header.block_width * header.block_height)) ≤
              (header.image_width / 2) * (header.image_height * 2) * 8 →
            acc.length ≤ k * (8 * (header.block_width * header.block_height)) ∧ R k acc))
      rows cols _ a
      (by
        intro j i a a' hj hi hI hstep
        obtain ⟨l0, l1, l2, ht, hcp, hinb, acc, hacc, hRk⟩ := hI
        unfold quantize_worker_step at hstep
        cases hq : quantize_macroblock sqrt input header (i * header.block_width)
            (j * header.block_height) a with
        | none => rw [hq] at hstep; simp at hstep
        | some r =>
          obtain ⟨s1, a1⟩ := r
          rw [hq] at hstep
          obtain ⟨e1, m0, m1, m2, mt, minb, mcap, level, block, b0, e0, bs0, acc', hlev, hblk,
            htrial, hfill, hsel, hacc', happ⟩ :=
            quantize_macroblock_spec sqrt input header _ _ a a1 s1 acc T hc l0 l1 l2 ht hacc hq
          subst e1
          simp only [base_failed_success, Bool.false_eq_true, if_false, Option.some.injEq,
            Prod.mk.injEq, true_and] at hstep
          subst hstep
          rw [Nat.mul_div_cancel _ (by omega : 0 < header.block_height),
            Nat.mul_div_cancel _ (by omega : 0 < header.block_width)] at minb
          refine ⟨m0, m1, m2, mt, by rw [mcap, hcp], ?_, acc', hacc', ?_⟩
          · intro j2 i2 hj2 hi2 hlt
            by_cases hold : j2 * cols + i2 < j * cols + i
            · exact hinb j2 i2 hj2 hi2 hold
            · obtain ⟨ej, ei⟩ := raster_unique hi hi2 (show j2 * cols + i2 = j * cols + i by omega)
              subst ej; subst ei
              exact minb
          · intro hroom
            have hB := (trial_bytes_configured header hc level hlev).2.2.2.1
            have hk : (j * cols + i) * (8 * (header.block_width * header.block_height)) ≤
                (header.image_width / 2) * (header.image_height * 2) * 8 := by
              rw [Nat.add_mul, Nat.one_mul] at hroom; omega
            obtain ⟨hlen, hR⟩ := hRk hk
            have hfit : acc.length + block.length ≤ a.2.2.data.data.length := by
              rw [hcp, hblk]; rw [Nat.add_mul, Nat.one_mul] at hroom; omega
            rw [happ hfit]
            refine ⟨?_, hRstep j i acc block level a.1.1 b0 e0 bs0 hj hi hR hlev hblk l0 htrial
              hfill hsel⟩
            rw [List.length_append, hblk, Nat.add_mul, Nat.one_mul]; omega)
      (by
        refine ⟨by simp, by simp, by simp, rfl, hcap, ?_, [], hs, ?_⟩
        · intro j i _ _ hlt; omega
        · intro _; exact ⟨by simp, hR0⟩)
      hloop
    obtain ⟨_, _, _, ht, hcp, hinb, acc, hacc, hRk⟩ := key
    obtain ⟨gr, gc, g4⟩ := @grid_of_table_writes (header.image_width / header.block_width)
      (header.image_height / header.block_height) rows cols T hT hT0 hcount leH leW
      (fun j i hj hi => hinb j i hj hi (microblock_count_le hj hi))
    have eW := eqW gc
    have eH := eqH gr
    have hsz := @scratch_capacity_eq header.image_width header.image_height
      header.block_width header.block_height dw dh ew
    rw [gr, gc] at hRk
    obtain ⟨hlen, hR⟩ := hRk (by rw [hsz])
    refine ⟨ht, eW, eH, g4, acc, hacc, ?_, hR⟩
    · rw [hsz] at hlen
      have e3 : 2 * (header.image_width / 2) = header.image_width := by omega
      calc acc.length ≤ (header.image_width / 2) * (header.image_height * 2) * 8 := hlen
        _ = 8 * ((2 * (header.image_width / 2)) * header.image_height) := by ring
        _ = _ := by rw [e3]


/-! ## prepare_temporary_buffers, quantize_image, save_ptcx -/

theorem vector_resize_nil (n : Nat) : vector_resize [] n = List.replicate n 0 := by
  simp [vector_resize]

/-- A stream right after `resize_capacity` is empty and has the capacity asked for. -/
theorem memory_stream.resize_capacity_holds (cap : Nat) (hcap : cap ≤ BASE_MAX_ARRAY_SIZE) :
    (memory_stream.new.resize_capacity cap).1 = cap ∧
    (memory_stream.new.resize_capacity cap).2.holds [] ∧
    (memory_stream.new.resize_capacity cap).2.data.data.length = cap := by
  have h1 : ¬ (BASE_MAX_ARRAY_SIZE < cap) := by omega
  have h2 : cap < U32 := by
    have : BASE_MAX_ARRAY_SIZE < U32 := by decide
    omega
  simp [memory_stream.resize_capacity, ring_buffer.resize_capacity, h1, memory_stream.new,
    ring_buffer.new, vector_resize_nil, memory_stream.holds, ring_buffer.filling, h2]

theorem memory_stream.resize_capacity_too_large (cap : Nat) (hcap : BASE_MAX_ARRAY_SIZE < cap) :
    (memory_stream.new.resize_capacity cap).1 = 0 := by
  simp [memory_stream.resize_capacity, ring_buffer.resize_capacity, hcap]

/-- The bytes behind the read pointer of a stream that is being filled are the
bytes it holds. -/
theorem memory_stream.read_pointer_bytes_holds {s : memory_stream} {bytes : List Nat}
    (h : s.holds bytes) (hne : s.data.data.length ≠ 0) : s.read_pointer_bytes = some bytes := by
  have hocc := ring_buffer.filling_occupancy h
  obtain ⟨h0, h1, h2, h3, h4⟩ := h
  simp [memory_stream.read_pointer_bytes, ring_buffer.query_read_position, hne, h0,
    memory_stream.query_occupancy, hocc, h2, h4]

/-- What a successful `prepare_temporary_buffers` sets up: a zero table of
`count / 4 >= 1` bytes and an empty scratch stream of 8 bytes per pixel. -/
theorem prepare_temporary_buffers_spec (header : PTCX_FILE_HEADER) (st : status)
    (s : memory_stream) (t : List Nat)
    (h : prepare_temporary_buffers header memory_stream.new [] = some (st, s, t))
    (hst : base_failed st = false) :
    (header.image_width / header.block_width) * (header.image_height / header.block_height) <
      2147483648 ∧
    t = List.replicate (((((header.image_width / header.block_width) *
      (header.image_height / header.block_height)) <<< 1) % U32) >>> 3) 0 ∧
    (((((header.image_width / header.block_width) *
      (header.image_height / header.block_height)) <<< 1) % U32) >>> 3) ≠ 0 ∧
    s.holds [] ∧
    s.data.data.length = (header.image_width / 2) * (header.image_height * 2) * 8 ∧
    (header.image_width / 2) * (header.image_height * 2) * 8 ≤ BASE_MAX_ARRAY_SIZE := by
  unfold prepare_temporary_buffers at h
  simp only [] at h
  split at h
  · simp at h
  split at h
  · simp at h
  split at h
  · simp at h
  rename_i hcount
  split at h
  · simp only [base_post_error_eq, Option.some.injEq, Prod.mk.injEq] at h
    rw [← h.1] at hst; simp [base_failed] at hst
  rename_i hT0
  split at h
  · simp only [base_post_error_eq, Option.some.injEq, Prod.mk.injEq] at h
    rw [← h.1] at hst; simp [base_failed] at hst
  split at h
  · simp only [base_post_error_eq, Option.some.injEq, Prod.mk.injEq] at h
    rw [← h.1] at hst; simp [base_failed] at hst
  rename_i hres
  simp only [Option.some.injEq, Prod.mk.injEq] at h
  obtain ⟨_, hs, ht⟩ := h
  have hle : (header.image_width / 2) * (header.image_height * 2) * 8 ≤ BASE_MAX_ARRAY_SIZE := by
    by_contra hgt
    have := memory_stream.resize_capacity_too_large _ (Nat.lt_of_not_le hgt)
    rw [this] at hres
    simp only [ne_eq, Decidable.not_not] at hres
    rw [hres] at hgt
    exact hgt (Nat.zero_le _)
  obtain ⟨_, r2, r3⟩ := memory_stream.resize_capacity_holds _ hle
  subst hs; subst ht
  exact ⟨by omega, vector_resize_nil _, hT0, r2, r3, hle⟩


/-! ## quantize_image -/

theorem base_failed_eq_false {s : status} (h : base_failed s = false) : s = BASE_SUCCESS := by
  simpa [base_failed] using h

/-- What a successful `quantize_image` does: the stream it was handed receives
the zero table and then the contents of the scratch stream, as far as they fit. -/
theorem quantize_image_spec (sqrt : Nat → Nat) (input : image) (header : PTCX_FILE_HEADER)
    (out_stream out' : memory_stream) (pre : List Nat) (R : Nat → List Nat → Prop)
    (hc : header.configured)
    (hW : input.query_width % 16 = 0) (hH : input.query_height % 16 = 0)
    (hw : header.image_width = input.query_width % 65536)
    (hh : header.image_height = input.query_height % 65536)
    (hpre : out_stream.holds pre)
    (hR0 : R 0 [])
    (hRstep : ∀ j i acc block level b b0 e0 bs0,
      j < input.query_height / header.block_height →
      i < input.query_width / header.block_width →
      R (j * (input.query_width / header.block_width) + i) acc →
      level ≤ 2 → block.length = trial_bytes header level → b.data.length = 132 →
      quantize_macroblock_trial sqrt input header (i * header.block_width)
        (j * header.block_height) 0 b = some (b0, e0) →
      b0.filling bs0 → (e0 ≤ PTCX_QUALITY_DELTA → block = bs0) →
      R (j * (input.query_width / header.block_width) + i + 1) (acc ++ block))
    (h : quantize_image sqrt input header out_stream = some (BASE_SUCCESS, out')) :
    ∃ T acc st1 s0 scratch,
      T = ((header.image_width / header.block_width) *
        (header.image_height / header.block_height)) >>> 2 ∧ T ≠ 0 ∧
      ((header.image_width / header.block_width) *
        (header.image_height / header.block_height)) % 4 = 0 ∧
      input.query_width = header.image_width ∧ input.query_height = header.image_height ∧
      8 * (header.image_width * header.image_height) ≤ BASE_MAX_ARRAY_SIZE ∧
      acc.length ≤ 8 * (header.image_width * header.image_height) ∧
      R ((header.image_height / header.block_height) *
        (header.image_width / header.block_width)) acc ∧
      prepare_temporary_buffers header memory_stream.new [] =
        some (st1, s0, List.replicate T 0) ∧
      quantize_worker sqrt input header (List.replicate T 0) s0 =
        some (BASE_SUCCESS, List.replicate T 0, scratch) ∧
      scratch.holds acc ∧
      (pre.length + T + acc.length ≤ out_stream.data.data.length →
        out'.holds (pre ++ List.replicate T 0 ++ acc)) := by
  unfold quantize_image at h
  split at h
  · simp at h
  cases hprep : prepare_temporary_buffers header memory_stream.new [] with
  | none => rw [hprep] at h; simp at h
  | some r =>
    obtain ⟨st1, s0, table⟩ := r
    rw [hprep] at h
    simp only [] at h
    by_cases hf1 : base_failed st1 = true
    · rw [if_pos hf1] at h; simp at h
    rw [if_neg hf1] at h
    have hf1 : base_failed st1 = false := by simpa using hf1
    obtain ⟨hcount, htab, hT0, hs0, hcap0, hmax⟩ :=
      prepare_temporary_buffers_spec header st1 s0 table hprep hf1
    subst htab
    cases hwork : quantize_worker sqrt input header (List.replicate (((((header.image_width /
        header.block_width) * (header.image_height / header.block_height)) <<< 1) % U32) >>> 3) 0)
        s0 with
    | none => rw [hwork] at h; simp at h
    | some r =>
      obtain ⟨st2, table', scratch⟩ := r
      rw [hwork] at h
      simp only [] at h
      by_cases hf2 : base_failed st2 = true
      · rw [if_pos hf2] at h; simp at h
      rw [if_neg hf2] at h
      have hf2 : st2 = BASE_SUCCESS := base_failed_eq_false (by simpa using hf2)
      subst hf2
      obtain ⟨ht', eW, eH, h4, acc, hacc, hlen, hR⟩ :=
        quantize_worker_spec sqrt input header _ s0 table' scratch R hc hW hH hw hh rfl hT0
          hcount hs0 hcap0 hR0 hRstep hwork
      subst ht'
      have hT4 : (((((header.image_width / header.block_width) *
          (header.image_height / header.block_height)) <<< 1) % U32) >>> 3) =
          ((header.image_width / header.block_width) *
            (header.image_height / header.block_height)) >>> 2 := by
        simp only [U32, Nat.shiftLeft_eq, Nat.shiftRight_eq_div_pow]
        rw [Nat.mod_eq_of_lt (by omega)]
        omega
      rw [hT4] at h hprep hwork hT0 ⊢
      generalize hT : ((header.image_width / header.block_width) *
            (header.image_height / header.block_height)) >>> 2 = T at h hprep hwork hT0 ⊢
      have hw2 : header.image_width % 2 = 0 := by rw [hw]; omega
      have e3 : 2 * (header.image_width / 2) = header.image_width := by omega
      have hcapeq : (header.image_width / 2) * (header.image_height * 2) * 8 =
          8 * (header.image_width * header.image_height) := by
        calc (header.image_width / 2) * (header.image_height * 2) * 8
            = 8 * ((2 * (header.image_width / 2)) * header.image_height) := by ring
          _ = _ := by rw [e3]
      have hTlt : T < U32 := by
        rw [← hT]; simp only [U32, Nat.shiftRight_eq_div_pow]; omega
      have hU : BASE_MAX_ARRAY_SIZE < U32 := by decide
      refine ⟨T, acc, st1, s0, scratch, rfl, hT0, h4, eW, eH, by rw [← hcapeq]; exact hmax,
        hlen, hR, rfl, hwork, hacc, ?_⟩
      intro hfit
      -- the table write
      obtain ⟨wfull, wroom⟩ := memory_stream.write_data_holds hpre (List.replicate T 0)
        (by intro hnil; have := congrArg List.length hnil; simp at this; exact hT0 this)
        (by simpa using hTlt)
      by_cases hfull : pre.length = out_stream.data.data.length
      · omega
      have hprele : pre.length ≤ out_stream.data.data.length := hpre.2.2.1
      obtain ⟨s1, hw1, hh1, hl1⟩ := wroom (by omega)
      rw [hw1] at h
      simp only [base_failed_success, Bool.false_eq_true, if_false] at h
      rw [List.take_of_length_le (by simp; omega)] at hh1
      -- the scratch bytes
      by_cases hz : scratch.data.data.length = 0
      · simp [memory_stream.read_pointer_bytes, ring_buffer.query_read_position, hz] at h
      rw [memory_stream.read_pointer_bytes_holds hacc hz] at h
      simp only [] at h
      by_cases hnil : acc = []
      · subst hnil
        simp [memory_stream.write_data, base_failed] at h
      obtain ⟨vfull, vroom⟩ := memory_stream.write_data_holds hh1 acc hnil
        (by have := hlen; omega)
      have hl2 : (pre ++ List.replicate T 0).length = pre.length + T := by simp
      by_cases hfull2 : (pre ++ List.replicate T 0).length = s1.data.data.length
      · rw [vfull hfull2] at h
        simp [base_failed] at h
      obtain ⟨s2, hw2, hh2, _⟩ := vroom (by have := hh1.2.2.1; omega)
      rw [hw2] at h
      simp only [base_failed_success, Bool.false_eq_true, if_false, Option.some.injEq,
        Prod.mk.injEq, true_and] at h
      subst h
      rw [List.take_of_length_le (by rw [hl2, hl1]; omega)] at hh2
      exact hh2


/-! ## the header on the wire -/

theorem header_bytes_length (h : PTCX_FILE_HEADER) : (header_bytes h).length = 24 := by
  simp [header_bytes, bytes_of_u16, bytes_of_u32]

/-- Reading back the 24 bytes of a header whose fields fit their types gives the
header. -/
theorem header_of_bytes_header_bytes (h : PTCX_FILE_HEADER)
    (h1 : h.magic < 4294967296) (h2 : h.version < 65536) (h3 : h.header_size < 65536)
    (h4 : h.image_width < 65536) (h5 : h.image_height < 65536) (h6 : h.image_depth < 65536)
    (h7 : h.block_width < 65536) (h8 : h.block_height < 65536)
    (h9 : h.quant_step_bits < 256) (h10 : h.quant_control_bits < 256)
    (h11 : h.source_format < 4294967296) :
    header_of_bytes (header_bytes h) = h := by
  obtain ⟨a1, a2, a3, a4, a5, a6, a7, a8, a9, a10, a11⟩ := h
  simp only at h1 h2 h3 h4 h5 h6 h7 h8 h9 h10 h11
  simp only [header_of_bytes, header_bytes, bytes_of_u16, bytes_of_u32, u16_at, u32_at,
    List.cons_append, List.nil_append, List.getD_cons_zero, List.getD_cons_succ,
    PTCX_FILE_HEADER.mk.injEq]
  refine ⟨?_, ?_, ?_, ?_, ?_, ?_, ?_, ?_, ?_, ?_, ?_⟩ <;> omega

theorem configure_header_round_trip (input : image) (quality : Nat) :
    header_of_bytes (header_bytes (configure_header input quality)) =
      configure_header input quality := by
  obtain ⟨h16, hcase⟩ := configure_header_configured input quality
  obtain ⟨f1, f2, f3, f4, f5⟩ := configure_header_fields input quality
  have f6 : (configure_header input quality).image_depth = 1 := rfl
  have f7 : (configure_header input quality).source_format =
      input.query_image_format.value := rfl
  have f8 : input.query_image_format.value < 2 := by
    cases input.query_image_format <;> decide
  apply header_of_bytes_header_bytes
  · rw [f1]; decide
  · rw [f2]; decide
  · rw [f3]; decide
  · rw [f4]; omega
  · rw [f5]; omega
  · rw [f6]; decide
  · rcases hcase with ⟨h1, _, _⟩ | ⟨h1, _, _⟩ | ⟨h1, _, _⟩ | ⟨h1, _, _⟩ <;> omega
  · rcases hcase with ⟨_, h1, _⟩ | ⟨_, h1, _⟩ | ⟨_, h1, _⟩ | ⟨_, h1, _⟩ <;> omega
  · rcases hcase with ⟨_, _, h1⟩ | ⟨_, _, h1⟩ | ⟨_, _, h1⟩ | ⟨_, _, h1⟩ <;> omega
  · omega
  · rw [f7]; omega

/-- With a table of zero bytes every macroblock is read at level 0. -/
theorem stream_bytes_needed_zero (header : PTCX_FILE_HEADER)
    (h4 : ((header.image_width / header.block_width) *
      (header.image_height / header.block_height)) % 4 = 0)
    (hlt : (header.image_width / header.block_width) *
      (header.image_height / header.block_height) < 2147483648) :
    stream_bytes_needed header (List.replicate (((header.image_width / header.block_width) *
      (header.image_height / header.block_height)) >>> 2) 0) =
      (header.image_height / header.block_height) *
        ((header.image_width / header.block_width) * macroblock_bytes header 0) := by
  unfold stream_bytes_needed
  rw [sum_range_congr (g := fun _ => (header.image_width / header.block_width) *
    macroblock_bytes header 0) _ 0]
  · exact sum_range_const _ _ _
  · intro jb _ hjb
    rw [sum_range_congr (g := fun _ => macroblock_bytes header 0) _ 0]
    · exact sum_range_const _ _ _
    · intro ib _ hib
      rw [query_macroblock_shift_zero,
        if_pos (table_index_in_bounds (by omega) (by omega) h4 hlt)]
      rfl

/-- What a successful `save_ptcx` into an empty stream produces: the header, a
table of zero bytes and the blocks of the macroblocks, as far as they fit. -/
theorem save_ptcx_spec (sqrt : Nat → Nat) (input : image) (quality : Nat)
    (output out' : memory_stream) (R : Nat → List Nat → Prop)
    (hout : output.holds [])
    (hR0 : R 0 [])
    (hRstep : ∀ j i acc block level b b0 e0 bs0,
      j < input.query_height / (configure_header input quality).block_height →
      i < input.query_width / (configure_header input quality).block_width →
      R (j * (input.query_width / (configure_header input quality).block_width) + i) acc →
      level ≤ 2 → block.length = trial_bytes (configure_header input quality) level →
      b.data.length = 132 →
      quantize_macroblock_trial sqrt input (configure_header input quality)
        (i * (configure_header input quality).block_width)
        (j * (configure_header input quality).block_height) 0 b = some (b0, e0) →
      b0.filling bs0 → (e0 ≤ PTCX_QUALITY_DELTA → block = bs0) →
      R (j * (input.query_width / (configure_header input quality).block_width) + i + 1)
        (acc ++ block))
    (h : save_ptcx sqrt input quality output = some (BASE_SUCCESS, out')) :
    ∃ T acc,
      T = (((configure_header input quality).image_width /
          (configure_header input quality).block_width) *
        ((configure_header input quality).image_height /
          (configure_header input quality).block_height)) >>> 2 ∧ T ≠ 0 ∧
      (((configure_header input quality).image_width /
          (configure_header input quality).block_width) *
        ((configure_header input quality).image_height /
          (configure_header input quality).block_height)) % 4 = 0 ∧
      input.query_width = (configure_header input quality).image_width ∧
      input.query_height = (configure_header input quality).image_height ∧
      input.query_width % 16 = 0 ∧ input.query_height % 16 = 0 ∧
      8 * ((configure_header input quality).image_width *
        (configure_header input quality).image_height) ≤ BASE_MAX_ARRAY_SIZE ∧
      acc.length ≤ 8 * ((configure_header input quality).image_width *
        (configure_header input quality).image_height) ∧
      R (((configure_header input quality).image_height /
          (configure_header input quality).block_height) *
        ((configure_header input quality).image_width /
          (configure_header input quality).block_width)) acc ∧
      encoding_size sqrt input quality = some (24 + T + acc.length) ∧
      (24 + T + acc.length ≤ output.data.data.length →
        out'.holds (header_bytes (configure_header input quality) ++ List.replicate T 0 ++
          acc)) := by
  have hc := configure_header_configured input quality
  obtain ⟨_, _, _, f4, f5⟩ := configure_header_fields input quality
  unfold save_ptcx at h
  split at h
  · simp at h
  split at h
  · simp at h
  split at h
  · simp at h
  rename_i hdims
  have hW : input.query_width % 16 = 0 := by
    by_contra hne; exact hdims (Or.inl hne)
  have hH : input.query_height % 16 = 0 := by
    by_contra hne; exact hdims (Or.inr hne)
  have hlen := header_bytes_length (configure_header input quality)
  obtain ⟨wfull, wroom⟩ := memory_stream.write_data_holds hout
    (header_bytes (configure_header input quality))
    (by intro hnil; rw [hnil] at hlen; simp at hlen)
    (by rw [hlen]; decide)
  by_cases hfull : ([] : List Nat).length = output.data.data.length
  · rw [wfull hfull] at h
    simp [base_failed] at h
  have h0 : ([] : List Nat).length = 0 := rfl
  obtain ⟨s1, hw1, hh1, hl1⟩ := wroom (by omega)
  rw [hw1] at h
  simp only [base_failed_success, Bool.false_eq_true, if_false, sizeof_PTCX_FILE_HEADER] at h
  split at h
  · simp at h
  rename_i hwritten
  have hcap24 : 24 ≤ output.data.data.length := by
    simp only [ne_eq, Option.some.injEq, Decidable.not_not, hlen, h0] at hwritten
    omega
  rw [List.take_of_length_le (by rw [hlen]; omega), List.nil_append] at hh1
  cases hq : quantize_image sqrt input (configure_header input quality) s1 with
  | none => rw [hq] at h; simp at h
  | some q =>
    obtain ⟨st, o⟩ := q
    rw [hq] at h
    simp only [] at h
    by_cases hf : base_failed st = true
    · rw [if_pos hf] at h; simp at h
    rw [if_neg hf] at h
    have hst : st = BASE_SUCCESS := base_failed_eq_false (by simpa using hf)
    subst hst
    simp only [Option.some.injEq, Prod.mk.injEq, true_and] at h
    subst h
    obtain ⟨T, acc, st1, s0, scratch, hT, hT0, h4, eW, eH, hmax, hacclen, hR, hprep, hwork,
      hscr, hfit⟩ := quantize_image_spec sqrt input (configure_header input quality) s1 o
        (header_bytes (configure_header input quality)) R hc hW hH f4 f5 hh1 hR0 hRstep hq
    refine ⟨T, acc, hT, hT0, h4, eW, eH, hW, hH, hmax, hacclen, hR, ?_, ?_⟩
    · unfold encoding_size
      rw [hprep]
      simp only []
      rw [hwork]
      simp only [sizeof_PTCX_FILE_HEADER, List.length_replicate, memory_stream.query_occupancy,
        ring_buffer.filling_occupancy hscr]
    · intro hroom
      exact hfit (by rw [hlen, hl1]; exact hroom)


/-! ## decoding what save_ptcx wrote -/

/-- `load_ptcx` succeeds on a stream that holds a header of `configure_header`, a
table of zero bytes and at least the level-0 records of every macroblock; the
image it returns has the dimensions of the header. -/
theorem load_ptcx_of_encoding (input : image) (quality : Nat) (s : memory_stream)
    (decoded_into : image) (T : Nat) (acc : List Nat)
    (hs : s.holds (header_bytes (configure_header input quality) ++ List.replicate T 0 ++ acc))
    (hT : T = (((configure_header input quality).image_width /
          (configure_header input quality).block_width) *
        ((configure_header input quality).image_height /
          (configure_header input quality).block_height)) >>> 2)
    (hT0 : T ≠ 0)
    (h4 : (((configure_header input quality).image_width /
          (configure_header input quality).block_width) *
        ((configure_header input quality).image_height /
          (configure_header input quality).block_height)) % 4 = 0)
    (hW : input.query_width % 16 = 0) (hH : input.query_height % 16 = 0)
    (hmax : 8 * ((configure_header input quality).image_width *
        (configure_header input quality).image_height) ≤ BASE_MAX_ARRAY_SIZE)
    (hacc : ((configure_header input quality).image_height /
          (configure_header input quality).block_height) *
        (((configure_header input quality).image_width /
          (configure_header input quality).block_width) *
          macroblock_bytes (configure_header input quality) 0) ≤ acc.length) :
    ∃ img, load_ptcx s decoded_into = some (BASE_SUCCESS,
        s.advance (24 + T + ((configure_header input quality).image_height /
          (configure_header input quality).block_height) *
        (((configure_header input quality).image_width /
          (configure_header input quality).block_width) *
          macroblock_bytes (configure_header input quality) 0)), img) ∧
      img.shaped (configure_header input quality).image_width
        (configure_header input quality).image_height ∧
      img.image_format = IGN_IMAGE_FORMAT_R8G8B8 := by
  have hc := configure_header_configured input quality
  obtain ⟨f1, f2, f3, f4, f5⟩ := configure_header_fields input quality
  obtain ⟨hbw2, hbh2, _, _, _, _, dw, _, _, _, _, _, _⟩ := configured_divides _ hc hW
  obtain ⟨_, _, _, _, _, _, _, dh, _, _, _, _, _⟩ := configured_divides _ hc hH
  rw [← f4] at dw
  rw [← f5] at dh
  generalize hhd : configure_header input quality = header at *
  obtain ⟨hlin, hun⟩ := memory_stream.holds_linear hs
  have hlen := header_bytes_length header
  have hM : BASE_MAX_ARRAY_SIZE = 4194304 := by decide
  have hcnt : (header.image_width / header.block_width) *
      (header.image_height / header.block_height) ≤ header.image_width * header.image_height :=
    Nat.mul_le_mul (Nat.div_le_self _ _) (Nat.div_le_self _ _)
  have hcount4 : 4 ≤ (header.image_width / header.block_width) *
      (header.image_height / header.block_height) := by
    rw [hT, Nat.shiftRight_eq_div_pow] at hT0; omega
  have hwpos : 0 < header.image_width := by
    rcases Nat.eq_zero_or_pos header.image_width with hz | hp
    · rw [hz] at hcount4; simp at hcount4
    · exact hp
  have hhpos : 0 < header.image_height := by
    rcases Nat.eq_zero_or_pos header.image_height with hz | hp
    · rw [hz] at hcount4; simp at hcount4
    · exact hp
  have hb : 1 ≤ header.quant_step_bits ∧ header.quant_step_bits < 31 := by
    obtain ⟨_, hcase⟩ := hc
    rcases hcase with ⟨_, _, h1⟩ | ⟨_, _, h1⟩ | ⟨_, _, h1⟩ | ⟨_, _, h1⟩ <;> omega
  have hneed := stream_bytes_needed_zero header h4 (by omega)
  rw [← hT] at hneed
  have hulen : s.unread.length = 24 + T + acc.length := by
    rw [hun]; simp only [List.length_append, hlen, List.length_replicate]
  have key := load_ptcx_consume s decoded_into header hlin (by omega)
    (by
      rw [hun, List.append_assoc, List.take_left' hlen]
      rw [← hhd]; exact configure_header_round_trip input quality)
    f1 f3 f2
    hb.1 hb.2 hbw2 hbh2 hwpos hhpos dw dh h4 (by simp only [U32]; omega) T hT
    (List.replicate T 0)
    (by
      rw [hulen, hun, List.append_assoc, List.drop_left' hlen,
        List.take_left' (List.length_replicate _ _)]
      simp
      omega)
  rw [hneed] at key
  exact key.1 (by omega)

/-- C4: when `save_ptcx` encodes an image successfully into an empty output
stream whose capacity is at least the size of the whole encoding (header, size
table and macroblock records), `load_ptcx` on the stream it produced returns
`BASE_SUCCESS` and an R8G8B8 image with the width and the height of the input. -/
theorem load_ptcx_of_save_ptcx (sqrt : Nat → Nat) (input : image) (quality : Nat)
    (output out' : memory_stream) (decoded_into : image) (n : Nat)
    (hout : output.holds [])
    (hsave : save_ptcx sqrt input quality output = some (BASE_SUCCESS, out'))
    (hsize : encoding_size sqrt input quality = some n)
    (hfit : n ≤ output.data.data.length) :
    ∃ rest img, load_ptcx out' decoded_into = some (BASE_SUCCESS, rest, img) ∧
      img.query_image_format = IGN_IMAGE_FORMAT_R8G8B8 ∧
      img.query_width = input.query_width ∧ img.query_height = input.query_height := by
  obtain ⟨T, acc, hT, hT0, h4, eW, eH, hW, hH, hmax, _, hR, hn, hholds⟩ :=
    save_ptcx_spec sqrt input quality output out'
      (fun k acc => k * macroblock_bytes (configure_header input quality) 0 ≤ acc.length)
      hout (by simp)
      (by
        intro j i acc block level b b0 e0 bs0 _ _ hR hlev hblk _ _ _ _
        have := (trial_bytes_configured _ (configure_header_configured input quality) level
          hlev).2.2.1
        rw [List.length_append, hblk, Nat.add_mul, Nat.one_mul]
        omega)
      hsave
  rw [hsize] at hn
  simp only [Option.some.injEq] at hn
  obtain ⟨img, hload, hshape, hfmt⟩ := load_ptcx_of_encoding input quality out' decoded_into T acc
    (hholds (by omega)) hT hT0 h4 hW hH hmax (by rw [← Nat.mul_assoc]; exact hR)
  exact ⟨_, img, hload, hfmt, by rw [eW]; exact hshape.1, by rw [eH]; exact hshape.2.1⟩


/-! ## the encoder returns: loops that are defined -/

/-- A counted loop whose body is defined at every state is defined. -/
theorem for_loop_defined {σ : Type} (body : Nat → σ → Option σ) :
    ∀ n i s, (∀ k a, i ≤ k → k < i + n → ∃ a', body k a = some a') →
      ∃ s', for_loop body n i s = some s' := by
  intro n
  induction n with
  | zero => intro i s _; exact ⟨s, rfl⟩
  | succ n ih =>
    intro i s h
    obtain ⟨s1, h1⟩ := h i s (Nat.le_refl _) (by omega)
    obtain ⟨s2, h2⟩ := ih (i + 1) s1 (fun k a hk1 hk2 => h k a (by omega) (by omega))
    exact ⟨s2, by rw [for_loop_succ, h1]; exact h2⟩

/-- Two nested counted loops are defined when the body is defined at every
position of the `nh x nw` grid. -/
theorem nested_for_loop_defined {σ : Type} (step : Nat → Nat → σ → Option σ) (nh nw : Nat)
    (s : σ) (h : ∀ j i a, j < nh → i < nw → ∃ a', step j i a = some a') :
    ∃ s', for_loop (fun j => for_loop (step j) nw 0) nh 0 s = some s' :=
  for_loop_defined _ nh 0 s (fun j a _ hj =>
    for_loop_defined (step j) nw 0 a (fun i b _ hi => h j i b (by omega) (by omega)))

/-- Total correctness of a loop with early exit: when every iteration succeeds
and carries the invariant over, the loop ends with `BASE_SUCCESS` and the
invariant. -/
theorem for_loop_status_total {σ : Type} (body : Nat → σ → Option (status × σ))
    (I : Nat → σ → Prop) :
    ∀ n i s, (∀ k a, i ≤ k → k < i + n → I k a →
        ∃ a', body k a = some (BASE_SUCCESS, a') ∧ I (k + 1) a') →
      I i s → ∃ s', for_loop_status body n i s = some (BASE_SUCCESS, s') ∧ I (i + n) s' := by
  intro n
  induction n with
  | zero => intro i s _ h0; exact ⟨s, rfl, by simpa using h0⟩
  | succ n ih =>
    intro i s h h0
    obtain ⟨s1, h1, i1⟩ := h i s (Nat.le_refl _) (by omega) h0
    obtain ⟨s2, h2, i2⟩ := ih (i + 1) s1 (fun k a hk1 hk2 => h k a (by omega) (by omega)) i1
    refine ⟨s2, ?_, ?_⟩
    · rw [for_loop_status_succ_of_success n h1]; exact h2
    · rwa [show i + 1 + n = i + (n + 1) by omega] at i2

/-- The same for two nested loops, seen as one pass over `nh * nw` positions. -/
theorem nested_for_loop_status_total {σ : Type} (step : Nat → Nat → σ → Option (status × σ))
    (I : Nat → σ → Prop) (nh nw : Nat) (s : σ)
    (hstep : ∀ j i a, j < nh → i < nw → I (j * nw + i) a →
      ∃ a', step j i a = some (BASE_SUCCESS, a') ∧ I (j * nw + i + 1) a')
    (h0 : I 0 s) :
    ∃ s', for_loop_status (fun j => for_loop_status (step j) nw 0) nh 0 s =
      some (BASE_SUCCESS, s') ∧ I (nh * nw) s' := by
  have key := for_loop_status_total (fun j => for_loop_status (step j) nw 0)
    (fun j a => I (j * nw) a) nh 0 s
    (by
      intro j a _ hj hI
      obtain ⟨a', h1, h2⟩ := for_loop_status_total (step j) (fun i a => I (j * nw + i) a) nw 0 a
        (by
          intro i b _ hi hIb
          exact hstep j i b (by omega) (by omega) hIb)
        (by simpa using hI)
      refine ⟨a', h1, ?_⟩
      simp only [Nat.zero_add] at h2
      show I ((j + 1) * nw) a'
      rw [Nat.add_mul, Nat.one_mul]
      exact h2)
    (by simpa using h0)
  simpa using key

/-! ## the encoder returns: one microblock -/

theorem range_estimate_min_max_defined (header : PTCX_FILE_HEADER) (input : image) (x y : Nat)
    (hread : ∀ px py, px < input.query_width → py < input.query_height →
      ∃ c, input.pixel_at px py = some c)
    (hx : x + header.block_width ≤ input.query_width)
    (hy : y + header.block_height ≤ input.query_height) :
    ∃ range, range_estimate_min_max header input x y = some (BASE_SUCCESS, range) := by
  unfold range_estimate_min_max
  obtain ⟨r, hr⟩ := nested_for_loop_defined (range_estimate_step input x y) header.block_height
    header.block_width
    { min_value := { c0 := 255, c1 := 255, c2 := 255 },
      max_value := { c0 := 0, c1 := 0, c2 := 0 } }
    (by
      intro subj subi a hj hi
      unfold range_estimate_step
      have h1 := Nat.mod_le (x + subi) U32
      have h2 := Nat.mod_le (y + subj) U32
      obtain ⟨c, hc⟩ := hread ((x + subi) % U32) ((y + subj) % U32) (by omega) (by omega)
      rw [hc]
      exact ⟨_, rfl⟩)
  rw [hr]
  exact ⟨r, rfl⟩

theorem sum_square_differences_ne_none (a0 a1 a2 b0 b1 b2 : Nat) :
    sum_square_differences [a0, a1, a2] [b0, b1, b2] 3 ≠ none := by
  simp [sum_square_differences, for_loop]

/-- `quantize_pixel` is defined for the step widths 2 and 4. -/
theorem quantize_pixel_defined (sqrt : Nat → Nat) (bits : Nat) (hb : bits = 2 ∨ bits = 4)
    (range : PTCX_PIXEL_RANGE) (p : color) (want_error : Bool) :
    ∃ r, quantize_pixel sqrt bits range p want_error = some r := by
  have h31 : ¬ (31 ≤ bits) := by omega
  have hsc : to_uint8 ((1 <<< bits : Nat) - 1 : Int) ≠ 0 := by
    rcases hb with rfl | rfl <;> decide
  unfold quantize_pixel
  simp only [h31, if_false]
  cases want_error with
  | false => exact ⟨_, rfl⟩
  | true =>
    simp only [if_true, hsc, if_false]
    split
    · rename_i hnone
      exact absurd hnone (sum_square_differences_ne_none _ _ _ _ _ _)
    · exact ⟨_, rfl⟩

theorem estimate_quantization_error_defined (sqrt : Nat → Nat) (header : PTCX_FILE_HEADER)
    (range : PTCX_PIXEL_RANGE) (input : image) (x y : Nat)
    (hb : header.quant_step_bits = 2 ∨ header.quant_step_bits = 4)
    (hread : ∀ px py, px < input.query_width → py < input.query_height →
      ∃ c, input.pixel_at px py = some c)
    (hx : x + header.block_width ≤ input.query_width)
    (hy : y + header.block_height ≤ input.query_height) :
    ∃ e, estimate_quantization_error sqrt header range input x y = some e := by
  unfold estimate_quantization_error
  apply nested_for_loop_defined
  intro subj subi a hj hi
  unfold estimate_quantization_error_step
  have h1 := Nat.mod_le (x + subi) U32
  have h2 := Nat.mod_le (y + subj) U32
  obtain ⟨c, hc⟩ := hread ((x + subi) % U32) ((y + subj) % U32) (by omega) (by omega)
  obtain ⟨r, hr⟩ := quantize_pixel_defined sqrt header.quant_step_bits hb range c true
  rw [hc]
  simp only []
  rw [hr]
  exact ⟨_, rfl⟩

theorem write_quantization_table_defined (sqrt : Nat → Nat) (header : PTCX_FILE_HEADER)
    (range : PTCX_PIXEL_RANGE) (input : image) (x y : Nat) (output : ring_buffer)
    (hb : header.quant_step_bits = 2 ∨ header.quant_step_bits = 4)
    (hread : ∀ px py, px < input.query_width → py < input.query_height →
      ∃ c, input.pixel_at px py = some c)
    (hx : x + header.block_width ≤ input.query_width)
    (hy : y + header.block_height ≤ input.query_height) :
    ∃ out, write_quantization_table sqrt header range input x y output = some out := by
  unfold write_quantization_table write_quantization_table_loop
  obtain ⟨r, hr⟩ := nested_for_loop_defined
    (write_quantization_table_step header.quant_step_bits header.block_width
      (clamped_index_at sqrt header range input x y))
    header.block_height header.block_width (0, output)
    (by
      intro subj subi a hj hi
      unfold write_quantization_table_step clamped_index_at
      have h1 := Nat.mod_le (x + subi) U32
      have h2 := Nat.mod_le (y + subj) U32
      obtain ⟨c, hc⟩ := hread ((x + subi) % U32) ((y + subj) % U32) (by omega) (by omega)
      obtain ⟨r, hr⟩ := quantize_pixel_defined sqrt header.quant_step_bits hb range c false
      have h8 : ¬ (8 < header.quant_step_bits) := by omega
      rw [hc]
      simp only []
      rw [hr]
      simp only [h8, if_false]
      split <;> exact ⟨_, rfl⟩)
  rw [hr]
  exact ⟨_, rfl⟩

theorem quantize_microblock_defined (sqrt : Nat → Nat) (input : image)
    (header : PTCX_FILE_HEADER) (x y : Nat) (output : ring_buffer) (error : Nat)
    (hb : header.quant_step_bits = 2 ∨ header.quant_step_bits = 4)
    (hread : ∀ px py, px < input.query_width → py < input.query_height →
      ∃ c, input.pixel_at px py = some c)
    (hx : x + header.block_width ≤ input.query_width)
    (hy : y + header.block_height ≤ input.query_height) :
    ∃ r, quantize_microblock sqrt input header x y output error = some r := by
  unfold quantize_microblock
  obtain ⟨range, h1⟩ := range_estimate_min_max_defined header input x y hread hx hy
  obtain ⟨e, h2⟩ := estimate_quantization_error_defined sqrt header range input x y hb hread hx hy
  obtain ⟨out, h3⟩ := write_quantization_table_defined sqrt header range input x y
    (write_control_values range header output) hb hread hx hy
  rw [h1]
  simp only []
  rw [h2]
  simp only []
  rw [h3]
  exact ⟨_, rfl⟩

/-! ## the encoder returns: one macroblock -/

/-- The `k`-th of the `b / m` pieces of size `m` ends inside `b`. -/
theorem piece_inside {b m k : Nat} (hk : k < b / m) : k * m + m ≤ b := by
  have h1 : (k + 1) * m ≤ (b / m) * m := Nat.mul_le_mul_right m hk
  have h2 : (b / m) * m ≤ b := Nat.div_mul_le_self b m
  rw [Nat.add_mul, Nat.one_mul] at h1
  omega

theorem quantize_macroblock_trial_defined (sqrt : Nat → Nat) (input : image)
    (header : PTCX_FILE_HEADER) (px py level : Nat) (buf : ring_buffer)
    (hc : header.configured)
    (hread : ∀ x y, x < input.query_width → y < input.query_height →
      ∃ c, input.pixel_at x y = some c)
    (hx : px + header.block_width ≤ input.query_width)
    (hy : py + header.block_height ≤ input.query_height) :
    ∃ r, quantize_macroblock_trial sqrt input header px py level buf = some r := by
  obtain ⟨f1, _, _, _⟩ := microblock_header_fields header level
  have hb : (microblock_header header level).quant_step_bits = 2 ∨
      (microblock_header header level).quant_step_bits = 4 := by
    rw [f1]
    obtain ⟨_, hcase⟩ := hc
    rcases hcase with ⟨_, _, h1⟩ | ⟨_, _, h1⟩ | ⟨_, _, h1⟩ | ⟨_, _, h1⟩ <;> omega
  have hne : ¬ ((header.block_width * header.block_height) % U32 = 0) := by
    obtain ⟨_, hcase⟩ := hc
    rcases hcase with ⟨h1, h2, _⟩ | ⟨h1, h2, _⟩ | ⟨h1, h2, _⟩ | ⟨h1, h2, _⟩ <;>
      (rw [h1, h2]; decide)
  unfold quantize_macroblock_trial
  obtain ⟨r, hr⟩ := nested_for_loop_defined
    (quantize_macroblock_step sqrt input (microblock_header header level) px py)
    (header.block_height / (microblock_header header level).block_height)
    (header.block_width / (microblock_header header level).block_width) (buf.empty, 0)
    (by
      intro mj mi a hj hi
      unfold quantize_macroblock_step
      have k1 := piece_inside hi
      have k2 := piece_inside hj
      have h1 := Nat.mod_le (px + mi * (microblock_header header level).block_width) U32
      have h2 := Nat.mod_le (py + mj * (microblock_header header level).block_height) U32
      exact quantize_microblock_defined sqrt input (microblock_header header level) _ _ _ _ hb
        hread (by omega) (by omega))
  rw [hr]
  simp only [hne, if_false]
  exact ⟨_, rfl⟩

/-- `quantize_macroblock` returns `BASE_SUCCESS` for a macroblock inside the
image whose table entry lies inside the (zero) table. -/
theorem quantize_macroblock_total (sqrt : Nat → Nat) (input : image) (header : PTCX_FILE_HEADER)
    (i j : Nat) (st : (ring_buffer × ring_buffer × ring_buffer) × List Nat × memory_stream)
    (acc : List Nat) (T : Nat) (hc : header.configured)
    (hread : ∀ x y, x < input.query_width → y < input.query_height →
      ∃ c, input.pixel_at x y = some c)
    (hx : i * header.block_width + header.block_width ≤ input.query_width)
    (hy : j * header.block_height + header.block_height ≤ input.query_height)
    (hb0 : st.1.1.data.length = 132) (hb1 : st.1.2.1.data.length = 132)
    (hb2 : st.1.2.2.data.length = 132)
    (htab : st.2.1 = List.replicate T 0) (hacc : st.2.2.holds acc)
    (hin : ((j * (header.image_width / header.block_width) + i) % U32) >>> 2 < T) :
    ∃ st', quantize_macroblock sqrt input header (i * header.block_width)
      (j * header.block_height) st = some (BASE_SUCCESS, st') := by
  have h16 := hc.1
  have hU : (132 : Nat) < U32 := by decide
  obtain ⟨hbw2, hbh2, _⟩ := configured_divides header hc (n := 0) rfl
  have hbwne : ¬ (header.block_width = 0 ∨ header.block_height = 0) := by omega
  obtain ⟨⟨b0, e0⟩, ht0⟩ := quantize_macroblock_trial_defined sqrt input header
    (i * header.block_width) (j * header.block_height) 0 st.1.1 hc hread hx hy
  obtain ⟨⟨b1, e1⟩, ht1⟩ := quantize_macroblock_trial_defined sqrt input header
    (i * header.block_width) (j * header.block_height) 1 st.1.2.1 hc hread hx hy
  obtain ⟨⟨b2, e2⟩, ht2⟩ := quantize_macroblock_trial_defined sqrt input header
    (i * header.block_width) (j * header.block_height) 2 st.1.2.2 hc hread hx hy
  obtain ⟨bs0, f0, l0, _⟩ := quantize_macroblock_trial_filling sqrt input header _ _ 0
    st.1.1 b0 e0 h16 (by omega)
    (by have := (trial_bytes_configured header hc 0 (by omega)).1; omega) ht0
  obtain ⟨bs1, f1, l1, _⟩ := quantize_macroblock_trial_filling sqrt input header _ _ 1
    st.1.2.1 b1 e1 h16 (by omega)
    (by have := (trial_bytes_configured header hc 1 (by omega)).1; omega) ht1
  obtain ⟨bs2, f2, l2, _⟩ := quantize_macroblock_trial_filling sqrt input header _ _ 2
    st.1.2.2 b2 e2 h16 (by omega)
    (by have := (trial_bytes_configured header hc 2 (by omega)).1; omega) ht2
  obtain ⟨level, block, chosen, hlev, hblk, hfill, hchosen⟩ :
      ∃ level block chosen, level ≤ 2 ∧ block.length = trial_bytes header level ∧
        ring_buffer.filling chosen block ∧
        chosen = (if (if e0 ≤ PTCX_QUALITY_DELTA then 0
            else if e1 ≤ PTCX_QUALITY_DELTA then 1 else 2) = 0 then b0
          else if (if e0 ≤ PTCX_QUALITY_DELTA then 0
            else if e1 ≤ PTCX_QUALITY_DELTA then 1 else 2) = 1 then b1 else b2) := by
    by_cases h0 : e0 ≤ PTCX_QUALITY_DELTA
    · exact ⟨0, bs0, b0, by omega, l0, f0, by simp [h0]⟩
    · by_cases h1 : e1 ≤ PTCX_QUALITY_DELTA
      · exact ⟨1, bs1, b1, by omega, l1, f1, by simp [h0, h1]⟩
      · exact ⟨2, bs2, b2, by omega, l2, f2, by simp [h0, h1]⟩
  have hpos := (trial_bytes_configured header hc level hlev).2.1
  have hle := (trial_bytes_configured header hc level hlev).1
  have hne : block ≠ [] := by
    intro hnil; rw [hnil] at hblk; simp at hblk; omega
  obtain ⟨wfull, wroom⟩ := memory_stream.write_data_holds hacc block hne
    (by rw [hblk]; simp only [U32]; omega)
  have hw : ∃ w, st.2.2.write_data block = some w := by
    by_cases hfull : acc.length = st.2.2.data.data.length
    · exact ⟨_, wfull hfull⟩
    · obtain ⟨s', hs', _⟩ := wroom (by have := hacc.2.2.1; omega)
      exact ⟨_, hs'⟩
  obtain ⟨w, hw⟩ := hw
  unfold quantize_macroblock
  rw [ht0]
  simp only []
  rw [ht1]
  simp only []
  rw [ht2]
  simp only [hbwne, if_false, htab, write_macroblock_table_entry_zero,
    Nat.mul_div_cancel _ (by omega : 0 < header.block_height),
    Nat.mul_div_cancel _ (by omega : 0 < header.block_width), if_pos hin]
  rw [← hchosen, peeked_occupants_filling hfill]
  simp only []
  rw [hw]
  exact ⟨_, rfl⟩

/-- `quantize_worker` returns `BASE_SUCCESS` for every readable image whose
dimensions are multiples of 16 below 65536 when the number of macroblocks is a
multiple of 4. -/
theorem quantize_worker_total (sqrt : Nat → Nat) (input : image) (header : PTCX_FILE_HEADER)
    (s0 : memory_stream) (hc : header.configured)
    (hread : ∀ x y, x < input.query_width → y < input.query_height →
      ∃ c, input.pixel_at x y = some c)
    (hW : input.query_width % 16 = 0) (hH : input.query_height % 16 = 0)
    (hw : header.image_width = input.query_width)
    (hh : header.image_height = input.query_height)
    (h4 : ((header.image_width / header.block_width) *
      (header.image_height / header.block_height)) % 4 = 0)
    (hlt : (header.image_width / header.block_width) *
      (header.image_height / header.block_height) < 2147483648)
    (hs : s0.holds []) :
    ∃ table' scratch', quantize_worker sqrt input header
      (List.replicate (((header.image_width / header.block_width) *
        (header.image_height / header.block_height)) >>> 2) 0) s0 =
        some (BASE_SUCCESS, table', scratch') := by
  obtain ⟨hbw2, hbh2, _, _, dW, _, _, _, _, _, _, _, _⟩ := configured_divides header hc hW
  obtain ⟨_, _, _, _, _, dH, _, _, _, _, _, _, _⟩ := configured_divides header hc hH
  unfold quantize_worker
  rw [trial_buffer_eq]
  rw [strided_count_of_multiple (by omega) dH, strided_count_of_multiple (by omega) dW]
  simp only [PTCX_MAX_BLOCK_DATA_SIZE, ne_eq, not_true_eq_false, or_self, if_false]
  obtain ⟨a, ha, _⟩ := nested_for_loop_status_total (quantize_worker_step sqrt input header)
    (fun _ (a : (ring_buffer × ring_buffer × ring_buffer) × List Nat × memory_stream) =>
      a.1.1.data.length = 132 ∧ a.1.2.1.data.length = 132 ∧ a.1.2.2.data.length = 132 ∧
      a.2.1 = List.replicate (((header.image_width / header.block_width) *
        (header.image_height / header.block_height)) >>> 2) 0 ∧
      ∃ acc, a.2.2.holds acc)
    (input.query_height / header.block_height) (input.query_width / header.block_width)
    ((⟨List.replicate 132 0, 0, 0⟩, ⟨List.replicate 132 0, 0, 0⟩,
        ⟨List.replicate 132 0, 0, 0⟩), List.replicate (((header.image_width /
        header.block_width) * (header.image_height / header.block_height)) >>> 2) 0, s0)
    (by
      intro j i a hj hi hI
      obtain ⟨l0, l1, l2, ht, acc, hacc⟩ := hI
      have hx := piece_inside hi
      have hy := piece_inside hj
      obtain ⟨a', ha'⟩ := quantize_macroblock_total sqrt input header i j a acc _ hc hread hx hy
        l0 l1 l2 ht hacc
        (table_index_in_bounds (by rw [hh]; exact hj) (by rw [hw]; exact hi) h4 hlt)
      obtain ⟨_, m0, m1, m2, mt, _, _, _, _, _, _, _, acc', _, _, _, _, _, hacc', _⟩ :=
        quantize_macroblock_spec sqrt input header _ _ a a' BASE_SUCCESS acc _ hc l0 l1 l2 ht
          hacc ha'
      refine ⟨a', ?_, m0, m1, m2, mt, acc', hacc'⟩
      unfold quantize_worker_step
      rw [ha']
      rfl)
    ⟨by simp, by simp, by simp, rfl, [], hs⟩
  rw [ha]
  exact ⟨_, _, rfl⟩

/-! ## the encoder returns: the whole image -/

theorem prepare_temporary_buffers_total (header : PTCX_FILE_HEADER)
    (hbw : header.block_width ≠ 0) (hbh : header.block_height ≠ 0)
    (hw2 : header.image_width % 2 = 0)
    (hcount : 4 ≤ (header.image_width / header.block_width) *
      (header.image_height / header.block_height))
    (hmax : 8 * (header.image_width * header.image_height) ≤ BASE_MAX_ARRAY_SIZE) :
    ∃ s0, prepare_temporary_buffers header memory_stream.new [] =
      some (BASE_SUCCESS, s0, List.replicate (((header.image_width / header.block_width) *
        (header.image_height / header.block_height)) >>> 2) 0) ∧
      s0.holds [] := by
  have hM : BASE_MAX_ARRAY_SIZE = 4194304 := by decide
  have e3 : 2 * (header.image_width / 2) = header.image_width := by omega
  have hcapeq : (header.image_width / 2) * (header.image_height * 2) * 8 =
      8 * (header.image_width * header.image_height) := by
    calc (header.image_width / 2) * (header.image_height * 2) * 8
        = 8 * ((2 * (header.image_width / 2)) * header.image_height) := by ring
      _ = _ := by rw [e3]
  have hcnt : (header.image_width / header.block_width) *
      (header.image_height / header.block_height) ≤ header.image_width * header.image_height :=
    Nat.mul_le_mul (Nat.div_le_self _ _) (Nat.div_le_self _ _)
  have hT4 : (((((header.image_width / header.block_width) *
      (header.image_height / header.block_height)) <<< 1) % U32) >>> 3) =
      ((header.image_width / header.block_width) *
        (header.image_height / header.block_height)) >>> 2 := by
    simp only [U32, Nat.shiftLeft_eq, Nat.shiftRight_eq_div_pow]
    rw [Nat.mod_eq_of_lt (by omega)]
    omega
  have hT0 : ((header.image_width / header.block_width) *
        (header.image_height / header.block_height)) >>> 2 ≠ 0 := by
    rw [Nat.shiftRight_eq_div_pow]; omega
  obtain ⟨r1, r2, _⟩ := memory_stream.resize_capacity_holds
    ((header.image_width / 2) * (header.image_height * 2) * 8) (by rw [hcapeq]; exact hmax)
  refine ⟨(memory_stream.new.resize_capacity
    ((header.image_width / 2) * (header.image_height * 2) * 8)).2, ?_, r2⟩
  unfold prepare_temporary_buffers
  have c1 : ¬ (2147483648 ≤ (header.image_width / 2) * (header.image_height * 2) * 8) := by
    rw [hcapeq]; omega
  have c2 : ¬ (header.block_width = 0 ∨ header.block_height = 0) := by
    intro h; rcases h with h | h
    · exact hbw h
    · exact hbh h
  have c3 : ¬ (2147483648 ≤ (header.image_width / header.block_width) *
      (header.image_height / header.block_height)) := by omega
  simp only [c1, c2, c3, if_false, hT4, hT0, vector_resize_nil, List.length_replicate, ne_eq,
    not_true_eq_false, r1]

theorem is_pow2_configured (header : PTCX_FILE_HEADER) (hc : header.configured) :
    is_pow2 header.quant_step_bits = true := by
  obtain ⟨_, hcase⟩ := hc
  rcases hcase with ⟨_, _, h1⟩ | ⟨_, _, h1⟩ | ⟨_, _, h1⟩ | ⟨_, _, h1⟩ <;> (rw [h1]; decide)

/-- `quantize_image` returns `BASE_SUCCESS` when the stream it is handed has room
for the table and for 8 bytes per pixel. -/
theorem quantize_image_total (sqrt : Nat → Nat) (input : image) (header : PTCX_FILE_HEADER)
    (out_stream : memory_stream) (pre : List Nat) (hc : header.configured)
    (hread : ∀ x y, x < input.query_width → y < input.query_height →
      ∃ c, input.pixel_at x y = some c)
    (hW : input.query_width % 16 = 0) (hH : input.query_height % 16 = 0)
    (hw : header.image_width = input.query_width)
    (hh : header.image_height = input.query_height)
    (hw16 : input.query_width < 65536) (hh16 : input.query_height < 65536)
    (h4 : ((header.image_width / header.block_width) *
      (header.image_height / header.block_height)) % 4 = 0)
    (hcount : 4 ≤ (header.image_width / header.block_width) *
      (header.image_height / header.block_height))
    (hmax : 8 * (header.image_width * header.image_height) ≤ BASE_MAX_ARRAY_SIZE)
    (hpre : out_stream.holds pre)
    (hroom : pre.length + ((header.image_width / header.block_width) *
      (header.image_height / header.block_height)) >>> 2 +
      8 * (header.image_width * header.image_height) ≤ out_stream.data.data.length) :
    ∃ out', quantize_image sqrt input header out_stream = some (BASE_SUCCESS, out') := by
  obtain ⟨hbw2, hbh2, _⟩ := configured_divides header hc (n := 0) rfl
  have hM : BASE_MAX_ARRAY_SIZE = 4194304 := by decide
  have hcnt : (header.image_width / header.block_width) *
      (header.image_height / header.block_height) ≤ header.image_width * header.image_height :=
    Nat.mul_le_mul (Nat.div_le_self _ _) (Nat.div_le_self _ _)
  obtain ⟨s0, hprep, hs0⟩ := prepare_temporary_buffers_total header (by omega) (by omega)
    (by rw [hw]; omega) hcount hmax
  obtain ⟨table', scratch, hwork⟩ := quantize_worker_total sqrt input header s0 hc hread hW hH
    hw hh h4 (by omega) hs0
  -- what the two calls above leave behind
  obtain ⟨_, htab, hT0, _, hcap0, _⟩ :=
    prepare_temporary_buffers_spec header BASE_SUCCESS s0 _ hprep rfl
  have hT4 : (((((header.image_width / header.block_width) *
      (header.image_height / header.block_height)) <<< 1) % U32) >>> 3) =
      ((header.image_width / header.block_width) *
        (header.image_height / header.block_height)) >>> 2 := by
    simp only [U32, Nat.shiftLeft_eq, Nat.shiftRight_eq_div_pow]
    rw [Nat.mod_eq_of_lt (by omega)]
    omega
  obtain ⟨ht', _, _, _, acc, hacc, hlen, hR⟩ :=
    quantize_worker_spec sqrt input header _ s0 table' scratch
      (fun k acc => k * macroblock_bytes header 0 ≤ acc.length) hc hW hH
      (by rw [hw]; omega) (by rw [hh]; omega) hT4.symm (by rw [← hT4]; exact hT0) (by omega)
      hs0 hcap0 (by simp)
      (by
        intro j i acc block level b b0 e0 bs0 _ _ hR hlev hblk _ _ _ _
        have := (trial_bytes_configured _ hc level hlev).2.2.1
        rw [List.length_append, hblk, Nat.add_mul, Nat.one_mul]
        omega)
      hwork
  subst ht'
  have hm0 := macroblock_bytes_pos header 0 hbw2 hbh2
  have haccpos : 0 < acc.length := by
    have h1 : 0 < (header.image_height / header.block_height) *
        (header.image_width / header.block_width) := by rw [Nat.mul_comm]; omega
    have := Nat.mul_pos h1 hm0
    omega
  generalize hT : ((header.image_width / header.block_width) *
      (header.image_height / header.block_height)) >>> 2 = T at *
  have hTlt : T < U32 := by
    rw [← hT]; simp only [U32, Nat.shiftRight_eq_div_pow]; omega
  have hT0' : T ≠ 0 := by rw [← hT4]; exact hT0
  -- the two writes
  obtain ⟨_, wroom⟩ := memory_stream.write_data_holds hpre (List.replicate T 0)
    (by intro hnil; have := congrArg List.length hnil; simp at this; exact hT0' this)
    (by simpa using hTlt)
  obtain ⟨s1, hw1, hh1, hl1⟩ := wroom (by omega)
  rw [List.take_of_length_le (by simp; omega)] at hh1
  have hz : scratch.data.data.length ≠ 0 := by
    have := hacc.2.2.1; omega
  obtain ⟨_, vroom⟩ := memory_stream.write_data_holds hh1 acc
    (by intro hnil; rw [hnil] at haccpos; simp at haccpos)
    (by simp only [U32]; omega)
  obtain ⟨s2, hw2, _, _⟩ := vroom (by simp; omega)
  unfold quantize_image
  simp only [is_pow2_configured header hc, BASE_PARAM_CHECK_eq, Bool.not_true, Bool.and_false,
    Bool.false_eq_true, if_false, hprep, base_failed_success, hwork, hw1,
    memory_stream.read_pointer_bytes_holds hacc hz, hw2]
  exact ⟨_, rfl⟩

/-- `save_ptcx` returns `BASE_SUCCESS` for every readable R8G8B8 image whose
dimensions are multiples of 16 below 65536, whose number of macroblocks is a
multiple of 4 (and not 0) and whose scratch stream of 8 bytes per pixel is within
the array limit, when the empty output stream has room for the header, the table
and 8 bytes per pixel; the whole encoding then fits the output stream. -/
theorem save_ptcx_total (sqrt : Nat → Nat) (input : image) (quality : Nat)
    (output : memory_stream)
    (hfmt : input.query_image_format = IGN_IMAGE_FORMAT_R8G8B8)
    (hread : ∀ x y, x < input.query_width → y < input.query_height →
      ∃ c, input.pixel_at x y = some c)
    (hW : input.query_width % 16 = 0) (hH : input.query_height % 16 = 0)
    (hw16 : input.query_width < 65536) (hh16 : input.query_height < 65536)
    (h4 : ((input.query_width / (configure_header input quality).block_width) *
      (input.query_height / (configure_header input quality).block_height)) % 4 = 0)
    (hcount : 4 ≤ (input.query_width / (configure_header input quality).block_width) *
      (input.query_height / (configure_header input quality).block_height))
    (hmax : 8 * (input.query_width * input.query_height) ≤ BASE_MAX_ARRAY_SIZE)
    (hout : output.holds [])
    (hroom : 24 + ((input.query_width / (configure_header input quality).block_width) *
      (input.query_height / (configure_header input quality).block_height)) >>> 2 +
      8 * (input.query_width * input.query_height) ≤ output.data.data.length) :
    ∃ out' n, save_ptcx sqrt input quality output = some (BASE_SUCCESS, out') ∧
      encoding_size sqrt input quality = some n ∧ n ≤ output.data.data.length := by
  have hc := configure_header_configured input quality
  obtain ⟨_, _, _, f4, f5⟩ := configure_header_fields input quality
  rw [Nat.mod_eq_of_lt hw16] at f4
  rw [Nat.mod_eq_of_lt hh16] at f5
  rw [← f4, ← f5] at h4 hcount hmax hroom
  have hlen := header_bytes_length (configure_header input quality)
  obtain ⟨_, wroom⟩ := memory_stream.write_data_holds hout
    (header_bytes (configure_header input quality))
    (by intro hnil; rw [hnil] at hlen; simp at hlen)
    (by rw [hlen]; decide)
  have h0 : ([] : List Nat).length = 0 := rfl
  obtain ⟨s1, hw1, hh1, hl1⟩ := wroom (by omega)
  rw [List.take_of_length_le (by rw [hlen]; omega), List.nil_append] at hh1
  obtain ⟨out', hq⟩ := quantize_image_total sqrt input (configure_header input quality) s1
    (header_bytes (configure_header input quality)) hc hread hW hH f4 f5 hw16 hh16 h4 hcount
    hmax hh1 (by rw [hlen, hl1]; exact hroom)
  have hsave : save_ptcx sqrt input quality output = some (BASE_SUCCESS, out') := by
    have hnf : output.is_full = false := by
      have hocc := ring_buffer.filling_occupancy hout
      simp only [memory_stream.is_full, ring_buffer.is_full, hocc, h0]
      simp only [decide_eq_false_iff_not, Nat.le_zero_eq]
      omega
    have hmin : min (header_bytes (configure_header input quality)).length
        (output.data.data.length - ([] : List Nat).length) = 24 := by
      rw [hlen, h0]; omega
    unfold save_ptcx
    simp only [hnf, hfmt, hW, hH, hw1, hq, hmin, BASE_PARAM_CHECK_eq, Bool.and_false,
      Bool.false_eq_true, if_false, ne_eq, not_true_eq_false, decide_False, or_self,
      base_failed_success, sizeof_PTCX_FILE_HEADER]
  obtain ⟨T, acc, hT, _, _, _, _, _, _, _, hacclen, _, hn, _⟩ :=
    save_ptcx_spec sqrt input quality output out' (fun _ _ => True) hout trivial
      (by intros; trivial) hsave
  refine ⟨out', _, hsave, hn, ?_⟩
  rw [hT]
  omega


/-! ## solid images -/

theorem flatten_replicate_triple (a b c : Nat) : ∀ n k, k < n →
    (List.replicate n [a, b, c]).flatten[3 * k]? = some a ∧
    (List.replicate n [a, b, c]).flatten[3 * k + 1]? = some b ∧
    (List.replicate n [a, b, c]).flatten[3 * k + 2]? = some c := by
  intro n
  induction n with
  | zero => intro k hk; omega
  | succ n ih =>
    intro k hk
    have e : (List.replicate (n + 1) [a, b, c]).flatten =
        a :: b :: c :: (List.replicate n [a, b, c]).flatten := by
      simp [List.replicate_succ]
    rw [e]
    cases k with
    | zero => simp
    | succ k =>
      obtain ⟨h1, h2, h3⟩ := ih k (by omega)
      have skip : ∀ (l : List Nat) (m : Nat), (a :: b :: c :: l)[m + 3]? = l[m]? := by
        intro l m
        rw [show m + 3 = m + 1 + 1 + 1 by omega]
        simp only [List.getElem?_cons_succ]
      rw [show 3 * (k + 1) = 3 * k + 3 by omega, show 3 * k + 3 + 1 = (3 * k + 1) + 3 by omega,
        show 3 * k + 3 + 2 = (3 * k + 2) + 3 by omega, skip, skip, skip]
      exact ⟨h1, h2, h3⟩

theorem flatten_replicate_triple_length (a b c : Nat) (n : Nat) :
    (List.replicate n [a, b, c]).flatten.length = 3 * n := by
  induction n with
  | zero => simp
  | succ n ih =>
    simp only [List.replicate_succ, List.flatten_cons, List.length_append, ih]
    simp
    omega

theorem solid_image_shaped (w h : Nat) (c : color) : (solid_image w h c).shaped w h :=
  ⟨rfl, rfl, rfl, flatten_replicate_triple_length _ _ _ _, rfl⟩

/-- Every pixel of a solid image reads as its colour. -/
theorem solid_image_pixel_at (w h : Nat) (c : color) (hsz : 24 * (w * h) < U32) {x y : Nat}
    (hx : x < w) (hy : y < h) : (solid_image w h c).pixel_at x y = some c := by
  have hxy : w * y + x < w * h := by nlinarith [Nat.mul_le_mul_left w hy]
  obtain ⟨h1, h2, h3⟩ := flatten_replicate_triple c.c0 c.c1 c.c2 (w * h) (w * y + x) hxy
  unfold image.pixel_at
  rw [image.offset_shaped (solid_image_shaped w h c) hsz hx hy]
  unfold image.load_pixel
  simp only [solid_image, h1, h2, h3]

theorem fresh_stream_holds (capacity : Nat) (h : capacity ≤ BASE_MAX_ARRAY_SIZE) :
    (fresh_stream capacity).holds [] ∧ (fresh_stream capacity).data.data.length = capacity :=
  (memory_stream.resize_capacity_holds capacity h).2

/-- The encoder returns `BASE_SUCCESS` on the 16 x 16 solid image of any colour at
quality 2, and its output fits a stream of 4096 bytes. -/
theorem save_ptcx_solid_16 (sqrt : Nat → Nat) (c : color) :
    ∃ out' n, save_ptcx sqrt (solid_image 16 16 c) 2 (fresh_stream 4096) =
        some (BASE_SUCCESS, out') ∧
      encoding_size sqrt (solid_image 16 16 c) 2 = some n ∧
      n ≤ (fresh_stream 4096).data.data.length := by
  obtain ⟨hout, hcap⟩ := fresh_stream_holds 4096 (by decide)
  have hw : (solid_image 16 16 c).query_width = 16 := rfl
  have hh : (solid_image 16 16 c).query_height = 16 := rfl
  have hbw : (configure_header (solid_image 16 16 c) 2).block_width = 8 := rfl
  have hbh : (configure_header (solid_image 16 16 c) 2).block_height = 8 := rfl
  refine save_ptcx_total sqrt (solid_image 16 16 c) 2 (fresh_stream 4096) rfl
    (fun x y hx hy => ⟨c, solid_image_pixel_at 16 16 c (by decide) hx hy⟩)
    ?_ ?_ ?_ ?_ ?_ ?_ ?_ hout ?_
  all_goals (try rw [hw])
  all_goals (try rw [hh])
  all_goals (try rw [hbw])
  all_goals (try rw [hbh])
  all_goals (try rw [hcap])
  all_goals decide

/-- Witness of `load_ptcx_of_save_ptcx`: the 16 x 16 image of colour (100,150,200)
at quality 2, encoded into an empty stream of 4096 bytes. -/
theorem load_ptcx_of_save_ptcx_witness :
    ∃ out' rest img,
      save_ptcx Nat.sqrt (solid_image 16 16 ⟨100, 150, 200⟩) 2 (fresh_stream 4096) =
        some (BASE_SUCCESS, out') ∧
      load_ptcx out' image.new = some (BASE_SUCCESS, rest, img) ∧
      img.query_image_format = IGN_IMAGE_FORMAT_R8G8B8 ∧
      img.query_width = (solid_image 16 16 ⟨100, 150, 200⟩).query_width ∧
      img.query_height = (solid_image 16 16 ⟨100, 150, 200⟩).query_height := by
  obtain ⟨out', n, hs, hn, hle⟩ := save_ptcx_solid_16 Nat.sqrt ⟨100, 150, 200⟩
  obtain ⟨rest, img, h⟩ := load_ptcx_of_save_ptcx Nat.sqrt
    (solid_image 16 16 ⟨100, 150, 200⟩) 2 (fresh_stream 4096) out' image.new n
    (fresh_stream_holds 4096 (by decide)).1 hs hn hle
  exact ⟨out', rest, img, hs, h⟩


/-! ## encoding a uniform image -/

theorem to_int16_natCast {n : Nat} (h : n < 32768) : to_int16 (n : Int) = n := by
  unfold to_int16; omega

theorem to_uint8_natCast {n : Nat} (h : n < 256) : to_uint8 (n : Int) = n := by
  unfold to_uint8; omega

theorem for_loop_one {σ : Type} (body : Nat → σ → Option σ) (i : Nat) (s : σ) :
    for_loop body 1 i s = body i s := by
  rw [for_loop_succ]
  cases body i s <;> rfl

/-- The range of a block whose pixels all have the colour `c` is `c .. c`. -/
theorem range_estimate_min_max_uniform (header : PTCX_FILE_HEADER) (input : image)
    (x y : Nat) (c : color) (st : status) (range : PTCX_PIXEL_RANGE)
    (hc : c.c0 < 256 ∧ c.c1 < 256 ∧ c.c2 < 256)
    (huni : ∀ px py, px < input.query_width → py < input.query_height →
      input.pixel_at px py = some c)
    (hx : x + header.block_width ≤ input.query_width)
    (hy : y + header.block_height ≤ input.query_height)
    (hbw : 0 < header.block_width) (hbh : 0 < header.block_height)
    (h : range_estimate_min_max header input x y = some (st, range)) :
    range = { min_value := c, max_value := c } := by
  unfold range_estimate_min_max at h
  split at h
  · simp at h
  rename_i r hloop
  simp only [Option.some.injEq, Prod.mk.injEq] at h
  obtain ⟨_, hr⟩ := h
  subst hr
  have key := nested_for_loop_inv (range_estimate_step input x y)
    (fun t (r : PTCX_PIXEL_RANGE) =>
      (t = 0 ∧ r = { min_value := { c0 := 255, c1 := 255, c2 := 255 },
                     max_value := { c0 := 0, c1 := 0, c2 := 0 } }) ∨
      (0 < t ∧ r = { min_value := c, max_value := c }))
    header.block_height header.block_width _ r
    (by
      intro j i a a' hj hi hI hstep
      right
      refine ⟨by omega, ?_⟩
      unfold range_estimate_step at hstep
      have h1 := Nat.mod_le (x + i) U32
      have h2 := Nat.mod_le (y + j) U32
      rw [huni _ _ (by omega) (by omega)] at hstep
      simp only [Option.some.injEq] at hstep
      subst hstep
      obtain ⟨c0, c1, c2⟩ := c
      simp only at hc
      rcases hI with ⟨_, ha⟩ | ⟨_, ha⟩
      · subst ha
        simp only [range_accumulate, PTCX_PIXEL_RANGE.mk.injEq, color.mk.injEq]
        refine ⟨⟨?_, ?_, ?_⟩, ?_, ?_, ?_⟩ <;> split <;> omega
      · subst ha
        simp [range_accumulate])
    (Or.inl ⟨rfl, rfl⟩) hloop
  have hpos : 0 < header.block_height * header.block_width := Nat.mul_pos hbh hbw
  rcases key with ⟨h0, _⟩ | ⟨_, hr⟩
  · omega
  · exact hr

/-- A pixel of colour `c` is reconstructed exactly from the range `c .. c`,
whatever step value the square roots give. -/
theorem quantize_pixel_uniform (sqrt : Nat → Nat) (bits : Nat) (c : color) (r : Nat × Nat)
    (hc : c.c0 < 256 ∧ c.c1 < 256 ∧ c.c2 < 256)
    (h : quantize_pixel sqrt bits { min_value := c, max_value := c } c true = some r) :
    r.2 = 0 := by
  obtain ⟨c0, c1, c2⟩ := c
  simp only at hc
  unfold quantize_pixel at h
  split at h
  · simp at h
  simp only [if_true] at h
  split at h
  · simp at h
  have z : to_int16 0 = 0 := rfl
  simp only [to_int16_natCast (show c0 < 32768 by omega),
    to_int16_natCast (show c1 < 32768 by omega), to_int16_natCast (show c2 < 32768 by omega),
    sub_self, z, Int.zero_tdiv, zero_mul, add_zero, to_uint8_natCast hc.1,
    to_uint8_natCast hc.2.1, to_uint8_natCast hc.2.2] at h
  have hs : sum_square_differences [c0, c1, c2] [c0, c1, c2] 3 = some 0 := by
    simp [sum_square_differences, for_loop]
  rw [hs] at h
  simp only [Option.some.injEq] at h
  rw [← h]

theorem estimate_quantization_error_uniform (sqrt : Nat → Nat) (header : PTCX_FILE_HEADER)
    (input : image) (x y : Nat) (c : color) (q : Nat)
    (hc : c.c0 < 256 ∧ c.c1 < 256 ∧ c.c2 < 256)
    (huni : ∀ px py, px < input.query_width → py < input.query_height →
      input.pixel_at px py = some c)
    (hx : x + header.block_width ≤ input.query_width)
    (hy : y + header.block_height ≤ input.query_height)
    (h : estimate_quantization_error sqrt header { min_value := c, max_value := c } input x y =
      some q) : q = 0 := by
  unfold estimate_quantization_error at h
  exact nested_for_loop_inv
    (estimate_quantization_error_step sqrt header { min_value := c, max_value := c } input x y)
    (fun _ e => e = 0) header.block_height header.block_width 0 q
    (by
      intro j i a a' hj hi hI hstep
      subst hI
      unfold estimate_quantization_error_step at hstep
      have h1 := Nat.mod_le (x + i) U32
      have h2 := Nat.mod_le (y + j) U32
      rw [huni _ _ (by omega) (by omega)] at hstep
      simp only [] at hstep
      split at hstep
      · simp at hstep
      rename_i r hr
      have := quantize_pixel_uniform sqrt _ c r hc hr
      simp only [Option.some.injEq] at hstep
      rw [← hstep, this]
      rfl)
    rfl h

/-- The trial at shift 0 of a macroblock whose pixels all have the colour `c`: no
error, and the buffer holds the control bytes of `c .. c` and then the indices. -/
theorem quantize_macroblock_trial_uniform (sqrt : Nat → Nat) (input : image)
    (header : PTCX_FILE_HEADER) (px py : Nat) (b b0 : ring_buffer) (e0 : Nat) (bs0 : List Nat)
    (c : color) (hcf : header.configured) (hc : c.c0 < 256 ∧ c.c1 < 256 ∧ c.c2 < 256)
    (huni : ∀ x y, x < input.query_width → y < input.query_height →
      input.pixel_at x y = some c)
    (hx : px + header.block_width ≤ input.query_width)
    (hy : py + header.block_height ≤ input.query_height)
    (hb : b.data.length = 132)
    (h : quantize_macroblock_trial sqrt input header px py 0 b = some (b0, e0))
    (hf : b0.filling bs0) :
    e0 = 0 ∧ bs0.length = macroblock_bytes header 0 ∧
      bs0.take 4 = control_bytes { min_value := c, max_value := c } := by
  obtain ⟨hle, _, _, _, h0, hm0, hmh⟩ := trial_bytes_configured header hcf 0 (by omega)
  obtain ⟨hbw2, hbh2, _⟩ := configured_divides header hcf (n := 0) rfl
  have hU : (132 : Nat) < U32 := by decide
  unfold quantize_macroblock_trial at h
  rw [hmh, Nat.div_self (by omega), Nat.div_self (by omega), for_loop_one, for_loop_one] at h
  unfold quantize_macroblock_step at h
  simp only [Nat.zero_mul, Nat.add_zero] at h
  cases hq : quantize_microblock sqrt input header (px % U32) (py % U32) b.empty 0 with
  | none => rw [hq] at h; simp at h
  | some r =>
    obtain ⟨out2, e2⟩ := r
    rw [hq] at h
    simp only [] at h
    split at h
    · simp at h
    simp only [Option.some.injEq, Prod.mk.injEq] at h
    obtain ⟨hb0, he0⟩ := h
    have h1 := Nat.mod_le px U32
    have h2 := Nat.mod_le py U32
    obtain ⟨range, q, extra, hre, hqe, hfill, hextra, _, he2⟩ :=
      quantize_microblock_filling sqrt input header _ _ b.empty out2 0 e2 [] hcf.1
        (ring_buffer.empty_filling b (by omega))
        (by
          simp only [List.length_nil, Nat.zero_add, ring_buffer.empty]
          rw [← hm0, ← h0]; omega)
        hq
    have hrange := range_estimate_min_max_uniform header input _ _ c _ range hc huni
      (by omega) (by omega) (by omega) (by omega) hre
    subst hrange
    have hq0 := estimate_quantization_error_uniform sqrt header input _ _ c q hc huni
      (by omega) (by omega) hqe
    subst hq0
    subst hb0
    have hbs := ring_buffer.filling_unique hf hfill
    refine ⟨?_, ?_, ?_⟩
    · rw [← he0, he2]; simp
    · rw [hbs, hm0]; simp [control_bytes, hextra]; omega
    · rw [hbs]; simp [control_bytes]

/-- The contents of the scratch stream after a number of macroblocks of a
uniform image: every macroblock left a level-0 record that starts with the
control bytes of the colour. -/
theorem uniform_records_append (m : Nat) (ctrl : List Nat)
    (hm : 4 ≤ m) (k : Nat) (acc block : List Nat)
    (hacc : acc.length = k * m ∧ ∀ k', k' < k → (acc.drop (k' * m)).take 4 = ctrl)
    (hlen : block.length = m) (hblock : block.take 4 = ctrl) :
    (acc ++ block).length = (k + 1) * m ∧
      ∀ k', k' < k + 1 → ((acc ++ block).drop (k' * m)).take 4 = ctrl := by
  obtain ⟨hl, hprev⟩ := hacc
  refine ⟨by rw [List.length_append, hl, hlen, Nat.add_mul, Nat.one_mul], ?_⟩
  intro k' hk'
  by_cases hlt : k' < k
  · have h1 : (k' + 1) * m ≤ k * m := Nat.mul_le_mul_right m hlt
    rw [Nat.add_mul, Nat.one_mul] at h1
    rw [List.drop_append_of_le_length (by omega), List.take_append_of_le_length
      (by rw [List.length_drop]; omega)]
    exact hprev k' hlt
  · have hk : k' = k := by omega
    subst hk
    rw [List.drop_left' hl]
    exact hblock


/-! ## decoding the records of a uniform image -/

theorem set3_getElem? (l : List Nat) (o a b c j : Nat) (ho : o + 2 < l.length) :
    (((l.set o a).set (o + 1) b).set (o + 2) c)[j]? =
      if j = o then some a else if j = o + 1 then some b else if j = o + 2 then some c
      else l[j]? := by
  simp only [List.getElem?_set, List.length_set]
  by_cases h0 : j = o
  · subst h0
    simp [show ¬ (j + 2 = j) by omega, show ¬ (j + 1 = j) by omega, show j < l.length by omega]
  · by_cases h1 : j = o + 1
    · subst h1
      simp [show ¬ (o + 2 = o + 1) by omega, show o + 1 < l.length by omega]
    · by_cases h2 : j = o + 2
      · subst h2
        simp [ho]
      · simp [h0, h1, h2, show ¬ (o + 2 = j) by omega, show ¬ (o + 1 = j) by omega,
          show ¬ (o = j) by omega]

/-- Storing the colour `v` into one pixel of an image makes that pixel `v` and
leaves every pixel that was `v` as it is. -/
theorem image.store_pixel_frame {img img' : image} {w h x y : Nat} (hs : img.shaped w h)
    (hsz : 24 * (w * h) < U32) (hx : x < w) (hy : y < h) (v : color)
    (hst : img.store_pixel (img.query_block_offset x y) v = some img') :
    img'.shaped w h ∧ img'.pixel_at x y = some v ∧
      ∀ x2 y2, x2 < w → y2 < h → img.pixel_at x2 y2 = some v → img'.pixel_at x2 y2 = some v := by
  have hb := image.offset_in_bounds hs hx hy
  obtain ⟨i2, hi2, hs2⟩ := image.store_pixel_at_shaped hs hsz hx hy v
  rw [hst] at hi2
  simp only [Option.some.injEq] at hi2
  subst hi2
  rw [image.offset_shaped hs hsz hx hy] at hst
  unfold image.store_pixel at hst
  rw [if_pos hb] at hst
  simp only [Option.some.injEq] at hst
  have hdata : img'.data_buffer =
      ((img.data_buffer.set (3 * (w * y + x)) v.c0).set (3 * (w * y + x) + 1) v.c1).set
        (3 * (w * y + x) + 2) v.c2 := by rw [← hst]
  have hread : ∀ x2 y2, x2 < w → y2 < h → img'.pixel_at x2 y2 =
      if w * y2 + x2 = w * y + x then some v else img.pixel_at x2 y2 := by
    intro x2 y2 hx2 hy2
    unfold image.pixel_at
    rw [image.offset_shaped hs2 hsz hx2 hy2, image.offset_shaped hs hsz hx2 hy2]
    unfold image.load_pixel
    rw [hdata, set3_getElem? _ _ _ _ _ _ hb, set3_getElem? _ _ _ _ _ _ hb,
      set3_getElem? _ _ _ _ _ _ hb]
    by_cases hk : w * y2 + x2 = w * y + x
    · rw [hk]
      simp
    · have n1 : ¬ (3 * (w * y2 + x2) = 3 * (w * y + x)) := by omega
      have n2 : ¬ (3 * (w * y2 + x2) = 3 * (w * y + x) + 1) := by omega
      have n3 : ¬ (3 * (w * y2 + x2) = 3 * (w * y + x) + 2) := by omega
      have n4 : ¬ (3 * (w * y2 + x2) + 1 = 3 * (w * y + x)) := by omega
      have n5 : ¬ (3 * (w * y2 + x2) + 1 = 3 * (w * y + x) + 1) := by omega
      have n6 : ¬ (3 * (w * y2 + x2) + 1 = 3 * (w * y + x) + 2) := by omega
      have n7 : ¬ (3 * (w * y2 + x2) + 2 = 3 * (w * y + x)) := by omega
      have n8 : ¬ (3 * (w * y2 + x2) + 2 = 3 * (w * y + x) + 1) := by omega
      have n9 : ¬ (3 * (w * y2 + x2) + 2 = 3 * (w * y + x) + 2) := by omega
      simp only [n1, n2, n3, n4, n5, n6, n7, n8, n9, if_false, hk]
  refine ⟨hs2, ?_, ?_⟩
  · rw [hread x y hx hy]; simp
  · intro x2 y2 hx2 hy2 hv
    rw [hread x2 y2 hx2 hy2]
    split
    · rfl
    · exact hv

/-- With a range whose minimum and maximum coincide every step value is
dequantized to that colour. -/
theorem dequantize_channel_degenerate (m : Nat) (hm : m < 256) (mask step : Nat) :
    dequantize_channel (to_int16 m) (to_int16 (to_int16 m - to_int16 m)) mask step = m := by
  have z : to_int16 0 = 0 := rfl
  rw [sub_self, z, to_int16_natCast (by omega)]
  unfold dequantize_channel
  simp only [U32]
  have e1 : ((m : Int) % 4294967296).toNat = m := by omega
  have e2 : ((0 : Int) % 4294967296).toNat = 0 := by rfl
  rw [e1, e2]
  simp
  omega

/-- The stores of `read_macroblock` for a range `v .. v`: the pixel becomes `v`. -/
theorem store_dequantized_uniform {bits : Nat} {v : color} {x y subi subj step : Nat}
    {img img' : image} {w h : Nat} (hv : v.c0 < 256 ∧ v.c1 < 256 ∧ v.c2 < 256)
    (hs : img.shaped w h) (hsz : 24 * (w * h) < U32) (hx : x + subi < w) (hy : y + subj < h)
    (hst : store_dequantized bits { min_value := v, max_value := v } x y subi subj step img =
      some img') :
    img'.shaped w h ∧ img'.pixel_at (x + subi) (y + subj) = some v ∧
      ∀ x2 y2, x2 < w → y2 < h → img.pixel_at x2 y2 = some v → img'.pixel_at x2 y2 = some v := by
  have hw : w < U32 := by
    have : w * 1 ≤ w * h := Nat.mul_le_mul_left w (by omega)
    omega
  have hh : h < U32 := by
    have : 1 * h ≤ w * h := Nat.mul_le_mul_right h (by omega)
    omega
  unfold store_dequantized at hst
  simp only [] at hst
  split at hst
  · simp at hst
  rw [dequantize_channel_degenerate _ hv.1, dequantize_channel_degenerate _ hv.2.1,
    dequantize_channel_degenerate _ hv.2.2, Nat.mod_eq_of_lt (by omega : x + subi < U32),
    Nat.mod_eq_of_lt (by omega : y + subj < U32)] at hst
  exact image.store_pixel_frame hs hsz hx hy v hst

/-- A successful step of the extraction loop has made the three stores for some
step value. -/
theorem read_macroblock_step_store {σ : Type} (bits bw : Nat)
    (store : Nat → Nat → Nat → σ → Option σ) (subj subi : Nat)
    (st st' : (memory_stream × Nat) × σ)
    (h : read_macroblock_step bits bw store subj subi st = some (BASE_SUCCESS, st')) :
    ∃ step, store subi subj step st.2 = some st'.2 := by
  unfold read_macroblock_step at h
  simp only [] at h
  split at h
  · split at h
    · simp at h
    · split at h
      · simp at h
      · split at h
        · simp at h
        · rename_i out hout
          simp only [Option.some.injEq, Prod.mk.injEq, true_and] at h
          exact ⟨_, by rw [hout, ← h]⟩
  · split at h
    · simp at h
    · rename_i out hout
      simp only [Option.some.injEq, Prod.mk.injEq, true_and] at h
      exact ⟨_, by rw [hout, ← h]⟩

/-- Partial correctness of the extraction loop with respect to the destination:
an invariant indexed by the number of pixels stored. -/
theorem read_macroblock_loop_inv {σ : Type} (bits bw bh : Nat)
    (store : Nat → Nat → Nat → σ → Option σ) (K : Nat → σ → Prop)
    (s s' : memory_stream) (out out' : σ)
    (hstore : ∀ subj subi step o o', subj < bh → subi < bw → K (subj * bw + subi) o →
      store subi subj step o = some o' → K (subj * bw + subi + 1) o')
    (h0 : K 0 out)
    (h : read_macroblock_loop bits bw bh store s out = some (BASE_SUCCESS, s', out')) :
    K (bh * bw) out' := by
  unfold read_macroblock_loop at h
  split at h
  · simp at h
  split at h
  · simp at h
  rename_i r hloop
  obtain ⟨st, a⟩ := r
  simp only [Option.some.injEq, Prod.mk.injEq] at h
  obtain ⟨h1, _, h3⟩ := h
  subst h1
  rw [← h3]
  exact nested_for_loop_status_inv (read_macroblock_step bits bw store)
    (fun t (a : (memory_stream × Nat) × σ) => K t a.2) bh bw _ a
    (by
      intro j i a a' hj hi hI hstep
      obtain ⟨step, hs⟩ := read_macroblock_step_store bits bw store j i a a' hstep
      exact hstore j i step a.2 a'.2 hj hi hI hs)
    h0 hloop

theorem u16_at_control_bytes (bs : List Nat) (c : color)
    (h : bs.take 4 = control_bytes { min_value := c, max_value := c }) :
    u16_at bs 0 = control_word c ∧ u16_at bs 2 = control_word c := by
  have e0 : u16_at bs 0 = u16_at (bs.take 4) 0 := by
    simp [u16_at, List.getD_eq_getElem?_getD, List.getElem?_take]
  have e2 : u16_at bs 2 = u16_at (bs.take 4) 2 := by
    simp [u16_at, List.getD_eq_getElem?_getD, List.getElem?_take]
  have := control_word_lt c
  rw [e0, e2, h]
  simp [u16_at, control_bytes]
  omega

/-- `read_macroblock` on a record that starts with the control bytes of `c .. c`:
every pixel of the block becomes the colour unpacked from them, and the pixels
that had this colour keep it. -/
theorem read_macroblock_uniform (header : PTCX_FILE_HEADER) {x y w h : Nat}
    (s s' : memory_stream) (img img' : image) (c : color) (G : Nat → Nat → Prop)
    (hc : c.c0 < 256 ∧ c.c1 < 256 ∧ c.c2 < 256)
    (h16 : header.quant_control_bits = 16) (hbw : 0 < header.block_width)
    (hx : x + header.block_width ≤ w) (hy : y + header.block_height ≤ h)
    (hsz : 24 * (w * h) < U32) (hl : s.linear) (hs : img.shaped w h)
    (hctrl : s.unread.take 4 = control_bytes { min_value := c, max_value := c })
    (hG : ∀ x2 y2, x2 < w → y2 < h → G x2 y2 →
      img.pixel_at x2 y2 = some ⟨8 * (c.c0 / 8), 4 * (c.c1 / 4), 8 * (c.c2 / 8)⟩)
    (hread : read_macroblock s header x y img = some (BASE_SUCCESS, s', img')) :
    img'.shaped w h ∧
    ∀ x2 y2, x2 < w → y2 < h →
      (G x2 y2 ∨ (x ≤ x2 ∧ x2 < x + header.block_width ∧ y ≤ y2 ∧
        y2 < y + header.block_height)) →
      img'.pixel_at x2 y2 = some ⟨8 * (c.c0 / 8), 4 * (c.c1 / 4), 8 * (c.c2 / 8)⟩ := by
  obtain ⟨w0, w2⟩ := u16_at_control_bytes s.unread c hctrl
  have hv : (8 * (c.c0 / 8) < 256 ∧ 4 * (c.c1 / 4) < 256 ∧ 8 * (c.c2 / 8) < 256) := by omega
  unfold read_macroblock at hread
  rw [read_control_values_linear hl _ header h16, w0, w2,
    control_color_word c hc.1 hc.2.1 hc.2.2] at hread
  simp only [] at hread
  have key := read_macroblock_loop_inv header.quant_step_bits header.block_width
    header.block_height _
    (fun t (o : image) => o.shaped w h ∧
      ∀ x2 y2, x2 < w → y2 < h →
        (G x2 y2 ∨ ∃ t', t' < t ∧ x2 = x + t' % header.block_width ∧
          y2 = y + t' / header.block_width) →
        o.pixel_at x2 y2 = some ⟨8 * (c.c0 / 8), 4 * (c.c1 / 4), 8 * (c.c2 / 8)⟩)
    _ s' img img'
    (by
      intro subj subi step o o' hj hi hK hst
      obtain ⟨hso, hgood⟩ := hK
      obtain ⟨q1, q2, q3⟩ := store_dequantized_uniform (v := ⟨8 * (c.c0 / 8), 4 * (c.c1 / 4),
        8 * (c.c2 / 8)⟩) hv hso hsz (by omega) (by omega) hst
      refine ⟨q1, ?_⟩
      intro x2 y2 hx2 hy2 hcase
      rcases hcase with hg | ⟨t', ht', ex, ey⟩
      · exact q3 x2 y2 hx2 hy2 (hgood x2 y2 hx2 hy2 (Or.inl hg))
      · by_cases hlt : t' < subj * header.block_width + subi
        · exact q3 x2 y2 hx2 hy2 (hgood x2 y2 hx2 hy2 (Or.inr ⟨t', hlt, ex, ey⟩))
        · have ht : t' = subi + subj * header.block_width := by omega
          rw [ht, Nat.add_mul_mod_self_right, Nat.mod_eq_of_lt hi] at ex
          rw [ht, Nat.add_mul_div_right _ _ hbw, Nat.div_eq_of_lt hi, Nat.zero_add] at ey
          rw [ex, ey]
          exact q2)
    ⟨hs, fun x2 y2 hx2 hy2 hcase => by
      rcases hcase with hg | ⟨t', ht', _⟩
      · exact hG x2 y2 hx2 hy2 hg
      · omega⟩
    hread
  refine ⟨key.1, ?_⟩
  intro x2 y2 hx2 hy2 hcase
  apply key.2 x2 y2 hx2 hy2
  rcases hcase with hg | ⟨a1, a2, a3, a4⟩
  · exact Or.inl hg
  · right
    refine ⟨(x2 - x) + (y2 - y) * header.block_width, ?_, ?_, ?_⟩
    · have : (y2 - y + 1) * header.block_width ≤ header.block_height * header.block_width :=
        Nat.mul_le_mul_right _ (by omega)
      rw [Nat.add_mul, Nat.one_mul] at this
      omega
    · rw [Nat.add_mul_mod_self_right, Nat.mod_eq_of_lt (by omega)]; omega
    · rw [Nat.add_mul_div_right _ _ hbw, Nat.div_eq_of_lt (by omega)]; omega

theorem for_loop_status_one_success {σ : Type} (body : Nat → σ → Option (status × σ))
    (i : Nat) (s s' : σ) (h : for_loop_status body 1 i s = some (BASE_SUCCESS, s')) :
    body i s = some (BASE_SUCCESS, s') := by
  cases hb : body i s with
  | none => simp [for_loop_status, hb] at h
  | some r =>
    obtain ⟨st, s1⟩ := r
    by_cases hst : st = BASE_SUCCESS
    · subst hst
      rw [for_loop_status_succ_of_success 0 hb, for_loop_status_zero] at h
      exact h
    · rw [for_loop_status_succ_of_failure 0 hb hst] at h
      simp only [Option.some.injEq, Prod.mk.injEq] at h
      exact absurd h.1 hst

/-- One macroblock read at level 0 from a record that starts with the control
bytes of `c .. c`. -/
theorem inverse_quantize_macroblock_uniform (header : PTCX_FILE_HEADER) (table : List Nat)
    {w h : Nat} (jb ib : Nat) (a a' : memory_stream × image) (c : color)
    (G : Nat → Nat → Prop)
    (hcf : header.configured) (hc : c.c0 < 256 ∧ c.c1 < 256 ∧ c.c2 < 256)
    (hx : ib * header.block_width + header.block_width ≤ w)
    (hy : jb * header.block_height + header.block_height ≤ h)
    (hq : query_macroblock_shift table ib (header.image_width / header.block_width) jb = some 0)
    (hsz : 24 * (w * h) < U32) (hl : a.1.linear) (hs : a.2.shaped w h)
    (hctrl : a.1.unread.take 4 = control_bytes { min_value := c, max_value := c })
    (hG : ∀ x2 y2, x2 < w → y2 < h → G x2 y2 →
      a.2.pixel_at x2 y2 = some ⟨8 * (c.c0 / 8), 4 * (c.c1 / 4), 8 * (c.c2 / 8)⟩)
    (hdec : inverse_quantize_macroblock header table jb ib a = some (BASE_SUCCESS, a')) :
    a'.2.shaped w h ∧
    ∀ x2 y2, x2 < w → y2 < h →
      (G x2 y2 ∨ (ib * header.block_width ≤ x2 ∧
        x2 < ib * header.block_width + header.block_width ∧
        jb * header.block_height ≤ y2 ∧
        y2 < jb * header.block_height + header.block_height)) →
      a'.2.pixel_at x2 y2 = some ⟨8 * (c.c0 / 8), 4 * (c.c1 / 4), 8 * (c.c2 / 8)⟩ := by
  obtain ⟨_, _, _, _, _, _, hmh⟩ := trial_bytes_configured header hcf 0 (by omega)
  obtain ⟨hbw2, hbh2, _⟩ := configured_divides header hcf (n := 0) rfl
  have hne : ¬ (header.block_width = 0 ∨ header.block_height = 0) := by omega
  have hw : w < U32 := by
    have : w * 1 ≤ w * h := Nat.mul_le_mul_left w (by omega)
    omega
  have hh : h < U32 := by
    have : 1 * h ≤ w * h := Nat.mul_le_mul_right h (by omega)
    omega
  unfold inverse_quantize_macroblock at hdec
  simp only [hne, if_false, Nat.mul_div_cancel _ (by omega : 0 < header.block_height),
    Nat.mul_div_cancel _ (by omega : 0 < header.block_width), hq, hmh,
    Nat.div_self (by omega : 0 < header.block_height),
    Nat.div_self (by omega : 0 < header.block_width)] at hdec
  have h1 := for_loop_status_one_success _ _ _ _ hdec
  have h2 := for_loop_status_one_success _ _ _ _ h1
  unfold inverse_quantize_step at h2
  simp only [Nat.zero_mul, Nat.add_zero] at h2
  rw [Nat.mod_eq_of_lt (by omega : ib * header.block_width < U32),
    Nat.mod_eq_of_lt (by omega : jb * header.block_height < U32)] at h2
  cases hr : read_macroblock a.1 header (ib * header.block_width) (jb * header.block_height)
      a.2 with
  | none => rw [hr] at h2; simp at h2
  | some r =>
    obtain ⟨st, s', img'⟩ := r
    rw [hr] at h2
    simp only [] at h2
    by_cases hf : base_failed st = true
    · rw [if_pos hf] at h2; simp at h2
    rw [if_neg hf] at h2
    have hst : st = BASE_SUCCESS := base_failed_eq_false (by simpa using hf)
    subst hst
    simp only [Option.some.injEq, Prod.mk.injEq, true_and] at h2
    subst h2
    exact read_macroblock_uniform header a.1 s' a.2 img' c G hc hcf.1 (by omega) hx hy hsz hl
      hs hctrl hG hr

/-- The block of the grid a pixel lies in. -/
theorem block_of_pixel {bw x ib : Nat} (hbw : 0 < bw) (h : x / bw = ib) :
    ib * bw ≤ x ∧ x < ib * bw + bw := by
  subst h
  have h1 := Nat.div_add_mod x bw
  have h2 := Nat.mod_lt x hbw
  rw [Nat.mul_comm] at h1
  omega

/-- `inverse_quantize` on a zero table followed by one level-0 record per
macroblock, each starting with the control bytes of `c .. c`: every pixel of the
image becomes the colour unpacked from them. -/
theorem inverse_quantize_uniform (header : PTCX_FILE_HEADER) (s s' : memory_stream)
    (img img' : image) (c : color) (acc : List Nat)
    (hcf : header.configured) (hc : c.c0 < 256 ∧ c.c1 < 256 ∧ c.c2 < 256)
    (hw : 0 < header.image_width) (hh : 0 < header.image_height)
    (hdw : header.image_width % header.block_width = 0)
    (hdh : header.image_height % header.block_height = 0)
    (h4 : ((header.image_width / header.block_width) *
      (header.image_height / header.block_height)) % 4 = 0)
    (hsz : 24 * (header.image_width * header.image_height) < U32)
    (hl : s.linear) (hs : img.shaped header.image_width header.image_height)
    (hun : s.unread = List.replicate (((header.image_width / header.block_width) *
      (header.image_height / header.block_height)) >>> 2) 0 ++ acc)
    (hrec : acc.length = ((header.image_height / header.block_height) *
        (header.image_width / header.block_width)) * macroblock_bytes header 0 ∧
      ∀ k', k' < (header.image_height / header.block_height) *
          (header.image_width / header.block_width) →
        (acc.drop (k' * macroblock_bytes header 0)).take 4 =
          control_bytes { min_value := c, max_value := c })
    (hdec : inverse_quantize s header img = some (BASE_SUCCESS, s', img')) :
    ∀ x y, x < header.image_width → y < header.image_height →
      img'.pixel_at x y = some ⟨8 * (c.c0 / 8), 4 * (c.c1 / 4), 8 * (c.c2 / 8)⟩ := by
  obtain ⟨hbw, hbh, _⟩ := configured_divides header hcf (n := 0) rfl
  have hbits : 1 ≤ header.quant_step_bits ∧ header.quant_step_bits < 31 := by
    obtain ⟨_, hcase⟩ := hcf
    rcases hcase with ⟨_, _, h1⟩ | ⟨_, _, h1⟩ | ⟨_, _, h1⟩ | ⟨_, _, h1⟩ <;> omega
  have hm4 : 4 ≤ macroblock_bytes header 0 := by
    have := (trial_bytes_configured header hcf 0 (by omega)).2.2.2.2.2.1
    omega
  generalize hm0 : macroblock_bytes header 0 = m0 at *
  generalize hwb : header.image_width / header.block_width = wb at *
  generalize hhb : header.image_height / header.block_height = hb at *
  have hwbpos : 0 < wb := by
    rw [← hwb]; exact Nat.div_pos (Nat.le_of_dvd hw (Nat.dvd_of_mod_eq_zero hdw)) (by omega)
  have hhbpos : 0 < hb := by
    rw [← hhb]; exact Nat.div_pos (Nat.le_of_dvd hh (Nat.dvd_of_mod_eq_zero hdh)) (by omega)
  have hwe : wb * header.block_width = header.image_width := by
    rw [← hwb]; exact Nat.div_mul_cancel (Nat.dvd_of_mod_eq_zero hdw)
  have hhe : hb * header.block_height = header.image_height := by
    rw [← hhb]; exact Nat.div_mul_cancel (Nat.dvd_of_mod_eq_zero hdh)
  have hcount : wb * hb < 2147483648 := by
    have h1 : wb ≤ header.image_width := by rw [← hwb]; exact Nat.div_le_self _ _
    have h2 : hb ≤ header.image_height := by rw [← hhb]; exact Nat.div_le_self _ _
    have h3 : wb * hb ≤ header.image_width * header.image_height := Nat.mul_le_mul h1 h2
    simp only [U32] at hsz
    omega
  have hTpos : 0 < (wb * hb) >>> 2 := by
    have : 0 < wb * hb := Nat.mul_pos hwbpos hhbpos
    simp only [Nat.shiftRight_eq_div_pow]
    omega
  generalize hT : (wb * hb) >>> 2 = T at *
  have hne : ¬ (header.block_width = 0 ∨ header.block_height = 0) := by omega
  have hcnt : ¬ 2147483648 ≤ wb * hb := by omega
  have hres : vector_resize [] T = List.replicate T 0 := by simp [vector_resize]
  have hnil : s.unread ≠ [] := by
    intro hn; rw [hn] at hun
    have := congrArg List.length hun
    simp at this; omega
  have hulen : s.unread.length = T + acc.length := by rw [hun]; simp
  have htable : read_macroblock_table s header =
      some (BASE_SUCCESS, s.advance T, List.replicate T 0) := by
    unfold read_macroblock_table
    simp only [hne, if_false, hwb, hhb, hcnt, hT, hres, List.length_replicate, ne_eq,
      not_true_eq_false]
    rw [memory_stream.read_data_linear hl hTpos hnil]
    simp only [base_failed_success, Bool.false_eq_true, if_false]
    rw [Nat.min_eq_left (by omega), hun, List.take_left' (List.length_replicate _ _)]
    simp
  have hrows : strided_count img.query_height header.block_height = some hb := by
    rw [show img.query_height = header.image_height from hs.2.1,
      strided_count_of_dvd hh (by omega) hdh, hhb]
  have hcols : strided_count img.query_width header.block_width = some wb := by
    rw [show img.query_width = header.image_width from hs.1,
      strided_count_of_dvd hw (by omega) hdw, hwb]
  unfold inverse_quantize at hdec
  rw [htable] at hdec
  simp only [base_failed_success, Bool.false_eq_true, if_false, hrows, hcols] at hdec
  obtain ⟨hl1, hu1⟩ := memory_stream.advance_linear hl T (by omega)
  rw [hun, List.drop_left' (List.length_replicate _ _)] at hu1
  have key := nested_for_loop_status_inv (inverse_quantize_macroblock header (List.replicate T 0))
    (fun k (a : memory_stream × image) =>
      a.1.linear ∧ a.1.unread = acc.drop (k * m0) ∧
      a.2.shaped header.image_width header.image_height ∧
      ∀ x y, x < header.image_width → y < header.image_height →
        (y / header.block_height) * wb + x / header.block_width < k →
        a.2.pixel_at x y = some ⟨8 * (c.c0 / 8), 4 * (c.c1 / 4), 8 * (c.c2 / 8)⟩)
    hb wb (s.advance T, img) (s', img')
    (by
      intro jb ib a a' hjb hib hJ hstep
      obtain ⟨hla, hua, hsa, hga⟩ := hJ
      have hk := microblock_count_le hjb hib
      have hx : ib * header.block_width + header.block_width ≤ header.image_width := by
        rw [← hwe]
        have := Nat.mul_le_mul_right header.block_width (show ib + 1 ≤ wb by omega)
        rw [Nat.add_mul, Nat.one_mul] at this
        exact this
      have hy : jb * header.block_height + header.block_height ≤ header.image_height := by
        rw [← hhe]
        have := Nat.mul_le_mul_right header.block_height (show jb + 1 ≤ hb by omega)
        rw [Nat.add_mul, Nat.one_mul] at this
        exact this
      have hq : query_macroblock_shift (List.replicate T 0) ib wb jb = some 0 := by
        rw [query_macroblock_shift_zero, if_pos]
        rw [← hT]
        exact table_index_in_bounds hjb hib h4 hcount
      have hkm : (jb * wb + ib + 1) * m0 ≤ hb * wb * m0 := Nat.mul_le_mul_right m0 hk
      rw [Nat.add_mul, Nat.one_mul] at hkm
      have hlen : a.1.unread.length = acc.length - (jb * wb + ib) * m0 := by
        rw [hua, List.length_drop]
      obtain ⟨a'', ha'', hadv, _⟩ := (inverse_quantize_macroblock_consume header
        (List.replicate T 0) jb ib 0 a hbits.1 hbits.2 hbw hbh hx hy (by rw [hwb]; exact hq) hsz
        hla hsa).1 (by rw [hm0, hlen, hrec.1]; omega)
      rw [hstep] at ha''
      simp only [Option.some.injEq, Prod.mk.injEq, true_and] at ha''
      subst ha''
      rw [hm0] at hadv
      obtain ⟨hla', hua'⟩ := memory_stream.advance_linear hla m0
        (by rw [hlen, hrec.1]; omega)
      obtain ⟨p1, p2⟩ := inverse_quantize_macroblock_uniform header (List.replicate T 0) jb ib
        a a' c (fun x y => (y / header.block_height) * wb + x / header.block_width <
          jb * wb + ib) hcf hc hx hy (by rw [hwb]; exact hq) hsz hla hsa
        (by rw [hua]; exact hrec.2 _ (by omega))
        hga hstep
      refine ⟨by rw [hadv]; exact hla', ?_, p1, ?_⟩
      · rw [hadv, hua', hua, List.drop_drop]
        congr 1
        ring
      · intro x y hxw hyh hlt
        apply p2 x y hxw hyh
        by_cases hold : (y / header.block_height) * wb + x / header.block_width < jb * wb + ib
        · exact Or.inl hold
        · right
          have hxb : x / header.block_width < wb := by
            rw [Nat.div_lt_iff_lt_mul (by omega), hwe]; exact hxw
          obtain ⟨ej, ei⟩ := raster_unique hib hxb
            (show (y / header.block_height) * wb + x / header.block_width = jb * wb + ib by
              omega)
          obtain ⟨b1, b2⟩ := block_of_pixel (by omega : 0 < header.block_width) ei
          obtain ⟨b3, b4⟩ := block_of_pixel (by omega : 0 < header.block_height) ej
          exact ⟨b1, b2, b3, b4⟩)
    ⟨hl1, by rw [hu1]; simp, hs, fun x y _ _ hlt => absurd hlt (Nat.not_lt_zero _)⟩
    hdec
  intro x y hxw hyh
  apply key.2.2.2 x y hxw hyh
  have hxb : x / header.block_width < wb := by
    rw [Nat.div_lt_iff_lt_mul (by omega), hwe]; exact hxw
  have hyb : y / header.block_height < hb := by
    rw [Nat.div_lt_iff_lt_mul (by omega), hhe]; exact hyh
  have := microblock_count_le hyb hxb
  omega

/-- `load_ptcx` on a stream that starts with a valid header: the image is created
and `inverse_quantize` runs on the rest of the stream. -/
theorem load_ptcx_of_valid_header (input : memory_stream) (output : image)
    (header : PTCX_FILE_HEADER)
    (hlin : input.linear) (hlen : 24 ≤ input.unread.length)
    (hhdr : header_of_bytes (input.unread.take 24) = header)
    (hmagic : header.magic = 0x50544358) (hsize : header.header_size = 24)
    (hversion : header.version = 2)
    (hw : 0 < header.image_width) (hh : 0 < header.image_height)
    (hsz : 24 * (header.image_width * header.image_height) < U32) :
    ∃ img0, img0.shaped header.image_width header.image_height ∧
      load_ptcx input output =
        match inverse_quantize (input.advance 24) header img0 with
        | none => none
        | some q =>
          if base_failed q.1 then some (BASE_ERROR_EXECUTION_FAILURE, q.2)
          else some (BASE_SUCCESS, q.2) := by
  have hne : input.unread ≠ [] := by
    intro h; rw [h] at hlen; simp at hlen
  have hemp : input.is_empty = false := by
    have hocc := memory_stream.occupancy_linear hlin
    have : input.unread.length ≠ 0 := by omega
    simp [memory_stream.is_empty, ring_buffer.is_empty, hocc, this]
  obtain ⟨img0, hc, hs0, _⟩ := create_image_shaped header.image_width header.image_height
    output hw hh hsz
  refine ⟨img0, hs0, ?_⟩
  unfold load_ptcx
  have h24 : sizeof_PTCX_FILE_HEADER = 24 := rfl
  rw [h24, memory_stream.read_data_linear hlin (by norm_num) hne, Nat.min_eq_left hlen]
  simp only [BASE_PARAM_CHECK_eq, hemp, Bool.and_false, Bool.false_eq_true, if_false,
    base_failed_success, ne_eq, not_true_eq_false, base_post_error_eq, PTCX_MAGIC_VALUE,
    hhdr, hmagic, hsize, hversion, hc, or_self]
  try rfl

/-- Round trip of a uniform image: when `save_ptcx` encodes an image whose pixels
all have the colour `c` into an empty stream that has room for the whole
encoding, `load_ptcx` on the result succeeds and every pixel of the decoded
image is `c` with its channels cut to 5, 6 and 5 bits. -/
theorem uniform_image_round_trip (sqrt : Nat → Nat) (input : image) (quality : Nat)
    (output out' : memory_stream) (decoded_into : image) (n : Nat) (c : color)
    (hc : c.c0 < 256 ∧ c.c1 < 256 ∧ c.c2 < 256)
    (huni : ∀ x y, x < input.query_width → y < input.query_height →
      input.pixel_at x y = some c)
    (hout : output.holds [])
    (hsave : save_ptcx sqrt input quality output = some (BASE_SUCCESS, out'))
    (hsize : encoding_size sqrt input quality = some n)
    (hfit : n ≤ output.data.data.length) :
    ∃ rest img, load_ptcx out' decoded_into = some (BASE_SUCCESS, rest, img) ∧
      img.query_image_format = IGN_IMAGE_FORMAT_R8G8B8 ∧
      img.query_width = input.query_width ∧ img.query_height = input.query_height ∧
      0 < input.query_width ∧ 0 < input.query_height ∧
      ∀ x y, x < input.query_width → y < input.query_height →
        img.pixel_at x y = some ⟨8 * (c.c0 / 8), 4 * (c.c1 / 4), 8 * (c.c2 / 8)⟩ := by
  have hcf := configure_header_configured input quality
  obtain ⟨f1, f2, f3, f4, f5⟩ := configure_header_fields input quality
  have hm4 : 4 ≤ macroblock_bytes (configure_header input quality) 0 := by
    have := (trial_bytes_configured _ hcf 0 (by omega)).2.2.2.2.2.1
    omega
  obtain ⟨T, acc, hT, hT0, h4, eW, eH, hW, hH, hmax, _, hR, hn, hholds⟩ :=
    save_ptcx_spec sqrt input quality output out'
      (fun k acc => acc.length = k * macroblock_bytes (configure_header input quality) 0 ∧
        ∀ k', k' < k → (acc.drop (k' * macroblock_bytes (configure_header input quality) 0)).take
          4 = control_bytes { min_value := c, max_value := c })
      hout ⟨by simp, fun k' hk' => absurd hk' (Nat.not_lt_zero _)⟩
      (by
        intro j i acc block level b b0 e0 bs0 hj hi hR _ _ hb htrial hfill hsel
        obtain ⟨he0, hlen, htake⟩ := quantize_macroblock_trial_uniform sqrt input
          (configure_header input quality) _ _ b b0 e0 bs0 c hcf hc huni (piece_inside hi)
          (piece_inside hj) hb htrial hfill
        have hblock : block = bs0 := hsel (by rw [he0]; exact Nat.zero_le _)
        subst hblock
        exact uniform_records_append _ _ hm4 _ acc block hR hlen htake)
      hsave
  rw [hsize] at hn
  simp only [Option.some.injEq] at hn
  have hs := hholds (by omega)
  obtain ⟨img, hload, hshape, hfmt⟩ := load_ptcx_of_encoding input quality out' decoded_into T
    acc hs hT hT0 h4 hW hH hmax (by rw [← Nat.mul_assoc, ← hR.1])
  obtain ⟨hbw2, hbh2, _, _, _, _, dw, _, _, _, _, _, _⟩ := configured_divides _ hcf hW
  obtain ⟨_, _, _, _, _, _, _, dh, _, _, _, _, _⟩ := configured_divides _ hcf hH
  rw [← f4] at dw
  rw [← f5] at dh
  rw [eW, eH]
  generalize hhd : configure_header input quality = header at *
  have hcount4 : 4 ≤ (header.image_width / header.block_width) *
      (header.image_height / header.block_height) := by
    rw [hT, Nat.shiftRight_eq_div_pow] at hT0; omega
  have hwpos : 0 < header.image_width := by
    rcases Nat.eq_zero_or_pos header.image_width with hz | hp
    · rw [hz] at hcount4; simp at hcount4
    · exact hp
  have hhpos : 0 < header.image_height := by
    rcases Nat.eq_zero_or_pos header.image_height with hz | hp
    · rw [hz] at hcount4; simp at hcount4
    · exact hp
  refine ⟨_, img, hload, hfmt, hshape.1, hshape.2.1, hwpos, hhpos, ?_⟩
  -- the pixels
  obtain ⟨hlin, hun⟩ := memory_stream.holds_linear hs
  have hlen := header_bytes_length header
  have hM : BASE_MAX_ARRAY_SIZE = 4194304 := by decide
  have hsz : 24 * (header.image_width * header.image_height) < U32 := by
    simp only [U32]; omega
  have hulen : out'.unread.length = 24 + T + acc.length := by
    rw [hun]; simp only [List.length_append, hlen, List.length_replicate]
  obtain ⟨img0, hs0, hunf⟩ := load_ptcx_of_valid_header out' decoded_into header hlin
    (by omega)
    (by
      rw [hun, List.append_assoc, List.take_left' hlen]
      rw [← hhd]; exact configure_header_round_trip input quality)
    f1 f3 f2 hwpos hhpos hsz
  rw [hunf] at hload
  cases hq : inverse_quantize (out'.advance 24) header img0 with
  | none => rw [hq] at hload; simp at hload
  | some q =>
    obtain ⟨st, s', img'⟩ := q
    rw [hq] at hload
    simp only [] at hload
    by_cases hf : base_failed st = true
    · rw [if_pos hf] at hload; simp at hload
    rw [if_neg hf] at hload
    have hst : st = BASE_SUCCESS := base_failed_eq_false (by simpa using hf)
    subst hst
    simp only [Option.some.injEq, Prod.mk.injEq, true_and] at hload
    obtain ⟨hl1, hu1⟩ := memory_stream.advance_linear hlin 24 (by omega)
    rw [hun, List.append_assoc, List.drop_left' hlen] at hu1
    have := inverse_quantize_uniform header (out'.advance 24) s' img0 img' c acc hcf hc hwpos
      hhpos dw dh h4 hsz hl1 hs0 (by rw [hu1, hT]) hR hq
    rw [← hload.2]
    exact this


/-! ## round trip of a uniform image -/

/-- C3 (as amended): when `save_ptcx` encodes an image whose pixels all have the
colour `c` into an empty stream with room for the whole encoding, at any quality,
`load_ptcx` on the result succeeds and every pixel of the decoded image is
`(8 * (c0 / 8), 4 * (c1 / 4), 8 * (c2 / 8))`, the colour cut to 5, 6 and 5 bits;
so the decoded image equals the source byte for byte exactly when channels 0 and
2 are multiples of 8 and channel 1 is a multiple of 4. -/
theorem round_trip_of_uniform_image (sqrt : Nat → Nat) (input : image) (quality : Nat)
    (output out' : memory_stream) (decoded_into : image) (n : Nat) (c : color)
    (hc : c.c0 < 256 ∧ c.c1 < 256 ∧ c.c2 < 256)
    (huni : ∀ x y, x < input.query_width → y < input.query_height →
      input.pixel_at x y = some c)
    (hout : output.holds [])
    (hsave : save_ptcx sqrt input quality output = some (BASE_SUCCESS, out'))
    (hsize : encoding_size sqrt input quality = some n)
    (hfit : n ≤ output.data.data.length) :
    ∃ rest img, load_ptcx out' decoded_into = some (BASE_SUCCESS, rest, img) ∧
      img.query_width = input.query_width ∧ img.query_height = input.query_height ∧
      (∀ x y, x < input.query_width → y < input.query_height →
        img.pixel_at x y = some ⟨8 * (c.c0 / 8), 4 * (c.c1 / 4), 8 * (c.c2 / 8)⟩) ∧
      ((∀ x y, x < input.query_width → y < input.query_height →
          img.pixel_at x y = input.pixel_at x y) ↔
        (c.c0 % 8 = 0 ∧ c.c1 % 4 = 0 ∧ c.c2 % 8 = 0)) := by
  obtain ⟨rest, img, hload, _, hw, hh, hwpos, hhpos, hpix⟩ :=
    uniform_image_round_trip sqrt input quality output out' decoded_into n c hc huni hout hsave
      hsize hfit
  refine ⟨rest, img, hload, hw, hh, hpix, ?_, ?_⟩
  · intro hsame
    have h0 := hsame 0 0 hwpos hhpos
    rw [hpix 0 0 hwpos hhpos, huni 0 0 hwpos hhpos] at h0
    obtain ⟨c0, c1, c2⟩ := c
    simp only [Option.some.injEq, color.mk.injEq] at h0
    simp only
    omega
  · intro hdiv x y hx hy
    rw [hpix x y hx hy, huni x y hx hy]
    obtain ⟨c0, c1, c2⟩ := c
    simp only at hdiv
    simp only [Option.some.injEq, color.mk.injEq]
    omega

/-- Witness of `round_trip_of_uniform_image`: the 16 x 16 image of colour
(100,150,200) at quality 2, encoded into an empty stream of 4096 bytes. -/
theorem round_trip_of_uniform_image_witness :
    ∃ out' rest img,
      save_ptcx Nat.sqrt (solid_image 16 16 ⟨100, 150, 200⟩) 2 (fresh_stream 4096) =
        some (BASE_SUCCESS, out') ∧
      load_ptcx out' image.new = some (BASE_SUCCESS, rest, img) ∧
      img.query_width = 16 ∧ img.query_height = 16 ∧
      (∀ x y, x < 16 → y < 16 → img.pixel_at x y = some ⟨96, 148, 200⟩) ∧
      ((∀ x y, x < 16 → y < 16 →
          img.pixel_at x y = (solid_image 16 16 ⟨100, 150, 200⟩).pixel_at x y) ↔
        (100 % 8 = 0 ∧ 150 % 4 = 0 ∧ 200 % 8 = 0)) := by
  obtain ⟨out', n, hs, hn, hle⟩ := save_ptcx_solid_16 Nat.sqrt ⟨100, 150, 200⟩
  obtain ⟨rest, img, h⟩ := round_trip_of_uniform_image Nat.sqrt
    (solid_image 16 16 ⟨100, 150, 200⟩) 2 (fresh_stream 4096) out' image.new n ⟨100, 150, 200⟩
    (by decide) (fun x y hx hy => solid_image_pixel_at 16 16 _ (by decide) hx hy)
    (fresh_stream_holds 4096 (by decide)).1 hs hn hle
  exact ⟨out', rest, img, hs, h⟩

/-- C3, counterexample: every pixel of the 16 x 16 image is (100,150,200); at
quality 2 the image encodes successfully, whatever `base::sqrt` returns, and
`load_ptcx` decodes the result to pixels (96,148,200), which is another colour. -/
theorem solid_100_150_200_decodes_to_96_148_200 :
    (∀ x y, x < 16 → y < 16 →
      (solid_image 16 16 ⟨100, 150, 200⟩).pixel_at x y = some ⟨100, 150, 200⟩) ∧
    (∀ sqrt : Nat → Nat, ∃ out' rest img,
      save_ptcx sqrt (solid_image 16 16 ⟨100, 150, 200⟩) 2 (fresh_stream 4096) =
        some (BASE_SUCCESS, out') ∧
      load_ptcx out' image.new = some (BASE_SUCCESS, rest, img) ∧
      ∀ x y, x < 16 → y < 16 → img.pixel_at x y = some ⟨96, 148, 200⟩) ∧
    (⟨96, 148, 200⟩ : color) ≠ ⟨100, 150, 200⟩ := by
  refine ⟨fun x y hx hy => solid_image_pixel_at 16 16 _ (by decide) hx hy, ?_, by decide⟩
  intro sqrt
  obtain ⟨out', n, hs, hn, hle⟩ := save_ptcx_solid_16 sqrt ⟨100, 150, 200⟩
  obtain ⟨rest, img, hload, _, _, _, _, _, hpix⟩ := uniform_image_round_trip sqrt
    (solid_image 16 16 ⟨100, 150, 200⟩) 2 (fresh_stream 4096) out' image.new n ⟨100, 150, 200⟩
    (by decide) (fun x y hx hy => solid_image_pixel_at 16 16 _ (by decide) hx hy)
    (fresh_stream_holds 4096 (by decide)).1 hs hn hle
  exact ⟨out', rest, img, hs, hload, hpix⟩


/-! ## the header that save_ptcx writes -/

/-- The eleven fields of a header lie at the byte offsets 0, 4, 6, 8, 10, 12, 14,
16, 18, 19 and 20 of its 24 bytes. -/
theorem header_bytes_layout (h : PTCX_FILE_HEADER) :
    (header_bytes h).length = 24 ∧
    (header_bytes h).take 4 = bytes_of_u32 h.magic ∧
    ((header_bytes h).drop 4).take 2 = bytes_of_u16 h.version ∧
    ((header_bytes h).drop 6).take 2 = bytes_of_u16 h.header_size ∧
    ((header_bytes h).drop 8).take 2 = bytes_of_u16 h.image_width ∧
    ((header_bytes h).drop 10).take 2 = bytes_of_u16 h.image_height ∧
    ((header_bytes h).drop 12).take 2 = bytes_of_u16 h.image_depth ∧
    ((header_bytes h).drop 14).take 2 = bytes_of_u16 h.block_width ∧
    ((header_bytes h).drop 16).take 2 = bytes_of_u16 h.block_height ∧
    ((header_bytes h).drop 18).take 1 = [h.quant_step_bits % 256] ∧
    ((header_bytes h).drop 19).take 1 = [h.quant_control_bits % 256] ∧
    (header_bytes h).drop 20 = bytes_of_u32 h.source_format := by
  simp [header_bytes, bytes_of_u16, bytes_of_u32]

/-- C11: the header `save_ptcx` serializes is exactly 24 bytes
(`sizeof(PTCX_FILE_HEADER)` under `#pragma pack(1)`), with the fields at offsets
0, 4, 6, 8, 10, 12, 14, 16, 18, 19 and 20; for every image and every quality the
header `configure_header` builds has magic 0x50544358, version 2, header_size 24,
image_depth 1 and quant_control_bits 16; and `load_ptcx`, run on any stream that
starts with these 24 bytes, reads the same header back and does not reject it:
whatever it returns is not `BASE_ERROR_INVALID_RESOURCE`, the status of its three
header checks, nor `BASE_ERROR_INVALIDARG`. -/
theorem configure_header_serializes_to_valid_header (input : image) (quality : Nat)
    (s : memory_stream) (rest : List Nat) (output : image)
    (hlin : s.linear)
    (hun : s.unread = header_bytes (configure_header input quality) ++ rest) :
    sizeof_PTCX_FILE_HEADER = 24 ∧
    (header_bytes (configure_header input quality)).length = 24 ∧
    (header_bytes (configure_header input quality)).take 4 = bytes_of_u32 0x50544358 ∧
    ((header_bytes (configure_header input quality)).drop 4).take 2 = bytes_of_u16 2 ∧
    ((header_bytes (configure_header input quality)).drop 6).take 2 = bytes_of_u16 24 ∧
    ((header_bytes (configure_header input quality)).drop 8).take 2 =
      bytes_of_u16 (input.query_width % 65536) ∧
    ((header_bytes (configure_header input quality)).drop 10).take 2 =
      bytes_of_u16 (input.query_height % 65536) ∧
    ((header_bytes (configure_header input quality)).drop 12).take 2 = bytes_of_u16 1 ∧
    ((header_bytes (configure_header input quality)).drop 14).take 2 =
      bytes_of_u16 (configure_quality_block_width quality) ∧
    ((header_bytes (configure_header input quality)).drop 16).take 2 =
      bytes_of_u16 (configure_quality_block_height quality) ∧
    ((header_bytes (configure_header input quality)).drop 18).take 1 =
      [configure_quality_quant_step_bits quality % 256] ∧
    ((header_bytes (configure_header input quality)).drop 19).take 1 = [16] ∧
    (header_bytes (configure_header input quality)).drop 20 =
      bytes_of_u32 input.query_image_format.value ∧
    header_of_bytes (s.unread.take 24) = configure_header input quality ∧
    (configure_header input quality).magic = PTCX_MAGIC_VALUE ∧
    (configure_header input quality).version = PTCX_MAJOR_VERSION ∧
    (configure_header input quality).header_size = sizeof_PTCX_FILE_HEADER ∧
    (configure_header input quality).image_depth = 1 ∧
    (configure_header input quality).quant_control_bits = 16 ∧
    ∀ st s' img, load_ptcx s output = some (st, s', img) →
      st ≠ BASE_ERROR_INVALID_RESOURCE ∧ st ≠ BASE_ERROR_INVALIDARG := by
  obtain ⟨l0, l1, l2, l3, l4, l5, l6, l7, l8, l9, l10, l11⟩ :=
    header_bytes_layout (configure_header input quality)
  have hlen := header_bytes_length (configure_header input quality)
  have hhdr : header_of_bytes (s.unread.take 24) = configure_header input quality := by
    rw [hun, List.take_left' hlen]
    exact configure_header_round_trip input quality
  refine ⟨rfl, l0, l1, l2, l3, l4, l5, l6, l7, l8, l9, l10, l11, hhdr, rfl, rfl, rfl, rfl, rfl,
    ?_⟩
  intro st s' img hload
  have hulen : 24 ≤ s.unread.length := by rw [hun]; simp [hlen]
  have hne : s.unread ≠ [] := by
    intro h; rw [h] at hulen; simp at hulen
  have hemp : s.is_empty = false := by
    have hocc := memory_stream.occupancy_linear hlin
    have : s.unread.length ≠ 0 := by omega
    simp [memory_stream.is_empty, ring_buffer.is_empty, hocc, this]
  unfold load_ptcx at hload
  have h24 : sizeof_PTCX_FILE_HEADER = 24 := rfl
  rw [h24, memory_stream.read_data_linear hlin (by norm_num) hne, Nat.min_eq_left hulen] at hload
  have f1 : (configure_header input quality).magic = 1347699544 := rfl
  have f2 : (configure_header input quality).header_size = 24 := rfl
  have f3 : (configure_header input quality).version = 2 := rfl
  simp only [BASE_PARAM_CHECK_eq, hemp, Bool.and_false, Bool.false_eq_true, if_false,
    base_failed_success, ne_eq, not_true_eq_false, base_post_error_eq, PTCX_MAGIC_VALUE,
    hhdr, f1, f2, f3, or_self] at hload
  split at hload
  · simp only [Option.some.injEq, Prod.mk.injEq] at hload
    rw [← hload.1]; decide
  · split at hload
    · simp at hload
    · split at hload
      · simp only [Option.some.injEq, Prod.mk.injEq] at hload
        rw [← hload.1]; decide
      · simp only [Option.some.injEq, Prod.mk.injEq] at hload
        rw [← hload.1]; decide

/-- Witness of `configure_header_serializes_to_valid_header`: a stream that holds
exactly the header of the 16 x 16 image of colour (100,150,200) at quality 2. -/
theorem configure_header_serializes_to_valid_header_witness :
    (header_bytes (configure_header (solid_image 16 16 ⟨100, 150, 200⟩) 2)) =
      [0x58, 0x43, 0x54, 0x50, 2, 0, 24, 0, 16, 0, 16, 0, 1, 0, 8, 0, 8, 0, 4, 16, 1, 0, 0, 0] ∧
    ∀ st s' img,
      load_ptcx ⟨⟨header_bytes (configure_header (solid_image 16 16 ⟨100, 150, 200⟩) 2), 0, 24⟩⟩
        image.new = some (st, s', img) →
      st ≠ BASE_ERROR_INVALID_RESOURCE ∧ st ≠ BASE_ERROR_INVALIDARG :=
  ⟨by decide,
   (configure_header_serializes_to_valid_header (solid_image 16 16 ⟨100, 150, 200⟩) 2
    ⟨⟨header_bytes (configure_header (solid_image 16 16 ⟨100, 150, 200⟩) 2), 0, 24⟩⟩ []
    image.new (by decide) (by decide)).2.2.2.2.2.2.2.2.2.2.2.2.2.2.2.2.2.2.2⟩

/-! ## the quality tables -/

/-- C16: over the qualities 0..4 the base block size `configure_header_quality`
chooses is 16, 16, 8, 4, 2 and never grows with the quality, `quant_step_bits` is
2, 2, 4, 4, 4 and never shrinks, and `block_height` equals `block_width`. -/
theorem quality_tables_are_monotonic (header : PTCX_FILE_HEADER) (q q' : Nat) (hq : q ≤ q')
    (h4 : q' ≤ 4) :
    (configure_header_quality header q').block_width ≤
      (configure_header_quality header q).block_width ∧
    (configure_header_quality header q).quant_step_bits ≤
      (configure_header_quality header q').quant_step_bits ∧
    (configure_header_quality header q).block_height =
      (configure_header_quality header q).block_width ∧
    [0, 1, 2, 3, 4].map (fun k => (configure_header_quality header k).block_width) =
      [16, 16, 8, 4, 2] ∧
    [0, 1, 2, 3, 4].map (fun k => (configure_header_quality header k).quant_step_bits) =
      [2, 2, 4, 4, 4] := by
  refine ⟨?_, ?_, rfl, rfl, rfl⟩
  · interval_cases q' <;> interval_cases q <;>
      simp [configure_header_quality, configure_quality_block_width, PTCX_MAX_BLOCK_SIZE]
  · interval_cases q' <;> interval_cases q <;>
      simp [configure_header_quality, configure_quality_quant_step_bits]

/-- Witness of `quality_tables_are_monotonic`: qualities 1 and 2 of the header of an
empty image. -/
theorem quality_tables_are_monotonic_witness :
    (configure_header_quality (configure_header image.new 0) 2).block_width ≤
      (configure_header_quality (configure_header image.new 0) 1).block_width ∧
    (configure_header_quality (configure_header image.new 0) 1).quant_step_bits ≤
      (configure_header_quality (configure_header image.new 0) 2).quant_step_bits :=
  ⟨(quality_tables_are_monotonic (configure_header image.new 0) 1 2 (by decide) (by decide)).1,
   (quality_tables_are_monotonic (configure_header image.new 0) 1 2 (by decide) (by decide)).2.1⟩

/-! ## the number of bytes of a microblock record -/

/-- C12 (code defect): with `quant_step_bits = 8`, `quantize_microblock` on a
2 x 2 microblock appends 7 bytes to an empty buffer, the 4 control bytes and 3
index bytes, not the 4 + ceil(2 * 2 * 8 / 8) = 8 bytes of the format, which are
what `read_macroblock` consumes for the record: the flush test of
`write_quantization_table` starts with `linear_sub_index &&`, so the byte of
index 0 is never written. With `quant_step_bits = 1` the 4 index bits of a 2 x 2
microblock never fill a byte and only the 4 control bytes are appended, where
the format has 5. -/
theorem quantize_microblock_record_is_short :
    (quantize_microblock Nat.sqrt (solid_image 2 2 ⟨10, 20, 30⟩)
        { configure_header (solid_image 2 2 ⟨10, 20, 30⟩) 4 with quant_step_bits := 8 } 0 0
        (ring_buffer.new.resize_capacity 16).2 0).map (fun r => r.1.query_occupancy) = some 7 ∧
    4 + (2 * 2 * 8 + 7) / 8 = 8 ∧
    microblock_bytes
      { configure_header (solid_image 2 2 ⟨10, 20, 30⟩) 4 with quant_step_bits := 8 } = 8 ∧
    (quantize_microblock Nat.sqrt (solid_image 2 2 ⟨10, 20, 30⟩)
        { configure_header (solid_image 2 2 ⟨10, 20, 30⟩) 4 with quant_step_bits := 1 } 0 0
        (ring_buffer.new.resize_capacity 16).2 0).map (fun r => r.1.query_occupancy) = some 4 ∧
    4 + (2 * 2 * 1 + 7) / 8 = 5 ∧
    microblock_bytes
      { configure_header (solid_image 2 2 ⟨10, 20, 30⟩) 4 with quant_step_bits := 1 } = 5 := by
  refine ⟨by decide!, by decide, by decide!, by decide!, by decide, by decide!⟩

/-! ## the level quantize_macroblock selects -/

/-- The error a trial of `quantize_macroblock` reports is the squared error its
microblocks accumulated, divided by the number of pixels of the macroblock. -/
theorem quantize_macroblock_trial_mean (sqrt : Nat → Nat) (input : image)
    (header : PTCX_FILE_HEADER) (px py shift : Nat) (buf b : ring_buffer) (e : Nat)
    (h : quantize_macroblock_trial sqrt input header px py shift buf = some (b, e)) :
    ∃ total,
      for_loop (fun micro_j => for_loop
          (quantize_macroblock_step sqrt input (microblock_header header shift) px py micro_j)
          (header.block_width / (microblock_header header shift).block_width) 0)
        (header.block_height / (microblock_header header shift).block_height) 0
        (buf.empty, 0) = some (b, total) ∧
      e = total / ((header.block_width * header.block_height) % U32) := by
  unfold quantize_macroblock_trial at h
  split at h
  · simp at h
  · rename_i st hloop
    split at h
    · simp at h
    · simp only [Option.some.injEq, Prod.mk.injEq] at h
      obtain ⟨st1, st2⟩ := st
      exact ⟨st2, by rw [hloop, ← h.1], h.2.symm⟩

/-- The level `quantize_macroblock` selects: with `mse_k` the error of the trial at
shift `k` (the squared error accumulated over its microblocks divided by the
number of pixels of the macroblock), it hands `write_macroblock_table_entry`
level 0 when `mse_0 <= 64`, else level 1 when `mse_1 <= 64`, else level 2; it
returns `BASE_SUCCESS`, and the bytes it appends to an output stream that has
room for them are exactly the contents of the trial buffer of that level. -/
theorem quantize_macroblock_selects_level (sqrt : Nat → Nat) (input : image)
    (header : PTCX_FILE_HEADER) (px py : Nat)
    (st st' : (ring_buffer × ring_buffer × ring_buffer) × List Nat × memory_stream)
    (result : status) (b0 b1 b2 : ring_buffer) (mse0 mse1 mse2 : Nat) (acc bytes : List Nat)
    (h0 : quantize_macroblock_trial sqrt input header px py 0 st.1.1 = some (b0, mse0))
    (h1 : quantize_macroblock_trial sqrt input header px py 1 st.1.2.1 = some (b1, mse1))
    (h2 : quantize_macroblock_trial sqrt input header px py 2 st.1.2.2 = some (b2, mse2))
    (hbytes : peeked_occupants
      (if mse0 ≤ 64 then b0 else if mse1 ≤ 64 then b1 else b2) = some bytes)
    (hlt : bytes.length < U32)
    (hacc : st.2.2.holds acc) (hroom : acc.length + bytes.length ≤ st.2.2.data.data.length)
    (h : quantize_macroblock sqrt input header px py st = some (result, st')) :
    result = BASE_SUCCESS ∧
    write_macroblock_table_entry st.2.1 (px / header.block_width)
      (header.image_width / header.block_width) (py / header.block_height)
      (if mse0 ≤ 64 then 0 else if mse1 ≤ 64 then 1 else 2) = some st'.2.1 ∧
    st'.2.2.holds (acc ++ bytes) ∧ st'.1 = (b0, b1, b2) ∧
    (∃ total0 total1 total2,
      mse0 = total0 / ((header.block_width * header.block_height) % U32) ∧
      mse1 = total1 / ((header.block_width * header.block_height) % U32) ∧
      mse2 = total2 / ((header.block_width * header.block_height) % U32) ∧
      for_loop (fun micro_j => for_loop
          (quantize_macroblock_step sqrt input (microblock_header header 0) px py micro_j)
          (header.block_width / (microblock_header header 0).block_width) 0)
        (header.block_height / (microblock_header header 0).block_height) 0
        (st.1.1.empty, 0) = some (b0, total0) ∧
      for_loop (fun micro_j => for_loop
          (quantize_macroblock_step sqrt input (microblock_header header 1) px py micro_j)
          (header.block_width / (microblock_header header 1).block_width) 0)
        (header.block_height / (microblock_header header 1).block_height) 0
        (st.1.2.1.empty, 0) = some (b1, total1) ∧
      for_loop (fun micro_j => for_loop
          (quantize_macroblock_step sqrt input (microblock_header header 2) px py micro_j)
          (header.block_width / (microblock_header header 2).block_width) 0)
        (header.block_height / (microblock_header header 2).block_height) 0
        (st.1.2.2.empty, 0) = some (b2, total2)) := by
  obtain ⟨t0, l0, m0⟩ := quantize_macroblock_trial_mean sqrt input header px py 0 _ _ _ h0
  obtain ⟨t1, l1, m1⟩ := quantize_macroblock_trial_mean sqrt input header px py 1 _ _ _ h1
  obtain ⟨t2, l2, m2⟩ := quantize_macroblock_trial_mean sqrt input header px py 2 _ _ _ h2
  have hchosen : (if (if mse0 ≤ PTCX_QUALITY_DELTA then 0
        else if mse1 ≤ PTCX_QUALITY_DELTA then 1 else 2) = 0 then b0
      else if (if mse0 ≤ PTCX_QUALITY_DELTA then 0
        else if mse1 ≤ PTCX_QUALITY_DELTA then 1 else 2) = 1 then b1 else b2) =
      (if mse0 ≤ 64 then b0 else if mse1 ≤ 64 then b1 else b2) := by
    have hq : PTCX_QUALITY_DELTA = 64 := rfl
    rw [hq]
    by_cases c0 : mse0 ≤ 64
    · simp [c0]
    · by_cases c1 : mse1 ≤ 64
      · simp [c0, c1]
      · simp [c0, c1]
  have hq : PTCX_QUALITY_DELTA = 64 := rfl
  unfold quantize_macroblock at h
  rw [h0] at h
  simp only [] at h
  rw [h1] at h
  simp only [] at h
  rw [h2] at h
  simp only [] at h
  split at h
  · simp at h
  rw [hchosen, hbytes, hq] at h
  cases hw : write_macroblock_table_entry st.2.1 (px / header.block_width)
      (header.image_width / header.block_width) (py / header.block_height)
      (if mse0 ≤ 64 then 0 else if mse1 ≤ 64 then 1 else 2) with
  | none => rw [hw] at h; simp at h
  | some table =>
    rw [hw] at h
    simp only [] at h
    have hwrite : ∃ s', st.2.2.write_data bytes = some s' ∧ s'.2.1.holds (acc ++ bytes) := by
      by_cases hnil : bytes = []
      · subst hnil
        refine ⟨(base_post_error BASE_ERROR_INVALIDARG, st.2.2, none), ?_, by simpa using hacc⟩
        simp [memory_stream.write_data]
      · obtain ⟨_, wroom⟩ := memory_stream.write_data_holds hacc bytes hnil hlt
        have hpos : 0 < bytes.length := List.length_pos.mpr hnil
        obtain ⟨s', hs', hh, _⟩ := wroom (by omega)
        rw [List.take_of_length_le (by omega)] at hh
        exact ⟨_, hs', hh⟩
    obtain ⟨s', hs', hh⟩ := hwrite
    rw [hs'] at h
    simp only [Option.some.injEq, Prod.mk.injEq] at h
    obtain ⟨r1, r2⟩ := h
    subst r2
    exact ⟨r1.symm, rfl, hh, rfl, t0, t1, t2, m0, m1, m2, l0, l1, l2⟩

/-- Witness of `quantize_macroblock_selects_level`: the only macroblock of a 2 x 2
image of colour (10,20,30) with the header of quality 4, a one-byte table and an
empty output stream of 64 bytes; level 0 is selected and six bytes are appended. -/
theorem quantize_macroblock_selects_level_witness :
    ∃ st' bytes,
      quantize_macroblock Nat.sqrt (solid_image 2 2 ⟨10, 20, 30⟩)
        (configure_header (solid_image 2 2 ⟨10, 20, 30⟩) 4) 0 0
        (((ring_buffer.new.resize_capacity 132).2, (ring_buffer.new.resize_capacity 132).2,
          (ring_buffer.new.resize_capacity 132).2), [0], fresh_stream 64) =
        some (BASE_SUCCESS, st') ∧
      write_macroblock_table_entry [0] 0 1 0 0 = some st'.2.1 ∧
      st'.2.2.holds bytes ∧ bytes.length = 6 := by
  have hc := configure_header_configured (solid_image 2 2 ⟨10, 20, 30⟩) 4
  have huni : ∀ x y, x < (solid_image 2 2 ⟨10, 20, 30⟩).query_width →
      y < (solid_image 2 2 ⟨10, 20, 30⟩).query_height →
      (solid_image 2 2 ⟨10, 20, 30⟩).pixel_at x y = some ⟨10, 20, 30⟩ :=
    fun x y hx hy => solid_image_pixel_at 2 2 _ (by decide) hx hy
  have hread : ∀ x y, x < (solid_image 2 2 ⟨10, 20, 30⟩).query_width →
      y < (solid_image 2 2 ⟨10, 20, 30⟩).query_height →
      ∃ c, (solid_image 2 2 ⟨10, 20, 30⟩).pixel_at x y = some c :=
    fun x y hx hy => ⟨_, huni x y hx hy⟩
  obtain ⟨hout, hcap⟩ := fresh_stream_holds 64 (by decide)
  obtain ⟨⟨b0, e0⟩, h0⟩ := quantize_macroblock_trial_defined Nat.sqrt
    (solid_image 2 2 ⟨10, 20, 30⟩) (configure_header (solid_image 2 2 ⟨10, 20, 30⟩) 4) 0 0 0
    (ring_buffer.new.resize_capacity 132).2 hc hread (by decide) (by decide)
  obtain ⟨⟨b1, e1⟩, h1⟩ := quantize_macroblock_trial_defined Nat.sqrt
    (solid_image 2 2 ⟨10, 20, 30⟩) (configure_header (solid_image 2 2 ⟨10, 20, 30⟩) 4) 0 0 1
    (ring_buffer.new.resize_capacity 132).2 hc hread (by decide) (by decide)
  obtain ⟨⟨b2, e2⟩, h2⟩ := quantize_macroblock_trial_defined Nat.sqrt
    (solid_image 2 2 ⟨10, 20, 30⟩) (configure_header (solid_image 2 2 ⟨10, 20, 30⟩) 4) 0 0 2
    (ring_buffer.new.resize_capacity 132).2 hc hread (by decide) (by decide)
  obtain ⟨bs0, f0, l0, _⟩ := quantize_macroblock_trial_filling Nat.sqrt _ _ 0 0 0 _ b0 e0 hc.1
    (by decide!) (by decide!) h0
  obtain ⟨he0, hlen0, _⟩ := quantize_macroblock_trial_uniform Nat.sqrt _ _ 0 0 _ b0 e0 bs0
    ⟨10, 20, 30⟩ hc (by decide) huni (by decide) (by decide) (by decide!) h0 f0
  subst he0
  have hm : macroblock_bytes (configure_header (solid_image 2 2 ⟨10, 20, 30⟩) 4) 0 = 6 := by
    decide
  rw [hm] at hlen0
  obtain ⟨st', hq⟩ := quantize_macroblock_total Nat.sqrt (solid_image 2 2 ⟨10, 20, 30⟩)
    (configure_header (solid_image 2 2 ⟨10, 20, 30⟩) 4) 0 0
    (((ring_buffer.new.resize_capacity 132).2, (ring_buffer.new.resize_capacity 132).2,
      (ring_buffer.new.resize_capacity 132).2), [0], fresh_stream 64) [] 1 hc hread
    (by decide) (by decide) (by decide!) (by decide!) (by decide!) rfl hout (by decide)
  simp only [Nat.zero_mul] at hq
  obtain ⟨r1, r2, r3, _, _⟩ := quantize_macroblock_selects_level Nat.sqrt
    (solid_image 2 2 ⟨10, 20, 30⟩) (configure_header (solid_image 2 2 ⟨10, 20, 30⟩) 4) 0 0
    (((ring_buffer.new.resize_capacity 132).2, (ring_buffer.new.resize_capacity 132).2,
      (ring_buffer.new.resize_capacity 132).2), [0], fresh_stream 64) st' BASE_SUCCESS
    b0 b1 b2 0 e1 e2 [] bs0 h0 h1 h2 (peeked_occupants_filling f0)
    (by rw [hlen0]; decide) hout (by rw [hcap, hlen0]; decide) hq
  exact ⟨st', bs0, hq, r2, by simpa using r3, hlen0⟩

/-! ## the step value of quantize_pixel -/

/-- C14 (code defect): `quantize_pixel` does not keep its step value within
`[0, 2^quant_step_bits - 1]`. With 4 step bits, the range (0,0,0) .. (16,0,0) and
the pixel (16,0,0), which is the maximum of the range, a square root that gives
`sqrt(256) = 16` (as the exact root does) makes the unit length 16 / 15 = 1 and
the step value 16 / 1 = 16, above the step count 15; with 2 step bits, the range
(0,0,0) .. (4,0,0) and the pixel (4,0,0), `sqrt(16) = 4` gives the step value 4,
above the step count 3. Nothing clamps the quotient. -/
theorem quantize_pixel_step_value_exceeds_step_count :
    (∀ sqrt : Nat → Nat, sqrt 256 = 16 →
      quantize_pixel sqrt 4 ⟨⟨0, 0, 0⟩, ⟨16, 0, 0⟩⟩ ⟨16, 0, 0⟩ false = some (16, 0)) ∧
    Nat.sqrt 256 = 16 ∧ 2 ^ 4 - 1 < 16 ∧
    (∀ sqrt : Nat → Nat, sqrt 16 = 4 →
      quantize_pixel sqrt 2 ⟨⟨0, 0, 0⟩, ⟨4, 0, 0⟩⟩ ⟨4, 0, 0⟩ false = some (4, 0)) ∧
    Nat.sqrt 16 = 4 ∧ 2 ^ 2 - 1 < 4 := by
  refine ⟨?_, by norm_num [Nat.sqrt_eq'], by decide, ?_, by norm_num [Nat.sqrt_eq'], by decide⟩
  · intro sqrt h
    simp [quantize_pixel, to_int16, to_uint8, h]
    decide
  · intro sqrt h
    simp [quantize_pixel, to_int16, to_uint8, h]
    decide

/-! ## dequantization and the reconstruction of quantize_pixel -/

theorem quant_step_mask_eq {bits : Nat} (hb : bits ≤ 8) :
    ((1 <<< bits) + U32 - 1) % U32 = 2 ^ bits - 1 ∧
    to_uint8 ((1 <<< bits : Nat) - 1 : Int) = 2 ^ bits - 1 := by
  interval_cases bits <;> decide

/-- For a range with `min <= max <= 255` and an index up to the step count, the
value `read_macroblock` stores is the specification's. -/
theorem dequantize_channel_eq_spec {lo hi sc index : Nat} (h1 : lo ≤ hi) (h2 : hi < 256)
    (hidx : index ≤ sc) :
    dequantize_channel (to_int16 lo) (to_int16 (to_int16 hi - to_int16 lo)) sc index =
      spec_dequantize lo hi sc index := by
  have e1 : to_int16 (lo : Int) = lo := to_int16_natCast (by omega)
  have e2 : to_int16 (hi : Int) = hi := to_int16_natCast (by omega)
  have e3 : ((hi : Int) - (lo : Int)) = ((hi - lo : Nat) : Int) := by omega
  have e4 : to_int16 ((hi - lo : Nat) : Int) = ((hi - lo : Nat) : Int) :=
    to_int16_natCast (by omega)
  rw [e1, e2, e3, e4]
  unfold dequantize_channel spec_dequantize
  have a1 : ((lo : Int) % 4294967296).toNat = lo := by omega
  have a2 : (((hi - lo : Nat) : Int) % 4294967296).toNat = hi - lo := by omega
  rw [a1, a2]
  have b1 : (hi - lo) / sc * index ≤ (hi - lo) / sc * sc := Nat.mul_le_mul_left _ hidx
  have b2 : (hi - lo) / sc * sc ≤ hi - lo := Nat.div_mul_le_self _ _
  simp only [U32]
  omega

/-- The same for the value `quantize_pixel` stores into `reconstruction`. -/
theorem reconstruction_eq_spec {lo hi sc index : Nat} (h1 : lo ≤ hi) (h2 : hi < 256)
    (hidx : index ≤ sc) :
    to_uint8 (to_int16 lo + Int.tdiv (to_int16 (to_int16 hi - to_int16 lo)) sc * index) =
      spec_dequantize lo hi sc index := by
  have e1 : to_int16 (lo : Int) = lo := to_int16_natCast (by omega)
  have e2 : to_int16 (hi : Int) = hi := to_int16_natCast (by omega)
  have e3 : ((hi : Int) - (lo : Int)) = ((hi - lo : Nat) : Int) := by omega
  have e4 : to_int16 ((hi - lo : Nat) : Int) = ((hi - lo : Nat) : Int) :=
    to_int16_natCast (by omega)
  rw [e1, e2, e3, e4]
  have e5 : Int.tdiv ((hi - lo : Nat) : Int) (sc : Int) = (((hi - lo) / sc : Nat) : Int) := by
    exact (Int.ofNat_tdiv _ _).symm
  rw [e5]
  have b1 : (hi - lo) / sc * index ≤ (hi - lo) / sc * sc := Nat.mul_le_mul_left _ hidx
  have b2 : (hi - lo) / sc * sc ≤ hi - lo := Nat.div_mul_le_self _ _
  unfold spec_dequantize
  have e6 : ((lo : Int) + (((hi - lo) / sc : Nat) : Int) * (index : Int)) =
      ((lo + (hi - lo) / sc * index : Nat) : Int) := by push_cast; ring
  rw [e6]
  exact to_uint8_natCast (by omega)

/-- C15: for a range with `min <= max` in each channel (channels being bytes), a
step width of 1 to 8 bits and an index up to the step count `2^bits - 1`,
`read_macroblock` stores into each channel of the pixel the value
`min + ((max - min) / stepCount) * index` with truncating division, and when
`quantize_pixel` arrives at that index for a pixel, the reconstruction whose
squared distance to the pixel it reports as the error has the same three
values. -/
theorem dequantization_matches_reconstruction (bits : Nat) (range : PTCX_PIXEL_RANGE)
    (index : Nat) (hb1 : 1 ≤ bits) (hb8 : bits ≤ 8)
    (h0 : range.min_value.c0 ≤ range.max_value.c0 ∧ range.max_value.c0 < 256)
    (h1 : range.min_value.c1 ≤ range.max_value.c1 ∧ range.max_value.c1 < 256)
    (h2 : range.min_value.c2 ≤ range.max_value.c2 ∧ range.max_value.c2 < 256)
    (hidx : index ≤ 2 ^ bits - 1) :
    (∀ (x y subi subj : Nat) (img : image),
      store_dequantized bits range x y subi subj index img =
        img.store_pixel (img.query_block_offset ((x + subi) % U32) ((y + subj) % U32))
          { c0 := spec_dequantize range.min_value.c0 range.max_value.c0 (2 ^ bits - 1) index,
            c1 := spec_dequantize range.min_value.c1 range.max_value.c1 (2 ^ bits - 1) index,
            c2 := spec_dequantize range.min_value.c2 range.max_value.c2 (2 ^ bits - 1)
              index }) ∧
    (∀ (sqrt : Nat → Nat) (pixel : color) (error : Nat),
      quantize_pixel sqrt bits range pixel true = some (index, error) →
      sum_square_differences [pixel.c0, pixel.c1, pixel.c2]
        [spec_dequantize range.min_value.c0 range.max_value.c0 (2 ^ bits - 1) index,
         spec_dequantize range.min_value.c1 range.max_value.c1 (2 ^ bits - 1) index,
         spec_dequantize range.min_value.c2 range.max_value.c2 (2 ^ bits - 1) index] 3 =
        some error) := by
  obtain ⟨hm, hsc⟩ := quant_step_mask_eq hb8
  have hpos : 2 ^ bits - 1 ≠ 0 := by
    have : 2 ≤ 2 ^ bits := by
      calc 2 = 2 ^ 1 := by norm_num
        _ ≤ 2 ^ bits := Nat.pow_le_pow_right (by norm_num) hb1
    omega
  constructor
  · intro x y subi subj img
    unfold store_dequantized
    simp only [hm, hpos, if_false]
    rw [dequantize_channel_eq_spec h0.1 h0.2 hidx, dequantize_channel_eq_spec h1.1 h1.2 hidx,
      dequantize_channel_eq_spec h2.1 h2.2 hidx]
  · intro sqrt pixel error h
    unfold quantize_pixel at h
    simp only [show ¬ (31 ≤ bits) by omega, if_false, if_true, hsc, hpos] at h
    split at h
    · simp at h
    · rename_i e hssd
      simp only [Option.some.injEq, Prod.mk.injEq] at h
      obtain ⟨hsv, he⟩ := h
      rw [hsv, reconstruction_eq_spec h0.1 h0.2 hidx, reconstruction_eq_spec h1.1 h1.2 hidx,
        reconstruction_eq_spec h2.1 h2.2 hidx] at hssd
      rw [hssd, he]

/-- Witness of `dequantization_matches_reconstruction`: 4 step bits, the range
(0,8,16) .. (30,68,16) and index 7. -/
theorem dequantization_matches_reconstruction_witness :
    (∀ (x y subi subj : Nat) (img : image),
      store_dequantized 4 ⟨⟨0, 8, 16⟩, ⟨30, 68, 16⟩⟩ x y subi subj 7 img =
        img.store_pixel (img.query_block_offset ((x + subi) % U32) ((y + subj) % U32))
          ⟨14, 36, 16⟩) ∧
    (∀ (sqrt : Nat → Nat) (pixel : color) (error : Nat),
      quantize_pixel sqrt 4 ⟨⟨0, 8, 16⟩, ⟨30, 68, 16⟩⟩ pixel true = some (7, error) →
      sum_square_differences [pixel.c0, pixel.c1, pixel.c2] [14, 36, 16] 3 = some error) :=
  dequantization_matches_reconstruction 4 ⟨⟨0, 8, 16⟩, ⟨30, 68, 16⟩⟩ 7 (by decide) (by decide)
    (by decide) (by decide) (by decide) (by decide)

/-! ## the checks of save_ptcx -/

/-- C18: `save_ptcx` returns `BASE_ERROR_INVALIDARG` when the format of the image
is not R8G8B8, and `BASE_ERROR_INVALID_RESOURCE` when the format is R8G8B8 but the
width or the height is not a multiple of 16 (the output stream being one that can
take data: a full stream is refused first, with `BASE_ERROR_INVALIDARG`). In both
cases the output stream is handed back as it was: the checks come before the
header write and before any quantization. -/
theorem save_ptcx_checks_come_first (sqrt : Nat → Nat) (input : image) (quality : Nat)
    (output : memory_stream)
    (hbad : input.query_image_format ≠ IGN_IMAGE_FORMAT_R8G8B8 ∨
      input.query_width % 16 ≠ 0 ∨ input.query_height % 16 ≠ 0)
    (hroom : input.query_image_format = IGN_IMAGE_FORMAT_R8G8B8 → output.is_full = false) :
    save_ptcx sqrt input quality output =
      some (if input.query_image_format ≠ IGN_IMAGE_FORMAT_R8G8B8 then BASE_ERROR_INVALIDARG
        else BASE_ERROR_INVALID_RESOURCE, output) := by
  unfold save_ptcx
  by_cases hfmt : input.query_image_format = IGN_IMAGE_FORMAT_R8G8B8
  · have hdims : input.query_width % 16 ≠ 0 ∨ input.query_height % 16 ≠ 0 := by
      rcases hbad with h | h
      · exact absurd hfmt h
      · exact h
    simp [hroom hfmt, hfmt, hdims]
  · have hfmt2 : IGN_IMAGE_FORMAT_R8G8B8 ≠ input.query_image_format := fun h => hfmt h.symm
    by_cases hfull : output.is_full = true
    · simp [hfull, hfmt]
    · simp [hfull, hfmt, hfmt2]

/-- Witness of `save_ptcx_checks_come_first`: a 16 x 16 image without a format and
a 24 x 16 R8G8B8 image, each handed to `save_ptcx` with an empty stream of 64
bytes. -/
theorem save_ptcx_checks_come_first_witness :
    save_ptcx Nat.sqrt { solid_image 16 16 ⟨1, 2, 3⟩ with image_format := IGN_IMAGE_FORMAT_NONE }
        2 (fresh_stream 64) = some (BASE_ERROR_INVALIDARG, fresh_stream 64) ∧
    save_ptcx Nat.sqrt (solid_image 24 16 ⟨1, 2, 3⟩) 2 (fresh_stream 64) =
      some (BASE_ERROR_INVALID_RESOURCE, fresh_stream 64) :=
  ⟨save_ptcx_checks_come_first Nat.sqrt
      { solid_image 16 16 ⟨1, 2, 3⟩ with image_format := IGN_IMAGE_FORMAT_NONE } 2
      (fresh_stream 64) (Or.inl (by decide)) (by decide),
   save_ptcx_checks_come_first Nat.sqrt (solid_image 24 16 ⟨1, 2, 3⟩) 2 (fresh_stream 64)
      (Or.inr (Or.inl (by decide))) (by decide)⟩


/-! ## images with fewer than four macroblocks -/

/-- With fewer than 4 macroblocks the size table would have no byte, and
`prepare_temporary_buffers` returns `BASE_ERROR_INVALID_RESOURCE` before it
resizes anything. -/
theorem prepare_temporary_buffers_too_few (header : PTCX_FILE_HEADER) (hc : header.configured)
    (hW : header.image_width % 16 = 0) (hH : header.image_height % 16 = 0)
    (hw0 : 0 < header.image_width) (hh0 : 0 < header.image_height)
    (hsmall : (header.image_width / header.block_width) *
      (header.image_height / header.block_height) < 4) :
    prepare_temporary_buffers header memory_stream.new [] =
      some (BASE_ERROR_INVALID_RESOURCE, memory_stream.new, []) := by
  have key : header.block_width ≠ 0 ∧ header.block_height ≠ 0 ∧
      header.image_width < 64 ∧ header.image_height < 64 := by
    obtain ⟨_, hcase⟩ := hc
    rcases hcase with ⟨h1, h2, _⟩ | ⟨h1, h2, _⟩ | ⟨h1, h2, _⟩ | ⟨h1, h2, _⟩ <;>
    · rw [h1, h2] at hsmall
      rw [h1, h2]
      have b1 := Nat.le_mul_of_pos_right (header.image_width / header.block_width)
        (show 0 < header.image_height / header.block_height by
          rw [h2]; exact Nat.div_pos (by omega) (by norm_num))
      have b2 := Nat.le_mul_of_pos_left (header.image_height / header.block_height)
        (show 0 < header.image_width / header.block_width by
          rw [h1]; exact Nat.div_pos (by omega) (by norm_num))
      rw [h1, h2] at b1 b2
      refine ⟨by omega, by omega, ?_, ?_⟩ <;> omega
  obtain ⟨k1, k2, k3, k4⟩ := key
  have hsz : (header.image_width / 2) * (header.image_height * 2) * (6 + 2) < 2147483648 := by
    have : (header.image_width / 2) * (header.image_height * 2) ≤ 32 * 128 :=
      Nat.mul_le_mul (by omega) (by omega)
    omega
  have hT : ((((header.image_width / header.block_width) *
      (header.image_height / header.block_height)) <<< 1) % U32) >>> 3 = 0 := by
    simp only [U32, Nat.shiftLeft_eq, Nat.shiftRight_eq_div_pow]
    omega
  unfold prepare_temporary_buffers
  simp only [Nat.not_le.mpr hsz, k1, k2, or_self, if_false, hT, if_true, base_post_error,
    show ¬ (2147483648 ≤ (header.image_width / header.block_width) *
      (header.image_height / header.block_height)) by omega]

/-- An image with fewer than 4 macroblocks of the base size: `save_ptcx` writes the
header and then returns `BASE_ERROR_EXECUTION_FAILURE`, the status into which it
turns the `BASE_ERROR_OUTOFMEMORY` that `quantize_image` makes of the
`BASE_ERROR_INVALID_RESOURCE` of `prepare_temporary_buffers`. -/
theorem save_ptcx_too_few_macroblocks (sqrt : Nat → Nat) (input : image) (quality : Nat)
    (output : memory_stream)
    (hfmt : input.query_image_format = IGN_IMAGE_FORMAT_R8G8B8)
    (hW : input.query_width % 16 = 0) (hH : input.query_height % 16 = 0)
    (hw0 : 0 < input.query_width) (hh0 : 0 < input.query_height)
    (hw16 : input.query_width < 65536) (hh16 : input.query_height < 65536)
    (hout : output.holds []) (hroom : 24 ≤ output.data.data.length)
    (hsmall : (input.query_width / (configure_header input quality).block_width) *
      (input.query_height / (configure_header input quality).block_height) < 4) :
    ∃ out', save_ptcx sqrt input quality output = some (BASE_ERROR_EXECUTION_FAILURE, out') ∧
      out'.holds (header_bytes (configure_header input quality)) := by
  have hc := configure_header_configured input quality
  obtain ⟨_, _, _, f4, f5⟩ := configure_header_fields input quality
  rw [Nat.mod_eq_of_lt hw16] at f4
  rw [Nat.mod_eq_of_lt hh16] at f5
  rw [← f4, ← f5] at hsmall
  have hlen := header_bytes_length (configure_header input quality)
  obtain ⟨_, wroom⟩ := memory_stream.write_data_holds hout
    (header_bytes (configure_header input quality))
    (by intro hnil; rw [hnil] at hlen; simp at hlen)
    (by rw [hlen]; decide)
  have h0 : ([] : List Nat).length = 0 := rfl
  obtain ⟨s1, hw1, hh1, hl1⟩ := wroom (by omega)
  rw [List.take_of_length_le (by rw [hlen]; omega), List.nil_append] at hh1
  have hprep := prepare_temporary_buffers_too_few (configure_header input quality) hc
    (by rw [f4]; exact hW) (by rw [f5]; exact hH) (by rw [f4]; exact hw0)
    (by rw [f5]; exact hh0) hsmall
  have hq : quantize_image sqrt input (configure_header input quality) s1 =
      some (BASE_ERROR_OUTOFMEMORY, s1) := by
    unfold quantize_image
    simp only [is_pow2_configured _ hc, BASE_PARAM_CHECK_eq, Bool.not_true, Bool.and_false,
      Bool.false_eq_true, if_false, hprep,
      base_failed_eq_true (show BASE_ERROR_INVALID_RESOURCE ≠ BASE_SUCCESS by decide), if_true,
      base_post_error]
  refine ⟨s1, ?_, hh1⟩
  have hnf : output.is_full = false := by
    have hocc := ring_buffer.filling_occupancy hout
    simp only [memory_stream.is_full, ring_buffer.is_full, hocc, h0]
    simp only [decide_eq_false_iff_not, Nat.le_zero_eq]
    omega
  have hmin : min (header_bytes (configure_header input quality)).length
      (output.data.data.length - ([] : List Nat).length) = 24 := by
    rw [hlen, h0]; omega
  unfold save_ptcx
  simp only [hnf, hfmt, hW, hH, hw1, hq, hmin, BASE_PARAM_CHECK_eq, Bool.and_false,
    Bool.false_eq_true, if_false, ne_eq, not_true_eq_false, decide_False, or_self,
    base_failed_success, sizeof_PTCX_FILE_HEADER,
    base_failed_eq_true (show BASE_ERROR_OUTOFMEMORY ≠ BASE_SUCCESS by decide), if_true,
    base_post_error]

/-- C19 (amended): for an R8G8B8 image whose width and height are non-zero
multiples of 16 below 65536, a quality from 0 to 4 and an empty output stream with
room for the header, the image always contains at least one macroblock of the
base size, and what `save_ptcx` requires is four of them: with fewer than 4
macroblocks (which happens exactly at the qualities 0 and 1, for images of fewer
than four 16 x 16 blocks such as 16 x 16) it writes the header and returns
`BASE_ERROR_EXECUTION_FAILURE`, not `BASE_ERROR_INVALID_RESOURCE`; and it returns
`BASE_SUCCESS` for an image of at least 4 macroblocks, their number a multiple of
4, when the pixels are readable, the scratch stream of 8 bytes per pixel is
within the array limit and the output stream has room for the header, the table
and 8 bytes per pixel. -/
theorem save_ptcx_requires_four_macroblocks (sqrt : Nat → Nat) (input : image) (quality : Nat)
    (output : memory_stream)
    (hfmt : input.query_image_format = IGN_IMAGE_FORMAT_R8G8B8)
    (hW : input.query_width % 16 = 0) (hH : input.query_height % 16 = 0)
    (hw0 : 0 < input.query_width) (hh0 : 0 < input.query_height)
    (hw16 : input.query_width < 65536) (hh16 : input.query_height < 65536)
    (hq : quality ≤ 4)
    (hout : output.holds []) (hroom : 24 ≤ output.data.data.length) :
    1 ≤ (input.query_width / (configure_header input quality).block_width) *
      (input.query_height / (configure_header input quality).block_height) ∧
    ((input.query_width / (configure_header input quality).block_width) *
        (input.query_height / (configure_header input quality).block_height) < 4 ↔
      quality ≤ 1 ∧ (input.query_width / 16) * (input.query_height / 16) < 4) ∧
    ((input.query_width / (configure_header input quality).block_width) *
        (input.query_height / (configure_header input quality).block_height) < 4 →
      ∃ out', save_ptcx sqrt input quality output =
          some (BASE_ERROR_EXECUTION_FAILURE, out') ∧
        out'.holds (header_bytes (configure_header input quality))) ∧
    (4 ≤ (input.query_width / (configure_header input quality).block_width) *
        (input.query_height / (configure_header input quality).block_height) →
      ((input.query_width / (configure_header input quality).block_width) *
        (input.query_height / (configure_header input quality).block_height)) % 4 = 0 →
      (∀ x y, x < input.query_width → y < input.query_height →
        ∃ c, input.pixel_at x y = some c) →
      8 * (input.query_width * input.query_height) ≤ BASE_MAX_ARRAY_SIZE →
      24 + ((input.query_width / (configure_header input quality).block_width) *
        (input.query_height / (configure_header input quality).block_height)) >>> 2 +
        8 * (input.query_width * input.query_height) ≤ output.data.data.length →
      ∃ out', save_ptcx sqrt input quality output = some (BASE_SUCCESS, out')) := by
  have hbh : (configure_header input quality).block_height =
      (configure_header input quality).block_width := rfl
  have hbw : (configure_header input quality).block_width = 16 ∧ quality ≤ 1 ∨
      ((configure_header input quality).block_width = 8 ∨
        (configure_header input quality).block_width = 4 ∨
        (configure_header input quality).block_width = 2) ∧ 2 ≤ quality := by
    interval_cases quality
    · exact Or.inl ⟨rfl, by omega⟩
    · exact Or.inl ⟨rfl, by omega⟩
    · exact Or.inr ⟨Or.inl rfl, by omega⟩
    · exact Or.inr ⟨Or.inr (Or.inl rfl), by omega⟩
    · exact Or.inr ⟨Or.inr (Or.inr rfl), by omega⟩
  obtain ⟨wq, hwq⟩ : ∃ wq, input.query_width = 16 * wq := ⟨input.query_width / 16, by omega⟩
  obtain ⟨hq', hhq⟩ : ∃ hq', input.query_height = 16 * hq' :=
    ⟨input.query_height / 16, by omega⟩
  have hwq0 : 1 ≤ wq := by omega
  have hhq0 : 1 ≤ hq' := by omega
  have hprod : 1 ≤ wq * hq' := Nat.mul_pos hwq0 hhq0
  have hcnt : 1 ≤ (input.query_width / (configure_header input quality).block_width) *
      (input.query_height / (configure_header input quality).block_height) ∧
    ((input.query_width / (configure_header input quality).block_width) *
        (input.query_height / (configure_header input quality).block_height) < 4 ↔
      quality ≤ 1 ∧ (input.query_width / 16) * (input.query_height / 16) < 4) := by
    rw [hbh]
    rcases hbw with ⟨e, hle⟩ | ⟨e | e | e, hle⟩ <;> rw [e, hwq, hhq]
    · rw [Nat.mul_div_cancel_left _ (by norm_num), Nat.mul_div_cancel_left _ (by norm_num)]
      exact ⟨hprod, by constructor <;> intro h <;> [exact ⟨hle, h⟩; exact h.2]⟩
    · have a1 : 16 * wq / 8 = 2 * wq := by omega
      have a2 : 16 * hq' / 8 = 2 * hq' := by omega
      rw [a1, a2, Nat.mul_div_cancel_left _ (by norm_num),
        Nat.mul_div_cancel_left _ (by norm_num)]
      have : 2 * wq * (2 * hq') = 4 * (wq * hq') := by ring
      rw [this]
      exact ⟨by omega, by constructor <;> intro h <;> omega⟩
    · have a1 : 16 * wq / 4 = 4 * wq := by omega
      have a2 : 16 * hq' / 4 = 4 * hq' := by omega
      rw [a1, a2, Nat.mul_div_cancel_left _ (by norm_num),
        Nat.mul_div_cancel_left _ (by norm_num)]
      have : 4 * wq * (4 * hq') = 16 * (wq * hq') := by ring
      rw [this]
      exact ⟨by omega, by constructor <;> intro h <;> omega⟩
    · have a1 : 16 * wq / 2 = 8 * wq := by omega
      have a2 : 16 * hq' / 2 = 8 * hq' := by omega
      rw [a1, a2, Nat.mul_div_cancel_left _ (by norm_num),
        Nat.mul_div_cancel_left _ (by norm_num)]
      have : 8 * wq * (8 * hq') = 64 * (wq * hq') := by ring
      rw [this]
      exact ⟨by omega, by constructor <;> intro h <;> omega⟩
  refine ⟨hcnt.1, hcnt.2, ?_, ?_⟩
  · intro hsmall
    exact save_ptcx_too_few_macroblocks sqrt input quality output hfmt hW hH hw0 hh0 hw16 hh16
      hout hroom hsmall
  · intro hcount h4 hread hmax hroom'
    obtain ⟨out', _, hs, _⟩ := save_ptcx_total sqrt input quality output hfmt hread hW hH hw16
      hh16 h4 hcount hmax hout hroom'
    exact ⟨out', hs⟩

/-- Witness of `save_ptcx_requires_four_macroblocks`: the 16 x 32 image of colour
(100,150,200) at quality 1 has two macroblocks and is refused with
`BASE_ERROR_EXECUTION_FAILURE` after the header has been written; the 16 x 16
image of that colour at quality 2 has four macroblocks and is encoded. -/
theorem save_ptcx_requires_four_macroblocks_witness :
    ((solid_image 16 32 ⟨100, 150, 200⟩).query_width /
        (configure_header (solid_image 16 32 ⟨100, 150, 200⟩) 1).block_width) *
      ((solid_image 16 32 ⟨100, 150, 200⟩).query_height /
        (configure_header (solid_image 16 32 ⟨100, 150, 200⟩) 1).block_height) = 2 ∧
    (∃ out', save_ptcx Nat.sqrt (solid_image 16 32 ⟨100, 150, 200⟩) 1 (fresh_stream 4096) =
        some (BASE_ERROR_EXECUTION_FAILURE, out') ∧
      out'.holds (header_bytes (configure_header (solid_image 16 32 ⟨100, 150, 200⟩) 1))) ∧
    ((solid_image 16 16 ⟨100, 150, 200⟩).query_width /
        (configure_header (solid_image 16 16 ⟨100, 150, 200⟩) 2).block_width) *
      ((solid_image 16 16 ⟨100, 150, 200⟩).query_height /
        (configure_header (solid_image 16 16 ⟨100, 150, 200⟩) 2).block_height) = 4 ∧
    ∃ out', save_ptcx Nat.sqrt (solid_image 16 16 ⟨100, 150, 200⟩) 2 (fresh_stream 4096) =
      some (BASE_SUCCESS, out') :=
  ⟨by decide,
    (save_ptcx_requires_four_macroblocks Nat.sqrt (solid_image 16 32 ⟨100, 150, 200⟩) 1
      (fresh_stream 4096) rfl (by decide) (by decide) (by decide) (by decide) (by decide)
      (by decide) (by decide) (fresh_stream_holds 4096 (by decide)).1
      (by rw [(fresh_stream_holds 4096 (by decide)).2]; decide)).2.2.1 (by decide),
    by decide,
    (save_ptcx_requires_four_macroblocks Nat.sqrt (solid_image 16 16 ⟨100, 150, 200⟩) 2
      (fresh_stream 4096) rfl (by decide) (by decide) (by decide) (by decide) (by decide)
      (by decide) (by decide) (fresh_stream_holds 4096 (by decide)).1
      (by rw [(fresh_stream_holds 4096 (by decide)).2]; decide)).2.2.2 (by decide) (by decide)
      (fun x y hx hy => ⟨_, solid_image_pixel_at 16 16 ⟨100, 150, 200⟩ (by decide) hx hy⟩)
      (by decide) (by rw [(fresh_stream_holds 4096 (by decide)).2]; decide)⟩

/-- C19 (counterexample): the 16 x 16 image of colour (100,150,200) at quality 0
contains one whole macroblock of the base size 16 x 16, and `save_ptcx` does not
encode it: for every `base::sqrt` it writes the header into the empty stream of
4096 bytes and returns `BASE_ERROR_EXECUTION_FAILURE`. -/
theorem save_ptcx_fails_on_16x16_at_quality_0 :
    ((solid_image 16 16 ⟨100, 150, 200⟩).query_width /
        (configure_header (solid_image 16 16 ⟨100, 150, 200⟩) 0).block_width) *
      ((solid_image 16 16 ⟨100, 150, 200⟩).query_height /
        (configure_header (solid_image 16 16 ⟨100, 150, 200⟩) 0).block_height) = 1 ∧
    ∀ sqrt : Nat → Nat,
      ∃ out', save_ptcx sqrt (solid_image 16 16 ⟨100, 150, 200⟩) 0 (fresh_stream 4096) =
          some (BASE_ERROR_EXECUTION_FAILURE, out') ∧
        out'.holds (header_bytes (configure_header (solid_image 16 16 ⟨100, 150, 200⟩) 0)) :=
  ⟨by decide, fun sqrt =>
    save_ptcx_too_few_macroblocks sqrt (solid_image 16 16 ⟨100, 150, 200⟩) 0
      (fresh_stream 4096) rfl (by decide) (by decide) (by decide) (by decide) (by decide)
      (by decide) (fresh_stream_holds 4096 (by decide)).1
      (by rw [(fresh_stream_holds 4096 (by decide)).2]; decide) (by decide)⟩



/-! ## writes that are short or fail -/

/-- A write of `write_data` to a full stream leaves the stream as it was and
returns a failure status. -/
theorem memory_stream.write_data_full (s : memory_stream) (h : s.is_full = true)
    (input : List Nat) :
    ∃ st n, s.write_data input = some (st, s, n) ∧ st ≠ BASE_SUCCESS := by
  unfold memory_stream.write_data
  by_cases hl : input.length = 0
  · exact ⟨BASE_ERROR_INVALIDARG, none, by simp [hl, base_post_error, BASE_PARAM_CHECK_eq],
      by decide⟩
  · exact ⟨BASE_ERROR_INVALID_RESOURCE, some 0, by simp [hl, h], by decide⟩

/-- The result of `quantize_macroblock` when its stream is full: the status is
`BASE_SUCCESS` and the stream is as it was, the record of the macroblock is lost. -/
theorem quantize_macroblock_on_full_stream (sqrt : Nat → Nat) (input : image)
    (header : PTCX_FILE_HEADER) (px py : Nat)
    (st st' : (ring_buffer × ring_buffer × ring_buffer) × List Nat × memory_stream)
    (hfull : st.2.2.is_full = true)
    (h : quantize_macroblock sqrt input header px py st = some (BASE_SUCCESS, st')) :
    st'.2.2 = st.2.2 := by
  unfold quantize_macroblock at h
  split at h
  · simp at h
  split at h
  · simp at h
  split at h
  · simp at h
  simp only [] at h
  split at h
  · simp at h
  split at h
  · simp at h
  split at h
  · simp at h
  rename_i bytes _
  obtain ⟨ws, wn, hw, _⟩ := memory_stream.write_data_full st.2.2 hfull bytes
  rw [hw] at h
  simp only [Option.some.injEq, Prod.mk.injEq] at h
  rw [← h.2]

/-- `quantize_image` returns `BASE_SUCCESS` as soon as the stream it is handed has
room for the table and one more byte: the stream then receives the table and as
many of the bytes of the scratch stream as fit. -/
theorem quantize_image_short_room (sqrt : Nat → Nat) (input : image)
    (header : PTCX_FILE_HEADER)
    (out_stream : memory_stream) (pre : List Nat) (hc : header.configured)
    (hread : ∀ x y, x < input.query_width → y < input.query_height →
      ∃ c, input.pixel_at x y = some c)
    (hW : input.query_width % 16 = 0) (hH : input.query_height % 16 = 0)
    (hw : header.image_width = input.query_width)
    (hh : header.image_height = input.query_height)
    (hw16 : input.query_width < 65536) (hh16 : input.query_height < 65536)
    (h4 : ((header.image_width / header.block_width) *
      (header.image_height / header.block_height)) % 4 = 0)
    (hcount : 4 ≤ (header.image_width / header.block_width) *
      (header.image_height / header.block_height))
    (hmax : 8 * (header.image_width * header.image_height) ≤ BASE_MAX_ARRAY_SIZE)
    (hpre : out_stream.holds pre)
    (hroom : pre.length + ((header.image_width / header.block_width) *
      (header.image_height / header.block_height)) >>> 2 < out_stream.data.data.length) :
    ∃ out' acc st1 s0 table scratch,
      quantize_image sqrt input header out_stream = some (BASE_SUCCESS, out') ∧
      prepare_temporary_buffers header memory_stream.new [] = some (st1, s0, table) ∧
      table.length = ((header.image_width / header.block_width) *
        (header.image_height / header.block_height)) >>> 2 ∧
      quantize_worker sqrt input header table s0 = some (BASE_SUCCESS, table, scratch) ∧
      scratch.holds acc ∧
      ((header.image_height / header.block_height) *
        (header.image_width / header.block_width)) * macroblock_bytes header 0 ≤ acc.length ∧
      out'.holds (pre ++ table ++
        acc.take (out_stream.data.data.length - (pre.length + table.length))) := by
  obtain ⟨hbw2, hbh2, _⟩ := configured_divides header hc (n := 0) rfl
  have hM : BASE_MAX_ARRAY_SIZE = 4194304 := by decide
  have hcnt : (header.image_width / header.block_width) *
      (header.image_height / header.block_height) ≤ header.image_width * header.image_height :=
    Nat.mul_le_mul (Nat.div_le_self _ _) (Nat.div_le_self _ _)
  obtain ⟨s0, hprep, hs0⟩ := prepare_temporary_buffers_total header (by omega) (by omega)
    (by rw [hw]; omega) hcount hmax
  obtain ⟨table', scratch, hwork⟩ := quantize_worker_total sqrt input header s0 hc hread hW hH
    hw hh h4 (by omega) hs0
  obtain ⟨_, htab, hT0, _, hcap0, _⟩ :=
    prepare_temporary_buffers_spec header BASE_SUCCESS s0 _ hprep rfl
  have hT4 : (((((header.image_width / header.block_width) *
      (header.image_height / header.block_height)) <<< 1) % U32) >>> 3) =
      ((header.image_width / header.block_width) *
        (header.image_height / header.block_height)) >>> 2 := by
    simp only [U32, Nat.shiftLeft_eq, Nat.shiftRight_eq_div_pow]
    rw [Nat.mod_eq_of_lt (by omega)]
    omega
  obtain ⟨ht', _, _, _, acc, hacc, hlen, hR⟩ :=
    quantize_worker_spec sqrt input header _ s0 table' scratch
      (fun k acc => k * macroblock_bytes header 0 ≤ acc.length) hc hW hH
      (by rw [hw]; omega) (by rw [hh]; omega) hT4.symm (by rw [← hT4]; exact hT0) (by omega)
      hs0 hcap0 (by simp)
      (by
        intro j i acc block level b b0 e0 bs0 _ _ hR hlev hblk _ _ _ _
        have := (trial_bytes_configured _ hc level hlev).2.2.1
        rw [List.length_append, hblk, Nat.add_mul, Nat.one_mul]
        omega)
      hwork
  subst ht'
  have hm0 := macroblock_bytes_pos header 0 hbw2 hbh2
  have haccpos : 0 < acc.length := by
    have h1 : 0 < (header.image_height / header.block_height) *
        (header.image_width / header.block_width) := by rw [Nat.mul_comm]; omega
    have := Nat.mul_pos h1 hm0
    omega
  generalize hT : ((header.image_width / header.block_width) *
      (header.image_height / header.block_height)) >>> 2 = T at *
  have hTlt : T < U32 := by
    rw [← hT]; simp only [U32, Nat.shiftRight_eq_div_pow]; omega
  have hT0' : T ≠ 0 := by rw [← hT4]; exact hT0
  obtain ⟨_, wroom⟩ := memory_stream.write_data_holds hpre (List.replicate T 0)
    (by intro hnil; have := congrArg List.length hnil; simp at this; exact hT0' this)
    (by simpa using hTlt)
  obtain ⟨s1, hw1, hh1, hl1⟩ := wroom (by omega)
  rw [List.take_of_length_le (by simp; omega)] at hh1
  have hz : scratch.data.data.length ≠ 0 := by
    have := hacc.2.2.1; omega
  obtain ⟨_, vroom⟩ := memory_stream.write_data_holds hh1 acc
    (by intro hnil; rw [hnil] at haccpos; simp at haccpos)
    (by simp only [U32]; omega)
  obtain ⟨s2, hw2, hh2, _⟩ := vroom (by simp; omega)
  refine ⟨s2, acc, BASE_SUCCESS, s0, List.replicate T 0, scratch, ?_, hprep, by simp, hwork,
    hacc, hR, ?_⟩
  · unfold quantize_image
    simp only [is_pow2_configured header hc, BASE_PARAM_CHECK_eq, Bool.not_true, Bool.and_false,
      Bool.false_eq_true, if_false, hprep, base_failed_success, hwork, hw1,
      memory_stream.read_pointer_bytes_holds hacc hz, hw2]
  · rw [hl1] at hh2
    simpa using hh2

/-- `save_ptcx` returns `BASE_SUCCESS` as soon as the empty output stream has room
for the header, the table and one more byte; the stream then holds the start of
the encoding, as many bytes as fit. -/
theorem save_ptcx_short_room (sqrt : Nat → Nat) (input : image) (quality : Nat)
    (output : memory_stream)
    (hfmt : input.query_image_format = IGN_IMAGE_FORMAT_R8G8B8)
    (hread : ∀ x y, x < input.query_width → y < input.query_height →
      ∃ c, input.pixel_at x y = some c)
    (hW : input.query_width % 16 = 0) (hH : input.query_height % 16 = 0)
    (hw16 : input.query_width < 65536) (hh16 : input.query_height < 65536)
    (h4 : ((input.query_width / (configure_header input quality).block_width) *
      (input.query_height / (configure_header input quality).block_height)) % 4 = 0)
    (hcount : 4 ≤ (input.query_width / (configure_header input quality).block_width) *
      (input.query_height / (configure_header input quality).block_height))
    (hmax : 8 * (input.query_width * input.query_height) ≤ BASE_MAX_ARRAY_SIZE)
    (hout : output.holds [])
    (hroom : 24 + ((input.query_width / (configure_header input quality).block_width) *
      (input.query_height / (configure_header input quality).block_height)) >>> 2 <
      output.data.data.length) :
    ∃ (out' : memory_stream) (table acc : List Nat), save_ptcx sqrt input quality output = some (BASE_SUCCESS, out') ∧
      table.length = ((input.query_width / (configure_header input quality).block_width) *
        (input.query_height / (configure_header input quality).block_height)) >>> 2 ∧
      encoding_size sqrt input quality = some (24 + table.length + acc.length) ∧
      ((input.query_height / (configure_header input quality).block_height) *
        (input.query_width / (configure_header input quality).block_width)) *
          macroblock_bytes (configure_header input quality) 0 ≤ acc.length ∧
      out'.holds (header_bytes (configure_header input quality) ++ table ++
        acc.take (output.data.data.length - (24 + table.length))) := by
  have hc := configure_header_configured input quality
  obtain ⟨_, _, _, f4, f5⟩ := configure_header_fields input quality
  rw [Nat.mod_eq_of_lt hw16] at f4
  rw [Nat.mod_eq_of_lt hh16] at f5
  rw [← f4, ← f5] at h4 hcount hmax hroom
  have hlen := header_bytes_length (configure_header input quality)
  obtain ⟨_, wroom⟩ := memory_stream.write_data_holds hout
    (header_bytes (configure_header input quality))
    (by intro hnil; rw [hnil] at hlen; simp at hlen)
    (by rw [hlen]; decide)
  have h0 : ([] : List Nat).length = 0 := rfl
  obtain ⟨s1, hw1, hh1, hl1⟩ := wroom (by omega)
  rw [List.take_of_length_le (by rw [hlen]; omega), List.nil_append] at hh1
  obtain ⟨out', acc, st1, s0, table, scratch, hq, hprep, htl, hwork, hacc, hR, hholds⟩ :=
    quantize_image_short_room sqrt input (configure_header input quality) s1
      (header_bytes (configure_header input quality)) hc hread hW hH f4 f5 hw16 hh16 h4 hcount
      hmax hh1 (by rw [hlen, hl1]; exact hroom)
  have hsave : save_ptcx sqrt input quality output = some (BASE_SUCCESS, out') := by
    have hnf : output.is_full = false := by
      have hocc := ring_buffer.filling_occupancy hout
      simp only [memory_stream.is_full, ring_buffer.is_full, hocc, h0]
      simp only [decide_eq_false_iff_not, Nat.le_zero_eq]
      omega
    have hmin : min (header_bytes (configure_header input quality)).length
        (output.data.data.length - ([] : List Nat).length) = 24 := by
      rw [hlen, h0]; omega
    unfold save_ptcx
    simp only [hnf, hfmt, hW, hH, hw1, hq, hmin, BASE_PARAM_CHECK_eq, Bool.and_false,
      Bool.false_eq_true, if_false, ne_eq, not_true_eq_false, decide_False, or_self,
      base_failed_success, sizeof_PTCX_FILE_HEADER]
  refine ⟨out', table, acc, hsave, by rw [htl, f4, f5], ?_, by rw [← f4, ← f5]; exact hR, ?_⟩
  · have hocc : scratch.query_occupancy = acc.length := ring_buffer.filling_occupancy hacc
    simp only [encoding_size, hprep, hwork, hocc, sizeof_PTCX_FILE_HEADER]
  · rw [hlen, hl1] at hholds
    exact hholds

/-- C20 (code defect): a short write is not reported. (1) The 16 x 16 image of
colour (100,150,200) at quality 2 has an encoding of 24 + 1 + at least 144 bytes,
and into an empty output stream of 100 bytes `save_ptcx` returns `BASE_SUCCESS`
for every `base::sqrt`, the stream holding the header, the table and only the
first 75 bytes of the microblock stream: `write_data` returns `BASE_SUCCESS` when
it stores fewer bytes than asked, and `quantize_image` looks at the status alone.
(2) `quantize_macroblock` on the first macroblock of that image with a stream that
is full returns `BASE_SUCCESS` and leaves the stream as it was, and (3) with an
empty stream of 10 bytes, fewer than the 36 bytes of the record at any level, it
returns `BASE_SUCCESS` as well: it does not look at what `write_data` returns. -/
theorem short_write_is_reported_as_success :
    (∀ sqrt : Nat → Nat, ∃ (out' : memory_stream) (table acc : List Nat),
      save_ptcx sqrt (solid_image 16 16 ⟨100, 150, 200⟩) 2 (fresh_stream 100) =
        some (BASE_SUCCESS, out') ∧
      encoding_size sqrt (solid_image 16 16 ⟨100, 150, 200⟩) 2 =
        some (24 + table.length + acc.length) ∧
      table.length = 1 ∧ 144 ≤ acc.length ∧
      (fresh_stream 100).data.data.length < 24 + table.length + acc.length ∧
      out'.holds (header_bytes (configure_header (solid_image 16 16 ⟨100, 150, 200⟩) 2) ++
        table ++ acc.take 75)) ∧
    memory_stream.is_full ⟨⟨[1, 2, 3, 4], 0, 4⟩⟩ = true ∧
    (∀ sqrt : Nat → Nat, ∃ st',
      quantize_macroblock sqrt (solid_image 16 16 ⟨100, 150, 200⟩)
        (configure_header (solid_image 16 16 ⟨100, 150, 200⟩) 2) 0 0
        (((ring_buffer.new.resize_capacity 132).2, (ring_buffer.new.resize_capacity 132).2,
          (ring_buffer.new.resize_capacity 132).2), [0], ⟨⟨[1, 2, 3, 4], 0, 4⟩⟩) =
        some (BASE_SUCCESS, st') ∧
      st'.2.2 = ⟨⟨[1, 2, 3, 4], 0, 4⟩⟩) ∧
    trial_bytes (configure_header (solid_image 16 16 ⟨100, 150, 200⟩) 2) 0 = 36 ∧
    trial_bytes (configure_header (solid_image 16 16 ⟨100, 150, 200⟩) 2) 1 = 48 ∧
    trial_bytes (configure_header (solid_image 16 16 ⟨100, 150, 200⟩) 2) 2 = 96 ∧
    (∀ sqrt : Nat → Nat, ∃ st',
      quantize_macroblock sqrt (solid_image 16 16 ⟨100, 150, 200⟩)
        (configure_header (solid_image 16 16 ⟨100, 150, 200⟩) 2) 0 0
        (((ring_buffer.new.resize_capacity 132).2, (ring_buffer.new.resize_capacity 132).2,
          (ring_buffer.new.resize_capacity 132).2), [0], fresh_stream 10) =
        some (BASE_SUCCESS, st') ∧
      st'.2.2.data.data.length = 10) := by
  have hread : ∀ x y, x < (solid_image 16 16 ⟨100, 150, 200⟩).query_width →
      y < (solid_image 16 16 ⟨100, 150, 200⟩).query_height →
      ∃ c, (solid_image 16 16 ⟨100, 150, 200⟩).pixel_at x y = some c :=
    fun x y hx hy => ⟨_, solid_image_pixel_at 16 16 ⟨100, 150, 200⟩ (by decide) hx hy⟩
  have hc := configure_header_configured (solid_image 16 16 ⟨100, 150, 200⟩) 2
  have hbuf : (ring_buffer.new.resize_capacity 132).2.data.length = 132 := by decide!
  have hmb : ∀ (sqrt : Nat → Nat) (s : memory_stream) (acc : List Nat), s.holds acc →
      ∃ st', quantize_macroblock sqrt (solid_image 16 16 ⟨100, 150, 200⟩)
        (configure_header (solid_image 16 16 ⟨100, 150, 200⟩) 2) 0 0
        (((ring_buffer.new.resize_capacity 132).2, (ring_buffer.new.resize_capacity 132).2,
          (ring_buffer.new.resize_capacity 132).2), [0], s) = some (BASE_SUCCESS, st') := by
    intro sqrt s acc hs
    exact quantize_macroblock_total sqrt (solid_image 16 16 ⟨100, 150, 200⟩)
      (configure_header (solid_image 16 16 ⟨100, 150, 200⟩) 2) 0 0
      (((ring_buffer.new.resize_capacity 132).2, (ring_buffer.new.resize_capacity 132).2,
        (ring_buffer.new.resize_capacity 132).2), [0], s) acc 1 hc hread (by decide)
      (by decide) hbuf hbuf hbuf rfl hs (by decide)
  refine ⟨?_, by decide, ?_, by decide!, by decide!, by decide!, ?_⟩
  · intro sqrt
    obtain ⟨hout, hcap⟩ := fresh_stream_holds 100 (by decide)
    obtain ⟨out', table, acc, hs, htl, hn, hR, hh⟩ :=
      save_ptcx_short_room sqrt (solid_image 16 16 ⟨100, 150, 200⟩) 2 (fresh_stream 100) rfl
        hread (by decide) (by decide) (by decide) (by decide) (by decide) (by decide)
        (by decide) hout (by rw [hcap]; decide)
    have htl1 : table.length = 1 := by rw [htl]; decide
    have hacc : 144 ≤ acc.length := by
      have e : ((solid_image 16 16 ⟨100, 150, 200⟩).query_height /
          (configure_header (solid_image 16 16 ⟨100, 150, 200⟩) 2).block_height) *
        ((solid_image 16 16 ⟨100, 150, 200⟩).query_width /
          (configure_header (solid_image 16 16 ⟨100, 150, 200⟩) 2).block_width) *
        macroblock_bytes (configure_header (solid_image 16 16 ⟨100, 150, 200⟩) 2) 0 = 144 := by
        decide!
      rw [e] at hR
      exact hR
    refine ⟨out', table, acc, hs, hn, htl1, hacc, by rw [hcap]; omega, ?_⟩
    rw [hcap, htl1] at hh
    exact hh
  · intro sqrt
    obtain ⟨st', h⟩ := hmb sqrt ⟨⟨[1, 2, 3, 4], 0, 4⟩⟩ [1, 2, 3, 4] (by decide)
    exact ⟨st', h, quantize_macroblock_on_full_stream sqrt _ _ 0 0 _ st' (by decide) h⟩
  · intro sqrt
    obtain ⟨hout, hcap⟩ := fresh_stream_holds 10 (by decide)
    obtain ⟨st', h⟩ := hmb sqrt (fresh_stream 10) [] hout
    refine ⟨st', h, ?_⟩
    have := (quantize_macroblock_spec sqrt _ _ 0 0 _ st' BASE_SUCCESS [] 1 hc hbuf hbuf hbuf
      rfl hout h).2.2.2.2.2.2.1
    rw [this]
    exact hcap


/-! ## images of vertical stripes -/

theorem flatten_map_triple (a b c : Nat → Nat) : ∀ n,
    ((List.range n).map (fun k => [a k, b k, c k])).flatten.length = 3 * n ∧
    ∀ k, k < n →
      ((List.range n).map (fun k => [a k, b k, c k])).flatten[3 * k]? = some (a k) ∧
      ((List.range n).map (fun k => [a k, b k, c k])).flatten[3 * k + 1]? = some (b k) ∧
      ((List.range n).map (fun k => [a k, b k, c k])).flatten[3 * k + 2]? = some (c k) := by
  intro n
  induction n with
  | zero => exact ⟨by simp, fun k hk => absurd hk (Nat.not_lt_zero _)⟩
  | succ n ih =>
    obtain ⟨hl, hk⟩ := ih
    have e : ((List.range (n + 1)).map (fun k => [a k, b k, c k])).flatten =
        ((List.range n).map (fun k => [a k, b k, c k])).flatten ++ [a n, b n, c n] := by
      simp [List.range_succ]
    rw [e]
    refine ⟨by rw [List.length_append, hl]; simp; omega, ?_⟩
    intro k hkn
    by_cases hlt : k < n
    · obtain ⟨h1, h2, h3⟩ := hk k hlt
      rw [List.getElem?_append_left (by omega), List.getElem?_append_left (by omega),
        List.getElem?_append_left (by omega)]
      exact ⟨h1, h2, h3⟩
    · have hkn' : k = n := by omega
      subst hkn'
      rw [List.getElem?_append_right (by omega), List.getElem?_append_right (by omega),
        List.getElem?_append_right (by omega), hl]
      simp

theorem column_image_shaped (w h : Nat) (column : Nat → color) :
    (column_image w h column).shaped w h :=
  ⟨rfl, rfl, rfl, (flatten_map_triple _ _ _ _).1, rfl⟩

/-- The pixel in column `x` of a column image reads as the colour of the column. -/
theorem column_image_pixel_at (w h : Nat) (column : Nat → color) (hsz : 24 * (w * h) < U32)
    {x y : Nat} (hx : x < w) (hy : y < h) :
    (column_image w h column).pixel_at x y = some (column x) := by
  have hxy : w * y + x < w * h := by nlinarith [Nat.mul_le_mul_left w hy]
  obtain ⟨h1, h2, h3⟩ := (flatten_map_triple (fun k => (column (k % w)).c0)
    (fun k => (column (k % w)).c1) (fun k => (column (k % w)).c2) (w * h)).2 (w * y + x) hxy
  have hm : (w * y + x) % w = x := by
    rw [Nat.mul_add_mod, Nat.mod_eq_of_lt hx]
  unfold image.pixel_at
  rw [image.offset_shaped (column_image_shaped w h column) hsz hx hy]
  unfold image.load_pixel
  simp only [column_image, h1, h2, h3, hm]

/-- Two images of the same shape whose pixels read the same have the same buffer. -/
theorem image.data_buffer_ext {a b : image} {w h : Nat} (ha : a.shaped w h)
    (hb : b.shaped w h) (hsz : 24 * (w * h) < U32)
    (hpix : ∀ x y, x < w → y < h → ∃ c, a.pixel_at x y = some c ∧ b.pixel_at x y = some c) :
    a.data_buffer = b.data_buffer := by
  apply List.ext_getElem?
  intro i
  have la := ha.2.2.2.1
  have lb := hb.2.2.2.1
  by_cases hi : i < 3 * (w * h)
  · have hw : 0 < w := by
      rcases Nat.eq_zero_or_pos w with h0 | h0
      · rw [h0] at hi; simp at hi
      · exact h0
    have hx : (i / 3) % w < w := Nat.mod_lt _ hw
    have hy : (i / 3) / w < h := by
      rw [Nat.div_lt_iff_lt_mul hw]
      have : i / 3 < w * h := by omega
      rw [Nat.mul_comm]; exact this
    obtain ⟨c, pa, pb⟩ := hpix _ _ hx hy
    unfold image.pixel_at at pa pb
    rw [image.offset_shaped ha hsz hx hy] at pa
    rw [image.offset_shaped hb hsz hx hy] at pb
    have hk : w * (i / 3 / w) + i / 3 % w = i / 3 := Nat.div_add_mod _ _
    rw [hk] at pa pb
    unfold image.load_pixel at pa pb
    have g1 : ∀ (l : List Nat), l.length = 3 * (w * h) → ∀ j, j < 3 * (w * h) →
        ∃ v, l[j]? = some v := by
      intro l hl j hj
      exact ⟨l[j], List.getElem?_eq_getElem (by omega)⟩
    obtain ⟨a0, ea0⟩ := g1 a.data_buffer la (3 * (i / 3)) (by omega)
    obtain ⟨a1, ea1⟩ := g1 a.data_buffer la (3 * (i / 3) + 1) (by omega)
    obtain ⟨a2, ea2⟩ := g1 a.data_buffer la (3 * (i / 3) + 2) (by omega)
    obtain ⟨b0, eb0⟩ := g1 b.data_buffer lb (3 * (i / 3)) (by omega)
    obtain ⟨b1, eb1⟩ := g1 b.data_buffer lb (3 * (i / 3) + 1) (by omega)
    obtain ⟨b2, eb2⟩ := g1 b.data_buffer lb (3 * (i / 3) + 2) (by omega)
    rw [ea0, ea1, ea2] at pa
    rw [eb0, eb1, eb2] at pb
    simp only [Option.some.injEq] at pa pb
    rw [← pb] at pa
    simp only [color.mk.injEq] at pa
    obtain ⟨q0, q1, q2⟩ := pa
    have hcase : i = 3 * (i / 3) ∨ i = 3 * (i / 3) + 1 ∨ i = 3 * (i / 3) + 2 := by omega
    rcases hcase with e | e | e
    · rw [e, ea0, eb0, q0]
    · rw [e, ea1, eb1, q1]
    · rw [e, ea2, eb2, q2]
  · rw [List.getElem?_eq_none (by omega), List.getElem?_eq_none (by omega)]

/-! ## encoding a block of vertical stripes -/

/-- The range of a block of stripes that starts in an even column and is at least
two pixels wide is `a .. b`, when `a` lies below `b` in every channel. -/
theorem range_estimate_min_max_stripes (header : PTCX_FILE_HEADER) (input : image)
    (x y : Nat) (a b : color) (st : status) (range : PTCX_PIXEL_RANGE)
    (hab : a.c0 ≤ b.c0 ∧ a.c1 ≤ b.c1 ∧ a.c2 ≤ b.c2)
    (hb : b.c0 < 256 ∧ b.c1 < 256 ∧ b.c2 < 256)
    (hpix : ∀ px py, px < input.query_width → py < input.query_height →
      input.pixel_at px py = some (stripes a b px))
    (hxe : x % 2 = 0)
    (hx : x + header.block_width ≤ input.query_width)
    (hy : y + header.block_height ≤ input.query_height)
    (hbw : 2 ≤ header.block_width) (hbh : 0 < header.block_height)
    (h : range_estimate_min_max header input x y = some (st, range)) :
    range = { min_value := a, max_value := b } := by
  unfold range_estimate_min_max at h
  split at h
  · simp at h
  rename_i r hloop
  simp only [Option.some.injEq, Prod.mk.injEq] at h
  obtain ⟨_, hr⟩ := h
  subst hr
  obtain ⟨a0, a1, a2⟩ := a
  obtain ⟨b0, b1, b2⟩ := b
  simp only at hab hb
  have key := nested_for_loop_inv (range_estimate_step input x y)
    (fun t (r : PTCX_PIXEL_RANGE) =>
      (t = 0 ∧ r = { min_value := { c0 := 255, c1 := 255, c2 := 255 },
                     max_value := { c0 := 0, c1 := 0, c2 := 0 } }) ∨
      (t = 1 ∧ r = { min_value := ⟨a0, a1, a2⟩, max_value := ⟨a0, a1, a2⟩ }) ∨
      (2 ≤ t ∧ r = { min_value := ⟨a0, a1, a2⟩, max_value := ⟨b0, b1, b2⟩ }))
    header.block_height header.block_width _ r
    (by
      intro j i s s' hj hi hI hstep
      unfold range_estimate_step at hstep
      have h1 := Nat.mod_le (x + i) U32
      have h2 := Nat.mod_le (y + j) U32
      have hU : input.query_width < U32 ∨ U32 ≤ input.query_width := Nat.lt_or_ge _ _
      have hxi : (x + i) % U32 % 2 = (x + i) % 2 := by
        simp only [U32]; omega
      rw [hpix _ _ (by omega) (by omega)] at hstep
      simp only [Option.some.injEq] at hstep
      subst hstep
      have hjw : j = 0 ∨ header.block_width ≤ j * header.block_width := by
        rcases Nat.eq_zero_or_pos j with h0 | h0
        · exact Or.inl h0
        · exact Or.inr (Nat.le_mul_of_pos_left _ h0)
      rcases hI with ⟨ht, hs⟩ | ⟨ht, hs⟩ | ⟨ht, hs⟩
      · right; left
        have hi0 : i = 0 := by omega
        subst hs
        refine ⟨by omega, ?_⟩
        have : stripes ⟨a0, a1, a2⟩ ⟨b0, b1, b2⟩ ((x + i) % U32) = ⟨a0, a1, a2⟩ := by
          unfold stripes; rw [hxi, if_pos (by omega)]
        rw [this]
        simp only [range_accumulate, PTCX_PIXEL_RANGE.mk.injEq, color.mk.injEq]
        refine ⟨⟨?_, ?_, ?_⟩, ?_, ?_, ?_⟩ <;> split <;> omega
      · right; right
        have hi1 : i = 1 := by
          rcases hjw with h0 | h0
          · rw [h0] at ht; omega
          · omega
        subst hs
        refine ⟨by omega, ?_⟩
        have : stripes ⟨a0, a1, a2⟩ ⟨b0, b1, b2⟩ ((x + i) % U32) = ⟨b0, b1, b2⟩ := by
          unfold stripes; rw [hxi, if_neg (by omega)]
        rw [this]
        simp only [range_accumulate, PTCX_PIXEL_RANGE.mk.injEq, color.mk.injEq]
        refine ⟨⟨?_, ?_, ?_⟩, ?_, ?_, ?_⟩ <;> split <;> omega
      · right; right
        subst hs
        refine ⟨by omega, ?_⟩
        unfold stripes
        split
        · simp only [range_accumulate, PTCX_PIXEL_RANGE.mk.injEq, color.mk.injEq]
          refine ⟨⟨?_, ?_, ?_⟩, ?_, ?_, ?_⟩ <;> split <;> omega
        · simp only [range_accumulate, PTCX_PIXEL_RANGE.mk.injEq, color.mk.injEq]
          refine ⟨⟨?_, ?_, ?_⟩, ?_, ?_, ?_⟩ <;> split <;> omega)
    (Or.inl ⟨rfl, rfl⟩) hloop
  have hpos : 2 ≤ header.block_height * header.block_width := by
    have := Nat.le_mul_of_pos_left header.block_width hbh
    omega
  rcases key with ⟨h0, _⟩ | ⟨h0, _⟩ | ⟨_, hr⟩
  · omega
  · omega
  · exact hr

/-- The step values and errors `quantize_pixel` finds for the two colours (0,0,0)
and (168,0,0) in the range between them, for a square root that is exact at 0
and at 168 * 168: with 2 step bits the step is 168 / 3 = 56 and (168,0,0) is
reconstructed exactly at index 3; with 4 step bits the step is 168 / 15 = 11 and
(168,0,0) is reconstructed as 165 at index 15, an error of 9. -/
theorem quantize_pixel_0_168 (sqrt : Nat → Nat) (h0 : sqrt 0 = 0) (h1 : sqrt 28224 = 168)
    (want : Bool) :
    quantize_pixel sqrt 2 ⟨⟨0, 0, 0⟩, ⟨168, 0, 0⟩⟩ ⟨0, 0, 0⟩ want = some (0, 0) ∧
    quantize_pixel sqrt 2 ⟨⟨0, 0, 0⟩, ⟨168, 0, 0⟩⟩ ⟨168, 0, 0⟩ want = some (3, 0) ∧
    quantize_pixel sqrt 4 ⟨⟨0, 0, 0⟩, ⟨168, 0, 0⟩⟩ ⟨0, 0, 0⟩ want = some (0, 0) ∧
    quantize_pixel sqrt 4 ⟨⟨0, 0, 0⟩, ⟨168, 0, 0⟩⟩ ⟨168, 0, 0⟩ want =
      some (15, if want then 9 else 0) := by
  cases want <;>
  · refine ⟨?_, ?_, ?_, ?_⟩ <;>
    · simp [quantize_pixel, to_int16, to_uint8, h0, h1, sum_square_differences, for_loop]
      try decide

/-- The error `estimate_quantization_error` adds up for a block is at most the
number of its pixels times a bound on the error of one pixel. -/
theorem estimate_quantization_error_le (sqrt : Nat → Nat) (header : PTCX_FILE_HEADER)
    (range : PTCX_PIXEL_RANGE) (input : image) (x y : Nat) (bound q : Nat)
    (hpix : ∀ subi subj, subi < header.block_width → subj < header.block_height →
      ∀ c r, input.pixel_at ((x + subi) % U32) ((y + subj) % U32) = some c →
        quantize_pixel sqrt header.quant_step_bits range c true = some r → r.2 ≤ bound)
    (h : estimate_quantization_error sqrt header range input x y = some q) :
    q ≤ header.block_height * header.block_width * bound := by
  unfold estimate_quantization_error at h
  exact nested_for_loop_inv
    (estimate_quantization_error_step sqrt header range input x y)
    (fun t e => e ≤ t * bound) header.block_height header.block_width 0 q
    (by
      intro j i e e' hj hi hI hstep
      unfold estimate_quantization_error_step at hstep
      split at hstep
      · simp at hstep
      rename_i c hc
      split at hstep
      · simp at hstep
      rename_i r hr
      have := hpix i j hi hj c r hc hr
      simp only [Option.some.injEq] at hstep
      rw [← hstep, Nat.add_mul, Nat.one_mul]
      exact Nat.le_trans (Nat.mod_le _ _) (by omega))
    (by simp) h

/-! ## the bytes of the packing loop -/

theorem packed_bytes_succ (bits : Nat) (index : Nat → Nat) (n : Nat) :
    packed_bytes bits index (n + 1) = packed_bytes bits index n ++
      (if n ≠ 0 ∧ 8 - bits = ((bits * n) % U32) % 8 then
        [look_aside_after bits index (n + 1)] else []) := by
  unfold packed_bytes
  rw [List.range_succ, List.filterMap_append]
  congr 1
  by_cases h : n ≠ 0 ∧ 8 - bits = ((bits * n) % U32) % 8
  · simp only [List.filterMap_cons, List.filterMap_nil]; rw [if_pos h, if_pos h]
  · simp only [List.filterMap_cons, List.filterMap_nil]; rw [if_neg h, if_neg h]

theorem packed_bytes_length_mono (bits : Nat) (index : Nat → Nat) {m n : Nat} (h : m ≤ n) :
    (packed_bytes bits index m).length ≤ (packed_bytes bits index n).length := by
  induction n with
  | zero =>
    have : m = 0 := by omega
    subst this; exact Nat.le_refl _
  | succ n ih =>
    by_cases hm : m = n + 1
    · subst hm; exact Nat.le_refl _
    · have := ih (by omega)
      rw [packed_bytes_succ, List.length_append]
      omega

/-- The packing loop appends `packed_bytes` to a buffer that is being filled and
has room for them, when the step value at `(subi, subj)` is `index` of the linear
index `subi + subj * block_width`. -/
theorem write_quantization_table_loop_content (bits bw bh : Nat) (index : Nat → Nat)
    (clamped : Nat → Nat → Option Nat) (output out' : ring_buffer) (bytes : List Nat)
    (hbits : bits ≤ 8) (hsize : bh * bw < U32)
    (hclamped : ∀ subi subj, subi < bw → subj < bh →
      clamped subi subj = some (index (subj * bw + subi)))
    (hf : output.filling bytes)
    (hroom : bytes.length + (packed_bytes bits index (bh * bw)).length ≤ output.data.length)
    (h : write_quantization_table_loop bits bw bh clamped output = some out') :
    out'.filling (bytes ++ packed_bytes bits index (bh * bw)) ∧
      out'.data.length = output.data.length := by
  unfold write_quantization_table_loop at h
  split at h
  · simp at h
  rename_i st hloop
  simp only [Option.some.injEq] at h
  subst h
  have key := nested_for_loop_inv (write_quantization_table_step bits bw clamped)
    (fun t (st : Nat × ring_buffer) =>
      st.1 = look_aside_after bits index t ∧
      st.2.filling (bytes ++ packed_bytes bits index t) ∧
      st.2.data.length = output.data.length)
    bh bw (0, output) st
    (by
      intro j i s s' hj hi hI hstep
      obtain ⟨hla, hfill, hlen⟩ := hI
      have hlt := microblock_count_le hj hi
      have hmod : (i + j * bw) % U32 = j * bw + i := by
        rw [Nat.add_comm]; exact Nat.mod_eq_of_lt (by omega)
      unfold write_quantization_table_step at hstep
      rw [hclamped i j hi hj] at hstep
      simp only [show ¬ (8 < bits) by omega, if_false, hmod] at hstep
      have hnext : look_aside_after bits index (j * bw + i + 1) =
          ((s.1 >>> bits) ||| ((index (j * bw + i) <<< (8 - bits)) % U32)) % 256 := by
        rw [hla]; rfl
      rw [packed_bytes_succ]
      by_cases hfl : j * bw + i ≠ 0 ∧ 8 - bits = ((bits * (j * bw + i)) % U32) % 8
      · rw [if_pos hfl] at hstep ⊢
        simp only [Option.some.injEq] at hstep
        subst hstep
        have hmono := packed_bytes_length_mono bits index hlt
        rw [packed_bytes_succ, if_pos hfl, List.length_append, List.length_singleton] at hmono
        obtain ⟨f1, l1⟩ := ring_buffer.write_filling
          ((s.1 >>> bits ||| (index (j * bw + i) <<< (8 - bits)) % U32) % 256) hfill
          (by simp only [List.length_append]; omega)
        refine ⟨hnext.symm, ?_, by simp only []; omega⟩
        rw [hnext, ← List.append_assoc]
        exact f1
      · rw [if_neg hfl] at hstep ⊢
        simp only [Option.some.injEq] at hstep
        subst hstep
        refine ⟨hnext.symm, by simpa using hfill, hlen⟩)
    ⟨rfl, by simpa [packed_bytes] using hf, rfl⟩ hloop
  exact ⟨key.2.1, key.2.2⟩

/-- With 2 step bits the packing loop emits a byte for every fourth pixel, with 4
step bits for every second pixel. -/
theorem packed_bytes_length (index : Nat → Nat) (n : Nat) :
    (packed_bytes 2 index n).length = n / 4 ∧ (packed_bytes 4 index n).length = n / 2 := by
  induction n with
  | zero => exact ⟨rfl, rfl⟩
  | succ n ih =>
    obtain ⟨h2, h4⟩ := ih
    rw [packed_bytes_succ, packed_bytes_succ, List.length_append, List.length_append, h2, h4]
    simp only [U32]
    constructor
    · split
      · rename_i h; simp only [List.length_singleton]; omega
      · rename_i h; simp only [List.length_nil]; omega
    · split
      · rename_i h; simp only [List.length_singleton]; omega
      · rename_i h; simp only [List.length_nil]; omega

/-- The trial at shift 0 of a macroblock of stripes that starts in an even column:
when the errors `quantize_pixel` reports for the two colours are at most 64, so
is the mean squared error of the trial, and the buffer holds the control bytes of
`a .. b` followed by the packed step values, `ia` for the even and `ib` for the
odd pixels of each row. -/
theorem quantize_macroblock_trial_stripes (sqrt : Nat → Nat) (input : image)
    (header : PTCX_FILE_HEADER) (px py : Nat) (buf b0 : ring_buffer) (e0 : Nat)
    (bs0 : List Nat) (a b : color) (ia ib : Nat)
    (hcf : header.configured)
    (hab : a.c0 ≤ b.c0 ∧ a.c1 ≤ b.c1 ∧ a.c2 ≤ b.c2)
    (hb : b.c0 < 256 ∧ b.c1 < 256 ∧ b.c2 < 256)
    (hpix : ∀ x y, x < input.query_width → y < input.query_height →
      input.pixel_at x y = some (stripes a b x))
    (hqa : ∀ want, ∃ e, quantize_pixel sqrt header.quant_step_bits ⟨a, b⟩ a want =
      some (ia, e) ∧ e ≤ 64)
    (hqb : ∀ want, ∃ e, quantize_pixel sqrt header.quant_step_bits ⟨a, b⟩ b want =
      some (ib, e) ∧ e ≤ 64)
    (hpxe : px % 2 = 0)
    (hx : px + header.block_width ≤ input.query_width)
    (hy : py + header.block_height ≤ input.query_height)
    (hbuf : buf.data.length = 132)
    (h : quantize_macroblock_trial sqrt input header px py 0 buf = some (b0, e0))
    (hf : b0.filling bs0) :
    e0 ≤ 64 ∧
      bs0 = control_bytes { min_value := a, max_value := b } ++
        packed_bytes header.quant_step_bits (fun t => if t % 2 = 0 then ia else ib)
          (header.block_height * header.block_width) := by
  obtain ⟨hle, _, _, _, h0, hm0, hmh⟩ := trial_bytes_configured header hcf 0 (by omega)
  obtain ⟨hbw2, hbh2, hbw16, hbh16, _⟩ := configured_divides header hcf (n := 0) rfl
  have hU : (132 : Nat) < U32 := by decide
  have hbwe : header.block_width % 2 = 0 ∧ header.quant_step_bits ≤ 8 ∧
      (packed_bytes header.quant_step_bits (fun t => if t % 2 = 0 then ia else ib)
        (header.block_height * header.block_width)).length ≤ 128 := by
    obtain ⟨_, hcase⟩ := hcf
    rcases hcase with ⟨e1, e2, e3⟩ | ⟨e1, e2, e3⟩ | ⟨e1, e2, e3⟩ | ⟨e1, e2, e3⟩ <;>
    · rw [e1, e2, e3]
      refine ⟨by norm_num, by norm_num, ?_⟩
      first
        | rw [(packed_bytes_length _ _).1]; norm_num
        | rw [(packed_bytes_length _ _).2]; norm_num
  obtain ⟨hbwe, hbits8, hplen⟩ := hbwe
  have hsize : header.block_height * header.block_width < U32 := by
    have : header.block_height * header.block_width ≤ 16 * 16 := Nat.mul_le_mul hbh16 hbw16
    simp only [U32]; omega
  have hwU : px + header.block_width < U32 ∨ U32 ≤ px + header.block_width :=
    Nat.lt_or_ge _ _
  unfold quantize_macroblock_trial at h
  rw [hmh, Nat.div_self (by omega), Nat.div_self (by omega), for_loop_one, for_loop_one] at h
  unfold quantize_macroblock_step at h
  simp only [Nat.zero_mul, Nat.add_zero] at h
  have hpx2 : (px % U32) % 2 = 0 := by simp only [U32]; omega
  have h1 := Nat.mod_le px U32
  have h2 := Nat.mod_le py U32
  cases hq : quantize_microblock sqrt input header (px % U32) (py % U32) buf.empty 0 with
  | none => rw [hq] at h; simp at h
  | some r =>
    obtain ⟨out2, e2⟩ := r
    rw [hq] at h
    simp only [] at h
    split at h
    · simp at h
    rename_i hne
    simp only [Option.some.injEq, Prod.mk.injEq] at h
    obtain ⟨hb0, he0⟩ := h
    subst hb0
    -- inside quantize_microblock
    unfold quantize_microblock at hq
    cases hre : range_estimate_min_max header input (px % U32) (py % U32) with
    | none => rw [hre] at hq; simp at hq
    | some rr =>
      obtain ⟨st, range⟩ := rr
      rw [hre] at hq
      simp only [] at hq
      have hrange := range_estimate_min_max_stripes header input _ _ a b st range hab hb hpix
        hpx2 (by omega) (by omega) hbw2 (by omega) hre
      subst hrange
      cases hqe : estimate_quantization_error sqrt header ⟨a, b⟩ input (px % U32)
          (py % U32) with
      | none => rw [hqe] at hq; simp at hq
      | some q =>
        rw [hqe] at hq
        simp only [] at hq
        have hpixel : ∀ subi subj, subi < header.block_width → subj < header.block_height →
            input.pixel_at ((px % U32 + subi) % U32) ((py % U32 + subj) % U32) =
              some (if subi % 2 = 0 then a else b) := by
          intro subi subj hi hj
          have g1 := Nat.mod_le (px % U32 + subi) U32
          have g2 := Nat.mod_le (py % U32 + subj) U32
          rw [hpix _ _ (by omega) (by omega)]
          unfold stripes
          have : (px % U32 + subi) % U32 % 2 = subi % 2 := by simp only [U32]; omega
          rw [this]
        have hqle := estimate_quantization_error_le sqrt header ⟨a, b⟩ input _ _ 64 q
          (by
            intro subi subj hi hj c r hc hr
            rw [hpixel subi subj hi hj] at hc
            simp only [Option.some.injEq] at hc
            subst hc
            split at hr
            · obtain ⟨e, he, hle⟩ := hqa true
              rw [he] at hr
              simp only [Option.some.injEq] at hr
              rw [← hr]; exact hle
            · obtain ⟨e, he, hle⟩ := hqb true
              rw [he] at hr
              simp only [Option.some.injEq] at hr
              rw [← hr]; exact hle)
          hqe
        obtain ⟨f1, l1⟩ := write_control_values_filling ⟨a, b⟩ header hcf.1
          (ring_buffer.empty_filling buf (by omega))
          (by simp only [List.length_nil, ring_buffer.empty]; omega)
        cases hw : write_quantization_table sqrt header ⟨a, b⟩ input (px % U32) (py % U32)
            (write_control_values ⟨a, b⟩ header buf.empty) with
        | none => rw [hw] at hq; simp at hq
        | some o2 =>
          rw [hw] at hq
          simp only [Option.some.injEq, Prod.mk.injEq] at hq
          obtain ⟨ho, he2⟩ := hq
          subst ho
          unfold write_quantization_table at hw
          obtain ⟨g1, _⟩ := write_quantization_table_loop_content _ _ _
            (fun t => if t % 2 = 0 then ia else ib) _ _ _ _ hbits8 hsize
            (by
              intro subi subj hi hj
              unfold clamped_index_at
              rw [hpixel subi subj hi hj]
              have hpar : (subj * header.block_width + subi) % 2 = subi % 2 := by
                rw [Nat.add_mod, Nat.mul_mod, hbwe]; simp
              simp only [hpar]
              by_cases hev : subi % 2 = 0
              · obtain ⟨e, he, _⟩ := hqa false
                simp only [hev, if_true, he]
              · obtain ⟨e, he, _⟩ := hqb false
                simp only [hev, if_false, he])
            f1
            (by
              simp only [List.nil_append, control_bytes, List.length_cons, List.length_nil,
                ring_buffer.empty] at l1 ⊢
              rw [l1]; omega)
            hw
          have hbs := ring_buffer.filling_unique hf g1
          refine ⟨?_, by rw [hbs]; simp⟩
          rw [← he0, ← he2]
          have hBM : BASE_MAX_UINT32 = 4294967295 := by decide
          have hpos : 0 < header.block_width * header.block_height :=
            Nat.mul_pos (by omega) (by omega)
          have hmodeq : (header.block_width * header.block_height) % U32 =
              header.block_width * header.block_height := by
            rw [Nat.mul_comm]; exact Nat.mod_eq_of_lt hsize
          rw [hmodeq]
          have hq2 : (0 + (if q ≤ BASE_MAX_UINT32 then q else BASE_MAX_UINT32)) % U32 ≤
              header.block_width * header.block_height * 64 := by
            rw [Nat.zero_add]
            refine Nat.le_trans (Nat.mod_le _ _) ?_
            rw [Nat.mul_comm header.block_width]
            split
            · exact hqle
            · rename_i hgt
              omega
          apply Nat.div_le_of_le_mul
          calc _ ≤ header.block_width * header.block_height * 64 := hq2
            _ = header.block_width * header.block_height * 64 := rfl

/-! ## the step values the extraction loop finds -/

theorem shiftRight_le_self (v n : Nat) : v >>> n ≤ v := by
  rw [Nat.shiftRight_eq_div_pow]; exact Nat.div_le_self _ _

/-- One successful step of the extraction loop on a stream that holds index bytes:
the store is made with the extracted step value, a byte is consumed at the start
of each group, and `quant_look_aside` holds the rest of the byte of the group. -/
theorem read_macroblock_step_extracts {σ : Type} (bits bw : Nat)
    (store : Nat → Nat → Nat → σ → Option σ) (subj subi : Nat) (bytes rest : List Nat)
    (st st' : (memory_stream × Nat) × σ)
    (hbits : bits = 2 ∨ bits = 4) (hU : subj * bw + subi < U32)
    (hbyte : ∀ v, v ∈ bytes → v < 256)
    (hin : (subj * bw + subi) / (8 / bits) < bytes.length)
    (hl : st.1.1.linear)
    (hun : st.1.1.unread =
      bytes.drop ((subj * bw + subi + (8 / bits) - 1) / (8 / bits)) ++ rest)
    (hla : (subj * bw + subi) % (8 / bits) ≠ 0 →
      st.1.2 = bytes.getD ((subj * bw + subi) / (8 / bits)) 0 >>>
        (bits * ((subj * bw + subi) % (8 / bits))))
    (h : read_macroblock_step bits bw store subj subi st = some (BASE_SUCCESS, st')) :
    store subi subj (extracted_index bits bytes (subj * bw + subi)) st.2 = some st'.2 ∧
    st'.1.1.linear ∧
    st'.1.1.unread =
      bytes.drop ((subj * bw + subi + 1 + (8 / bits) - 1) / (8 / bits)) ++ rest ∧
    ((subj * bw + subi + 1) % (8 / bits) ≠ 0 →
      st'.1.2 = bytes.getD ((subj * bw + subi + 1) / (8 / bits)) 0 >>>
        (bits * ((subj * bw + subi + 1) % (8 / bits)))) := by
  obtain ⟨⟨s, la⟩, o⟩ := st
  simp only at hl hun hla
  have hmod : (subi + subj * bw) % U32 = subj * bw + subi := by
    rw [Nat.add_comm]; exact Nat.mod_eq_of_lt hU
  generalize ht : subj * bw + subi = t at *
  unfold read_macroblock_step at h
  simp only [hmod] at h
  have hget : ∀ k, k < bytes.length → bytes.getD k 0 = bytes[k]?.getD 0 ∧
      bytes.getD k 0 < 256 := by
    intro k hk
    refine ⟨by simp [List.getD_eq_getElem?_getD], ?_⟩
    rw [List.getD_eq_getElem _ _ hk]
    exact hbyte _ (List.getElem_mem hk)
  have hlt256 := (hget _ hin).2
  rcases hbits with rfl | rfl
  · -- two bits, four step values in a byte
    have e8 : 8 / 2 = 4 := by norm_num
    rw [e8] at hin hun hla hlt256 ⊢
    by_cases hc : t % 4 = 0
    · have hc' : ((2 * t) % U32) % 8 = 0 := by simp only [U32]; omega
      have hd : (t + 4 - 1) / 4 = t / 4 := by omega
      rw [hd] at hun
      have hne : s.unread ≠ [] := by
        rw [hun]; intro hnil
        have := congrArg List.length hnil
        simp at this; omega
      have hhead : (List.take 1 s.unread).getD 0 la = bytes.getD (t / 4) 0 := by
        rw [hun, List.getD_eq_getElem?_getD, List.getD_eq_getElem?_getD, List.getElem?_take,
          if_pos (by norm_num), List.getElem?_append_left (by simp; omega), List.getElem?_drop]
        simp only [Nat.add_zero, List.getElem?_eq_getElem hin, Option.getD_some]
      rw [if_pos hc', memory_stream.read_data_linear hl (by norm_num) hne] at h
      simp only [base_failed_success, Bool.false_eq_true, if_false, hhead] at h
      split at h
      · simp at h
      rename_i out hout
      simp only [Option.some.injEq, Prod.mk.injEq, true_and] at h
      subst h
      have hlen1 : min 1 s.unread.length = 1 := by
        have : 0 < s.unread.length := List.length_pos.mpr hne
        omega
      obtain ⟨l1, u1⟩ := memory_stream.advance_linear hl 1 (by
        have : 0 < s.unread.length := List.length_pos.mpr hne
        omega)
      refine ⟨?_, by rw [hlen1]; exact l1, ?_, ?_⟩
      · rw [← hout]
        simp only [extracted_index, e8, hc, Nat.mul_zero, Nat.shiftRight_zero]
      · rw [hlen1, u1, hun, List.drop_append_of_le_length (by simp; omega), List.drop_drop]
        congr 2
        omega
      · intro _
        try simp only []
        have : (t + 1) / 4 = t / 4 ∧ (t + 1) % 4 = 1 := by omega
        rw [this.1, this.2, Nat.mul_one]
        apply Nat.mod_eq_of_lt
        exact Nat.lt_of_le_of_lt (shiftRight_le_self _ _) hlt256
    · have hc' : ¬ (((2 * t) % U32) % 8 = 0) := by simp only [U32]; omega
      rw [if_neg hc'] at h
      split at h
      · simp at h
      rename_i out hout
      simp only [Option.some.injEq, Prod.mk.injEq, true_and] at h
      subst h
      have hlav := hla hc
      refine ⟨?_, hl, ?_, ?_⟩
      · rw [← hout, hlav]
        simp only [extracted_index, e8]
      · try simp only []
        rw [hun]
        congr 2
        omega
      · intro hnext
        try simp only []
        have : (t + 1) / 4 = t / 4 ∧ (t + 1) % 4 = t % 4 + 1 := by omega
        rw [this.1, this.2, hlav, Nat.mul_add, Nat.mul_one, Nat.shiftRight_add]
        apply Nat.mod_eq_of_lt
        exact Nat.lt_of_le_of_lt
          (Nat.le_trans (shiftRight_le_self _ _) (shiftRight_le_self _ _)) hlt256
  · -- four bits, two step values in a byte
    have e8 : 8 / 4 = 2 := by norm_num
    rw [e8] at hin hun hla hlt256 ⊢
    by_cases hc : t % 2 = 0
    · have hc' : ((4 * t) % U32) % 8 = 0 := by simp only [U32]; omega
      have hd : (t + 2 - 1) / 2 = t / 2 := by omega
      rw [hd] at hun
      have hne : s.unread ≠ [] := by
        rw [hun]; intro hnil
        have := congrArg List.length hnil
        simp at this; omega
      have hhead : (List.take 1 s.unread).getD 0 la = bytes.getD (t / 2) 0 := by
        rw [hun, List.getD_eq_getElem?_getD, List.getD_eq_getElem?_getD, List.getElem?_take,
          if_pos (by norm_num), List.getElem?_append_left (by simp; omega), List.getElem?_drop]
        simp only [Nat.add_zero, List.getElem?_eq_getElem hin, Option.getD_some]
      rw [if_pos hc', memory_stream.read_data_linear hl (by norm_num) hne] at h
      simp only [base_failed_success, Bool.false_eq_true, if_false, hhead] at h
      split at h
      · simp at h
      rename_i out hout
      simp only [Option.some.injEq, Prod.mk.injEq, true_and] at h
      subst h
      have hlen1 : min 1 s.unread.length = 1 := by
        have : 0 < s.unread.length := List.length_pos.mpr hne
        omega
      obtain ⟨l1, u1⟩ := memory_stream.advance_linear hl 1 (by
        have : 0 < s.unread.length := List.length_pos.mpr hne
        omega)
      refine ⟨?_, by rw [hlen1]; exact l1, ?_, ?_⟩
      · rw [← hout]
        simp only [extracted_index, e8, hc, Nat.mul_zero, Nat.shiftRight_zero]
      · rw [hlen1, u1, hun, List.drop_append_of_le_length (by simp; omega), List.drop_drop]
        congr 2
        omega
      · intro _
        try simp only []
        have : (t + 1) / 2 = t / 2 ∧ (t + 1) % 2 = 1 := by omega
        rw [this.1, this.2, Nat.mul_one]
        apply Nat.mod_eq_of_lt
        exact Nat.lt_of_le_of_lt (shiftRight_le_self _ _) hlt256
    · have hc' : ¬ (((4 * t) % U32) % 8 = 0) := by simp only [U32]; omega
      rw [if_neg hc'] at h
      split at h
      · simp at h
      rename_i out hout
      simp only [Option.some.injEq, Prod.mk.injEq, true_and] at h
      subst h
      have hlav := hla hc
      refine ⟨?_, hl, ?_, ?_⟩
      · rw [← hout, hlav]
        simp only [extracted_index, e8]
      · try simp only []
        rw [hun]
        congr 2
        omega
      · intro hnext
        omega

/-- Storing a colour into one pixel of an image changes that pixel and no other. -/
theorem image.store_pixel_read {img img' : image} {w h x y : Nat} (hs : img.shaped w h)
    (hsz : 24 * (w * h) < U32) (hx : x < w) (hy : y < h) (v : color)
    (hst : img.store_pixel (img.query_block_offset x y) v = some img') :
    img'.shaped w h ∧
      ∀ x2 y2, x2 < w → y2 < h →
        img'.pixel_at x2 y2 = if x2 = x ∧ y2 = y then some v else img.pixel_at x2 y2 := by
  have hb := image.offset_in_bounds hs hx hy
  obtain ⟨i2, hi2, hs2⟩ := image.store_pixel_at_shaped hs hsz hx hy v
  rw [hst] at hi2
  simp only [Option.some.injEq] at hi2
  subst hi2
  rw [image.offset_shaped hs hsz hx hy] at hst
  unfold image.store_pixel at hst
  rw [if_pos hb] at hst
  simp only [Option.some.injEq] at hst
  have hdata : img'.data_buffer =
      ((img.data_buffer.set (3 * (w * y + x)) v.c0).set (3 * (w * y + x) + 1) v.c1).set
        (3 * (w * y + x) + 2) v.c2 := by rw [← hst]
  refine ⟨hs2, ?_⟩
  intro x2 y2 hx2 hy2
  have hiff : (w * y2 + x2 = w * y + x) ↔ (x2 = x ∧ y2 = y) := by
    constructor
    · intro he
      have := raster_unique hx hx2 (show y2 * w + x2 = y * w + x by
        rw [Nat.mul_comm y2, Nat.mul_comm y]; exact he)
      exact ⟨this.2, this.1⟩
    · rintro ⟨rfl, rfl⟩; rfl
  unfold image.pixel_at
  rw [image.offset_shaped hs2 hsz hx2 hy2, image.offset_shaped hs hsz hx2 hy2]
  unfold image.load_pixel
  rw [hdata, set3_getElem? _ _ _ _ _ _ hb, set3_getElem? _ _ _ _ _ _ hb,
    set3_getElem? _ _ _ _ _ _ hb]
  by_cases hk : w * y2 + x2 = w * y + x
  · rw [if_pos (hiff.mp hk), hk]
    simp
  · rw [if_neg (fun hc => hk (hiff.mpr hc))]
    have n1 : ¬ (3 * (w * y2 + x2) = 3 * (w * y + x)) := by omega
    have n2 : ¬ (3 * (w * y2 + x2) = 3 * (w * y + x) + 1) := by omega
    have n3 : ¬ (3 * (w * y2 + x2) = 3 * (w * y + x) + 2) := by omega
    have n4 : ¬ (3 * (w * y2 + x2) + 1 = 3 * (w * y + x)) := by omega
    have n5 : ¬ (3 * (w * y2 + x2) + 1 = 3 * (w * y + x) + 1) := by omega
    have n6 : ¬ (3 * (w * y2 + x2) + 1 = 3 * (w * y + x) + 2) := by omega
    have n7 : ¬ (3 * (w * y2 + x2) + 2 = 3 * (w * y + x)) := by omega
    have n8 : ¬ (3 * (w * y2 + x2) + 2 = 3 * (w * y + x) + 1) := by omega
    have n9 : ¬ (3 * (w * y2 + x2) + 2 = 3 * (w * y + x) + 2) := by omega
    simp only [n1, n2, n3, n4, n5, n6, n7, n8, n9, if_false]

/-- Partial correctness of the extraction loop on a stream that holds the index
bytes of the block: every store is made with the step value extracted for its
pixel; `K` is an invariant of the destination indexed by the number of pixels
stored. -/
theorem read_macroblock_loop_extracts {σ : Type} (bits bw bh : Nat)
    (store : Nat → Nat → Nat → σ → Option σ) (K : Nat → σ → Prop)
    (s s' : memory_stream) (out out' : σ) (bytes rest : List Nat)
    (hbits : bits = 2 ∨ bits = 4) (hsize : bh * bw < U32)
    (hbyte : ∀ v, v ∈ bytes → v < 256)
    (hlen : bytes.length * (8 / bits) = bh * bw)
    (hl : s.linear) (hun : s.unread = bytes ++ rest)
    (hstore : ∀ subj subi o o', subj < bh → subi < bw → K (subj * bw + subi) o →
      store subi subj (extracted_index bits bytes (subj * bw + subi)) o = some o' →
      K (subj * bw + subi + 1) o')
    (h0 : K 0 out)
    (h : read_macroblock_loop bits bw bh store s out = some (BASE_SUCCESS, s', out')) :
    K (bh * bw) out' := by
  have hper : 0 < 8 / bits ∧ (8 / bits - 1) / (8 / bits) = 0 := by
    rcases hbits with rfl | rfl <;> norm_num
  unfold read_macroblock_loop at h
  split at h
  · simp at h
  split at h
  · simp at h
  rename_i r hloop
  obtain ⟨st, a⟩ := r
  simp only [Option.some.injEq, Prod.mk.injEq] at h
  obtain ⟨h1, _, h3⟩ := h
  subst h1
  rw [← h3]
  have key := nested_for_loop_status_inv (read_macroblock_step bits bw store)
    (fun t (a : (memory_stream × Nat) × σ) =>
      a.1.1.linear ∧
      a.1.1.unread = bytes.drop ((t + (8 / bits) - 1) / (8 / bits)) ++ rest ∧
      (t % (8 / bits) ≠ 0 →
        a.1.2 = bytes.getD (t / (8 / bits)) 0 >>> (bits * (t % (8 / bits)))) ∧
      K t a.2)
    bh bw ((s, 0), out) a
    (by
      intro j i a a' hj hi hI hstep
      obtain ⟨il, iu, ila, iK⟩ := hI
      have hlt := microblock_count_le hj hi
      have hin : (j * bw + i) / (8 / bits) < bytes.length := by
        rw [Nat.div_lt_iff_lt_mul hper.1, hlen]; omega
      obtain ⟨q1, q2, q3, q4⟩ := read_macroblock_step_extracts bits bw store j i bytes rest
        a a' hbits (by omega) hbyte hin il iu ila hstep
      exact ⟨q2, q3, q4, hstore j i a.2 a'.2 hj hi iK q1⟩)
    ⟨hl, by
        simp only [Nat.zero_add, hper.2, List.drop_zero]
        exact hun,
      fun hc => absurd (Nat.zero_mod _) hc, h0⟩
    hloop
  exact key.2.2.2

/-! ## decoding a record of stripes -/

theorem u16_at_control_bytes_range (bs : List Nat) (range : PTCX_PIXEL_RANGE)
    (h : bs.take 4 = control_bytes range) :
    u16_at bs 0 = control_word range.min_value ∧ u16_at bs 2 = control_word range.max_value := by
  have e0 : u16_at bs 0 = u16_at (bs.take 4) 0 := by
    simp [u16_at, List.getD_eq_getElem?_getD, List.getElem?_take]
  have e2 : u16_at bs 2 = u16_at (bs.take 4) 2 := by
    simp [u16_at, List.getD_eq_getElem?_getD, List.getElem?_take]
  have h1 := control_word_lt range.min_value
  have h2 := control_word_lt range.max_value
  rw [e0, e2, h]
  simp [u16_at, control_bytes]
  omega

/-- `read_macroblock` on a record that holds the control bytes of `a .. b` and
index bytes whose step values dequantize to `a'` for the even and to `b'` for the
odd pixels of each row: the block, which starts in an even column, becomes
stripes of `a'` and `b'`, and the striped pixels outside the block stay. -/
theorem read_macroblock_stripes (header : PTCX_FILE_HEADER) {x y w h : Nat}
    (s s' : memory_stream) (img img' : image) (a b a' b' : color) (idx rest : List Nat)
    (G : Nat → Nat → Prop)
    (ha : a.c0 < 256 ∧ a.c1 < 256 ∧ a.c2 < 256) (hb : b.c0 < 256 ∧ b.c1 < 256 ∧ b.c2 < 256)
    (hbits : header.quant_step_bits = 2 ∨ header.quant_step_bits = 4)
    (h16 : header.quant_control_bits = 16)
    (hbw : 0 < header.block_width) (hbh : 0 < header.block_height)
    (hbwe : header.block_width % 2 = 0)
    (hsize : header.block_height * header.block_width < U32)
    (hxe : x % 2 = 0)
    (hx : x + header.block_width ≤ w) (hy : y + header.block_height ≤ h)
    (hsz : 24 * (w * h) < U32) (hl : s.linear) (hs : img.shaped w h)
    (hun : s.unread = control_bytes { min_value := a, max_value := b } ++ idx ++ rest)
    (hbyte : ∀ v, v ∈ idx → v < 256)
    (hlen : idx.length * (8 / header.quant_step_bits) =
      header.block_height * header.block_width)
    (hdeq : ∀ t, t < header.block_height * header.block_width →
      ∀ (px py subi subj : Nat) (o : image),
        store_dequantized header.quant_step_bits
          { min_value := ⟨8 * (a.c0 / 8), 4 * (a.c1 / 4), 8 * (a.c2 / 8)⟩,
            max_value := ⟨8 * (b.c0 / 8), 4 * (b.c1 / 4), 8 * (b.c2 / 8)⟩ }
          px py subi subj (extracted_index header.quant_step_bits idx t) o =
        o.store_pixel (o.query_block_offset ((px + subi) % U32) ((py + subj) % U32))
          (if t % 2 = 0 then a' else b'))
    (hG : ∀ x2 y2, x2 < w → y2 < h → G x2 y2 →
      img.pixel_at x2 y2 = some (stripes a' b' x2))
    (hread : read_macroblock s header x y img = some (BASE_SUCCESS, s', img')) :
    img'.shaped w h ∧
    ∀ x2 y2, x2 < w → y2 < h →
      (G x2 y2 ∨ (x ≤ x2 ∧ x2 < x + header.block_width ∧ y ≤ y2 ∧
        y2 < y + header.block_height)) →
      img'.pixel_at x2 y2 = some (stripes a' b' x2) := by
  have hw : w < U32 := by
    have : w * 1 ≤ w * h := Nat.mul_le_mul_left w (by omega)
    omega
  have hh : h < U32 := by
    have : 1 * h ≤ w * h := Nat.mul_le_mul_right h (by omega)
    omega
  have htake : s.unread.take 4 = control_bytes { min_value := a, max_value := b } := by
    rw [hun, List.append_assoc, List.take_left' (by simp [control_bytes])]
  obtain ⟨w0, w2⟩ := u16_at_control_bytes_range s.unread _ htake
  have hulen : 4 ≤ s.unread.length := by
    rw [hun]; simp [control_bytes]
  unfold read_macroblock at hread
  rw [read_control_values_linear hl _ header h16, w0, w2,
    control_color_word a ha.1 ha.2.1 ha.2.2, control_color_word b hb.1 hb.2.1 hb.2.2,
    Nat.min_eq_left hulen] at hread
  simp only [] at hread
  obtain ⟨l4, u4⟩ := memory_stream.advance_linear hl 4 hulen
  rw [hun, List.append_assoc, List.drop_left' (by simp [control_bytes])] at u4
  have key := read_macroblock_loop_extracts header.quant_step_bits header.block_width
    header.block_height _
    (fun t (o : image) => o.shaped w h ∧
      ∀ x2 y2, x2 < w → y2 < h →
        (G x2 y2 ∨ ∃ t', t' < t ∧ x2 = x + t' % header.block_width ∧
          y2 = y + t' / header.block_width) →
        o.pixel_at x2 y2 = some (stripes a' b' x2))
    _ s' img img' idx rest hbits hsize hbyte hlen l4 u4
    (by
      intro subj subi o o' hj hi hK hst
      obtain ⟨hso, hgood⟩ := hK
      have hlt := microblock_count_le hj hi
      rw [hdeq _ (by omega), Nat.mod_eq_of_lt (by omega : x + subi < U32),
        Nat.mod_eq_of_lt (by omega : y + subj < U32)] at hst
      obtain ⟨q1, q2⟩ := image.store_pixel_read hso hsz (by omega) (by omega) _ hst
      refine ⟨q1, ?_⟩
      intro x2 y2 hx2 hy2 hcase
      rw [q2 x2 y2 hx2 hy2]
      have hpar : (subj * header.block_width + subi) % 2 = (x + subi) % 2 := by
        rw [Nat.add_mod, Nat.mul_mod, hbwe]; simp; omega
      by_cases hcur : x2 = x + subi ∧ y2 = y + subj
      · rw [if_pos hcur, hcur.1]
        unfold stripes
        rw [hpar]
      · rw [if_neg hcur]
        rcases hcase with hg | ⟨t', ht', ex, ey⟩
        · exact hgood x2 y2 hx2 hy2 (Or.inl hg)
        · by_cases hlt' : t' < subj * header.block_width + subi
          · exact hgood x2 y2 hx2 hy2 (Or.inr ⟨t', hlt', ex, ey⟩)
          · exfalso
            have ht : t' = subi + subj * header.block_width := by omega
            rw [ht, Nat.add_mul_mod_self_right, Nat.mod_eq_of_lt hi] at ex
            rw [ht, Nat.add_mul_div_right _ _ hbw, Nat.div_eq_of_lt hi, Nat.zero_add] at ey
            exact hcur ⟨ex, ey⟩)
    ⟨hs, fun x2 y2 hx2 hy2 hcase => by
      rcases hcase with hg | ⟨t', ht', _⟩
      · exact hG x2 y2 hx2 hy2 hg
      · omega⟩
    hread
  refine ⟨key.1, ?_⟩
  intro x2 y2 hx2 hy2 hcase
  apply key.2 x2 y2 hx2 hy2
  rcases hcase with hg | ⟨a1, a2, a3, a4⟩
  · exact Or.inl hg
  · right
    refine ⟨(x2 - x) + (y2 - y) * header.block_width, ?_, ?_, ?_⟩
    · have : (y2 - y + 1) * header.block_width ≤ header.block_height * header.block_width :=
        Nat.mul_le_mul_right _ (by omega)
      rw [Nat.add_mul, Nat.one_mul] at this
      omega
    · rw [Nat.add_mul_mod_self_right, Nat.mod_eq_of_lt (by omega)]; omega
    · rw [Nat.add_mul_div_right _ _ hbw, Nat.div_eq_of_lt (by omega)]; omega

/-- One macroblock read at level 0 from a record of stripes. -/
theorem inverse_quantize_macroblock_stripes (header : PTCX_FILE_HEADER) (table : List Nat)
    {w h : Nat} (jb ib : Nat) (st st' : memory_stream × image) (a b a' b' : color)
    (idx rest : List Nat) (G : Nat → Nat → Prop)
    (hcf : header.configured)
    (ha : a.c0 < 256 ∧ a.c1 < 256 ∧ a.c2 < 256) (hb : b.c0 < 256 ∧ b.c1 < 256 ∧ b.c2 < 256)
    (hx : ib * header.block_width + header.block_width ≤ w)
    (hy : jb * header.block_height + header.block_height ≤ h)
    (hq : query_macroblock_shift table ib (header.image_width / header.block_width) jb = some 0)
    (hsz : 24 * (w * h) < U32) (hl : st.1.linear) (hs : st.2.shaped w h)
    (hun : st.1.unread = control_bytes { min_value := a, max_value := b } ++ idx ++ rest)
    (hbyte : ∀ v, v ∈ idx → v < 256)
    (hlen : idx.length * (8 / header.quant_step_bits) =
      header.block_height * header.block_width)
    (hdeq : ∀ t, t < header.block_height * header.block_width →
      ∀ (px py subi subj : Nat) (o : image),
        store_dequantized header.quant_step_bits
          { min_value := ⟨8 * (a.c0 / 8), 4 * (a.c1 / 4), 8 * (a.c2 / 8)⟩,
            max_value := ⟨8 * (b.c0 / 8), 4 * (b.c1 / 4), 8 * (b.c2 / 8)⟩ }
          px py subi subj (extracted_index header.quant_step_bits idx t) o =
        o.store_pixel (o.query_block_offset ((px + subi) % U32) ((py + subj) % U32))
          (if t % 2 = 0 then a' else b'))
    (hG : ∀ x2 y2, x2 < w → y2 < h → G x2 y2 →
      st.2.pixel_at x2 y2 = some (stripes a' b' x2))
    (hdec : inverse_quantize_macroblock header table jb ib st = some (BASE_SUCCESS, st')) :
    st'.2.shaped w h ∧
    ∀ x2 y2, x2 < w → y2 < h →
      (G x2 y2 ∨ (ib * header.block_width ≤ x2 ∧
        x2 < ib * header.block_width + header.block_width ∧
        jb * header.block_height ≤ y2 ∧
        y2 < jb * header.block_height + header.block_height)) →
      st'.2.pixel_at x2 y2 = some (stripes a' b' x2) := by
  obtain ⟨_, _, _, _, _, _, hmh⟩ := trial_bytes_configured header hcf 0 (by omega)
  obtain ⟨hbw2, hbh2, hbw16, hbh16, _⟩ := configured_divides header hcf (n := 0) rfl
  have hne : ¬ (header.block_width = 0 ∨ header.block_height = 0) := by omega
  have hbe : header.block_width % 2 = 0 ∧
      (header.quant_step_bits = 2 ∨ header.quant_step_bits = 4) := by
    obtain ⟨_, hcase⟩ := hcf
    rcases hcase with ⟨e1, _, e3⟩ | ⟨e1, _, e3⟩ | ⟨e1, _, e3⟩ | ⟨e1, _, e3⟩ <;>
    · rw [e1, e3]; exact ⟨by norm_num, by norm_num⟩
  have hsize : header.block_height * header.block_width < U32 := by
    have : header.block_height * header.block_width ≤ 16 * 16 := Nat.mul_le_mul hbh16 hbw16
    simp only [U32]; omega
  have hw : w < U32 := by
    have : w * 1 ≤ w * h := Nat.mul_le_mul_left w (by omega)
    omega
  have hh : h < U32 := by
    have : 1 * h ≤ w * h := Nat.mul_le_mul_right h (by omega)
    omega
  unfold inverse_quantize_macroblock at hdec
  simp only [hne, if_false, Nat.mul_div_cancel _ (by omega : 0 < header.block_height),
    Nat.mul_div_cancel _ (by omega : 0 < header.block_width), hq, hmh,
    Nat.div_self (by omega : 0 < header.block_height),
    Nat.div_self (by omega : 0 < header.block_width)] at hdec
  have h1 := for_loop_status_one_success _ _ _ _ hdec
  have h2 := for_loop_status_one_success _ _ _ _ h1
  unfold inverse_quantize_step at h2
  simp only [Nat.zero_mul, Nat.add_zero] at h2
  rw [Nat.mod_eq_of_lt (by omega : ib * header.block_width < U32),
    Nat.mod_eq_of_lt (by omega : jb * header.block_height < U32)] at h2
  cases hr : read_macroblock st.1 header (ib * header.block_width) (jb * header.block_height)
      st.2 with
  | none => rw [hr] at h2; simp at h2
  | some r =>
    obtain ⟨stt, s', img'⟩ := r
    rw [hr] at h2
    simp only [] at h2
    by_cases hf : base_failed stt = true
    · rw [if_pos hf] at h2; simp at h2
    rw [if_neg hf] at h2
    have hst : stt = BASE_SUCCESS := base_failed_eq_false (by simpa using hf)
    subst hst
    simp only [Option.some.injEq, Prod.mk.injEq, true_and] at h2
    subst h2
    exact read_macroblock_stripes header st.1 s' st.2 img' a b a' b' idx rest G ha hb hbe.2
      hcf.1 (by omega) (by omega) hbe.1 hsize
      (by rw [Nat.mul_mod, hbe.1]; simp) hx hy hsz hl hs hun hbyte hlen hdeq hG hr

theorem flatten_replicate_length (n : Nat) (l : List Nat) :
    (List.replicate n l).flatten.length = n * l.length := by
  induction n with
  | zero => simp
  | succ n ih =>
    rw [List.replicate_succ, List.flatten_cons, List.length_append, ih, Nat.add_mul,
      Nat.one_mul, Nat.add_comm]

/-- `inverse_quantize` on a zero table followed by one level-0 record of stripes
per macroblock: the image becomes stripes of `a'` and `b'`. -/
theorem inverse_quantize_stripes (header : PTCX_FILE_HEADER) (s s' : memory_stream)
    (img img' : image) (a b a' b' : color) (idx : List Nat)
    (hcf : header.configured)
    (ha : a.c0 < 256 ∧ a.c1 < 256 ∧ a.c2 < 256) (hb : b.c0 < 256 ∧ b.c1 < 256 ∧ b.c2 < 256)
    (hw : 0 < header.image_width) (hh : 0 < header.image_height)
    (hdw : header.image_width % header.block_width = 0)
    (hdh : header.image_height % header.block_height = 0)
    (h4 : ((header.image_width / header.block_width) *
      (header.image_height / header.block_height)) % 4 = 0)
    (hsz : 24 * (header.image_width * header.image_height) < U32)
    (hl : s.linear) (hs : img.shaped header.image_width header.image_height)
    (hm0 : macroblock_bytes header 0 = 4 + idx.length)
    (hun : s.unread = List.replicate (((header.image_width / header.block_width) *
        (header.image_height / header.block_height)) >>> 2) 0 ++
      (List.replicate ((header.image_height / header.block_height) *
        (header.image_width / header.block_width))
        (control_bytes { min_value := a, max_value := b } ++ idx)).flatten)
    (hbyte : ∀ v, v ∈ idx → v < 256)
    (hlen : idx.length * (8 / header.quant_step_bits) =
      header.block_height * header.block_width)
    (hdeq : ∀ t, t < header.block_height * header.block_width →
      ∀ (px py subi subj : Nat) (o : image),
        store_dequantized header.quant_step_bits
          { min_value := ⟨8 * (a.c0 / 8), 4 * (a.c1 / 4), 8 * (a.c2 / 8)⟩,
            max_value := ⟨8 * (b.c0 / 8), 4 * (b.c1 / 4), 8 * (b.c2 / 8)⟩ }
          px py subi subj (extracted_index header.quant_step_bits idx t) o =
        o.store_pixel (o.query_block_offset ((px + subi) % U32) ((py + subj) % U32))
          (if t % 2 = 0 then a' else b'))
    (hdec : inverse_quantize s header img = some (BASE_SUCCESS, s', img')) :
    img'.shaped header.image_width header.image_height ∧
    ∀ x y, x < header.image_width → y < header.image_height →
      img'.pixel_at x y = some (stripes a' b' x) := by
  obtain ⟨hbw, hbh, _⟩ := configured_divides header hcf (n := 0) rfl
  have hbits : 1 ≤ header.quant_step_bits ∧ header.quant_step_bits < 31 := by
    obtain ⟨_, hcase⟩ := hcf
    rcases hcase with ⟨_, _, h1⟩ | ⟨_, _, h1⟩ | ⟨_, _, h1⟩ | ⟨_, _, h1⟩ <;> omega
  have hreclen : (control_bytes { min_value := a, max_value := b } ++ idx).length =
      macroblock_bytes header 0 := by
    rw [hm0]; simp [control_bytes]; omega
  generalize hrec : control_bytes { min_value := a, max_value := b } ++ idx = record at *
  generalize hm0' : macroblock_bytes header 0 = m0 at *
  generalize hwb : header.image_width / header.block_width = wb at *
  generalize hhb : header.image_height / header.block_height = hb' at *
  have hwbpos : 0 < wb := by
    rw [← hwb]; exact Nat.div_pos (Nat.le_of_dvd hw (Nat.dvd_of_mod_eq_zero hdw)) (by omega)
  have hhbpos : 0 < hb' := by
    rw [← hhb]; exact Nat.div_pos (Nat.le_of_dvd hh (Nat.dvd_of_mod_eq_zero hdh)) (by omega)
  have hwe : wb * header.block_width = header.image_width := by
    rw [← hwb]; exact Nat.div_mul_cancel (Nat.dvd_of_mod_eq_zero hdw)
  have hhe : hb' * header.block_height = header.image_height := by
    rw [← hhb]; exact Nat.div_mul_cancel (Nat.dvd_of_mod_eq_zero hdh)
  have hcount : wb * hb' < 2147483648 := by
    have h1 : wb ≤ header.image_width := by rw [← hwb]; exact Nat.div_le_self _ _
    have h2 : hb' ≤ header.image_height := by rw [← hhb]; exact Nat.div_le_self _ _
    have h3 : wb * hb' ≤ header.image_width * header.image_height := Nat.mul_le_mul h1 h2
    simp only [U32] at hsz
    omega
  have hTpos : 0 < (wb * hb') >>> 2 := by
    have : 0 < wb * hb' := Nat.mul_pos hwbpos hhbpos
    simp only [Nat.shiftRight_eq_div_pow]
    omega
  generalize hT : (wb * hb') >>> 2 = T at *
  have hne : ¬ (header.block_width = 0 ∨ header.block_height = 0) := by omega
  have hcnt : ¬ 2147483648 ≤ wb * hb' := by omega
  have hres : vector_resize [] T = List.replicate T 0 := by simp [vector_resize]
  have hnil : s.unread ≠ [] := by
    intro hn; rw [hn] at hun
    have := congrArg List.length hun
    simp at this; omega
  have hulen : s.unread.length = T + (hb' * wb) * m0 := by
    rw [hun]; simp [flatten_replicate_length, hreclen]
  have htable : read_macroblock_table s header =
      some (BASE_SUCCESS, s.advance T, List.replicate T 0) := by
    unfold read_macroblock_table
    simp only [hne, if_false, hwb, hhb, hcnt, hT, hres, List.length_replicate, ne_eq,
      not_true_eq_false]
    rw [memory_stream.read_data_linear hl hTpos hnil]
    simp only [base_failed_success, Bool.false_eq_true, if_false]
    rw [Nat.min_eq_left (by omega), hun, List.take_left' (List.length_replicate _ _)]
    simp
  have hrows : strided_count img.query_height header.block_height = some hb' := by
    rw [show img.query_height = header.image_height from hs.2.1,
      strided_count_of_dvd hh (by omega) hdh, hhb]
  have hcols : strided_count img.query_width header.block_width = some wb := by
    rw [show img.query_width = header.image_width from hs.1,
      strided_count_of_dvd hw (by omega) hdw, hwb]
  unfold inverse_quantize at hdec
  rw [htable] at hdec
  simp only [base_failed_success, Bool.false_eq_true, if_false, hrows, hcols] at hdec
  obtain ⟨hl1, hu1⟩ := memory_stream.advance_linear hl T (by omega)
  rw [hun, List.drop_left' (List.length_replicate _ _)] at hu1
  have key := nested_for_loop_status_inv (inverse_quantize_macroblock header (List.replicate T 0))
    (fun k (st : memory_stream × image) =>
      st.1.linear ∧ st.1.unread = (List.replicate (hb' * wb - k) record).flatten ∧
      st.2.shaped header.image_width header.image_height ∧
      ∀ x y, x < header.image_width → y < header.image_height →
        (y / header.block_height) * wb + x / header.block_width < k →
        st.2.pixel_at x y = some (stripes a' b' x))
    hb' wb (s.advance T, img) (s', img')
    (by
      intro jb ib st st' hjb hib hJ hstep
      obtain ⟨hla, hua, hsa, hga⟩ := hJ
      have hk := microblock_count_le hjb hib
      have hx : ib * header.block_width + header.block_width ≤ header.image_width := by
        rw [← hwe]
        have := Nat.mul_le_mul_right header.block_width (show ib + 1 ≤ wb by omega)
        rw [Nat.add_mul, Nat.one_mul] at this
        exact this
      have hy : jb * header.block_height + header.block_height ≤ header.image_height := by
        rw [← hhe]
        have := Nat.mul_le_mul_right header.block_height (show jb + 1 ≤ hb' by omega)
        rw [Nat.add_mul, Nat.one_mul] at this
        exact this
      have hq : query_macroblock_shift (List.replicate T 0) ib wb jb = some 0 := by
        rw [query_macroblock_shift_zero, if_pos]
        rw [← hT]
        exact table_index_in_bounds hjb hib h4 hcount
      have hsplit : hb' * wb - (jb * wb + ib) = (hb' * wb - (jb * wb + ib + 1)) + 1 := by omega
      have hua2 : st.1.unread = record ++
          (List.replicate (hb' * wb - (jb * wb + ib + 1)) record).flatten := by
        rw [hua, hsplit, List.replicate_succ, List.flatten_cons]
      have hlen' : m0 ≤ st.1.unread.length := by
        rw [hua2, List.length_append, hreclen]; omega
      obtain ⟨a'', ha'', hadv, _⟩ := (inverse_quantize_macroblock_consume header
        (List.replicate T 0) jb ib 0 st hbits.1 hbits.2 hbw hbh hx hy (by rw [hwb]; exact hq) hsz
        hla hsa).1 (by rw [hm0']; exact hlen')
      rw [hstep] at ha''
      simp only [Option.some.injEq, Prod.mk.injEq, true_and] at ha''
      subst ha''
      rw [hm0'] at hadv
      obtain ⟨hla', hua'⟩ := memory_stream.advance_linear hla m0 hlen'
      obtain ⟨p1, p2⟩ := inverse_quantize_macroblock_stripes header (List.replicate T 0) jb ib
        st st' a b a' b' idx _
        (fun x y => (y / header.block_height) * wb + x / header.block_width <
          jb * wb + ib) hcf ha hb hx hy (by rw [hwb]; exact hq) hsz hla hsa
        (by rw [hua2, ← hrec])
        hbyte hlen hdeq hga hstep
      refine ⟨by rw [hadv]; exact hla', ?_, p1, ?_⟩
      · rw [hadv, hua', hua2, List.drop_left' hreclen]
      · intro x y hxw hyh hlt
        apply p2 x y hxw hyh
        by_cases hold : (y / header.block_height) * wb + x / header.block_width < jb * wb + ib
        · exact Or.inl hold
        · right
          have hxb : x / header.block_width < wb := by
            rw [Nat.div_lt_iff_lt_mul (by omega), hwe]; exact hxw
          obtain ⟨ej, ei⟩ := raster_unique hib hxb
            (show (y / header.block_height) * wb + x / header.block_width = jb * wb + ib by
              omega)
          obtain ⟨b1, b2⟩ := block_of_pixel (by omega : 0 < header.block_width) ei
          obtain ⟨b3, b4⟩ := block_of_pixel (by omega : 0 < header.block_height) ej
          exact ⟨b1, b2, b3, b4⟩)
    ⟨hl1, by rw [hu1]; simp, hs, fun x y _ _ hlt => absurd hlt (Nat.not_lt_zero _)⟩
    hdec
  refine ⟨key.2.2.1, ?_⟩
  intro x y hxw hyh
  apply key.2.2.2 x y hxw hyh
  have hxb : x / header.block_width < wb := by
    rw [Nat.div_lt_iff_lt_mul (by omega), hwe]; exact hxw
  have hyb : y / header.block_height < hb' := by
    rw [Nat.div_lt_iff_lt_mul (by omega), hhe]; exact hyh
  have := microblock_count_le hyb hxb
  omega

/-! ## round trip of an image of stripes -/

theorem look_aside_after_lt (bits : Nat) (index : Nat → Nat) (n : Nat) :
    look_aside_after bits index n < 256 := by
  cases n with
  | zero => simp [look_aside_after]
  | succ n => simp only [look_aside_after]; exact Nat.mod_lt _ (by norm_num)

theorem packed_bytes_lt (bits : Nat) (index : Nat → Nat) (n : Nat) :
    ∀ v, v ∈ packed_bytes bits index n → v < 256 := by
  intro v hv
  unfold packed_bytes at hv
  rw [List.mem_filterMap] at hv
  obtain ⟨t, _, ht⟩ := hv
  split at ht
  · simp only [Option.some.injEq] at ht
    rw [← ht]; exact look_aside_after_lt _ _ _
  · simp at ht

theorem flatten_replicate_succ_right (n : Nat) (l : List Nat) :
    (List.replicate (n + 1) l).flatten = (List.replicate n l).flatten ++ l := by
  rw [List.replicate_succ', List.flatten_append]
  simp

/-- The record sizes of the configured headers, in terms of the packed bytes. -/
theorem packed_bytes_configured (header : PTCX_FILE_HEADER) (hc : header.configured)
    (index : Nat → Nat) :
    macroblock_bytes header 0 = 4 + (packed_bytes header.quant_step_bits index
      (header.block_height * header.block_width)).length ∧
    (packed_bytes header.quant_step_bits index
      (header.block_height * header.block_width)).length * (8 / header.quant_step_bits) =
      header.block_height * header.block_width := by
  have hm := (trial_bytes_configured header hc 0 (by omega)).2.2.2.2.2.1
  rw [hm]
  obtain ⟨_, hcase⟩ := hc
  have p1 : packed_index_bytes 2 16 16 = 64 := by decide!
  have p2 : packed_index_bytes 4 8 8 = 32 := by decide!
  have p3 : packed_index_bytes 4 4 4 = 8 := by decide!
  have p4 : packed_index_bytes 4 2 2 = 2 := by decide!
  rcases hcase with ⟨e1, e2, e3⟩ | ⟨e1, e2, e3⟩ | ⟨e1, e2, e3⟩ | ⟨e1, e2, e3⟩ <;>
  · rw [e1, e2, e3]
    first
      | rw [(packed_bytes_length _ _).1, p1]; norm_num
      | rw [(packed_bytes_length _ _).2, p2]; norm_num
      | rw [(packed_bytes_length _ _).2, p3]; norm_num
      | rw [(packed_bytes_length _ _).2, p4]; norm_num

/-- Round trip of an image of stripes `a`, `b` (with `a` below `b` in every
channel): when `quantize_pixel` gives the step values `ia` and `ib` for the two
colours with errors of at most 64, and these step values, packed and extracted
again, dequantize to `a'` and `b'`, then `load_ptcx` on what `save_ptcx` produced
in a stream with room for the whole encoding succeeds and yields the stripes
`a'`, `b'`. -/
theorem stripes_round_trip (sqrt : Nat → Nat) (input : image) (quality : Nat)
    (output out' : memory_stream) (decoded_into : image) (n : Nat)
    (a b a' b' : color) (ia ib : Nat)
    (ha : a.c0 < 256 ∧ a.c1 < 256 ∧ a.c2 < 256) (hb : b.c0 < 256 ∧ b.c1 < 256 ∧ b.c2 < 256)
    (hab : a.c0 ≤ b.c0 ∧ a.c1 ≤ b.c1 ∧ a.c2 ≤ b.c2)
    (hpix : ∀ x y, x < input.query_width → y < input.query_height →
      input.pixel_at x y = some (stripes a b x))
    (hqa : ∀ want, ∃ e, quantize_pixel sqrt (configure_header input quality).quant_step_bits
      ⟨a, b⟩ a want = some (ia, e) ∧ e ≤ 64)
    (hqb : ∀ want, ∃ e, quantize_pixel sqrt (configure_header input quality).quant_step_bits
      ⟨a, b⟩ b want = some (ib, e) ∧ e ≤ 64)
    (hdeq : ∀ t, t < (configure_header input quality).block_height *
        (configure_header input quality).block_width →
      ∀ (px py subi subj : Nat) (o : image),
        store_dequantized (configure_header input quality).quant_step_bits
          { min_value := ⟨8 * (a.c0 / 8), 4 * (a.c1 / 4), 8 * (a.c2 / 8)⟩,
            max_value := ⟨8 * (b.c0 / 8), 4 * (b.c1 / 4), 8 * (b.c2 / 8)⟩ }
          px py subi subj
          (extracted_index (configure_header input quality).quant_step_bits
            (packed_bytes (configure_header input quality).quant_step_bits
              (fun t => if t % 2 = 0 then ia else ib)
              ((configure_header input quality).block_height *
                (configure_header input quality).block_width)) t) o =
        o.store_pixel (o.query_block_offset ((px + subi) % U32) ((py + subj) % U32))
          (if t % 2 = 0 then a' else b'))
    (hout : output.holds [])
    (hsave : save_ptcx sqrt input quality output = some (BASE_SUCCESS, out'))
    (hsize : encoding_size sqrt input quality = some n)
    (hfit : n ≤ output.data.data.length) :
    ∃ rest img, load_ptcx out' decoded_into = some (BASE_SUCCESS, rest, img) ∧
      img.shaped input.query_width input.query_height ∧
      ∀ x y, x < input.query_width → y < input.query_height →
        img.pixel_at x y = some (stripes a' b' x) := by
  have hcf := configure_header_configured input quality
  obtain ⟨f1, f2, f3, f4, f5⟩ := configure_header_fields input quality
  obtain ⟨hpm, hplen⟩ := packed_bytes_configured (configure_header input quality) hcf
    (fun t => if t % 2 = 0 then ia else ib)
  have hbwe : (configure_header input quality).block_width % 2 = 0 := by
    obtain ⟨_, hcase⟩ := hcf
    rcases hcase with ⟨e1, _, _⟩ | ⟨e1, _, _⟩ | ⟨e1, _, _⟩ | ⟨e1, _, _⟩ <;>
    · rw [e1]
  obtain ⟨T, acc, hT, hT0, h4, eW, eH, hW, hH, hmax, _, hR, hn, hholds⟩ :=
    save_ptcx_spec sqrt input quality output out'
      (fun k acc => acc = (List.replicate k
        (control_bytes { min_value := a, max_value := b } ++
          packed_bytes (configure_header input quality).quant_step_bits
            (fun t => if t % 2 = 0 then ia else ib)
            ((configure_header input quality).block_height *
              (configure_header input quality).block_width))).flatten)
      hout (by simp)
      (by
        intro j i acc block level bf b0 e0 bs0 hj hi hR _ _ hbf htrial hfill hsel
        obtain ⟨he0, hbs⟩ := quantize_macroblock_trial_stripes sqrt input
          (configure_header input quality) _ _ bf b0 e0 bs0 a b ia ib hcf hab hb hpix hqa hqb
          (by rw [Nat.mul_mod, hbwe]; simp) (piece_inside hi) (piece_inside hj) hbf htrial
          hfill
        have hblock : block = bs0 := hsel he0
        rw [hR, hblock, hbs, flatten_replicate_succ_right])
      hsave
  rw [hsize] at hn
  simp only [Option.some.injEq] at hn
  have hs := hholds (by omega)
  have hacclen : acc.length = ((configure_header input quality).image_height /
      (configure_header input quality).block_height) *
      (((configure_header input quality).image_width /
        (configure_header input quality).block_width) *
        macroblock_bytes (configure_header input quality) 0) := by
    rw [hR, flatten_replicate_length, List.length_append, hpm, ← eH, ← eW]
    simp [control_bytes, Nat.mul_assoc]
  obtain ⟨img, hload, hshape, hfmt⟩ := load_ptcx_of_encoding input quality out' decoded_into T
    acc hs hT hT0 h4 hW hH hmax (by rw [hacclen])
  obtain ⟨hbw2, hbh2, _, _, _, _, dw, _, _, _, _, _, _⟩ := configured_divides _ hcf hW
  obtain ⟨_, _, _, _, _, _, _, dh, _, _, _, _, _⟩ := configured_divides _ hcf hH
  rw [← f4] at dw
  rw [← f5] at dh
  rw [eW, eH]
  generalize hhd : configure_header input quality = header at *
  have hcount4 : 4 ≤ (header.image_width / header.block_width) *
      (header.image_height / header.block_height) := by
    rw [hT, Nat.shiftRight_eq_div_pow] at hT0; omega
  have hwpos : 0 < header.image_width := by
    rcases Nat.eq_zero_or_pos header.image_width with hz | hp
    · rw [hz] at hcount4; simp at hcount4
    · exact hp
  have hhpos : 0 < header.image_height := by
    rcases Nat.eq_zero_or_pos header.image_height with hz | hp
    · rw [hz] at hcount4; simp at hcount4
    · exact hp
  obtain ⟨hlin, hun⟩ := memory_stream.holds_linear hs
  have hlen := header_bytes_length header
  have hM : BASE_MAX_ARRAY_SIZE = 4194304 := by decide
  have hsz : 24 * (header.image_width * header.image_height) < U32 := by
    simp only [U32]; omega
  have hulen : out'.unread.length = 24 + T + acc.length := by
    rw [hun]; simp only [List.length_append, hlen, List.length_replicate]
  obtain ⟨img0, hs0, hunf⟩ := load_ptcx_of_valid_header out' decoded_into header hlin
    (by omega)
    (by
      rw [hun, List.append_assoc, List.take_left' hlen]
      rw [← hhd]; exact configure_header_round_trip input quality)
    f1 f3 f2 hwpos hhpos hsz
  have hload0 := hload
  rw [hunf] at hload
  cases hq : inverse_quantize (out'.advance 24) header img0 with
  | none => rw [hq] at hload; simp at hload
  | some q =>
    obtain ⟨st, s', img'⟩ := q
    rw [hq] at hload
    simp only [] at hload
    by_cases hf : base_failed st = true
    · rw [if_pos hf] at hload; simp at hload
    rw [if_neg hf] at hload
    have hst : st = BASE_SUCCESS := base_failed_eq_false (by simpa using hf)
    subst hst
    simp only [Option.some.injEq, Prod.mk.injEq, true_and] at hload
    obtain ⟨hl1, hu1⟩ := memory_stream.advance_linear hlin 24 (by omega)
    rw [hun, List.append_assoc, List.drop_left' hlen] at hu1
    have := inverse_quantize_stripes header (out'.advance 24) s' img0 img' a b a' b'
      (packed_bytes header.quant_step_bits (fun t => if t % 2 = 0 then ia else ib)
        (header.block_height * header.block_width))
      hcf ha hb hwpos hhpos dw dh h4 hsz hl1 hs0 hpm (by rw [hu1, hT, hR])
      (packed_bytes_lt _ _ _) hplen hdeq hq
    refine ⟨_, img, hload0, ?_, ?_⟩
    · rw [← hload.2]; exact this.1
    · rw [← hload.2]; exact this.2

/-! ## the squared error between two buffers -/

/-- A counted loop whose state after `i` iterations is `f i`. -/
theorem for_loop_eq_of_step {σ : Type} (body : Nat → σ → Option σ) (f : Nat → σ) :
    ∀ n i, (∀ k, i ≤ k → k < i + n → body k (f k) = some (f (k + 1))) →
      for_loop body n i (f i) = some (f (i + n)) := by
  intro n
  induction n with
  | zero => intro i _; rfl
  | succ n ih =>
    intro i h
    rw [for_loop_succ, h i (Nat.le_refl _) (by omega)]
    show for_loop body n (i + 1) (f (i + 1)) = _
    rw [ih (i + 1) (fun k hk1 hk2 => h k (by omega) (by omega))]
    congr 2
    omega

/-- The value of `sum_square_differences`, from a function that gives the running
total after every element. -/
theorem sum_square_differences_eq (la lb : List Nat) (n : Nat) (f : Nat → Nat)
    (h0 : f 0 = 0)
    (hf : ∀ i, i < n → ∃ va vb, la[i]? = some va ∧ lb[i]? = some vb ∧
      f (i + 1) = (f i + (((vb : Int) - (va : Int)) * ((vb : Int) - (va : Int))).toNat) % U32) :
    sum_square_differences la lb n = some (f n) := by
  unfold sum_square_differences
  have key := for_loop_eq_of_step (fun i total =>
      match la[i]?, lb[i]? with
      | some value_a, some value_b =>
        some ((total + (((value_b : Int) - (value_a : Int)) *
          ((value_b : Int) - (value_a : Int))).toNat) % U32)
      | _, _ => none) f n 0
    (by
      intro k _ hk
      obtain ⟨va, vb, e1, e2, e3⟩ := hf k (by omega)
      simp only [e1, e2, e3])
  rw [h0, Nat.zero_add] at key
  exact key

theorem sum_square_differences_self (l : List Nat) :
    sum_square_differences l l l.length = some 0 :=
  sum_square_differences_eq l l l.length (fun _ => 0) rfl
    (fun i hi => ⟨l[i], l[i], List.getElem?_eq_getElem hi, List.getElem?_eq_getElem hi, by simp⟩)

/-- An element of the buffer of a column image. -/
theorem column_image_getElem? (w h : Nat) (column : Nat → color) (i : Nat)
    (hi : i < 3 * (w * h)) :
    (column_image w h column).data_buffer[i]? =
      some (if i % 3 = 0 then (column (i / 3 % w)).c0
        else if i % 3 = 1 then (column (i / 3 % w)).c1 else (column (i / 3 % w)).c2) := by
  obtain ⟨h1, h2, h3⟩ := (flatten_map_triple (fun k => (column (k % w)).c0)
    (fun k => (column (k % w)).c1) (fun k => (column (k % w)).c2) (w * h)).2 (i / 3)
    (by omega)
  have hcase : i = 3 * (i / 3) ∨ i = 3 * (i / 3) + 1 ∨ i = 3 * (i / 3) + 2 := by omega
  simp only [column_image]
  rcases hcase with e | e | e
  · rw [if_pos (by omega)]
    rw [e] at h1 ⊢
    simpa using h1
  · rw [if_neg (by omega), if_pos (by omega)]
    have : 3 * (i / 3) + 1 = i := by omega
    rw [this] at h2
    exact h2
  · rw [if_neg (by omega), if_neg (by omega)]
    have : 3 * (i / 3) + 2 = i := by omega
    rw [this] at h3
    exact h3

/-- The squared error between the 32 x 32 stripes of (0,0,0) and (168,0,0) and
the stripes of (0,0,0) and (165,0,0): 9 for each of the 512 pixels of the odd
columns. -/
theorem sum_square_differences_stripes_168_165 :
    sum_square_differences
      (column_image 32 32 (stripes ⟨0, 0, 0⟩ ⟨168, 0, 0⟩)).data_buffer
      (column_image 32 32 (stripes ⟨0, 0, 0⟩ ⟨165, 0, 0⟩)).data_buffer 3072 = some 4608 := by
  have := sum_square_differences_eq
    (column_image 32 32 (stripes ⟨0, 0, 0⟩ ⟨168, 0, 0⟩)).data_buffer
    (column_image 32 32 (stripes ⟨0, 0, 0⟩ ⟨165, 0, 0⟩)).data_buffer 3072
    (fun i => 9 * ((i + 2) / 6)) (by norm_num)
    (by
      intro i hi
      refine ⟨_, _, column_image_getElem? 32 32 _ i (by omega),
        column_image_getElem? 32 32 _ i (by omega), ?_⟩
      simp only [stripes, U32]
      by_cases hc : i % 3 = 0
      · by_cases hp : i / 3 % 32 % 2 = 0
        · simp only [hc, hp, if_true]
          norm_num
          omega
        · simp only [hc, hp, if_true, if_false]
          norm_num
          omega
      · by_cases hc1 : i % 3 = 1
        · by_cases hp : i / 3 % 32 % 2 = 0
          · simp only [hc, hc1, hp, if_true, if_false]
            norm_num
            omega
          · simp only [hc, hc1, hp, if_true, if_false]
            norm_num
            omega
        · by_cases hp : i / 3 % 32 % 2 = 0
          · simp only [hc, hc1, hp, if_true, if_false]
            norm_num
            omega
          · simp only [hc, hc1, hp, if_true, if_false]
            norm_num
            omega)
  rw [this]

/-! ## stripes of (0,0,0) and (168,0,0) at the qualities 1 and 2 -/

/-- The index bytes of a 16 x 16 block of stripes with the step values 0 and 3 at
2 bits are 64 bytes 0xCC, those of an 8 x 8 block with the step values 0 and 15
at 4 bits are 32 bytes 0xF0; extracting the step values from them gives 0 and 3,
and 0 and 15, back. -/
theorem packed_bytes_of_stripes :
    packed_bytes 2 (fun t => if t % 2 = 0 then 0 else 3) (16 * 16) = List.replicate 64 0xCC ∧
    packed_bytes 4 (fun t => if t % 2 = 0 then 0 else 15) (8 * 8) = List.replicate 32 0xF0 ∧
    (∀ t, t < 16 * 16 →
      extracted_index 2 (List.replicate 64 0xCC) t = if t % 2 = 0 then 0 else 3) ∧
    (∀ t, t < 8 * 8 →
      extracted_index 4 (List.replicate 32 0xF0) t = if t % 2 = 0 then 0 else 15) := by
  refine ⟨by decide!, by decide!, by decide!, by decide!⟩

/-- The pixel `read_macroblock` stores for the range (0,0,0) .. (168,0,0): with 2
step bits the step values 0 and 3 give (0,0,0) and (168,0,0), with 4 step bits
the step values 0 and 15 give (0,0,0) and (165,0,0). -/
theorem store_dequantized_0_168 (px py subi subj : Nat) (o : image) :
    store_dequantized 2 ⟨⟨0, 0, 0⟩, ⟨168, 0, 0⟩⟩ px py subi subj 0 o =
      o.store_pixel (o.query_block_offset ((px + subi) % U32) ((py + subj) % U32)) ⟨0, 0, 0⟩ ∧
    store_dequantized 2 ⟨⟨0, 0, 0⟩, ⟨168, 0, 0⟩⟩ px py subi subj 3 o =
      o.store_pixel (o.query_block_offset ((px + subi) % U32) ((py + subj) % U32))
        ⟨168, 0, 0⟩ ∧
    store_dequantized 4 ⟨⟨0, 0, 0⟩, ⟨168, 0, 0⟩⟩ px py subi subj 0 o =
      o.store_pixel (o.query_block_offset ((px + subi) % U32) ((py + subj) % U32)) ⟨0, 0, 0⟩ ∧
    store_dequantized 4 ⟨⟨0, 0, 0⟩, ⟨168, 0, 0⟩⟩ px py subi subj 15 o =
      o.store_pixel (o.query_block_offset ((px + subi) % U32) ((py + subj) % U32))
        ⟨165, 0, 0⟩ := by
  have d1 : dequantize_channel (to_int16 0) (to_int16 (to_int16 168 - to_int16 0)) 3 0 = 0 := by
    decide
  have d2 : dequantize_channel (to_int16 0) (to_int16 (to_int16 0 - to_int16 0)) 3 0 = 0 := by
    decide
  have d3 : dequantize_channel (to_int16 0) (to_int16 (to_int16 168 - to_int16 0)) 3 3 = 168 := by
    decide
  have d4 : dequantize_channel (to_int16 0) (to_int16 (to_int16 0 - to_int16 0)) 3 3 = 0 := by
    decide
  have d5 : dequantize_channel (to_int16 0) (to_int16 (to_int16 168 - to_int16 0)) 15 0 = 0 := by
    decide
  have d6 : dequantize_channel (to_int16 0) (to_int16 (to_int16 0 - to_int16 0)) 15 0 = 0 := by
    decide
  have d7 : dequantize_channel (to_int16 0) (to_int16 (to_int16 168 - to_int16 0)) 15 15 =
      165 := by decide
  have d8 : dequantize_channel (to_int16 0) (to_int16 (to_int16 0 - to_int16 0)) 15 15 = 0 := by
    decide
  have m2 : ((1 <<< 2) + U32 - 1) % U32 = 3 := by decide
  have m4 : ((1 <<< 4) + U32 - 1) % U32 = 15 := by decide
  refine ⟨?_, ?_, ?_, ?_⟩
  · unfold store_dequantized
    simp only [m2, Nat.cast_ofNat, Nat.cast_zero, d1, d2]
    rfl
  · unfold store_dequantized
    simp only [m2, Nat.cast_ofNat, Nat.cast_zero, d3, d4]
    rfl
  · unfold store_dequantized
    simp only [m4, Nat.cast_ofNat, Nat.cast_zero, d5, d6]
    rfl
  · unfold store_dequantized
    simp only [m4, Nat.cast_ofNat, Nat.cast_zero, d7, d8]
    rfl

/-- The image `load_ptcx` returns for a successful encoding has the shape of the
input. -/
theorem load_ptcx_of_save_ptcx_shaped (sqrt : Nat → Nat) (input : image) (quality : Nat)
    (output out' : memory_stream) (decoded_into : image) (n : Nat)
    (hout : output.holds [])
    (hsave : save_ptcx sqrt input quality output = some (BASE_SUCCESS, out'))
    (hsize : encoding_size sqrt input quality = some n)
    (hfit : n ≤ output.data.data.length) :
    ∃ rest img, load_ptcx out' decoded_into = some (BASE_SUCCESS, rest, img) ∧
      img.shaped input.query_width input.query_height ∧
      24 * (input.query_width * input.query_height) < U32 := by
  have hM : BASE_MAX_ARRAY_SIZE = 4194304 := by decide
  obtain ⟨T, acc, hT, hT0, h4, eW, eH, hW, hH, hmax, _, hR, hn, hholds⟩ :=
    save_ptcx_spec sqrt input quality output out'
      (fun k acc => k * macroblock_bytes (configure_header input quality) 0 ≤ acc.length)
      hout (by simp)
      (by
        intro j i acc block level b b0 e0 bs0 _ _ hR hlev hblk _ _ _ _
        have := (trial_bytes_configured _ (configure_header_configured input quality) level
          hlev).2.2.1
        rw [List.length_append, hblk, Nat.add_mul, Nat.one_mul]
        omega)
      hsave
  rw [hsize] at hn
  simp only [Option.some.injEq] at hn
  obtain ⟨img, hload, hshape, hfmt⟩ := load_ptcx_of_encoding input quality out' decoded_into T acc
    (hholds (by omega)) hT hT0 h4 hW hH hmax (by rw [← Nat.mul_assoc]; exact hR)
  exact ⟨_, img, hload, by rw [eW, eH]; exact hshape, by rw [eW, eH]; simp only [U32]; omega⟩

/-- The 32 x 32 image of stripes (0,0,0), (168,0,0) is encoded at every quality
from 0 to 4 into an empty stream of 16384 bytes, which has room for the whole
encoding. -/
theorem save_ptcx_stripes_32 (sqrt : Nat → Nat) (b : color) (q : Nat) (hq : q ≤ 4) :
    ∃ out' n, save_ptcx sqrt (column_image 32 32 (stripes ⟨0, 0, 0⟩ b)) q
        (fresh_stream 16384) = some (BASE_SUCCESS, out') ∧
      encoding_size sqrt (column_image 32 32 (stripes ⟨0, 0, 0⟩ b)) q = some n ∧
      n ≤ (fresh_stream 16384).data.data.length := by
  obtain ⟨hout, hcap⟩ := fresh_stream_holds 16384 (by decide)
  have hw : (column_image 32 32 (stripes ⟨0, 0, 0⟩ b)).query_width = 32 := rfl
  have hh : (column_image 32 32 (stripes ⟨0, 0, 0⟩ b)).query_height = 32 := rfl
  have hread : ∀ x y, x < (column_image 32 32 (stripes ⟨0, 0, 0⟩ b)).query_width →
      y < (column_image 32 32 (stripes ⟨0, 0, 0⟩ b)).query_height →
      ∃ c, (column_image 32 32 (stripes ⟨0, 0, 0⟩ b)).pixel_at x y = some c :=
    fun x y hx hy => ⟨_, column_image_pixel_at 32 32 _ (by decide) hx hy⟩
  interval_cases q
  all_goals
    refine save_ptcx_total sqrt _ _ (fresh_stream 16384) rfl hread ?_ ?_ ?_ ?_ ?_ ?_ ?_ hout ?_
  all_goals (try rw [hw])
  all_goals (try rw [hh])
  all_goals (try rw [hcap])
  all_goals
    first
      | decide
      | (rw [show (configure_header (column_image 32 32 (stripes ⟨0, 0, 0⟩ b)) 0).block_width =
            16 from rfl,
          show (configure_header (column_image 32 32 (stripes ⟨0, 0, 0⟩ b)) 0).block_height =
            16 from rfl] <;> decide)
      | (rw [show (configure_header (column_image 32 32 (stripes ⟨0, 0, 0⟩ b)) 1).block_width =
            16 from rfl,
          show (configure_header (column_image 32 32 (stripes ⟨0, 0, 0⟩ b)) 1).block_height =
            16 from rfl] <;> decide)
      | (rw [show (configure_header (column_image 32 32 (stripes ⟨0, 0, 0⟩ b)) 2).block_width =
            8 from rfl,
          show (configure_header (column_image 32 32 (stripes ⟨0, 0, 0⟩ b)) 2).block_height =
            8 from rfl] <;> decide)
      | (rw [show (configure_header (column_image 32 32 (stripes ⟨0, 0, 0⟩ b)) 3).block_width =
            4 from rfl,
          show (configure_header (column_image 32 32 (stripes ⟨0, 0, 0⟩ b)) 3).block_height =
            4 from rfl] <;> decide)
      | (rw [show (configure_header (column_image 32 32 (stripes ⟨0, 0, 0⟩ b)) 4).block_width =
            2 from rfl,
          show (configure_header (column_image 32 32 (stripes ⟨0, 0, 0⟩ b)) 4).block_height =
            2 from rfl] <;> decide)

/-- What the 32 x 32 stripes of (0,0,0) and (168,0,0) decode to, for a square root
that is exact at 0 and at 168 * 168: at quality 1 the image itself, at quality 2
the stripes of (0,0,0) and (165,0,0). -/
theorem stripes_0_168_decoded (sqrt : Nat → Nat) (h0 : sqrt 0 = 0) (h1 : sqrt 28224 = 168) :
    (∃ out' rest img,
      save_ptcx sqrt (column_image 32 32 (stripes ⟨0, 0, 0⟩ ⟨168, 0, 0⟩)) 1
        (fresh_stream 16384) = some (BASE_SUCCESS, out') ∧
      load_ptcx out' image.new = some (BASE_SUCCESS, rest, img) ∧
      img.data_buffer = (column_image 32 32 (stripes ⟨0, 0, 0⟩ ⟨168, 0, 0⟩)).data_buffer) ∧
    (∃ out' rest img,
      save_ptcx sqrt (column_image 32 32 (stripes ⟨0, 0, 0⟩ ⟨168, 0, 0⟩)) 2
        (fresh_stream 16384) = some (BASE_SUCCESS, out') ∧
      load_ptcx out' image.new = some (BASE_SUCCESS, rest, img) ∧
      img.data_buffer = (column_image 32 32 (stripes ⟨0, 0, 0⟩ ⟨165, 0, 0⟩)).data_buffer) := by
  obtain ⟨hout, hcap⟩ := fresh_stream_holds 16384 (by decide)
  obtain ⟨p2, p4, x2, x4⟩ := packed_bytes_of_stripes
  have hpix : ∀ x y, x < (column_image 32 32 (stripes ⟨0, 0, 0⟩ ⟨168, 0, 0⟩)).query_width →
      y < (column_image 32 32 (stripes ⟨0, 0, 0⟩ ⟨168, 0, 0⟩)).query_height →
      (column_image 32 32 (stripes ⟨0, 0, 0⟩ ⟨168, 0, 0⟩)).pixel_at x y =
        some (stripes ⟨0, 0, 0⟩ ⟨168, 0, 0⟩ x) :=
    fun x y hx hy => column_image_pixel_at 32 32 _ (by decide) hx hy
  have hsz : 24 * (32 * 32) < U32 := by decide
  constructor
  · obtain ⟨out', n, hsave, hsize, hfit⟩ := save_ptcx_stripes_32 sqrt ⟨168, 0, 0⟩ 1 (by decide)
    obtain ⟨rest, img, hload, hshape, hpx⟩ := stripes_round_trip sqrt
      (column_image 32 32 (stripes ⟨0, 0, 0⟩ ⟨168, 0, 0⟩)) 1 (fresh_stream 16384) out'
      image.new n ⟨0, 0, 0⟩ ⟨168, 0, 0⟩ ⟨0, 0, 0⟩ ⟨168, 0, 0⟩ 0 3
      (by decide) (by decide) (by decide) hpix
      (fun want => ⟨0, (quantize_pixel_0_168 sqrt h0 h1 want).1, by decide⟩)
      (fun want => ⟨0, (quantize_pixel_0_168 sqrt h0 h1 want).2.1, by decide⟩)
      (by
        intro t ht px py subi subj o
        have ht' : t < 16 * 16 := ht
        show store_dequantized 2 ⟨⟨0, 0, 0⟩, ⟨168, 0, 0⟩⟩ px py subi subj
          (extracted_index 2 (packed_bytes 2 (fun t => if t % 2 = 0 then 0 else 3) (16 * 16))
            t) o = _
        rw [p2, x2 t ht']
        by_cases hp : t % 2 = 0
        · rw [if_pos hp, if_pos hp]; exact (store_dequantized_0_168 px py subi subj o).1
        · rw [if_neg hp, if_neg hp]; exact (store_dequantized_0_168 px py subi subj o).2.1)
      hout hsave hsize hfit
    refine ⟨out', rest, img, hsave, hload, ?_⟩
    exact image.data_buffer_ext hshape (column_image_shaped 32 32 _) hsz
      (fun x y hx hy => ⟨_, hpx x y hx hy, column_image_pixel_at 32 32 _ hsz hx hy⟩)
  · obtain ⟨out', n, hsave, hsize, hfit⟩ := save_ptcx_stripes_32 sqrt ⟨168, 0, 0⟩ 2 (by decide)
    obtain ⟨rest, img, hload, hshape, hpx⟩ := stripes_round_trip sqrt
      (column_image 32 32 (stripes ⟨0, 0, 0⟩ ⟨168, 0, 0⟩)) 2 (fresh_stream 16384) out'
      image.new n ⟨0, 0, 0⟩ ⟨168, 0, 0⟩ ⟨0, 0, 0⟩ ⟨165, 0, 0⟩ 0 15
      (by decide) (by decide) (by decide) hpix
      (fun want => ⟨0, (quantize_pixel_0_168 sqrt h0 h1 want).2.2.1, by decide⟩)
      (fun want => ⟨_, (quantize_pixel_0_168 sqrt h0 h1 want).2.2.2, by
        cases want <;> decide⟩)
      (by
        intro t ht px py subi subj o
        have ht' : t < 8 * 8 := ht
        show store_dequantized 4 ⟨⟨0, 0, 0⟩, ⟨168, 0, 0⟩⟩ px py subi subj
          (extracted_index 4 (packed_bytes 4 (fun t => if t % 2 = 0 then 0 else 15) (8 * 8))
            t) o = _
        rw [p4, x4 t ht']
        by_cases hp : t % 2 = 0
        · rw [if_pos hp, if_pos hp]; exact (store_dequantized_0_168 px py subi subj o).2.2.1
        · rw [if_neg hp, if_neg hp]; exact (store_dequantized_0_168 px py subi subj o).2.2.2)
      hout hsave hsize hfit
    refine ⟨out', rest, img, hsave, hload, ?_⟩
    exact image.data_buffer_ext hshape (column_image_shaped 32 32 _) hsz
      (fun x y hx hy => ⟨_, hpx x y hx hy, column_image_pixel_at 32 32 _ hsz hx hy⟩)

/-! ## the mean squared error at different qualities -/

/-- C17 (amended): the qualities 0 and 1 give the same result of `save_ptcx` for
every image and every output stream (uniform or not, accepted or not), and a
uniform image (all pixels of one colour) decodes to the same image at every
quality: when `save_ptcx` has encoded it at the qualities `q` and `q'`, each time
into an empty stream with room for the whole encoding, the two images `load_ptcx`
returns have the same pixel buffer, hence the same mean squared error against the
input. -/
theorem uniform_image_decodes_alike_at_every_quality (sqrt : Nat → Nat) (input : image)
    (q q' : Nat) (output output' saved saved' : memory_stream) (decoded_into : image)
    (n n' : Nat) (c : color)
    (hc : c.c0 < 256 ∧ c.c1 < 256 ∧ c.c2 < 256)
    (huni : ∀ x y, x < input.query_width → y < input.query_height →
      input.pixel_at x y = some c)
    (hout : output.holds [])
    (hsave : save_ptcx sqrt input q output = some (BASE_SUCCESS, saved))
    (hsize : encoding_size sqrt input q = some n)
    (hfit : n ≤ output.data.data.length)
    (hout' : output'.holds [])
    (hsave' : save_ptcx sqrt input q' output' = some (BASE_SUCCESS, saved'))
    (hsize' : encoding_size sqrt input q' = some n')
    (hfit' : n' ≤ output'.data.data.length) :
    (∀ (any_image : image) (any_output : memory_stream),
      save_ptcx sqrt any_image 0 any_output = save_ptcx sqrt any_image 1 any_output) ∧
    ∃ rest img rest' img',
      load_ptcx saved decoded_into = some (BASE_SUCCESS, rest, img) ∧
      load_ptcx saved' decoded_into = some (BASE_SUCCESS, rest', img') ∧
      img.data_buffer = img'.data_buffer ∧
      mean_squared_error input img = mean_squared_error input img' := by
  refine ⟨?_, ?_⟩
  · intro any_image any_output
    have e : configure_header any_image 0 = configure_header any_image 1 := rfl
    unfold save_ptcx
    rw [e]
  obtain ⟨r1, i1, l1, _, _, _, _, _, p1⟩ := uniform_image_round_trip sqrt input q output saved
    decoded_into n c hc huni hout hsave hsize hfit
  obtain ⟨r2, i2, l2, _, _, _, _, _, p2⟩ := uniform_image_round_trip sqrt input q' output'
    saved' decoded_into n' c hc huni hout' hsave' hsize' hfit'
  obtain ⟨r1', i1', l1', s1, hsz⟩ := load_ptcx_of_save_ptcx_shaped sqrt input q output saved
    decoded_into n hout hsave hsize hfit
  obtain ⟨r2', i2', l2', s2, _⟩ := load_ptcx_of_save_ptcx_shaped sqrt input q' output' saved'
    decoded_into n' hout' hsave' hsize' hfit'
  rw [l1] at l1'
  rw [l2] at l2'
  simp only [Option.some.injEq, Prod.mk.injEq, true_and] at l1' l2'
  rw [← l1'.2] at s1
  rw [← l2'.2] at s2
  have hbuf : i1.data_buffer = i2.data_buffer :=
    image.data_buffer_ext s1 s2 hsz (fun x y hx hy => ⟨_, p1 x y hx hy, p2 x y hx hy⟩)
  refine ⟨r1, i1, r2, i2, l1, l2, hbuf, ?_⟩
  unfold mean_squared_error
  rw [hbuf]

/-- Witness of `uniform_image_decodes_alike_at_every_quality`: the 16 x 16 image
of colour (100,150,200) at the qualities 2 and 3, each time encoded into an empty
stream of 4096 bytes; and the qualities 0 and 1 on the 32 x 32 image of stripes
(0,0,0) / (168,0,0), which is not uniform. -/
theorem uniform_image_decodes_alike_at_every_quality_witness :
    save_ptcx Nat.sqrt (column_image 32 32 (stripes ⟨0, 0, 0⟩ ⟨168, 0, 0⟩)) 0
        (fresh_stream 16384) =
      save_ptcx Nat.sqrt (column_image 32 32 (stripes ⟨0, 0, 0⟩ ⟨168, 0, 0⟩)) 1
        (fresh_stream 16384) ∧
    ∃ saved saved' rest img rest' img',
      save_ptcx Nat.sqrt (solid_image 16 16 ⟨100, 150, 200⟩) 2 (fresh_stream 4096) =
        some (BASE_SUCCESS, saved) ∧
      save_ptcx Nat.sqrt (solid_image 16 16 ⟨100, 150, 200⟩) 3 (fresh_stream 4096) =
        some (BASE_SUCCESS, saved') ∧
      load_ptcx saved image.new = some (BASE_SUCCESS, rest, img) ∧
      load_ptcx saved' image.new = some (BASE_SUCCESS, rest', img') ∧
      img.data_buffer = img'.data_buffer ∧
      mean_squared_error (solid_image 16 16 ⟨100, 150, 200⟩) img =
        mean_squared_error (solid_image 16 16 ⟨100, 150, 200⟩) img' := by
  obtain ⟨hout, hcap⟩ := fresh_stream_holds 4096 (by decide)
  obtain ⟨saved, n, hs, hn, hle⟩ := save_ptcx_solid_16 Nat.sqrt ⟨100, 150, 200⟩
  obtain ⟨saved', n', hs', hn', hle'⟩ := save_ptcx_total Nat.sqrt
    (solid_image 16 16 ⟨100, 150, 200⟩) 3 (fresh_stream 4096) rfl
    (fun x y hx hy => ⟨_, solid_image_pixel_at 16 16 ⟨100, 150, 200⟩ (by decide) hx hy⟩)
    (by decide) (by decide) (by decide) (by decide) (by decide) (by decide) (by decide) hout
    (by rw [hcap]; decide)
  obtain ⟨h01, rest, img, rest', img', h1, h2, h3, h4⟩ :=
    uniform_image_decodes_alike_at_every_quality Nat.sqrt (solid_image 16 16 ⟨100, 150, 200⟩)
      2 3 (fresh_stream 4096) (fresh_stream 4096) saved saved' image.new n n' ⟨100, 150, 200⟩
      (by decide)
      (fun x y hx hy => solid_image_pixel_at 16 16 ⟨100, 150, 200⟩ (by decide) hx hy)
      hout hs hn hle hout hs' hn' hle'
  exact ⟨h01 _ _, saved, saved', rest, img, rest', img', hs, hs', h1, h2, h3, h4⟩

/-- C17 (counterexample): the 32 x 32 image of vertical stripes, (0,0,0) in the
even and (168,0,0) in the odd columns, is encoded by `save_ptcx` at every quality
from 0 to 4, and its mean squared error is 0 at quality 1 and 3/2 at quality 2,
for every `base::sqrt` that is exact at 0 and at 168 * 168 (as the exact root
is). At quality 1 a block has 2 step bits, the step is 168 / 3 = 56 and step
value 3 gives 168 back; at quality 2 a block has 4 step bits, the step is
168 / 15 = 11 and step value 15 gives 165. -/
theorem mean_squared_error_rises_from_quality_1_to_quality_2 :
    Nat.sqrt 0 = 0 ∧ Nat.sqrt 28224 = 168 ∧
    ∀ sqrt : Nat → Nat, sqrt 0 = 0 → sqrt 28224 = 168 →
      (∀ q, q ≤ 4 → ∃ out',
        save_ptcx sqrt (column_image 32 32 (stripes ⟨0, 0, 0⟩ ⟨168, 0, 0⟩)) q
          (fresh_stream 16384) = some (BASE_SUCCESS, out')) ∧
      ∃ saved1 rest1 img1 saved2 rest2 img2,
        save_ptcx sqrt (column_image 32 32 (stripes ⟨0, 0, 0⟩ ⟨168, 0, 0⟩)) 1
          (fresh_stream 16384) = some (BASE_SUCCESS, saved1) ∧
        load_ptcx saved1 image.new = some (BASE_SUCCESS, rest1, img1) ∧
        save_ptcx sqrt (column_image 32 32 (stripes ⟨0, 0, 0⟩ ⟨168, 0, 0⟩)) 2
          (fresh_stream 16384) = some (BASE_SUCCESS, saved2) ∧
        load_ptcx saved2 image.new = some (BASE_SUCCESS, rest2, img2) ∧
        mean_squared_error (column_image 32 32 (stripes ⟨0, 0, 0⟩ ⟨168, 0, 0⟩)) img1 =
          some 0 ∧
        mean_squared_error (column_image 32 32 (stripes ⟨0, 0, 0⟩ ⟨168, 0, 0⟩)) img2 =
          some (3 / 2) := by
  refine ⟨by norm_num [Nat.sqrt_eq'], by norm_num [Nat.sqrt_eq'], ?_⟩
  intro sqrt h0 h1
  refine ⟨fun q hq => ?_, ?_⟩
  · obtain ⟨out', _, hs, _⟩ := save_ptcx_stripes_32 sqrt ⟨168, 0, 0⟩ q hq
    exact ⟨out', hs⟩
  obtain ⟨⟨s1, r1, i1, hs1, hl1, hb1⟩, ⟨s2, r2, i2, hs2, hl2, hb2⟩⟩ :=
    stripes_0_168_decoded sqrt h0 h1
  have hlen : (column_image 32 32 (stripes ⟨0, 0, 0⟩ ⟨168, 0, 0⟩)).data_buffer.length =
      3072 := (column_image_shaped 32 32 _).2.2.2.1
  refine ⟨s1, r1, i1, s2, r2, i2, hs1, hl1, hs2, hl2, ?_, ?_⟩
  · unfold mean_squared_error
    rw [hb1, sum_square_differences_self]
    simp
  · unfold mean_squared_error
    rw [hb2, hlen, sum_square_differences_stripes_168_165]
    norm_num

/-! ## the divisors of the encoder -/

/-- C21: for every image and every quality value, also above 4, the header
`configure_header` builds has 2 or 4 step bits, so the step count
`2^quant_step_bits - 1` is 3 or 15 and the `step_count` of `quantize_pixel` is not
0; its block width and height are equal and one of 2, 4, 8, 16, so the pixel count
by which `quantize_macroblock` divides the trial errors is not 0, and the block
sizes of the microblocks of every shift, by which it divides the macroblock
size, are at least 2. -/
theorem configure_header_divisors_are_not_zero (input : image) (quality : Nat) :
    ((configure_header input quality).quant_step_bits = 2 ∨
      (configure_header input quality).quant_step_bits = 4) ∧
    (2 ^ (configure_header input quality).quant_step_bits - 1 = 3 ∨
      2 ^ (configure_header input quality).quant_step_bits - 1 = 15) ∧
    to_uint8 ((1 <<< (configure_header input quality).quant_step_bits : Nat) - 1 : Int) =
      2 ^ (configure_header input quality).quant_step_bits - 1 ∧
    to_uint8 ((1 <<< (configure_header input quality).quant_step_bits : Nat) - 1 : Int) ≠ 0 ∧
    (configure_header input quality).block_height =
      (configure_header input quality).block_width ∧
    ((configure_header input quality).block_width = 2 ∨
      (configure_header input quality).block_width = 4 ∨
      (configure_header input quality).block_width = 8 ∨
      (configure_header input quality).block_width = 16) ∧
    ((configure_header input quality).block_width *
      (configure_header input quality).block_height) % U32 ≠ 0 ∧
    ∀ shift,
      2 ≤ (microblock_header (configure_header input quality) shift).block_width ∧
      2 ≤ (microblock_header (configure_header input quality) shift).block_height := by
  have hc := configure_header_configured input quality
  have hmh := fun shift => (microblock_header_fields (configure_header input quality) shift).2.2
  generalize configure_header input quality = header at *
  obtain ⟨_, hcase⟩ := hc
  rcases hcase with ⟨e1, e2, e3⟩ | ⟨e1, e2, e3⟩ | ⟨e1, e2, e3⟩ | ⟨e1, e2, e3⟩ <;>
  · rw [e1, e2, e3]
    refine ⟨by decide, by decide, by decide, by decide, rfl, by decide, by decide, hmh⟩

/-! ## the range of range_estimate_min_max -/

/-- One step of a running minimum and maximum of byte values that start from 255
and 0: after `t` values both bounds hold for all of them and, once a value has
been seen, both are attained. -/
theorem running_extremes_step (f : Nat → Nat) (t lo hi : Nat)
    (h : (∀ t', t' < t → lo ≤ f t' ∧ f t' ≤ hi) ∧ (t = 0 → lo = 255 ∧ hi = 0) ∧
      (0 < t → (∃ t', t' < t ∧ f t' = lo) ∧ ∃ t', t' < t ∧ f t' = hi))
    (hb : f t ≤ 255) :
    (∀ t', t' < t + 1 → (if f t < lo then f t else lo) ≤ f t' ∧
        f t' ≤ (if f t > hi then f t else hi)) ∧
      (t + 1 = 0 → (if f t < lo then f t else lo) = 255 ∧
        (if f t > hi then f t else hi) = 0) ∧
      (0 < t + 1 → (∃ t', t' < t + 1 ∧ f t' = (if f t < lo then f t else lo)) ∧
        ∃ t', t' < t + 1 ∧ f t' = (if f t > hi then f t else hi)) := by
  obtain ⟨hall, hzero, hatt⟩ := h
  refine ⟨?_, fun hc => absurd hc (Nat.succ_ne_zero t), fun _ => ⟨?_, ?_⟩⟩
  · intro t' ht'
    by_cases hlt : t' < t
    · obtain ⟨a1, a2⟩ := hall t' hlt
      constructor
      · split <;> omega
      · split <;> omega
    · have : t' = t := by omega
      subst this
      constructor
      · split <;> omega
      · split <;> omega
  · by_cases hlo : f t < lo
    · rw [if_pos hlo]; exact ⟨t, by omega, rfl⟩
    · rw [if_neg hlo]
      rcases Nat.eq_zero_or_pos t with h0 | hpos
      · obtain ⟨e1, _⟩ := hzero h0
        exact ⟨t, by omega, by omega⟩
      · obtain ⟨⟨t', ht', e⟩, _⟩ := hatt hpos
        exact ⟨t', by omega, e⟩
  · by_cases hhi : f t > hi
    · rw [if_pos hhi]; exact ⟨t, by omega, rfl⟩
    · rw [if_neg hhi]
      rcases Nat.eq_zero_or_pos t with h0 | hpos
      · obtain ⟨_, e2⟩ := hzero h0
        exact ⟨t, by omega, by omega⟩
      · obtain ⟨_, ⟨t', ht', e⟩⟩ := hatt hpos
        exact ⟨t', by omega, e⟩

/-- C22: for a block of at least one pixel whose pixels can be read and hold
bytes, `pix subi subj` being the pixel at `(x + subi, y + subj)`,
`range_estimate_min_max` returns `BASE_SUCCESS` with a range whose `min_value` and
`max_value` are, channel by channel, the minimum and the maximum over the pixels
of the block: they bound every pixel of the block and each of them is the value
of some pixel of the block; and the minimum is at most the maximum. -/
theorem range_estimate_min_max_is_minimum_and_maximum (header : PTCX_FILE_HEADER)
    (input : image) (x y : Nat) (pix : Nat → Nat → color)
    (hbw : 1 ≤ header.block_width) (hbh : 1 ≤ header.block_height)
    (hpix : ∀ subi subj, subi < header.block_width → subj < header.block_height →
      input.pixel_at ((x + subi) % U32) ((y + subj) % U32) = some (pix subi subj))
    (hbyte : ∀ subi subj, subi < header.block_width → subj < header.block_height →
      (pix subi subj).c0 ≤ 255 ∧ (pix subi subj).c1 ≤ 255 ∧ (pix subi subj).c2 ≤ 255) :
    ∃ range, range_estimate_min_max header input x y = some (BASE_SUCCESS, range) ∧
      (∀ subi subj, subi < header.block_width → subj < header.block_height →
        range.min_value.c0 ≤ (pix subi subj).c0 ∧ (pix subi subj).c0 ≤ range.max_value.c0 ∧
        range.min_value.c1 ≤ (pix subi subj).c1 ∧ (pix subi subj).c1 ≤ range.max_value.c1 ∧
        range.min_value.c2 ≤ (pix subi subj).c2 ∧ (pix subi subj).c2 ≤ range.max_value.c2) ∧
      (∃ subi subj, subi < header.block_width ∧ subj < header.block_height ∧
        (pix subi subj).c0 = range.min_value.c0) ∧
      (∃ subi subj, subi < header.block_width ∧ subj < header.block_height ∧
        (pix subi subj).c0 = range.max_value.c0) ∧
      (∃ subi subj, subi < header.block_width ∧ subj < header.block_height ∧
        (pix subi subj).c1 = range.min_value.c1) ∧
      (∃ subi subj, subi < header.block_width ∧ subj < header.block_height ∧
        (pix subi subj).c1 = range.max_value.c1) ∧
      (∃ subi subj, subi < header.block_width ∧ subj < header.block_height ∧
        (pix subi subj).c2 = range.min_value.c2) ∧
      (∃ subi subj, subi < header.block_width ∧ subj < header.block_height ∧
        (pix subi subj).c2 = range.max_value.c2) ∧
      range.min_value.c0 ≤ range.max_value.c0 ∧ range.min_value.c1 ≤ range.max_value.c1 ∧
      range.min_value.c2 ≤ range.max_value.c2 := by
  obtain ⟨r, hloop⟩ := nested_for_loop_defined (range_estimate_step input x y)
    header.block_height header.block_width
    { min_value := { c0 := 255, c1 := 255, c2 := 255 },
      max_value := { c0 := 0, c1 := 0, c2 := 0 } }
    (by
      intro j i a hj hi
      unfold range_estimate_step
      rw [hpix i j hi hj]
      exact ⟨_, rfl⟩)
  have hres : range_estimate_min_max header input x y = some (BASE_SUCCESS, r) := by
    unfold range_estimate_min_max
    rw [hloop]
  have hcoord : ∀ j i, i < header.block_width →
      (j * header.block_width + i) % header.block_width = i ∧
      (j * header.block_width + i) / header.block_width = j := by
    intro j i hi
    constructor
    · rw [Nat.add_comm, Nat.add_mul_mod_self_right, Nat.mod_eq_of_lt hi]
    · rw [Nat.add_comm, Nat.add_mul_div_right _ _ (by omega), Nat.div_eq_of_lt hi,
        Nat.zero_add]
  have key := nested_for_loop_inv (range_estimate_step input x y)
    (fun t (r : PTCX_PIXEL_RANGE) =>
      ((∀ t', t' < t → r.min_value.c0 ≤
            (pix (t' % header.block_width) (t' / header.block_width)).c0 ∧
          (pix (t' % header.block_width) (t' / header.block_width)).c0 ≤ r.max_value.c0) ∧
        (t = 0 → r.min_value.c0 = 255 ∧ r.max_value.c0 = 0) ∧
        (0 < t → (∃ t', t' < t ∧
            (pix (t' % header.block_width) (t' / header.block_width)).c0 = r.min_value.c0) ∧
          ∃ t', t' < t ∧
            (pix (t' % header.block_width) (t' / header.block_width)).c0 = r.max_value.c0)) ∧
      ((∀ t', t' < t → r.min_value.c1 ≤
            (pix (t' % header.block_width) (t' / header.block_width)).c1 ∧
          (pix (t' % header.block_width) (t' / header.block_width)).c1 ≤ r.max_value.c1) ∧
        (t = 0 → r.min_value.c1 = 255 ∧ r.max_value.c1 = 0) ∧
        (0 < t → (∃ t', t' < t ∧
            (pix (t' % header.block_width) (t' / header.block_width)).c1 = r.min_value.c1) ∧
          ∃ t', t' < t ∧
            (pix (t' % header.block_width) (t' / header.block_width)).c1 = r.max_value.c1)) ∧
      ((∀ t', t' < t → r.min_value.c2 ≤
            (pix (t' % header.block_width) (t' / header.block_width)).c2 ∧
          (pix (t' % header.block_width) (t' / header.block_width)).c2 ≤ r.max_value.c2) ∧
        (t = 0 → r.min_value.c2 = 255 ∧ r.max_value.c2 = 0) ∧
        (0 < t → (∃ t', t' < t ∧
            (pix (t' % header.block_width) (t' / header.block_width)).c2 = r.min_value.c2) ∧
          ∃ t', t' < t ∧
            (pix (t' % header.block_width) (t' / header.block_width)).c2 = r.max_value.c2)))
    header.block_height header.block_width _ r
    (by
      intro j i a a' hj hi hI hstep
      obtain ⟨I0, I1, I2⟩ := hI
      unfold range_estimate_step at hstep
      rw [hpix i j hi hj] at hstep
      simp only [Option.some.injEq] at hstep
      subst hstep
      obtain ⟨b0, b1, b2⟩ := hbyte i j hi hj
      obtain ⟨em, ed⟩ := hcoord j i hi
      have s0 := running_extremes_step
        (fun t => (pix (t % header.block_width) (t / header.block_width)).c0)
        (j * header.block_width + i) a.min_value.c0 a.max_value.c0 I0
        (by simp only [em, ed]; exact b0)
      have s1 := running_extremes_step
        (fun t => (pix (t % header.block_width) (t / header.block_width)).c1)
        (j * header.block_width + i) a.min_value.c1 a.max_value.c1 I1
        (by simp only [em, ed]; exact b1)
      have s2 := running_extremes_step
        (fun t => (pix (t % header.block_width) (t / header.block_width)).c2)
        (j * header.block_width + i) a.min_value.c2 a.max_value.c2 I2
        (by simp only [em, ed]; exact b2)
      simp only [em, ed] at s0 s1 s2
      exact ⟨s0, s1, s2⟩)
    ⟨⟨fun t' ht' => absurd ht' (Nat.not_lt_zero _), fun _ => ⟨rfl, rfl⟩,
        fun hc => absurd hc (Nat.lt_irrefl _)⟩,
      ⟨fun t' ht' => absurd ht' (Nat.not_lt_zero _), fun _ => ⟨rfl, rfl⟩,
        fun hc => absurd hc (Nat.lt_irrefl _)⟩,
      ⟨fun t' ht' => absurd ht' (Nat.not_lt_zero _), fun _ => ⟨rfl, rfl⟩,
        fun hc => absurd hc (Nat.lt_irrefl _)⟩⟩
    hloop
  have hpos : 0 < header.block_height * header.block_width := Nat.mul_pos hbh hbw
  obtain ⟨⟨a0, _, t0⟩, ⟨a1, _, t1⟩, ⟨a2, _, t2⟩⟩ := key
  obtain ⟨⟨m0, hm0, e0⟩, ⟨M0, hM0, E0⟩⟩ := t0 hpos
  obtain ⟨⟨m1, hm1, e1⟩, ⟨M1, hM1, E1⟩⟩ := t1 hpos
  obtain ⟨⟨m2, hm2, e2⟩, ⟨M2, hM2, E2⟩⟩ := t2 hpos
  have hin : ∀ t', t' < header.block_height * header.block_width →
      t' % header.block_width < header.block_width ∧
      t' / header.block_width < header.block_height := by
    intro t' ht'
    exact ⟨Nat.mod_lt _ (by omega), by
      rw [Nat.div_lt_iff_lt_mul (by omega)]; exact ht'⟩
  refine ⟨r, hres, ?_, ⟨_, _, (hin m0 hm0).1, (hin m0 hm0).2, e0⟩,
    ⟨_, _, (hin M0 hM0).1, (hin M0 hM0).2, E0⟩, ⟨_, _, (hin m1 hm1).1, (hin m1 hm1).2, e1⟩,
    ⟨_, _, (hin M1 hM1).1, (hin M1 hM1).2, E1⟩, ⟨_, _, (hin m2 hm2).1, (hin m2 hm2).2, e2⟩,
    ⟨_, _, (hin M2 hM2).1, (hin M2 hM2).2, E2⟩, ?_, ?_, ?_⟩
  · intro subi subj hi hj
    have hlt := microblock_count_le hj hi
    obtain ⟨em, ed⟩ := hcoord subj subi hi
    have q0 := a0 (subj * header.block_width + subi) (by omega)
    have q1 := a1 (subj * header.block_width + subi) (by omega)
    have q2 := a2 (subj * header.block_width + subi) (by omega)
    rw [em, ed] at q0 q1 q2
    exact ⟨q0.1, q0.2, q1.1, q1.2, q2.1, q2.2⟩
  · have := a0 m0 hm0; omega
  · have := a1 m1 hm1; omega
  · have := a2 m2 hm2; omega

/-- Witness of `range_estimate_min_max_is_minimum_and_maximum`: the 16 x 16 block
at (16, 0) of the 32 x 32 image of stripes (10,20,30), (40,50,60). -/
theorem range_estimate_min_max_is_minimum_and_maximum_witness :
    ∃ range, range_estimate_min_max
        (configure_header (column_image 32 32 (stripes ⟨10, 20, 30⟩ ⟨40, 50, 60⟩)) 0)
        (column_image 32 32 (stripes ⟨10, 20, 30⟩ ⟨40, 50, 60⟩)) 16 0 =
          some (BASE_SUCCESS, range) ∧
      (∃ subi subj, subi < 16 ∧ subj < 16 ∧
        (stripes ⟨10, 20, 30⟩ ⟨40, 50, 60⟩ (16 + subi)).c0 = range.min_value.c0) ∧
      range.min_value.c0 ≤ range.max_value.c0 := by
  obtain ⟨range, h, _, hmin, _, _, _, _, _, hle, _⟩ :=
    range_estimate_min_max_is_minimum_and_maximum
      (configure_header (column_image 32 32 (stripes ⟨10, 20, 30⟩ ⟨40, 50, 60⟩)) 0)
      (column_image 32 32 (stripes ⟨10, 20, 30⟩ ⟨40, 50, 60⟩)) 16 0
      (fun subi _ => stripes ⟨10, 20, 30⟩ ⟨40, 50, 60⟩ (16 + subi))
      (by decide) (by decide)
      (by
        intro subi subj hi hj
        have hi' : subi < 16 := hi
        have hj' : subj < 16 := hj
        rw [Nat.mod_eq_of_lt (by simp only [U32]; omega),
          Nat.mod_eq_of_lt (by simp only [U32]; omega)]
        exact column_image_pixel_at 32 32 _ (by decide) (by omega) (by omega))
      (by
        intro subi subj _ _
        dsimp only [stripes]
        split <;> decide)
  exact ⟨range, h, hmin, hle⟩

/-! ## the size table entry -/

/-- The complement of the slot mask in `write_macroblock_table_entry` has a zero
bit exactly at the two bits of the slot, among the low eight bits. -/
theorem table_entry_mask_bit (s p : Nat) (hs : s < 4) (hp : p < 8) :
    (U32 - 1 - (0x3 <<< (2 * s)) % 256).testBit p = decide (p ≠ 2 * s ∧ p ≠ 2 * s + 1) := by
  interval_cases s <;> interval_cases p <;> decide

/-- The shift amount of slot `s` as a `uint8`. -/
theorem table_entry_shift (s : Nat) (hs : s < 4) : (s <<< 1) % 256 = 2 * s ∧ s <<< 1 = 2 * s := by
  have e1 : s <<< 1 = 2 * s := by rw [Nat.shiftLeft_eq]; omega
  rw [e1]
  exact ⟨Nat.mod_eq_of_lt (by omega), rfl⟩

/-- The byte `write_macroblock_table_entry` stores for slot `s` of a byte keeps
every bit of the old byte outside the two bits of the slot. -/
theorem table_entry_byte_frame (old value s p : Nat) (hs : s < 4) (hp : p < 8)
    (h1 : p ≠ 2 * s) (h2 : p ≠ 2 * s + 1) :
    ((old &&& ((value <<< ((s <<< 1) % 256)) |||
      (U32 - 1 - (0x3 <<< ((s <<< 1) % 256)) % 256))) % 256).testBit p = old.testBit p := by
  have e256 : (256 : Nat) = 2 ^ 8 := by norm_num
  rw [(table_entry_shift s hs).1]
  have hk := table_entry_mask_bit s p hs hp
  rw [e256] at hk ⊢
  rw [Nat.testBit_mod_two_pow, Nat.testBit_and, Nat.testBit_or, hk]
  simp [hp, h1, h2]

/-- The two bits `query_macroblock_shift` extracts from the byte that
`write_macroblock_table_entry` stores are the bitwise AND of the two bits it
extracts from the old byte and the value. -/
theorem table_entry_byte_field (old value s : Nat) (hs : s < 4) :
    ((((old &&& ((value <<< ((s <<< 1) % 256)) |||
        (U32 - 1 - (0x3 <<< ((s <<< 1) % 256)) % 256))) % 256) >>> (s <<< 1)) &&& 0x3) % 256 =
      (((old >>> (s <<< 1)) &&& 0x3) % 256) &&& value := by
  have e256 : (256 : Nat) = 2 ^ 8 := by norm_num
  have e3 : (3 : Nat) = 2 ^ 2 - 1 := by norm_num
  rw [(table_entry_shift s hs).1, (table_entry_shift s hs).2]
  apply Nat.eq_of_testBit_eq
  intro i
  by_cases hi : i < 2
  · have hk := table_entry_mask_bit s (2 * s + i) hs (by omega)
    have hv : (value <<< (2 * s)).testBit (2 * s + i) = value.testBit i := by
      rw [Nat.testBit_shiftLeft]
      simp
    have h8 : 2 * s + i < 8 := by omega
    have hi8 : i < 8 := by omega
    have hne : ¬ (2 * s + i ≠ 2 * s ∧ 2 * s + i ≠ 2 * s + 1) := by omega
    have hk' : (U32 - 1 - (0x3 <<< (2 * s)) % 256).testBit (2 * s + i) = false := by
      rw [hk]
      exact decide_eq_false hne
    rw [e256, e3]
    simp only [Nat.testBit_mod_two_pow, Nat.testBit_and, Nat.testBit_or, Nat.testBit_shiftRight,
      Nat.testBit_two_pow_sub_one, hv]
    rw [← e256, ← e3, hk']
    simp [hi, h8, hi8]
  · rw [e256, e3]
    simp only [Nat.testBit_mod_two_pow, Nat.testBit_and, Nat.testBit_or, Nat.testBit_shiftRight,
      Nat.testBit_two_pow_sub_one]
    simp [hi]

/-- C23: for any table contents, any position whose byte lies in the table and
any value, `write_macroblock_table_entry` returns a table of the same length in
which every byte other than byte `block_index / 4` is unchanged and, in that
byte, every bit other than the two bits at offset `(block_index % 4) * 2` is
unchanged, where `block_index = y * width_in_blocks + x` in 32 bits. -/
theorem write_macroblock_table_entry_changes_one_field (mb_table : List Nat)
    (x width_in_blocks y value : Nat)
    (hin : ((y * width_in_blocks + x) % U32) / 4 < mb_table.length) :
    ∃ table, write_macroblock_table_entry mb_table x width_in_blocks y value = some table ∧
      table.length = mb_table.length ∧
      (∀ k, k ≠ ((y * width_in_blocks + x) % U32) / 4 → table[k]? = mb_table[k]?) ∧
      ∀ p, p < 8 → p ≠ ((y * width_in_blocks + x) % U32) % 4 * 2 →
        p ≠ ((y * width_in_blocks + x) % U32) % 4 * 2 + 1 →
        (table.getD (((y * width_in_blocks + x) % U32) / 4) 0).testBit p =
          (mb_table.getD (((y * width_in_blocks + x) % U32) / 4) 0).testBit p := by
  unfold write_macroblock_table_entry
  simp only [Nat.shiftRight_eq_div_pow]
  have e4 : (2 : Nat) ^ 2 = 4 := by norm_num
  rw [e4]
  generalize (y * width_in_blocks + x) % U32 = block_index at *
  rw [List.getElem?_eq_getElem hin]
  refine ⟨_, rfl, List.length_set _ _ _, ?_, ?_⟩
  · intro k hk
    exact List.getElem?_set_ne (Ne.symm hk)
  · intro p hp h1 h2
    have hs : block_index % 4 < 4 := Nat.mod_lt _ (by norm_num)
    rw [List.getD_eq_getElem?_getD, List.getElem?_set_self hin,
      List.getD_eq_getElem?_getD, List.getElem?_eq_getElem hin]
    simp only [Option.getD_some]
    exact table_entry_byte_frame _ value _ p hs hp (by omega) (by omega)

/-- Witness of `write_macroblock_table_entry_changes_one_field`: entry 5 of a
two-byte table, which lies in byte 1. -/
theorem write_macroblock_table_entry_changes_one_field_witness :
    ∃ table, write_macroblock_table_entry [0xB7, 0x6D] 1 4 1 2 = some table ∧
      table.length = [0xB7, 0x6D].length ∧
      (∀ k, k ≠ ((1 * 4 + 1) % U32) / 4 → table[k]? = [0xB7, 0x6D][k]?) ∧
      ∀ p, p < 8 → p ≠ ((1 * 4 + 1) % U32) % 4 * 2 → p ≠ ((1 * 4 + 1) % U32) % 4 * 2 + 1 →
        (table.getD (((1 * 4 + 1) % U32) / 4) 0).testBit p =
          (([0xB7, 0x6D] : List Nat).getD (((1 * 4 + 1) % U32) / 4) 0).testBit p :=
  write_macroblock_table_entry_changes_one_field [0xB7, 0x6D] 1 4 1 2 (by decide)

/-- C24: for any table contents, any position whose byte lies in the table and
any value in 0..3, the field `query_macroblock_shift` reads after
`write_macroblock_table_entry` at the same position is the bitwise AND of the
field it read before and the value: the value itself when the field held 3, and
0 whatever the value when the field held 0. -/
theorem query_after_write_is_and_of_field_and_value (mb_table : List Nat)
    (x width_in_blocks y value : Nat) (hv : value ≤ 3)
    (hin : ((y * width_in_blocks + x) % U32) / 4 < mb_table.length) :
    ∃ table before,
      write_macroblock_table_entry mb_table x width_in_blocks y value = some table ∧
      query_macroblock_shift mb_table x width_in_blocks y = some before ∧
      query_macroblock_shift table x width_in_blocks y = some (before &&& value) ∧
      (before = 3 → query_macroblock_shift table x width_in_blocks y = some value) ∧
      (before = 0 → query_macroblock_shift table x width_in_blocks y = some 0) := by
  have key : ∃ table before,
      write_macroblock_table_entry mb_table x width_in_blocks y value = some table ∧
      query_macroblock_shift mb_table x width_in_blocks y = some before ∧
      query_macroblock_shift table x width_in_blocks y = some (before &&& value) := by
    unfold write_macroblock_table_entry query_macroblock_shift
    simp only [Nat.shiftRight_eq_div_pow _ 2]
    have e4 : (2 : Nat) ^ 2 = 4 := by norm_num
    rw [e4]
    generalize (y * width_in_blocks + x) % U32 = block_index at *
    have hs : block_index % 4 < 4 := Nat.mod_lt _ (by norm_num)
    rw [List.getElem?_eq_getElem hin]
    refine ⟨_, _, rfl, rfl, ?_⟩
    rw [List.getElem?_set_self hin]
    simp only [Option.some.injEq]
    exact table_entry_byte_field _ value _ hs
  obtain ⟨table, before, h1, h2, h3⟩ := key
  refine ⟨table, before, h1, h2, h3, ?_, ?_⟩
  · intro hb
    rw [h3, hb]
    have : 3 &&& value = value := by interval_cases value <;> decide
    rw [this]
  · intro hb
    rw [h3, hb, Nat.zero_and]

/-- Witness of `query_after_write_is_and_of_field_and_value`: entry 5 of a
two-byte table holds 3 and is written with 2. -/
theorem query_after_write_is_and_of_field_and_value_witness :
    ∃ table before,
      write_macroblock_table_entry [0xB7, 0x6D] 1 4 1 2 = some table ∧
      query_macroblock_shift [0xB7, 0x6D] 1 4 1 = some before ∧
      query_macroblock_shift table 1 4 1 = some (before &&& 2) ∧
      (before = 3 → query_macroblock_shift table 1 4 1 = some 2) ∧
      (before = 0 → query_macroblock_shift table 1 4 1 = some 0) :=
  query_after_write_is_and_of_field_and_value [0xB7, 0x6D] 1 4 1 2 (by decide) (by decide)

/-! ## the microblocks of a macroblock -/

/-- The microblock size of one dimension: for a block size in {2,4,8,16} and a
shift of at most 2 it is `max 2 (size >> shift)`, positive, and divides the size. -/
theorem microblock_size_divides (size shift : Nat)
    (hsize : size = 2 ∨ size = 4 ∨ size = 8 ∨ size = 16) (hshift : shift ≤ 2) :
    (if (size >>> shift) % 65536 < 2 then 2 else (size >>> shift) % 65536) =
        max 2 (size >>> shift) ∧
      2 ≤ max 2 (size >>> shift) ∧ max 2 (size >>> shift) ∣ size ∧
      size / max 2 (size >>> shift) * max 2 (size >>> shift) = size := by
  rcases hsize with h | h | h | h <;> subst h <;> interval_cases shift <;> decide

/-- Blocks of `m` consecutive offsets tile `count * m` offsets: every offset lies
in exactly one block, at exactly one place. -/
theorem offsets_tile (m count d : Nat) (hm : 0 < m) (hd : d < count * m) :
    ∃ block sub, block < count ∧ sub < m ∧ d = block * m + sub ∧
      ∀ block' sub', block' < count → sub' < m → d = block' * m + sub' →
        block' = block ∧ sub' = sub := by
  refine ⟨d / m, d % m, ?_, Nat.mod_lt _ hm, ?_, ?_⟩
  · rw [Nat.div_lt_iff_lt_mul hm]; exact hd
  · rw [Nat.mul_comm]; exact (Nat.div_add_mod d m).symm
  · intro block' sub' _ hs he
    subst he
    constructor
    · rw [Nat.add_comm, Nat.add_mul_div_right _ _ hm, Nat.div_eq_of_lt hs, Nat.zero_add]
    · rw [Nat.add_comm, Nat.add_mul_mod_self_right, Nat.mod_eq_of_lt hs]

/-! ## the capacity of the trial buffers -/

/-- C29: for every image, every quality and every shift level of at most 2, the
number of `write` calls of one trial of `quantize_macroblock` (four control bytes
and the index bytes for each microblock, `trial_bytes`) is at most
`PTCX_MAX_BLOCK_DATA_SIZE = 132`; and for a macroblock inside a readable image a
trial run on a buffer of that capacity returns with the buffer holding exactly
that many bytes written from its start, so every write was stored. -/
theorem trial_buffer_capacity_suffices (sqrt : Nat → Nat) (input : image)
    (quality px py level : Nat) (buf : ring_buffer) (hl : level ≤ 2)
    (hread : ∀ x y, x < input.query_width → y < input.query_height →
      ∃ c, input.pixel_at x y = some c)
    (hx : px + (configure_header input quality).block_width ≤ input.query_width)
    (hy : py + (configure_header input quality).block_height ≤ input.query_height)
    (hcap : buf.data.length = PTCX_MAX_BLOCK_DATA_SIZE) :
    PTCX_MAX_BLOCK_DATA_SIZE = 132 ∧
    trial_bytes (configure_header input quality) level ≤ PTCX_MAX_BLOCK_DATA_SIZE ∧
    ∃ buf' mse bytes,
      quantize_macroblock_trial sqrt input (configure_header input quality) px py level buf =
        some (buf', mse) ∧
      buf'.filling bytes ∧
      bytes.length = trial_bytes (configure_header input quality) level ∧
      buf'.data.length = PTCX_MAX_BLOCK_DATA_SIZE := by
  have hc := configure_header_configured input quality
  have h132 : PTCX_MAX_BLOCK_DATA_SIZE = 132 := by decide
  obtain ⟨hle, _⟩ := trial_bytes_configured _ hc level hl
  obtain ⟨r, hr⟩ := quantize_macroblock_trial_defined sqrt input _ px py level buf hc hread hx hy
  obtain ⟨bytes, f1, f2, f3⟩ := quantize_macroblock_trial_filling sqrt input _ px py level buf
    r.1 r.2 hc.1 (by rw [hcap, h132]; decide) (by rw [hcap, h132]; exact hle) hr
  exact ⟨h132, by rw [h132]; exact hle, r.1, r.2, bytes, hr, f1, f2, by rw [f3, hcap]⟩

/-- Witness of `trial_buffer_capacity_suffices`: the trial at shift 2 of the first
macroblock of a 32 x 32 image at quality 0, in the buffer `quantize_worker`
reserves. -/
theorem trial_buffer_capacity_suffices_witness :
    PTCX_MAX_BLOCK_DATA_SIZE = 132 ∧
    trial_bytes (configure_header (solid_image 32 32 ⟨9, 8, 7⟩) 0) 2 ≤
      PTCX_MAX_BLOCK_DATA_SIZE ∧
    ∀ sqrt : Nat → Nat, ∃ buf' mse bytes,
      quantize_macroblock_trial sqrt (solid_image 32 32 ⟨9, 8, 7⟩)
          (configure_header (solid_image 32 32 ⟨9, 8, 7⟩) 0) 0 0 2
          (ring_buffer.new.resize_capacity PTCX_MAX_BLOCK_DATA_SIZE).2 = some (buf', mse) ∧
      buf'.filling bytes ∧
      bytes.length = trial_bytes (configure_header (solid_image 32 32 ⟨9, 8, 7⟩) 0) 2 ∧
      buf'.data.length = PTCX_MAX_BLOCK_DATA_SIZE :=
  ⟨by decide, by decide, fun sqrt =>
    (trial_buffer_capacity_suffices sqrt (solid_image 32 32 ⟨9, 8, 7⟩) 0 0 0 2
      (ring_buffer.new.resize_capacity PTCX_MAX_BLOCK_DATA_SIZE).2 (by decide)
      (fun x y hx hy => ⟨_, solid_image_pixel_at 32 32 _ (by decide) hx hy⟩)
      (by decide) (by decide)
      (by rw [trial_buffer_eq]; simp only [List.length_replicate]; decide)).2.2⟩

/-! ## uniform microblocks -/

/-- With the range `c .. c`, a pixel of colour `c` gets the step value 0 and the
squared error 0, for 1, 2, 4 or 8 step bits, when `sqrt 0 = 0`. -/
theorem quantize_pixel_of_uniform (sqrt : Nat → Nat) (bits : Nat) (c : color)
    (want_error : Bool) (hsqrt : sqrt 0 = 0)
    (hb : bits = 1 ∨ bits = 2 ∨ bits = 4 ∨ bits = 8)
    (hc : c.c0 < 256 ∧ c.c1 < 256 ∧ c.c2 < 256) :
    quantize_pixel sqrt bits { min_value := c, max_value := c } c want_error = some (0, 0) := by
  obtain ⟨c0, c1, c2⟩ := c
  simp only at hc
  have z : to_int16 0 = 0 := rfl
  have z8 : to_uint8 0 = 0 := rfl
  have hs : sum_square_differences [c0, c1, c2] [c0, c1, c2] 3 = some 0 := by
    simp [sum_square_differences, for_loop]
  have h31 : ¬ (31 ≤ bits) := by omega
  have hcount : to_uint8 ((1 <<< bits : Nat) - 1 : Int) ≠ 0 := by
    rcases hb with h | h | h | h <;> subst h <;> decide
  unfold quantize_pixel
  simp only [h31, if_false, to_int16_natCast (show c0 < 32768 by omega),
    to_int16_natCast (show c1 < 32768 by omega), to_int16_natCast (show c2 < 32768 by omega),
    sub_self, z, mul_zero, add_zero, Int.toNat_zero, hsqrt, Nat.cast_zero, Int.zero_tdiv,
    ne_eq, not_true_eq_false, if_false, ite_self, z8, zero_mul,
    to_uint8_natCast hc.1, to_uint8_natCast hc.2.1, to_uint8_natCast hc.2.2, hs, hcount]

/-- A block of at least one pixel whose pixels all have the colour `c` has the
range `c .. c`. -/
theorem range_estimate_min_max_of_uniform (header : PTCX_FILE_HEADER) (input : image)
    (x y : Nat) (c : color) (hc : c.c0 < 256 ∧ c.c1 < 256 ∧ c.c2 < 256)
    (hbw : 0 < header.block_width) (hbh : 0 < header.block_height)
    (huni : ∀ subi subj, subi < header.block_width → subj < header.block_height →
      input.pixel_at ((x + subi) % U32) ((y + subj) % U32) = some c) :
    range_estimate_min_max header input x y =
      some (BASE_SUCCESS, { min_value := c, max_value := c }) := by
  obtain ⟨r, hloop⟩ := nested_for_loop_defined (range_estimate_step input x y)
    header.block_height header.block_width
    { min_value := { c0 := 255, c1 := 255, c2 := 255 },
      max_value := { c0 := 0, c1 := 0, c2 := 0 } }
    (by
      intro j i a hj hi
      unfold range_estimate_step
      rw [huni i j hi hj]
      exact ⟨_, rfl⟩)
  have key := nested_for_loop_inv (range_estimate_step input x y)
    (fun t (r : PTCX_PIXEL_RANGE) =>
      (t = 0 ∧ r = { min_value := { c0 := 255, c1 := 255, c2 := 255 },
                     max_value := { c0 := 0, c1 := 0, c2 := 0 } }) ∨
      (0 < t ∧ r = { min_value := c, max_value := c }))
    header.block_height header.block_width _ r
    (by
      intro j i a a' hj hi hI hstep
      right
      refine ⟨by omega, ?_⟩
      unfold range_estimate_step at hstep
      rw [huni i j hi hj] at hstep
      simp only [Option.some.injEq] at hstep
      subst hstep
      obtain ⟨c0, c1, c2⟩ := c
      simp only at hc
      rcases hI with ⟨_, ha⟩ | ⟨_, ha⟩
      · subst ha
        simp only [range_accumulate, PTCX_PIXEL_RANGE.mk.injEq, color.mk.injEq]
        refine ⟨⟨?_, ?_, ?_⟩, ?_, ?_, ?_⟩ <;> split <;> omega
      · subst ha
        simp [range_accumulate])
    (Or.inl ⟨rfl, rfl⟩) hloop
  have hpos : 0 < header.block_height * header.block_width := Nat.mul_pos hbh hbw
  unfold range_estimate_min_max
  rw [hloop]
  rcases key with ⟨h0, _⟩ | ⟨_, hr⟩
  · omega
  · rw [hr]

/-- The squared-error total of a block whose pixels all have the colour `c`,
measured against the range `c .. c`, is 0. -/
theorem estimate_quantization_error_of_uniform (sqrt : Nat → Nat) (header : PTCX_FILE_HEADER)
    (input : image) (x y : Nat) (c : color) (hsqrt : sqrt 0 = 0)
    (hb : header.quant_step_bits = 1 ∨ header.quant_step_bits = 2 ∨
      header.quant_step_bits = 4 ∨ header.quant_step_bits = 8)
    (hc : c.c0 < 256 ∧ c.c1 < 256 ∧ c.c2 < 256)
    (huni : ∀ subi subj, subi < header.block_width → subj < header.block_height →
      input.pixel_at ((x + subi) % U32) ((y + subj) % U32) = some c) :
    estimate_quantization_error sqrt header { min_value := c, max_value := c } input x y =
      some 0 := by
  have hstep : ∀ j i a, j < header.block_height → i < header.block_width →
      estimate_quantization_error_step sqrt header { min_value := c, max_value := c } input x y
        j i a = some ((a + 0) % U32) := by
    intro j i a hj hi
    unfold estimate_quantization_error_step
    rw [huni i j hi hj]
    simp only []
    rw [quantize_pixel_of_uniform sqrt _ c true hsqrt hb hc]
  obtain ⟨r, hloop⟩ := nested_for_loop_defined
    (estimate_quantization_error_step sqrt header { min_value := c, max_value := c } input x y)
    header.block_height header.block_width 0
    (fun j i a hj hi => ⟨_, hstep j i a hj hi⟩)
  have key := nested_for_loop_inv
    (estimate_quantization_error_step sqrt header { min_value := c, max_value := c } input x y)
    (fun _ e => e = 0) header.block_height header.block_width 0 r
    (by
      intro j i a a' hj hi hI hs
      subst hI
      rw [hstep j i 0 hj hi] at hs
      simp only [Option.some.injEq] at hs
      rw [← hs]
      rfl)
    rfl hloop
  unfold estimate_quantization_error
  rw [hloop, key]

/-- The packing loop of `write_quantization_table` returns on a block whose
pixels all have the colour `c`. -/
theorem write_quantization_table_of_uniform (sqrt : Nat → Nat) (header : PTCX_FILE_HEADER)
    (input : image) (x y : Nat) (c : color) (output : ring_buffer) (hsqrt : sqrt 0 = 0)
    (hb : header.quant_step_bits = 1 ∨ header.quant_step_bits = 2 ∨
      header.quant_step_bits = 4 ∨ header.quant_step_bits = 8)
    (hc : c.c0 < 256 ∧ c.c1 < 256 ∧ c.c2 < 256)
    (huni : ∀ subi subj, subi < header.block_width → subj < header.block_height →
      input.pixel_at ((x + subi) % U32) ((y + subj) % U32) = some c) :
    (∀ subi subj, subi < header.block_width → subj < header.block_height →
      clamped_index_at sqrt header { min_value := c, max_value := c } input x y subi subj =
        some 0) ∧
    ∃ out, write_quantization_table sqrt header { min_value := c, max_value := c } input x y
      output = some out := by
  have hidx : ∀ subi subj, subi < header.block_width → subj < header.block_height →
      clamped_index_at sqrt header { min_value := c, max_value := c } input x y subi subj =
        some 0 := by
    intro subi subj hi hj
    unfold clamped_index_at
    rw [huni subi subj hi hj]
    simp only []
    rw [quantize_pixel_of_uniform sqrt _ c false hsqrt hb hc]
  refine ⟨hidx, ?_⟩
  unfold write_quantization_table write_quantization_table_loop
  obtain ⟨r, hr⟩ := nested_for_loop_defined
    (write_quantization_table_step header.quant_step_bits header.block_width
      (clamped_index_at sqrt header { min_value := c, max_value := c } input x y))
    header.block_height header.block_width (0, output)
    (by
      intro subj subi a hj hi
      unfold write_quantization_table_step
      have h8 : ¬ (8 < header.quant_step_bits) := by omega
      rw [hidx subi subj hi hj]
      simp only [h8, if_false]
      split <;> exact ⟨_, rfl⟩)
  rw [hr]
  exact ⟨_, rfl⟩

/-- C30: for a microblock of at least one pixel whose pixels all have one colour
`c` (of byte channels), for 1, 2, 4 or 8 step bits and a square root with
`sqrt 0 = 0`: `range_estimate_min_max` returns the range with `min = max = c`;
`quantize_pixel` returns the index 0 (and the squared error 0) for the pixel
colour, so that the index of every pixel of the block in `write_quantization_table`
is 0; `estimate_quantization_error` returns 0; and `quantize_microblock` returns
having added 0 to the error it was given. -/
theorem uniform_microblock_has_no_error (sqrt : Nat → Nat) (input : image)
    (header : PTCX_FILE_HEADER) (x y : Nat) (c : color) (output : ring_buffer) (error : Nat)
    (hsqrt : sqrt 0 = 0)
    (hb : header.quant_step_bits = 1 ∨ header.quant_step_bits = 2 ∨
      header.quant_step_bits = 4 ∨ header.quant_step_bits = 8)
    (hc : c.c0 < 256 ∧ c.c1 < 256 ∧ c.c2 < 256)
    (hbw : 0 < header.block_width) (hbh : 0 < header.block_height)
    (huni : ∀ subi subj, subi < header.block_width → subj < header.block_height →
      input.pixel_at ((x + subi) % U32) ((y + subj) % U32) = some c) :
    range_estimate_min_max header input x y =
      some (BASE_SUCCESS, { min_value := c, max_value := c }) ∧
    (∀ want_error, quantize_pixel sqrt header.quant_step_bits
      { min_value := c, max_value := c } c want_error = some (0, 0)) ∧
    (∀ subi subj, subi < header.block_width → subj < header.block_height →
      clamped_index_at sqrt header { min_value := c, max_value := c } input x y subi subj =
        some 0) ∧
    estimate_quantization_error sqrt header { min_value := c, max_value := c } input x y =
      some 0 ∧
    ∃ out, quantize_microblock sqrt input header x y output error =
      some (out, (error + 0) % U32) := by
  have h1 := range_estimate_min_max_of_uniform header input x y c hc hbw hbh huni
  have h2 := estimate_quantization_error_of_uniform sqrt header input x y c hsqrt hb hc huni
  obtain ⟨h3, out, h4⟩ := write_quantization_table_of_uniform sqrt header input x y c
    (write_control_values { min_value := c, max_value := c } header output) hsqrt hb hc huni
  refine ⟨h1, fun w => quantize_pixel_of_uniform sqrt _ c w hsqrt hb hc, h3, h2, out, ?_⟩
  unfold quantize_microblock
  rw [h1]
  simp only []
  rw [h2]
  simp only []
  rw [h4]
  rfl

/-- Witness of `uniform_microblock_has_no_error`: the 2 x 2 block at (2, 4) of an
8 x 8 image of colour (100,150,200), with 8 step bits. -/
theorem uniform_microblock_has_no_error_witness :
    range_estimate_min_max
        { configure_header (solid_image 8 8 ⟨100, 150, 200⟩) 4 with quant_step_bits := 8 }
        (solid_image 8 8 ⟨100, 150, 200⟩) 2 4 =
      some (BASE_SUCCESS, { min_value := ⟨100, 150, 200⟩, max_value := ⟨100, 150, 200⟩ }) ∧
    estimate_quantization_error (fun n => n / 2)
        { configure_header (solid_image 8 8 ⟨100, 150, 200⟩) 4 with quant_step_bits := 8 }
        { min_value := ⟨100, 150, 200⟩, max_value := ⟨100, 150, 200⟩ }
        (solid_image 8 8 ⟨100, 150, 200⟩) 2 4 = some 0 := by
  obtain ⟨h1, _, _, h2, _⟩ := uniform_microblock_has_no_error (fun n => n / 2)
    (solid_image 8 8 ⟨100, 150, 200⟩)
    { configure_header (solid_image 8 8 ⟨100, 150, 200⟩) 4 with quant_step_bits := 8 }
    2 4 ⟨100, 150, 200⟩ ring_buffer.new 0 (by decide) (by decide) (by decide) (by decide)
    (by decide)
    (by
      intro subi subj hi hj
      have hi' : subi < 2 := hi
      have hj' : subj < 2 := hj
      rw [Nat.mod_eq_of_lt (by simp only [U32]; omega),
        Nat.mod_eq_of_lt (by simp only [U32]; omega)]
      exact solid_image_pixel_at 8 8 _ (by decide) (by omega) (by omega))
  exact ⟨h1, h2⟩

/-! ## the layout of the packed indices -/

/-- One assignment to `quant_look_aside` in arithmetic: the old value moves down
by the step width and the new index, reduced to the step width, enters at the
top. -/
theorem look_aside_step (bits la index : Nat) (hb : bits = 1 ∨ bits = 2 ∨ bits = 4)
    (hla : la < 256) :
    ((la >>> bits) ||| ((index <<< (8 - bits)) % U32)) % 256 =
      la / 2 ^ bits + (index % 2 ^ bits) * 2 ^ (8 - bits) := by
  have h2 : (index <<< (8 - bits)) % U32 = (index % 2 ^ (24 + bits)) <<< (8 - bits) := by
    rw [Nat.shiftLeft_eq, Nat.shiftLeft_eq]
    rcases hb with h | h | h <;> subst h <;> simp only [U32] <;> omega
  have h3 : la >>> bits < 2 ^ (8 - bits) := by
    rw [Nat.shiftRight_eq_div_pow]
    rcases hb with h | h | h <;> subst h <;> omega
  rw [h2, Nat.lor_comm, Nat.shiftLeft_eq, Nat.mul_comm _ (2 ^ (8 - bits)),
    ← Nat.mul_add_lt_is_or h3, Nat.shiftRight_eq_div_pow]
  rcases hb with h | h | h <;> subst h <;> omega

/-- The value of `quant_look_aside` after one more pixel, in arithmetic. -/
theorem look_aside_after_succ (bits : Nat) (index : Nat → Nat) (n : Nat)
    (hb : bits = 1 ∨ bits = 2 ∨ bits = 4) :
    look_aside_after bits index (n + 1) =
      look_aside_after bits index n / 2 ^ bits + (index n % 2 ^ bits) * 2 ^ (8 - bits) :=
  look_aside_step bits _ (index n) hb (look_aside_after_lt bits index n)

/-- The value of `quant_look_aside` after a whole group of `8 / bits` pixels that
starts at pixel `n`: the index of the `k`-th pixel of the group, reduced to the
step width, stands in bits `k * bits` to `k * bits + bits - 1`. -/
theorem look_aside_after_group (bits : Nat) (index : Nat → Nat) (n k : Nat)
    (hb : bits = 1 ∨ bits = 2 ∨ bits = 4) (hk : k < 8 / bits) :
    (look_aside_after bits index (n + 8 / bits) / 2 ^ (k * bits)) % 2 ^ bits =
      index (n + k) % 2 ^ bits := by
  have h0 := look_aside_after_lt bits index n
  rcases hb with h | h | h <;> subst h
  · have e : ∀ m, look_aside_after 1 index (m + 1) =
        look_aside_after 1 index m / 2 + (index m % 2) * 128 := fun m => by
      have := look_aside_after_succ 1 index m (Or.inl rfl)
      simpa using this
    have e1 := e n
    have e2 := e (n + 1)
    have e3 := e (n + 2)
    have e4 := e (n + 3)
    have e5 := e (n + 4)
    have e6 := e (n + 5)
    have e7 := e (n + 6)
    have e8 := e (n + 7)
    simp only [Nat.add_assoc, Nat.reduceAdd, Nat.reduceDiv] at e1 e2 e3 e4 e5 e6 e7 e8 hk ⊢
    interval_cases k <;>
      simp only [Nat.reduceMul, Nat.reducePow, Nat.add_zero, Nat.div_one, Nat.pow_one] <;>
      omega
  · have e : ∀ m, look_aside_after 2 index (m + 1) =
        look_aside_after 2 index m / 4 + (index m % 4) * 64 := fun m => by
      have := look_aside_after_succ 2 index m (Or.inr (Or.inl rfl))
      simpa using this
    have e1 := e n
    have e2 := e (n + 1)
    have e3 := e (n + 2)
    have e4 := e (n + 3)
    simp only [Nat.add_assoc, Nat.reduceAdd, Nat.reduceDiv] at e1 e2 e3 e4 hk ⊢
    interval_cases k <;>
      simp only [Nat.reduceMul, Nat.reducePow, Nat.add_zero, Nat.div_one, Nat.pow_one] <;>
      omega
  · have e : ∀ m, look_aside_after 4 index (m + 1) =
        look_aside_after 4 index m / 16 + (index m % 16) * 16 := fun m => by
      have := look_aside_after_succ 4 index m (Or.inr (Or.inr rfl))
      simpa using this
    have e1 := e n
    have e2 := e (n + 1)
    simp only [Nat.add_assoc, Nat.reduceAdd, Nat.reduceDiv] at e1 e2 hk ⊢
    interval_cases k <;>
      simp only [Nat.reduceMul, Nat.reducePow, Nat.add_zero, Nat.div_one, Nat.pow_one] <;>
      omega

/-- The packing loop emits one byte for every whole group of `8 / bits` pixels:
the value of `quant_look_aside` after the last pixel of the group. -/
theorem packed_bytes_groups (bits : Nat) (index : Nat → Nat) (n : Nat)
    (hb : bits = 1 ∨ bits = 2 ∨ bits = 4) :
    (packed_bytes bits index n).length = n / (8 / bits) ∧
    ∀ g, g < n / (8 / bits) →
      (packed_bytes bits index n).getD g 0 =
        look_aside_after bits index (g * (8 / bits) + 8 / bits) := by
  induction n with
  | zero =>
    refine ⟨by simp [packed_bytes], ?_⟩
    intro g hg
    simp at hg
  | succ n ih =>
    obtain ⟨hlen, hget⟩ := ih
    rw [packed_bytes_succ]
    by_cases hfl : n ≠ 0 ∧ 8 - bits = ((bits * n) % U32) % 8
    · rw [if_pos hfl]
      have hdiv : (n + 1) / (8 / bits) = n / (8 / bits) + 1 ∧
          n / (8 / bits) * (8 / bits) + 8 / bits = n + 1 := by
        obtain ⟨_, h2⟩ := hfl
        rcases hb with h | h | h <;> subst h <;> simp only [U32] at h2 <;> omega
      refine ⟨by rw [List.length_append, hlen, hdiv.1]; rfl, ?_⟩
      intro g hg
      rw [hdiv.1] at hg
      rw [List.getD_eq_getElem?_getD]
      by_cases hlt : g < n / (8 / bits)
      · rw [List.getElem?_append_left (by rw [hlen]; exact hlt), ← List.getD_eq_getElem?_getD]
        exact hget g hlt
      · have hg' : g = n / (8 / bits) := by omega
        subst hg'
        rw [List.getElem?_append_right (by rw [hlen]), hlen, Nat.sub_self, hdiv.2]
        rfl
    · rw [if_neg hfl, List.append_nil]
      have hdiv : (n + 1) / (8 / bits) = n / (8 / bits) := by
        have h2 : n = 0 ∨ ¬ (8 - bits = ((bits * n) % U32) % 8) := by
          by_cases h0 : n = 0
          · exact Or.inl h0
          · exact Or.inr (fun h => hfl ⟨h0, h⟩)
        rcases hb with h | h | h <;> subst h <;> simp only [U32] at h2 <;> omega
      rw [hdiv]
      exact ⟨hlen, hget⟩

/-! ## the extraction loop on whole groups -/

/-- One successful step of the extraction loop with one step bit on a stream that
holds index bytes:
the store is made with the extracted step value, a byte is consumed at the start
of each group, and `quant_look_aside` holds the rest of the byte of the group. -/
theorem read_macroblock_step_extracts_one_bit {σ : Type} (bits bw : Nat)
    (store : Nat → Nat → Nat → σ → Option σ) (subj subi : Nat) (bytes rest : List Nat)
    (st st' : (memory_stream × Nat) × σ)
    (hbits : bits = 1) (hU : subj * bw + subi < U32)
    (hbyte : ∀ v, v ∈ bytes → v < 256)
    (hin : (subj * bw + subi) / (8 / bits) < bytes.length)
    (hl : st.1.1.linear)
    (hun : st.1.1.unread =
      bytes.drop ((subj * bw + subi + (8 / bits) - 1) / (8 / bits)) ++ rest)
    (hla : (subj * bw + subi) % (8 / bits) ≠ 0 →
      st.1.2 = bytes.getD ((subj * bw + subi) / (8 / bits)) 0 >>>
        (bits * ((subj * bw + subi) % (8 / bits))))
    (h : read_macroblock_step bits bw store subj subi st = some (BASE_SUCCESS, st')) :
    store subi subj (extracted_index bits bytes (subj * bw + subi)) st.2 = some st'.2 ∧
    st'.1.1.linear ∧
    st'.1.1.unread =
      bytes.drop ((subj * bw + subi + 1 + (8 / bits) - 1) / (8 / bits)) ++ rest ∧
    ((subj * bw + subi + 1) % (8 / bits) ≠ 0 →
      st'.1.2 = bytes.getD ((subj * bw + subi + 1) / (8 / bits)) 0 >>>
        (bits * ((subj * bw + subi + 1) % (8 / bits)))) := by
  obtain ⟨⟨s, la⟩, o⟩ := st
  simp only at hl hun hla
  have hmod : (subi + subj * bw) % U32 = subj * bw + subi := by
    rw [Nat.add_comm]; exact Nat.mod_eq_of_lt hU
  generalize ht : subj * bw + subi = t at *
  unfold read_macroblock_step at h
  simp only [hmod] at h
  have hget : ∀ k, k < bytes.length → bytes.getD k 0 = bytes[k]?.getD 0 ∧
      bytes.getD k 0 < 256 := by
    intro k hk
    refine ⟨by simp [List.getD_eq_getElem?_getD], ?_⟩
    rw [List.getD_eq_getElem _ _ hk]
    exact hbyte _ (List.getElem_mem hk)
  have hlt256 := (hget _ hin).2
  subst hbits
  -- one bit, eight step values in a byte
  · have e8 : 8 / 1 = 8 := by norm_num
    rw [e8] at hin hun hla hlt256 ⊢
    by_cases hc : t % 8 = 0
    · have hc' : ((1 * t) % U32) % 8 = 0 := by simp only [U32]; omega
      have hd : (t + 8 - 1) / 8 = t / 8 := by omega
      rw [hd] at hun
      have hne : s.unread ≠ [] := by
        rw [hun]; intro hnil
        have := congrArg List.length hnil
        simp at this; omega
      have hhead : (List.take 1 s.unread).getD 0 la = bytes.getD (t / 8) 0 := by
        rw [hun, List.getD_eq_getElem?_getD, List.getD_eq_getElem?_getD, List.getElem?_take,
          if_pos (by norm_num), List.getElem?_append_left (by simp; omega), List.getElem?_drop]
        simp only [Nat.add_zero, List.getElem?_eq_getElem hin, Option.getD_some]
      rw [if_pos hc', memory_stream.read_data_linear hl (by norm_num) hne] at h
      simp only [base_failed_success, Bool.false_eq_true, if_false, hhead] at h
      split at h
      · simp at h
      rename_i out hout
      simp only [Option.some.injEq, Prod.mk.injEq, true_and] at h
      subst h
      have hlen1 : min 1 s.unread.length = 1 := by
        have : 0 < s.unread.length := List.length_pos.mpr hne
        omega
      obtain ⟨l1, u1⟩ := memory_stream.advance_linear hl 1 (by
        have : 0 < s.unread.length := List.length_pos.mpr hne
        omega)
      refine ⟨?_, by rw [hlen1]; exact l1, ?_, ?_⟩
      · rw [← hout]
        simp only [extracted_index, e8, hc, Nat.mul_zero, Nat.shiftRight_zero]
      · rw [hlen1, u1, hun, List.drop_append_of_le_length (by simp; omega), List.drop_drop]
        congr 2
        omega
      · intro _
        try simp only []
        have : (t + 1) / 8 = t / 8 ∧ (t + 1) % 8 = 1 := by omega
        rw [this.1, this.2, Nat.mul_one]
        apply Nat.mod_eq_of_lt
        exact Nat.lt_of_le_of_lt (shiftRight_le_self _ _) hlt256
    · have hc' : ¬ (((1 * t) % U32) % 8 = 0) := by simp only [U32]; omega
      rw [if_neg hc'] at h
      split at h
      · simp at h
      rename_i out hout
      simp only [Option.some.injEq, Prod.mk.injEq, true_and] at h
      subst h
      have hlav := hla hc
      refine ⟨?_, hl, ?_, ?_⟩
      · rw [← hout, hlav]
        simp only [extracted_index, e8]
      · try simp only []
        rw [hun]
        congr 2
        omega
      · intro hnext
        try simp only []
        have : (t + 1) / 8 = t / 8 ∧ (t + 1) % 8 = t % 8 + 1 := by omega
        rw [this.1, this.2, hlav, Nat.mul_add, Nat.mul_one, Nat.shiftRight_add]
        apply Nat.mod_eq_of_lt
        exact Nat.lt_of_le_of_lt
          (Nat.le_trans (shiftRight_le_self _ _) (shiftRight_le_self _ _)) hlt256

/-- One successful step of the extraction loop for 1, 2 or 4 step bits. -/
theorem read_macroblock_step_extracts_group {σ : Type} (bits bw : Nat)
    (store : Nat → Nat → Nat → σ → Option σ) (subj subi : Nat) (bytes rest : List Nat)
    (st st' : (memory_stream × Nat) × σ)
    (hbits : bits = 1 ∨ bits = 2 ∨ bits = 4) (hU : subj * bw + subi < U32)
    (hbyte : ∀ v, v ∈ bytes → v < 256)
    (hin : (subj * bw + subi) / (8 / bits) < bytes.length)
    (hl : st.1.1.linear)
    (hun : st.1.1.unread =
      bytes.drop ((subj * bw + subi + (8 / bits) - 1) / (8 / bits)) ++ rest)
    (hla : (subj * bw + subi) % (8 / bits) ≠ 0 →
      st.1.2 = bytes.getD ((subj * bw + subi) / (8 / bits)) 0 >>>
        (bits * ((subj * bw + subi) % (8 / bits))))
    (h : read_macroblock_step bits bw store subj subi st = some (BASE_SUCCESS, st')) :
    store subi subj (extracted_index bits bytes (subj * bw + subi)) st.2 = some st'.2 ∧
    st'.1.1.linear ∧
    st'.1.1.unread =
      bytes.drop ((subj * bw + subi + 1 + (8 / bits) - 1) / (8 / bits)) ++ rest ∧
    ((subj * bw + subi + 1) % (8 / bits) ≠ 0 →
      st'.1.2 = bytes.getD ((subj * bw + subi + 1) / (8 / bits)) 0 >>>
        (bits * ((subj * bw + subi + 1) % (8 / bits)))) := by
  rcases hbits with h1 | h24
  · exact read_macroblock_step_extracts_one_bit bits bw store subj subi bytes rest st st' h1 hU
      hbyte hin hl hun hla h
  · exact read_macroblock_step_extracts bits bw store subj subi bytes rest st st' h24 hU
      hbyte hin hl hun hla h

/-- Total correctness of the extraction loop for 1, 2 or 4 step bits on a stream
that starts with the index bytes of the block: it returns `BASE_SUCCESS`, has
consumed exactly these bytes, and every store was made with the step value
extracted for its pixel; `J` is an invariant under which every store returns and
`K` one that the stores with the extracted values carry from pixel to pixel. -/
theorem read_macroblock_loop_extracts_total {σ : Type} (bits bw bh : Nat)
    (store : Nat → Nat → Nat → σ → Option σ) (J : σ → Prop) (K : Nat → σ → Prop)
    (s : memory_stream) (out : σ) (bytes rest : List Nat)
    (hbits : bits = 1 ∨ bits = 2 ∨ bits = 4) (hsize : bh * bw < U32)
    (hbyte : ∀ v, v ∈ bytes → v < 256)
    (hlen : bytes.length * (8 / bits) = bh * bw)
    (hl : s.linear) (hun : s.unread = bytes ++ rest)
    (hJ : ∀ subi subj step o, subi < bw → subj < bh → J o →
      ∃ o', store subi subj step o = some o' ∧ J o')
    (hK : ∀ subj subi o o', subj < bh → subi < bw → K (subj * bw + subi) o →
      store subi subj (extracted_index bits bytes (subj * bw + subi)) o = some o' →
      K (subj * bw + subi + 1) o')
    (hJ0 : J out) (hK0 : K 0 out) :
    ∃ s' out', read_macroblock_loop bits bw bh store s out = some (BASE_SUCCESS, s', out') ∧
      s'.linear ∧ s'.unread = rest ∧ J out' ∧ K (bh * bw) out' := by
  have hper : 0 < 8 / bits ∧ (8 / bits - 1) / (8 / bits) = 0 := by
    rcases hbits with rfl | rfl | rfl <;> norm_num
  have hb31 : ¬ 31 ≤ bits := by omega
  obtain ⟨a, hloop, il, iu, _, iJ, iK⟩ := nested_for_loop_status_total
    (read_macroblock_step bits bw store)
    (fun t (a : (memory_stream × Nat) × σ) =>
      a.1.1.linear ∧
      a.1.1.unread = bytes.drop ((t + (8 / bits) - 1) / (8 / bits)) ++ rest ∧
      (t % (8 / bits) ≠ 0 →
        a.1.2 = bytes.getD (t / (8 / bits)) 0 >>> (bits * (t % (8 / bits)))) ∧
      J a.2 ∧ K t a.2)
    bh bw ((s, 0), out)
    (by
      intro j i a hj hi hI
      obtain ⟨il, iu, ila, iJ, iK⟩ := hI
      have hlt := microblock_count_le hj hi
      have hin : (j * bw + i) / (8 / bits) < bytes.length := by
        rw [Nat.div_lt_iff_lt_mul hper.1, hlen]; omega
      have hcost : (if ((bits * ((i + j * bw) % U32)) % U32) % 8 = 0 then 1 else 0) ≤
          a.1.1.unread.length := by
        by_cases hc : ((bits * ((i + j * bw) % U32)) % U32) % 8 = 0
        · rw [if_pos hc, iu, List.length_append, List.length_drop]
          have hmod : (i + j * bw) % U32 = j * bw + i := by
            rw [Nat.add_comm]; exact Nat.mod_eq_of_lt (by omega)
          rw [hmod] at hc
          have hd2 : (j * bw + i + (8 / bits) - 1) / (8 / bits) = (j * bw + i) / (8 / bits) := by
            rcases hbits with h | h | h <;> subst h <;> simp only [U32] at hc <;> omega
          rw [hd2]
          omega
        · rw [if_neg hc]; exact Nat.zero_le _
      obtain ⟨a', ha', _, hJ'⟩ := (read_macroblock_step_consume bits bw store J j i
        (fun step o hJo => hJ i j step o hi hj hJo) a il iJ).1 hcost
      obtain ⟨q1, q2, q3, q4⟩ := read_macroblock_step_extracts_group bits bw store j i bytes
        rest a a' hbits (by omega) hbyte hin il iu ila ha'
      exact ⟨a', ha', q2, q3, q4, hJ', hK j i a.2 a'.2 hj hi iK q1⟩)
    ⟨hl, by
        simp only [Nat.zero_add, hper.2, List.drop_zero]
        exact hun,
      fun hc => absurd (Nat.zero_mod _) hc, hJ0, hK0⟩
  refine ⟨a.1.1, a.2, ?_, il, ?_, iJ, iK⟩
  · unfold read_macroblock_loop
    simp only [hb31, if_false]
    rw [hloop]
  · rw [iu]
    have hd : (bh * bw + (8 / bits) - 1) / (8 / bits) = bytes.length := by
      rw [← hlen]
      rcases hbits with h | h | h <;> subst h <;> omega
    rw [hd, List.drop_length, List.nil_append]

/-! ## indices above the step mask -/

/-- The assignment to `quant_look_aside` uses only the low `quant_step_bits` bits
of the index. -/
theorem look_aside_uses_low_bits (bits shifted index : Nat) (hb : bits ≤ 8) :
    (shifted ||| ((index <<< (8 - bits)) % U32)) % 256 =
      (shifted ||| (((index % 2 ^ bits) <<< (8 - bits)) % U32)) % 256 := by
  have e256 : (256 : Nat) = 2 ^ 8 := by norm_num
  have e32 : U32 = 2 ^ 32 := by norm_num [U32]
  apply Nat.eq_of_testBit_eq
  intro i
  rw [e256, e32]
  simp only [Nat.testBit_mod_two_pow, Nat.testBit_or, Nat.testBit_shiftLeft]
  by_cases h8 : i < 8
  · by_cases hge : 8 - bits ≤ i
    · have h1 : i - (8 - bits) < bits := by omega
      have h2 : i < 32 := by omega
      simp [h8, hge, h1, h2]
    · simp [h8, hge]
  · simp [h8]

/-- The body of the packing loop gives the same result for an index and for the
index reduced to the step width. -/
theorem write_quantization_table_step_mod (bits bw : Nat) (clamped : Nat → Nat → Option Nat)
    (hb : bits ≤ 8) :
    write_quantization_table_step bits bw clamped =
      write_quantization_table_step bits bw
        (fun subi subj => (clamped subi subj).map (fun index => index % 2 ^ bits)) := by
  funext subj subi st
  unfold write_quantization_table_step
  cases hc : clamped subi subj with
  | none => simp only [hc, Option.map_none']
  | some index =>
    simp only [hc, Option.map_some']
    rw [look_aside_uses_low_bits bits (st.1 >>> bits) index hb]

/-- The packing loop gives the same result for the indices and for the indices
reduced to the step width. -/
theorem write_quantization_table_loop_mod (bits bw bh : Nat) (clamped : Nat → Nat → Option Nat)
    (output : ring_buffer) (hb : bits ≤ 8) :
    write_quantization_table_loop bits bw bh clamped output =
      write_quantization_table_loop bits bw bh
        (fun subi subj => (clamped subi subj).map (fun index => index % 2 ^ bits)) output := by
  unfold write_quantization_table_loop
  rw [write_quantization_table_step_mod bits bw clamped hb]

/-! ## the packed indices: writer and reader -/

/-- The step value `read_macroblock` extracts, in arithmetic. -/
theorem extracted_index_eq (bits : Nat) (bytes : List Nat) (t : Nat) (hb : bits ≤ 8) :
    extracted_index bits bytes t =
      (bytes.getD (t / (8 / bits)) 0 / 2 ^ ((t % (8 / bits)) * bits)) % 2 ^ bits := by
  unfold extracted_index
  rw [(quant_step_mask_eq hb).1, Nat.and_pow_two_sub_one_eq_mod, Nat.shiftRight_eq_div_pow,
    Nat.mul_comm bits]

/-- The packing loop on a buffer that is being filled: it returns, and has
appended one byte for every whole group of `8 / bits` pixels, in which the index
of the `k`-th pixel of the group, reduced to the step width, stands in bits
`k * bits` to `k * bits + bits - 1`. -/
theorem write_quantization_table_loop_layout (bits bw bh : Nat) (index : Nat → Nat)
    (clamped : Nat → Nat → Option Nat) (output : ring_buffer) (before : List Nat)
    (hbits : bits = 1 ∨ bits = 2 ∨ bits = 4) (hsize : bh * bw < U32)
    (hclamped : ∀ subi subj, subi < bw → subj < bh →
      clamped subi subj = some (index (subj * bw + subi)))
    (hf : output.filling before)
    (hroom : before.length + (bh * bw) / (8 / bits) ≤ output.data.length) :
    ∃ out' packed, write_quantization_table_loop bits bw bh clamped output = some out' ∧
      out'.filling (before ++ packed) ∧ packed = packed_bytes bits index (bh * bw) ∧
      packed.length = (bh * bw) / (8 / bits) ∧
      ∀ g k, g < (bh * bw) / (8 / bits) → k < 8 / bits →
        packed.getD g 0 < 256 ∧
        (packed.getD g 0 / 2 ^ (k * bits)) % 2 ^ bits =
          index (g * (8 / bits) + k) % 2 ^ bits := by
  have hb8 : bits ≤ 8 := by omega
  obtain ⟨glen, gget⟩ := packed_bytes_groups bits index (bh * bw) hbits
  have hdef : ∃ out', write_quantization_table_loop bits bw bh clamped output = some out' := by
    unfold write_quantization_table_loop
    obtain ⟨r, hr⟩ := nested_for_loop_defined
      (write_quantization_table_step bits bw clamped) bh bw (0, output)
      (by
        intro subj subi a hj hi
        unfold write_quantization_table_step
        rw [hclamped subi subj hi hj]
        simp only [show ¬ (8 < bits) by omega, if_false]
        split <;> exact ⟨_, rfl⟩)
    rw [hr]
    exact ⟨_, rfl⟩
  obtain ⟨out', hout⟩ := hdef
  obtain ⟨c1, _⟩ := write_quantization_table_loop_content bits bw bh index clamped output out'
    before hb8 hsize hclamped hf (by rw [glen]; exact hroom) hout
  refine ⟨out', _, hout, c1, rfl, glen, ?_⟩
  intro g k hg hk
  rw [gget g hg]
  exact ⟨look_aside_after_lt _ _ _, look_aside_after_group bits index _ k hbits hk⟩

/-- The extraction loop with a store that records its arguments, on a stream
that starts with the index bytes of the block: the stores are made in raster
order, the one for the pixel with linear index `t` with the bits
`(t % (8 / bits)) * bits` and up of byte `t / (8 / bits)`. -/
theorem read_macroblock_loop_trace (bits bw bh : Nat) (s : memory_stream)
    (bytes rest : List Nat) (hbits : bits = 1 ∨ bits = 2 ∨ bits = 4)
    (hsize : bh * bw < U32) (hbw : 0 < bw)
    (hbyte : ∀ v, v ∈ bytes → v < 256)
    (hlen : bytes.length * (8 / bits) = bh * bw)
    (hl : s.linear) (hun : s.unread = bytes ++ rest) :
    ∃ s', read_macroblock_loop bits bw bh
        (fun subi subj step (trace : List (Nat × Nat × Nat)) =>
          some (trace ++ [(subi, subj, step)])) s [] =
        some (BASE_SUCCESS, s', (List.range (bh * bw)).map (fun t =>
          (t % bw, t / bw,
            (bytes.getD (t / (8 / bits)) 0 / 2 ^ ((t % (8 / bits)) * bits)) % 2 ^ bits))) ∧
      s'.linear ∧ s'.unread = rest := by
  have hb8 : bits ≤ 8 := by omega
  obtain ⟨s', out', h1, h2, h3, _, h5⟩ := read_macroblock_loop_extracts_total bits bw bh
    (fun subi subj step (trace : List (Nat × Nat × Nat)) => some (trace ++ [(subi, subj, step)]))
    (fun _ => True)
    (fun n trace => trace = (List.range n).map (fun t =>
      (t % bw, t / bw,
        (bytes.getD (t / (8 / bits)) 0 / 2 ^ ((t % (8 / bits)) * bits)) % 2 ^ bits)))
    s [] bytes rest hbits hsize hbyte hlen hl hun
    (fun _ _ _ _ _ _ _ => ⟨_, rfl, trivial⟩)
    (by
      intro subj subi o o' hj hi hK hst
      simp only [Option.some.injEq] at hst
      rw [← hst, hK, List.range_succ, List.map_append, List.map_singleton,
        extracted_index_eq bits bytes _ hb8]
      have e1 : (subj * bw + subi) % bw = subi := by
        rw [Nat.add_comm, Nat.add_mul_mod_self_right, Nat.mod_eq_of_lt hi]
      have e2 : (subj * bw + subi) / bw = subj := by
        rw [Nat.add_comm, Nat.add_mul_div_right _ _ hbw, Nat.div_eq_of_lt hi, Nat.zero_add]
      rw [e1, e2])
    trivial rfl
  exact ⟨s', by rw [h1, h5], h2, h3⟩

/-- C25: for 1, 2 or 4 step bits and a block whose pixel count is a multiple of
`8 / bits`: the packing loop of `write_quantization_table`, run on a buffer that
is being filled and has room, on the indices `index t` (in raster order `t`),
returns having appended one byte for each group of `8 / bits` consecutive
indices, and in the byte of group `g` the bits `k * bits` to `k * bits + bits - 1`
hold index `g * (8 / bits) + k` (reduced to the step width), the first index in
the lowest bits; the extraction loop of `read_macroblock`, run on a stream that
starts with bytes for all groups, returns `BASE_SUCCESS`, has consumed exactly
these bytes, and has made its stores in raster order, the one of pixel `t` with
bits `(t % (8 / bits)) * bits` and up of the byte of group `t / (8 / bits)`. -/
theorem packed_indices_fill_bytes_from_the_low_bits (bits bw bh : Nat) (index : Nat → Nat)
    (clamped : Nat → Nat → Option Nat) (output : ring_buffer) (before : List Nat)
    (s : memory_stream) (bytes rest : List Nat)
    (hbits : bits = 1 ∨ bits = 2 ∨ bits = 4) (hsize : bh * bw < U32) (hbw : 0 < bw)
    (hmult : (bh * bw) % (8 / bits) = 0)
    (hclamped : ∀ subi subj, subi < bw → subj < bh →
      clamped subi subj = some (index (subj * bw + subi)))
    (hf : output.filling before)
    (hroom : before.length + (bh * bw) / (8 / bits) ≤ output.data.length)
    (hbyte : ∀ v, v ∈ bytes → v < 256)
    (hlen : bytes.length = (bh * bw) / (8 / bits))
    (hl : s.linear) (hun : s.unread = bytes ++ rest) :
    (∃ out' packed, write_quantization_table_loop bits bw bh clamped output = some out' ∧
      out'.filling (before ++ packed) ∧
      packed.length = (bh * bw) / (8 / bits) ∧
      ∀ g k, g < (bh * bw) / (8 / bits) → k < 8 / bits →
        packed.getD g 0 < 256 ∧
        (packed.getD g 0 / 2 ^ (k * bits)) % 2 ^ bits =
          index (g * (8 / bits) + k) % 2 ^ bits) ∧
    ∃ s', read_macroblock_loop bits bw bh
        (fun subi subj step (trace : List (Nat × Nat × Nat)) =>
          some (trace ++ [(subi, subj, step)])) s [] =
        some (BASE_SUCCESS, s', (List.range (bh * bw)).map (fun t =>
          (t % bw, t / bw,
            (bytes.getD (t / (8 / bits)) 0 / 2 ^ ((t % (8 / bits)) * bits)) % 2 ^ bits))) ∧
      s'.linear ∧ s'.unread = rest := by
  obtain ⟨out', packed, w1, w2, _, w4, w5⟩ := write_quantization_table_loop_layout bits bw bh
    index clamped output before hbits hsize hclamped hf hroom
  have hlen2 : bytes.length * (8 / bits) = bh * bw := by
    rw [hlen]
    exact Nat.div_mul_cancel (Nat.dvd_of_mod_eq_zero hmult)
  exact ⟨⟨out', packed, w1, w2, w4, w5⟩,
    read_macroblock_loop_trace bits bw bh s bytes rest hbits hsize hbw hbyte hlen2 hl hun⟩

/-- Witness of `packed_indices_fill_bytes_from_the_low_bits`: a 2 x 2 block with 2
step bits and the indices 0, 1, 2, 3, and a stream that holds the byte 0xE4. -/
theorem packed_indices_fill_bytes_from_the_low_bits_witness :
    (∃ out' packed,
      write_quantization_table_loop 2 2 2 (fun subi subj => some (subj * 2 + subi))
        ⟨[0, 0, 0, 0], 0, 0⟩ = some out' ∧
      out'.filling ([] ++ packed) ∧
      packed.length = (2 * 2) / (8 / 2) ∧
      ∀ g k, g < (2 * 2) / (8 / 2) → k < 8 / 2 →
        packed.getD g 0 < 256 ∧
        (packed.getD g 0 / 2 ^ (k * 2)) % 2 ^ 2 = (g * (8 / 2) + k) % 2 ^ 2) ∧
    ∃ s', read_macroblock_loop 2 2 2
        (fun subi subj step (trace : List (Nat × Nat × Nat)) =>
          some (trace ++ [(subi, subj, step)])) ⟨⟨[0xE4], 0, 1⟩⟩ [] =
        some (BASE_SUCCESS, s', (List.range (2 * 2)).map (fun t =>
          (t % 2, t / 2,
            (([0xE4] : List Nat).getD (t / (8 / 2)) 0 / 2 ^ ((t % (8 / 2)) * 2)) % 2 ^ 2))) ∧
      s'.linear ∧ s'.unread = [] :=
  packed_indices_fill_bytes_from_the_low_bits 2 2 2 (fun t => t)
    (fun subi subj => some (subj * 2 + subi)) ⟨[0, 0, 0, 0], 0, 0⟩ [] ⟨⟨[0xE4], 0, 1⟩⟩ [0xE4] []
    (by decide) (by decide) (by decide) (by decide) (fun _ _ _ _ => rfl) (by decide) (by decide)
    (by decide) (by decide) (by decide) (by decide)

/-! ## indices above the step mask do not spill -/

/-- The value of `quant_look_aside` depends on the indices only through their low
`bits` bits. -/
theorem look_aside_after_mod (bits : Nat) (index : Nat → Nat) (n : Nat) (hb : bits ≤ 8) :
    look_aside_after bits index n = look_aside_after bits (fun t => index t % 2 ^ bits) n := by
  induction n with
  | zero => rfl
  | succ n ih =>
    simp only [look_aside_after]
    rw [← ih, look_aside_uses_low_bits bits _ (index n) hb]

/-- The bytes the packing loop emits depend on the indices only through their low
`bits` bits. -/
theorem packed_bytes_mod (bits : Nat) (index : Nat → Nat) (n : Nat) (hb : bits ≤ 8) :
    packed_bytes bits index n = packed_bytes bits (fun t => index t % 2 ^ bits) n := by
  unfold packed_bytes
  congr 1
  funext t
  rw [look_aside_after_mod bits index (t + 1) hb]

/-- C26: for 1, 2 or 4 step bits, whatever the indices `quantize_pixel` returned
(`index t` for the pixel with linear index `t`, also above `2^bits - 1`), the
packing loop of `write_quantization_table` returns the same buffer as for the
indices reduced modulo `2^bits`; the bytes it appends hold, in the slot of every
pixel, the index of that pixel modulo `2^bits`; and replacing the index of one
pixel `t0` by any other value changes no slot but the one of `t0`. -/
theorem index_above_the_mask_stays_in_its_slot (bits bw bh : Nat) (index : Nat → Nat)
    (clamped : Nat → Nat → Option Nat) (output : ring_buffer) (before : List Nat)
    (hbits : bits = 1 ∨ bits = 2 ∨ bits = 4) (hsize : bh * bw < U32)
    (hclamped : ∀ subi subj, subi < bw → subj < bh →
      clamped subi subj = some (index (subj * bw + subi)))
    (hf : output.filling before)
    (hroom : before.length + (bh * bw) / (8 / bits) ≤ output.data.length) :
    write_quantization_table_loop bits bw bh clamped output =
      write_quantization_table_loop bits bw bh
        (fun subi subj => (clamped subi subj).map (fun i => i % 2 ^ bits)) output ∧
    (∃ out', write_quantization_table_loop bits bw bh clamped output = some out' ∧
      out'.filling (before ++ packed_bytes bits index (bh * bw))) ∧
    packed_bytes bits index (bh * bw) =
      packed_bytes bits (fun t => index t % 2 ^ bits) (bh * bw) ∧
    (∀ g k, g < (bh * bw) / (8 / bits) → k < 8 / bits →
      ((packed_bytes bits index (bh * bw)).getD g 0 / 2 ^ (k * bits)) % 2 ^ bits =
        index (g * (8 / bits) + k) % 2 ^ bits) ∧
    ∀ (other : Nat → Nat) (t0 : Nat), (∀ t, t ≠ t0 → other t = index t) →
      ∀ g k, g < (bh * bw) / (8 / bits) → k < 8 / bits → g * (8 / bits) + k ≠ t0 →
        ((packed_bytes bits other (bh * bw)).getD g 0 / 2 ^ (k * bits)) % 2 ^ bits =
          ((packed_bytes bits index (bh * bw)).getD g 0 / 2 ^ (k * bits)) % 2 ^ bits := by
  have hb8 : bits ≤ 8 := by omega
  obtain ⟨out', packed, w1, w2, w3, _, _⟩ := write_quantization_table_loop_layout bits bw bh
    index clamped output before hbits hsize hclamped hf hroom
  have hslot : ∀ (f : Nat → Nat) g k, g < (bh * bw) / (8 / bits) → k < 8 / bits →
      ((packed_bytes bits f (bh * bw)).getD g 0 / 2 ^ (k * bits)) % 2 ^ bits =
        f (g * (8 / bits) + k) % 2 ^ bits := by
    intro f g k hg hk
    rw [(packed_bytes_groups bits f (bh * bw) hbits).2 g hg]
    exact look_aside_after_group bits f _ k hbits hk
  refine ⟨write_quantization_table_loop_mod bits bw bh clamped output hb8,
    ⟨out', w1, by rw [← w3]; exact w2⟩, packed_bytes_mod bits index _ hb8, hslot index, ?_⟩
  intro other t0 hother g k hg hk hne
  rw [hslot other g k hg hk, hslot index g k hg hk, hother _ hne]

/-- Witness of `index_above_the_mask_stays_in_its_slot`: a 2 x 2 block with 2
step bits and the indices 0, 7, 2, 3, of which 7 is above the mask 3. -/
theorem index_above_the_mask_stays_in_its_slot_witness :
    write_quantization_table_loop 2 2 2
        (fun subi subj => some (if subj * 2 + subi = 1 then 7 else subj * 2 + subi))
        ⟨[0, 0, 0, 0], 0, 0⟩ =
      write_quantization_table_loop 2 2 2
        (fun subi subj =>
          (some (if subj * 2 + subi = 1 then 7 else subj * 2 + subi)).map (fun i => i % 2 ^ 2))
        ⟨[0, 0, 0, 0], 0, 0⟩ ∧
    ∃ out', write_quantization_table_loop 2 2 2
        (fun subi subj => some (if subj * 2 + subi = 1 then 7 else subj * 2 + subi))
        ⟨[0, 0, 0, 0], 0, 0⟩ = some out' ∧
      out'.filling ([] ++ packed_bytes 2 (fun t => if t = 1 then 7 else t) (2 * 2)) :=
  ⟨(index_above_the_mask_stays_in_its_slot 2 2 2 (fun t => if t = 1 then 7 else t)
      (fun subi subj => some (if subj * 2 + subi = 1 then 7 else subj * 2 + subi))
      ⟨[0, 0, 0, 0], 0, 0⟩ [] (by decide) (by decide) (fun _ _ _ _ => rfl) (by decide)
      (by decide)).1,
    (index_above_the_mask_stays_in_its_slot 2 2 2 (fun t => if t = 1 then 7 else t)
      (fun subi subj => some (if subj * 2 + subi = 1 then 7 else subj * 2 + subi))
      ⟨[0, 0, 0, 0], 0, 0⟩ [] (by decide) (by decide) (fun _ _ _ _ => rfl) (by decide)
      (by decide)).2.1⟩

/-! ## encoder and decoder visit the same microblocks -/

theorem visit_in_order_append {σ : Type} (body : Nat × Nat → σ → Option σ)
    (l1 l2 : List (Nat × Nat)) (s : σ) :
    visit_in_order body (l1 ++ l2) s =
      match visit_in_order body l1 s with
      | none => none
      | some s1 => visit_in_order body l2 s1 := by
  induction l1 generalizing s with
  | nil => rfl
  | cons o os ih =>
    simp only [List.cons_append, visit_in_order]
    cases body o s with
    | none => rfl
    | some s1 => exact ih s1

theorem visit_in_order_status_append {σ : Type} (body : Nat × Nat → σ → Option (status × σ))
    (l1 l2 : List (Nat × Nat)) (s : σ) :
    visit_in_order_status body (l1 ++ l2) s =
      match visit_in_order_status body l1 s with
      | none => none
      | some (st, s1) =>
        if st = BASE_SUCCESS then visit_in_order_status body l2 s1 else some (st, s1) := by
  induction l1 generalizing s with
  | nil => simp [visit_in_order_status]
  | cons o os ih =>
    simp only [List.cons_append, visit_in_order_status]
    cases body o s with
    | none => rfl
    | some r =>
      obtain ⟨st, s1⟩ := r
      by_cases hst : st = BASE_SUCCESS
      · simp only [hst, if_true]
        exact ih s1
      · simp only [hst, if_false]

/-- A counted loop is a traversal of the list of the values of its counter. -/
theorem for_loop_eq_visit {σ : Type} (step : Nat → σ → Option σ)
    (body : Nat × Nat → σ → Option σ) (origin : Nat → Nat × Nat)
    (h : ∀ i s, step i s = body (origin i) s) :
    ∀ n i s, for_loop step n i s = visit_in_order body ((List.range' i n).map origin) s := by
  intro n
  induction n with
  | zero => intro i s; rfl
  | succ n ih =>
    intro i s
    rw [for_loop_succ, List.range'_succ, List.map_cons]
    simp only [visit_in_order]
    rw [← h i s]
    cases step i s with
    | none => rfl
    | some s1 => exact ih (i + 1) s1

/-- Two nested counted loops are a traversal of the list of the pairs of values of
their counters, in raster order. -/
theorem nested_for_loop_eq_visit {σ : Type} (step : Nat → Nat → σ → Option σ)
    (body : Nat × Nat → σ → Option σ) (origin : Nat → Nat → Nat × Nat)
    (h : ∀ j i s, step j i s = body (origin j i) s) (nh nw : Nat) (s : σ) :
    for_loop (fun j => for_loop (step j) nw 0) nh 0 s =
      visit_in_order body
        ((List.range nh).flatMap (fun j => (List.range nw).map (fun i => origin j i))) s := by
  have key : ∀ n j s, for_loop (fun j => for_loop (step j) nw 0) n j s =
      visit_in_order body
        ((List.range' j n).flatMap (fun j => (List.range' 0 nw).map (fun i => origin j i)))
        s := by
    intro n
    induction n with
    | zero => intro j s; rfl
    | succ n ih =>
      intro j s
      rw [for_loop_succ, List.range'_succ, List.flatMap_cons, visit_in_order_append,
        ← for_loop_eq_visit (step j) body (origin j) (h j) nw 0 s]
      cases for_loop (step j) nw 0 s with
      | none => rfl
      | some s1 => exact ih (j + 1) s1
  simp only [List.range_eq_range']
  exact key nh 0 s

theorem for_loop_status_eq_visit {σ : Type} (step : Nat → σ → Option (status × σ))
    (body : Nat × Nat → σ → Option (status × σ)) (origin : Nat → Nat × Nat)
    (h : ∀ i s, step i s = body (origin i) s) :
    ∀ n i s, for_loop_status step n i s =
      visit_in_order_status body ((List.range' i n).map origin) s := by
  intro n
  induction n with
  | zero => intro i s; rfl
  | succ n ih =>
    intro i s
    rw [List.range'_succ, List.map_cons]
    simp only [visit_in_order_status, for_loop_status]
    rw [← h i s]
    cases step i s with
    | none => rfl
    | some r =>
      obtain ⟨st, s1⟩ := r
      by_cases hst : st = BASE_SUCCESS
      · simp only [hst, if_true]
        exact ih (i + 1) s1
      · simp only [hst, if_false]

/-- Two nested counted loops with early exit are a traversal, with early exit, of
the list of the pairs of values of their counters, in raster order. -/
theorem nested_for_loop_status_eq_visit {σ : Type}
    (step : Nat → Nat → σ → Option (status × σ))
    (body : Nat × Nat → σ → Option (status × σ)) (origin : Nat → Nat → Nat × Nat)
    (h : ∀ j i s, step j i s = body (origin j i) s) (nh nw : Nat) (s : σ) :
    for_loop_status (fun j => for_loop_status (step j) nw 0) nh 0 s =
      visit_in_order_status body
        ((List.range nh).flatMap (fun j => (List.range nw).map (fun i => origin j i))) s := by
  have key : ∀ n j s, for_loop_status (fun j => for_loop_status (step j) nw 0) n j s =
      visit_in_order_status body
        ((List.range' j n).flatMap (fun j => (List.range' 0 nw).map (fun i => origin j i)))
        s := by
    intro n
    induction n with
    | zero => intro j s; rfl
    | succ n ih =>
      intro j s
      rw [List.range'_succ, List.flatMap_cons, visit_in_order_status_append,
        ← for_loop_status_eq_visit (step j) body (origin j) (h j) nw 0 s]
      simp only [for_loop_status]
      cases for_loop_status (step j) nw 0 s with
      | none => rfl
      | some r =>
        obtain ⟨st, s1⟩ := r
        by_cases hst : st = BASE_SUCCESS
        · simp only [hst, if_true]
          exact ih (j + 1) s1
        · simp only [hst, if_false]
  simp only [List.range_eq_range']
  exact key nh 0 s

/-- For the headers `configure_header` builds and a shift of at most 2, the number
of bytes the encoder writes for a microblock is the number the decoder reads. -/
theorem microblock_record_bytes_agree (header : PTCX_FILE_HEADER) (level : Nat)
    (hc : header.configured) (hl : level ≤ 2) :
    4 + packed_index_bytes (microblock_header header level).quant_step_bits
        (microblock_header header level).block_width
        (microblock_header header level).block_height =
      microblock_bytes (microblock_header header level) ∧
    1 ≤ (microblock_header header level).quant_step_bits ∧
    (microblock_header header level).quant_step_bits < 31 ∧
    (microblock_header header level).quant_control_bits = 16 ∧
    0 < header.block_width ∧ 0 < header.block_height := by
  obtain ⟨h16, hcase⟩ := hc
  rcases hcase with ⟨h1, h2, h3⟩ | ⟨h1, h2, h3⟩ | ⟨h1, h2, h3⟩ | ⟨h1, h2, h3⟩ <;>
  · refine ⟨?_, ?_, ?_, ?_, by omega, by omega⟩ <;>
    · simp only [microblock_bytes, microblock_header, h1, h2, h3, h16]
      try (interval_cases level <;> decide)

/-- C28: for a header with one of the block sizes and step widths
`configure_header` chooses and a shift level of at most 2: the trial of
`quantize_macroblock` at that shift is the traversal, in order, of
`microblock_origins` (rows of microblocks from top to bottom, each from left to
right), quantizing at each origin a microblock of the size of `microblock_header`;
when the size table holds that level for a macroblock, the body of
`inverse_quantize` for the macroblock is the traversal of the same list of
origins, in the same order, reading at each origin a microblock of the same
size; and for each microblock `quantize_microblock` appends as many bytes (four
control bytes and the index bytes) as `read_macroblock` consumes,
`microblock_bytes` of them. -/
theorem inverse_quantize_follows_the_order_of_the_encoder (header : PTCX_FILE_HEADER)
    (level : Nat) (hc : header.configured) (hl : level ≤ 2) :
    (∀ (sqrt : Nat → Nat) (input : image) (pixel_x pixel_y : Nat) (buffer : ring_buffer),
      quantize_macroblock_trial sqrt input header pixel_x pixel_y level buffer =
        match visit_in_order
            (fun origin st => quantize_microblock sqrt input (microblock_header header level)
              origin.1 origin.2 st.1 st.2)
            (microblock_origins header level pixel_x pixel_y) (buffer.empty, 0) with
        | none => none
        | some st =>
          if (header.block_width * header.block_height) % U32 = 0 then none
          else some (st.1, st.2 / ((header.block_width * header.block_height) % U32))) ∧
    (∀ (table : List Nat) (jb ib : Nat) (st : memory_stream × image),
      query_macroblock_shift table ib (header.image_width / header.block_width) jb =
        some level →
      inverse_quantize_macroblock header table jb ib st =
        visit_in_order_status
          (fun origin st =>
            match read_macroblock st.1 (microblock_header header level) origin.1 origin.2
                st.2 with
            | none => none
            | some r =>
              if base_failed r.1 then some (base_post_error BASE_ERROR_EXECUTION_FAILURE, r.2)
              else some (BASE_SUCCESS, r.2))
          (microblock_origins header level (ib * header.block_width)
            (jb * header.block_height)) st) ∧
    (∀ (sqrt : Nat → Nat) (input : image) (x y : Nat) (output out2 : ring_buffer)
        (error e2 : Nat) (bytes : List Nat),
      output.filling bytes →
      bytes.length + microblock_bytes (microblock_header header level) ≤ output.data.length →
      quantize_microblock sqrt input (microblock_header header level) x y output error =
        some (out2, e2) →
      ∃ record, out2.filling (bytes ++ record) ∧
        record.length = microblock_bytes (microblock_header header level)) ∧
    ∀ (s : memory_stream) (img : image) (x y w h : Nat),
      x + (microblock_header header level).block_width ≤ w →
      y + (microblock_header header level).block_height ≤ h →
      24 * (w * h) < U32 → s.linear → img.shaped w h →
      microblock_bytes (microblock_header header level) ≤ s.unread.length →
      ∃ img', read_macroblock s (microblock_header header level) x y img =
        some (BASE_SUCCESS, s.advance (microblock_bytes (microblock_header header level)),
          img') := by
  obtain ⟨hbytes, hb1, hb2, h16, hbw, hbh⟩ := microblock_record_bytes_agree header level hc hl
  obtain ⟨_, _, hmw, hmh⟩ := microblock_header_fields header level
  refine ⟨?_, ?_, ?_, ?_⟩
  · intro sqrt input px py buffer
    unfold quantize_macroblock_trial microblock_origins
    rw [nested_for_loop_eq_visit
      (quantize_macroblock_step sqrt input (microblock_header header level) px py)
      (fun origin st => quantize_microblock sqrt input (microblock_header header level)
        origin.1 origin.2 st.1 st.2)
      (fun micro_j micro_i =>
        ((px + micro_i * (microblock_header header level).block_width) % U32,
          (py + micro_j * (microblock_header header level).block_height) % U32))
      (fun _ _ _ => rfl)]
  · intro table jb ib st hq
    unfold inverse_quantize_macroblock microblock_origins
    have hne : ¬ (header.block_width = 0 ∨ header.block_height = 0) := by omega
    rw [if_neg hne, Nat.mul_div_cancel _ hbw, Nat.mul_div_cancel _ hbh, hq]
    simp only []
    rw [nested_for_loop_status_eq_visit
      (inverse_quantize_step (microblock_header header level) (ib * header.block_width)
        (jb * header.block_height))
      (fun origin st =>
        match read_macroblock st.1 (microblock_header header level) origin.1 origin.2
            st.2 with
        | none => none
        | some r =>
          if base_failed r.1 then some (base_post_error BASE_ERROR_EXECUTION_FAILURE, r.2)
          else some (BASE_SUCCESS, r.2))
      (fun micro_j micro_i =>
        ((ib * header.block_width + micro_i * (microblock_header header level).block_width)
            % U32,
          (jb * header.block_height + micro_j * (microblock_header header level).block_height)
            % U32))
      (fun _ _ _ => rfl)]
  · intro sqrt input x y output out2 error e2 bytes hf hroom hq
    obtain ⟨range, q, extra, _, _, f3, f4, _, _⟩ := quantize_microblock_filling sqrt input
      (microblock_header header level) x y output out2 error e2 bytes h16 hf
      (by rw [hbytes]; exact hroom) hq
    refine ⟨control_bytes range ++ extra, f3, ?_⟩
    rw [List.length_append, f4, ← hbytes]
    simp [control_bytes]
  · intro s img x y w h hx hy hsz hlin hs hroom
    obtain ⟨img', h1, _⟩ := (read_macroblock_consume (microblock_header header level) s img
      hb1 hb2 (by omega) (by omega) hx hy hsz hlin hs).1 hroom
    exact ⟨img', h1⟩

/-- Witness of `inverse_quantize_follows_the_order_of_the_encoder`: the header of
a 32 x 32 image at quality 0 and shift 2, where a macroblock has sixteen 4 x 4
microblocks. -/
theorem inverse_quantize_follows_the_order_of_the_encoder_witness :
    (microblock_origins (configure_header (solid_image 32 32 ⟨1, 2, 3⟩) 0) 2 16 0).length =
      16 ∧
    ∀ (table : List Nat) (jb ib : Nat) (st : memory_stream × image),
      query_macroblock_shift table ib
          ((configure_header (solid_image 32 32 ⟨1, 2, 3⟩) 0).image_width /
            (configure_header (solid_image 32 32 ⟨1, 2, 3⟩) 0).block_width) jb = some 2 →
      inverse_quantize_macroblock (configure_header (solid_image 32 32 ⟨1, 2, 3⟩) 0) table
          jb ib st =
        visit_in_order_status
          (fun origin st =>
            match read_macroblock st.1
                (microblock_header (configure_header (solid_image 32 32 ⟨1, 2, 3⟩) 0) 2)
                origin.1 origin.2 st.2 with
            | none => none
            | some r =>
              if base_failed r.1 then some (base_post_error BASE_ERROR_EXECUTION_FAILURE, r.2)
              else some (BASE_SUCCESS, r.2))
          (microblock_origins (configure_header (solid_image 32 32 ⟨1, 2, 3⟩) 0) 2
            (ib * (configure_header (solid_image 32 32 ⟨1, 2, 3⟩) 0).block_width)
            (jb * (configure_header (solid_image 32 32 ⟨1, 2, 3⟩) 0).block_height)) st :=
  ⟨by decide,
    (inverse_quantize_follows_the_order_of_the_encoder
      (configure_header (solid_image 32 32 ⟨1, 2, 3⟩) 0) 2
      (configure_header_configured _ 0) (by decide)).2.1⟩

/-! ## what a uniform image decodes to -/

/-- C31: when `save_ptcx` returns `BASE_SUCCESS` on an image whose pixels all
have the colour `(c0, c1, c2)` (of byte channels), at any quality, having
written into an empty stream that has room for the whole encoding, `load_ptcx`
on the result returns `BASE_SUCCESS` with an R8G8B8 image of the same width and
height whose every pixel is `(8 * (c0 / 8), 4 * (c1 / 4), 8 * (c2 / 8))`, the
colour after the 5:6:5 packing of the control values. -/
theorem uniform_image_decodes_to_the_565_colour (sqrt : Nat → Nat) (input : image)
    (quality : Nat) (output out' : memory_stream) (decoded_into : image) (n : Nat) (c : color)
    (hc : c.c0 < 256 ∧ c.c1 < 256 ∧ c.c2 < 256)
    (huni : ∀ x y, x < input.query_width → y < input.query_height →
      input.pixel_at x y = some c)
    (hout : output.holds [])
    (hsave : save_ptcx sqrt input quality output = some (BASE_SUCCESS, out'))
    (hsize : encoding_size sqrt input quality = some n)
    (hfit : n ≤ output.data.data.length) :
    ∃ rest img, load_ptcx out' decoded_into = some (BASE_SUCCESS, rest, img) ∧
      img.query_image_format = IGN_IMAGE_FORMAT_R8G8B8 ∧
      img.query_width = input.query_width ∧ img.query_height = input.query_height ∧
      ∀ x y, x < input.query_width → y < input.query_height →
        img.pixel_at x y = some ⟨8 * (c.c0 / 8), 4 * (c.c1 / 4), 8 * (c.c2 / 8)⟩ := by
  obtain ⟨rest, img, hload, hfmt, hw, hh, _, _, hpix⟩ :=
    uniform_image_round_trip sqrt input quality output out' decoded_into n c hc huni hout hsave
      hsize hfit
  exact ⟨rest, img, hload, hfmt, hw, hh, hpix⟩

/-- Witness of `uniform_image_decodes_to_the_565_colour`: the 16 x 16 image of
colour (100,150,200) at quality 2, encoded into an empty stream of 4096 bytes,
decodes to pixels (96,148,200), for every square root function. -/
theorem uniform_image_decodes_to_the_565_colour_witness :
    (8 * (100 / 8), 4 * (150 / 4), 8 * (200 / 8)) = (96, 148, 200) ∧
    ∀ sqrt : Nat → Nat, ∃ out' rest img,
      save_ptcx sqrt (solid_image 16 16 ⟨100, 150, 200⟩) 2 (fresh_stream 4096) =
        some (BASE_SUCCESS, out') ∧
      load_ptcx out' image.new = some (BASE_SUCCESS, rest, img) ∧
      img.query_image_format = IGN_IMAGE_FORMAT_R8G8B8 ∧
      img.query_width = 16 ∧ img.query_height = 16 ∧
      ∀ x y, x < 16 → y < 16 → img.pixel_at x y = some ⟨96, 148, 200⟩ := by
  refine ⟨by decide, fun sqrt => ?_⟩
  obtain ⟨out', n, hs, hn, hle⟩ := save_ptcx_solid_16 sqrt ⟨100, 150, 200⟩
  obtain ⟨rest, img, h⟩ := uniform_image_decodes_to_the_565_colour sqrt
    (solid_image 16 16 ⟨100, 150, 200⟩) 2 (fresh_stream 4096) out' image.new n ⟨100, 150, 200⟩
    (by decide) (fun x y hx hy => solid_image_pixel_at 16 16 _ (by decide) hx hy)
    (fresh_stream_holds 4096 (by decide)).1 hs hn hle
  exact ⟨out', rest, img, hs, h⟩

/-! ## the threshold of quantize_macroblock -/

/-- The table entry `quantize_macroblock` writes, from the errors of its trials. -/
theorem quantize_macroblock_table_entry (sqrt : Nat → Nat) (input : image)
    (header : PTCX_FILE_HEADER) (px py : Nat)
    (st st' : (ring_buffer × ring_buffer × ring_buffer) × List Nat × memory_stream)
    (result : status) (b0 b1 b2 : ring_buffer) (mse0 mse1 mse2 : Nat)
    (h0 : quantize_macroblock_trial sqrt input header px py 0 st.1.1 = some (b0, mse0))
    (h1 : quantize_macroblock_trial sqrt input header px py 1 st.1.2.1 = some (b1, mse1))
    (h2 : quantize_macroblock_trial sqrt input header px py 2 st.1.2.2 = some (b2, mse2))
    (h : quantize_macroblock sqrt input header px py st = some (result, st')) :
    result = BASE_SUCCESS ∧
    write_macroblock_table_entry st.2.1 (px / header.block_width)
      (header.image_width / header.block_width) (py / header.block_height)
      (if mse0 ≤ 64 then 0 else if mse1 ≤ 64 then 1 else 2) = some st'.2.1 := by
  have hq : PTCX_QUALITY_DELTA = 64 := rfl
  unfold quantize_macroblock at h
  rw [h0] at h
  simp only [] at h
  rw [h1] at h
  simp only [] at h
  rw [h2] at h
  simp only [] at h
  split at h
  · simp at h
  rw [hq] at h
  cases hw : write_macroblock_table_entry st.2.1 (px / header.block_width)
      (header.image_width / header.block_width) (py / header.block_height)
      (if mse0 ≤ 64 then 0 else if mse1 ≤ 64 then 1 else 2) with
  | none => rw [hw] at h; simp at h
  | some table =>
    rw [hw] at h
    simp only [] at h
    split at h
    · simp at h
    split at h
    · simp at h
    simp only [Option.some.injEq, Prod.mk.injEq] at h
    obtain ⟨r1, r2⟩ := h
    subst r2
    exact ⟨r1.symm, rfl⟩

/-- The quotient of a total by a positive pixel count is at most 64 exactly when
the total is below 65 times the count. -/
theorem mean_le_64_iff (total count : Nat) (hcount : 0 < count) :
    total / count ≤ 64 ↔ total < 65 * count := by
  rw [← Nat.lt_succ_iff, Nat.div_lt_iff_lt_mul hcount]

/-- The threshold of `quantize_macroblock` on the rounded mean: with `total_k` the
squared error the microblocks of the trial at shift `k` accumulated and
`N = block_width * block_height` (in 32 bits, not 0), the error compared with 64
is the quotient `total_k / N` of the integer division; so the level handed to
`write_macroblock_table_entry` is 0 exactly when `total_0 < 65 * N`, else 1
exactly when `total_1 < 65 * N`, else 2; in particular level 0 is handed over for
every `total_0` with `64 * N < total_0 < 65 * N`, whose exact mean lies strictly
between 64 and 65. -/
theorem quantize_macroblock_threshold_is_on_the_rounded_mean (sqrt : Nat → Nat)
    (input : image) (header : PTCX_FILE_HEADER) (px py : Nat)
    (st st' : (ring_buffer × ring_buffer × ring_buffer) × List Nat × memory_stream)
    (result : status) (b0 b1 b2 : ring_buffer) (total0 total1 total2 : Nat)
    (hN : (header.block_width * header.block_height) % U32 ≠ 0)
    (h0 : for_loop (fun micro_j => for_loop
          (quantize_macroblock_step sqrt input (microblock_header header 0) px py micro_j)
          (header.block_width / (microblock_header header 0).block_width) 0)
        (header.block_height / (microblock_header header 0).block_height) 0
        (st.1.1.empty, 0) = some (b0, total0))
    (h1 : for_loop (fun micro_j => for_loop
          (quantize_macroblock_step sqrt input (microblock_header header 1) px py micro_j)
          (header.block_width / (microblock_header header 1).block_width) 0)
        (header.block_height / (microblock_header header 1).block_height) 0
        (st.1.2.1.empty, 0) = some (b1, total1))
    (h2 : for_loop (fun micro_j => for_loop
          (quantize_macroblock_step sqrt input (microblock_header header 2) px py micro_j)
          (header.block_width / (microblock_header header 2).block_width) 0)
        (header.block_height / (microblock_header header 2).block_height) 0
        (st.1.2.2.empty, 0) = some (b2, total2))
    (h : quantize_macroblock sqrt input header px py st = some (result, st')) :
    quantize_macroblock_trial sqrt input header px py 0 st.1.1 =
      some (b0, total0 / ((header.block_width * header.block_height) % U32)) ∧
    quantize_macroblock_trial sqrt input header px py 1 st.1.2.1 =
      some (b1, total1 / ((header.block_width * header.block_height) % U32)) ∧
    quantize_macroblock_trial sqrt input header px py 2 st.1.2.2 =
      some (b2, total2 / ((header.block_width * header.block_height) % U32)) ∧
    write_macroblock_table_entry st.2.1 (px / header.block_width)
      (header.image_width / header.block_width) (py / header.block_height)
      (if total0 < 65 * ((header.block_width * header.block_height) % U32) then 0
        else if total1 < 65 * ((header.block_width * header.block_height) % U32) then 1
        else 2) = some st'.2.1 ∧
    (64 * ((header.block_width * header.block_height) % U32) < total0 →
      total0 < 65 * ((header.block_width * header.block_height) % U32) →
      write_macroblock_table_entry st.2.1 (px / header.block_width)
        (header.image_width / header.block_width) (py / header.block_height) 0 =
        some st'.2.1 ∧
      (64 : ℚ) < (total0 : ℚ) / (((header.block_width * header.block_height) % U32 : Nat) : ℚ)) := by
  have hpos : 0 < (header.block_width * header.block_height) % U32 := Nat.pos_of_ne_zero hN
  have t0 : quantize_macroblock_trial sqrt input header px py 0 st.1.1 =
      some (b0, total0 / ((header.block_width * header.block_height) % U32)) := by
    unfold quantize_macroblock_trial
    rw [h0]
    simp only [hN, if_false]
  have t1 : quantize_macroblock_trial sqrt input header px py 1 st.1.2.1 =
      some (b1, total1 / ((header.block_width * header.block_height) % U32)) := by
    unfold quantize_macroblock_trial
    rw [h1]
    simp only [hN, if_false]
  have t2 : quantize_macroblock_trial sqrt input header px py 2 st.1.2.2 =
      some (b2, total2 / ((header.block_width * header.block_height) % U32)) := by
    unfold quantize_macroblock_trial
    rw [h2]
    simp only [hN, if_false]
  obtain ⟨_, hw⟩ := quantize_macroblock_table_entry sqrt input header px py st st' result
    b0 b1 b2 _ _ _ t0 t1 t2 h
  simp only [mean_le_64_iff _ _ hpos] at hw
  refine ⟨t0, t1, t2, hw, ?_⟩
  intro hlo hhi
  rw [if_pos hhi] at hw
  refine ⟨hw, ?_⟩
  rw [lt_div_iff₀ (by exact_mod_cast hpos)]
  exact_mod_cast hlo

/-- Witness of `quantize_macroblock_threshold_is_on_the_rounded_mean`: the only
macroblock of a 2 x 2 image of colour (10,20,30) with the header of quality 4
(`N = 4`), a one-byte table and an empty output stream of 64 bytes. -/
theorem quantize_macroblock_threshold_is_on_the_rounded_mean_witness :
    ∃ st' total0 total1,
      quantize_macroblock Nat.sqrt (solid_image 2 2 ⟨10, 20, 30⟩)
        (configure_header (solid_image 2 2 ⟨10, 20, 30⟩) 4) 0 0
        (((ring_buffer.new.resize_capacity 132).2, (ring_buffer.new.resize_capacity 132).2,
          (ring_buffer.new.resize_capacity 132).2), [0], fresh_stream 64) =
        some (BASE_SUCCESS, st') ∧
      write_macroblock_table_entry [0]
        (0 / (configure_header (solid_image 2 2 ⟨10, 20, 30⟩) 4).block_width)
        ((configure_header (solid_image 2 2 ⟨10, 20, 30⟩) 4).image_width /
          (configure_header (solid_image 2 2 ⟨10, 20, 30⟩) 4).block_width)
        (0 / (configure_header (solid_image 2 2 ⟨10, 20, 30⟩) 4).block_height)
        (if total0 < 65 * (((configure_header (solid_image 2 2 ⟨10, 20, 30⟩) 4).block_width *
            (configure_header (solid_image 2 2 ⟨10, 20, 30⟩) 4).block_height) % U32) then 0
          else if total1 < 65 *
            (((configure_header (solid_image 2 2 ⟨10, 20, 30⟩) 4).block_width *
              (configure_header (solid_image 2 2 ⟨10, 20, 30⟩) 4).block_height) % U32) then 1
          else 2) = some st'.2.1 := by
  have hc := configure_header_configured (solid_image 2 2 ⟨10, 20, 30⟩) 4
  have hread : ∀ x y, x < (solid_image 2 2 ⟨10, 20, 30⟩).query_width →
      y < (solid_image 2 2 ⟨10, 20, 30⟩).query_height →
      ∃ c, (solid_image 2 2 ⟨10, 20, 30⟩).pixel_at x y = some c :=
    fun x y hx hy => ⟨_, solid_image_pixel_at 2 2 _ (by decide) hx hy⟩
  obtain ⟨hout, hcap⟩ := fresh_stream_holds 64 (by decide)
  obtain ⟨⟨b0, e0⟩, h0⟩ := quantize_macroblock_trial_defined Nat.sqrt
    (solid_image 2 2 ⟨10, 20, 30⟩) (configure_header (solid_image 2 2 ⟨10, 20, 30⟩) 4) 0 0 0
    (ring_buffer.new.resize_capacity 132).2 hc hread (by decide) (by decide)
  obtain ⟨⟨b1, e1⟩, h1⟩ := quantize_macroblock_trial_defined Nat.sqrt
    (solid_image 2 2 ⟨10, 20, 30⟩) (configure_header (solid_image 2 2 ⟨10, 20, 30⟩) 4) 0 0 1
    (ring_buffer.new.resize_capacity 132).2 hc hread (by decide) (by decide)
  obtain ⟨⟨b2, e2⟩, h2⟩ := quantize_macroblock_trial_defined Nat.sqrt
    (solid_image 2 2 ⟨10, 20, 30⟩) (configure_header (solid_image 2 2 ⟨10, 20, 30⟩) 4) 0 0 2
    (ring_buffer.new.resize_capacity 132).2 hc hread (by decide) (by decide)
  obtain ⟨t0, l0, _⟩ := quantize_macroblock_trial_mean Nat.sqrt _ _ 0 0 0 _ _ _ h0
  obtain ⟨t1, l1, _⟩ := quantize_macroblock_trial_mean Nat.sqrt _ _ 0 0 1 _ _ _ h1
  obtain ⟨t2, l2, _⟩ := quantize_macroblock_trial_mean Nat.sqrt _ _ 0 0 2 _ _ _ h2
  obtain ⟨st', hq⟩ := quantize_macroblock_total Nat.sqrt (solid_image 2 2 ⟨10, 20, 30⟩)
    (configure_header (solid_image 2 2 ⟨10, 20, 30⟩) 4) 0 0
    (((ring_buffer.new.resize_capacity 132).2, (ring_buffer.new.resize_capacity 132).2,
      (ring_buffer.new.resize_capacity 132).2), [0], fresh_stream 64) [] 1 hc hread
    (by decide) (by decide) (by decide!) (by decide!) (by decide!) rfl hout (by decide)
  simp only [Nat.zero_mul] at hq
  obtain ⟨_, _, _, r4, _⟩ := quantize_macroblock_threshold_is_on_the_rounded_mean Nat.sqrt
    (solid_image 2 2 ⟨10, 20, 30⟩) (configure_header (solid_image 2 2 ⟨10, 20, 30⟩) 4) 0 0
    (((ring_buffer.new.resize_capacity 132).2, (ring_buffer.new.resize_capacity 132).2,
      (ring_buffer.new.resize_capacity 132).2), [0], fresh_stream 64) st' BASE_SUCCESS
    b0 b1 b2 t0 t1 t2 (by decide) l0 l1 l2 hq
  exact ⟨st', t0, t1, hq, r4⟩

/-! ## the capacity of the scratch stream -/

/-- Whatever levels the macroblocks select, their records need at most 8 bytes
for every pixel of the macroblocks. -/
theorem sum_trial_bytes_le (header : PTCX_FILE_HEADER) (hc : header.configured)
    (levels : List Nat) (hl : ∀ l, l ∈ levels → l ≤ 2) :
    (levels.map (trial_bytes header)).sum ≤
      levels.length * (8 * (header.block_width * header.block_height)) := by
  induction levels with
  | nil => simp
  | cons l ls ih =>
    have h1 := (trial_bytes_configured header hc l (hl l (List.mem_cons_self _ _))).2.2.2.1
    have h2 := ih (fun x hx => hl x (List.mem_cons_of_mem _ hx))
    simp only [List.map_cons, List.sum_cons, List.length_cons, Nat.add_mul, Nat.one_mul]
    omega

/-- C33: for a readable image whose width and height are multiples of 16 below
65536 and whose number of macroblocks is a multiple of 4 (and not 0), within the
array limit, and every quality: `prepare_temporary_buffers` reserves
`(image_width / 2) * (image_height * 2) * 8 = 8 * width * height` bytes for the
scratch stream; whatever levels (of at most 2) the macroblocks select, the bytes
of their records total at most that capacity; and `quantize_worker` returns
`BASE_SUCCESS` with a scratch stream that holds, for some such levels, all the
bytes of all the records, none dropped. -/
theorem scratch_stream_capacity_suffices (sqrt : Nat → Nat) (input : image) (quality : Nat)
    (hread : ∀ x y, x < input.query_width → y < input.query_height →
      ∃ c, input.pixel_at x y = some c)
    (hW : input.query_width % 16 = 0) (hH : input.query_height % 16 = 0)
    (hw16 : input.query_width < 65536) (hh16 : input.query_height < 65536)
    (h4 : ((input.query_width / (configure_header input quality).block_width) *
      (input.query_height / (configure_header input quality).block_height)) % 4 = 0)
    (hcount : 4 ≤ (input.query_width / (configure_header input quality).block_width) *
      (input.query_height / (configure_header input quality).block_height))
    (hmax : 8 * (input.query_width * input.query_height) ≤ BASE_MAX_ARRAY_SIZE) :
    (∀ levels : List Nat,
      levels.length = (input.query_height / (configure_header input quality).block_height) *
        (input.query_width / (configure_header input quality).block_width) →
      (∀ l, l ∈ levels → l ≤ 2) →
      (levels.map (trial_bytes (configure_header input quality))).sum ≤
        ((configure_header input quality).image_width / 2) *
          ((configure_header input quality).image_height * 2) * 8) ∧
    ∃ (s0 : memory_stream) (table0 table' : List Nat) (scratch' : memory_stream)
        (acc levels : List Nat),
      prepare_temporary_buffers (configure_header input quality) memory_stream.new [] =
        some (BASE_SUCCESS, s0, table0) ∧
      s0.data.data.length =
        ((configure_header input quality).image_width / 2) *
          ((configure_header input quality).image_height * 2) * 8 ∧
      ((configure_header input quality).image_width / 2) *
          ((configure_header input quality).image_height * 2) * 8 =
        8 * (input.query_width * input.query_height) ∧
      quantize_worker sqrt input (configure_header input quality) table0 s0 =
        some (BASE_SUCCESS, table', scratch') ∧
      scratch'.holds acc ∧
      levels.length = (input.query_height / (configure_header input quality).block_height) *
        (input.query_width / (configure_header input quality).block_width) ∧
      (∀ l, l ∈ levels → l ≤ 2) ∧
      acc.length = (levels.map (trial_bytes (configure_header input quality))).sum ∧
      acc.length ≤ s0.data.data.length := by
  have hc := configure_header_configured input quality
  obtain ⟨_, _, _, f4, f5⟩ := configure_header_fields input quality
  rw [Nat.mod_eq_of_lt hw16] at f4
  rw [Nat.mod_eq_of_lt hh16] at f5
  generalize configure_header input quality = header at *
  obtain ⟨hbw2, hbh2, _, _, dW, _, _, _, _, _, _, _, _⟩ := configured_divides header hc hW
  obtain ⟨_, _, _, _, _, dH, _, _, _, _, _, _, _⟩ := configured_divides header hc hH
  have hcapeq : (header.image_width / 2) * (header.image_height * 2) * 8 =
      8 * (input.query_width * input.query_height) := by
    rw [f4, f5]
    have e3 : 2 * (input.query_width / 2) = input.query_width := by omega
    calc (input.query_width / 2) * (input.query_height * 2) * 8
        = 8 * ((2 * (input.query_width / 2)) * input.query_height) := by ring
      _ = 8 * (input.query_width * input.query_height) := by rw [e3]
  have hgrid : (input.query_height / header.block_height) *
      (input.query_width / header.block_width) *
        (8 * (header.block_width * header.block_height)) =
      (header.image_width / 2) * (header.image_height * 2) * 8 := by
    rw [f4, f5]
    exact scratch_capacity_eq dW dH (by omega)
  have hbound : ∀ levels : List Nat,
      levels.length = (input.query_height / header.block_height) *
        (input.query_width / header.block_width) →
      (∀ l, l ∈ levels → l ≤ 2) →
      (levels.map (trial_bytes header)).sum ≤
        (header.image_width / 2) * (header.image_height * 2) * 8 := by
    intro levels hlen hl
    have := sum_trial_bytes_le header hc levels hl
    rw [hlen, hgrid] at this
    exact this
  refine ⟨hbound, ?_⟩
  rw [← f4, ← f5] at h4 hcount hmax
  have hM : BASE_MAX_ARRAY_SIZE = 4194304 := by decide
  have hcnt : (header.image_width / header.block_width) *
      (header.image_height / header.block_height) ≤ header.image_width * header.image_height :=
    Nat.mul_le_mul (Nat.div_le_self _ _) (Nat.div_le_self _ _)
  obtain ⟨s0, hprep, hs0⟩ := prepare_temporary_buffers_total header (by omega) (by omega)
    (by rw [f4]; omega) hcount hmax
  obtain ⟨table', scratch, hwork⟩ := quantize_worker_total sqrt input header s0 hc hread hW hH
    f4 f5 h4 (by omega) hs0
  obtain ⟨_, htab, hT0, _, hcap0, _⟩ :=
    prepare_temporary_buffers_spec header BASE_SUCCESS s0 _ hprep rfl
  have hT4 : (((((header.image_width / header.block_width) *
      (header.image_height / header.block_height)) <<< 1) % U32) >>> 3) =
      ((header.image_width / header.block_width) *
        (header.image_height / header.block_height)) >>> 2 := by
    simp only [U32, Nat.shiftLeft_eq, Nat.shiftRight_eq_div_pow]
    rw [Nat.mod_eq_of_lt (by omega)]
    omega
  obtain ⟨_, _, _, _, acc, hacc, _, hR⟩ :=
    quantize_worker_spec sqrt input header _ s0 table' scratch
      (fun k acc => ∃ levels : List Nat, levels.length = k ∧ (∀ l, l ∈ levels → l ≤ 2) ∧
        acc.length = (levels.map (trial_bytes header)).sum) hc hW hH
      (by rw [f4]; omega) (by rw [f5]; omega) hT4.symm (by rw [← hT4]; exact hT0) (by omega)
      hs0 hcap0 ⟨[], rfl, by simp, rfl⟩
      (by
        intro j i acc block level b b0 e0 bs0 _ _ hR hlev hblk _ _ _ _
        obtain ⟨levels, l1, l2, l3⟩ := hR
        refine ⟨levels ++ [level], by simp [l1], ?_, ?_⟩
        · intro l hl
          rcases List.mem_append.mp hl with h | h
          · exact l2 l h
          · rw [List.mem_singleton.mp h]; exact hlev
        · rw [List.length_append, l3, hblk]
          simp)
      hwork
  obtain ⟨levels, l1, l2, l3⟩ := hR
  rw [f4, f5] at l1
  refine ⟨s0, _, table', scratch, acc, levels, hprep, hcap0, hcapeq, hwork, hacc, l1, l2, l3, ?_⟩
  rw [l3, hcap0]
  exact hbound levels l1 l2

/-- Witness of `scratch_stream_capacity_suffices`: the 32 x 32 image of colour
(9,8,7) at quality 0, four macroblocks and a scratch stream of 8192 bytes. -/
theorem scratch_stream_capacity_suffices_witness :
    ((configure_header (solid_image 32 32 ⟨9, 8, 7⟩) 0).image_width / 2) *
        ((configure_header (solid_image 32 32 ⟨9, 8, 7⟩) 0).image_height * 2) * 8 = 8192 ∧
    ∀ sqrt : Nat → Nat,
      ∃ (s0 : memory_stream) (table0 table' : List Nat) (scratch' : memory_stream)
          (acc levels : List Nat),
        prepare_temporary_buffers (configure_header (solid_image 32 32 ⟨9, 8, 7⟩) 0)
          memory_stream.new [] = some (BASE_SUCCESS, s0, table0) ∧
        quantize_worker sqrt (solid_image 32 32 ⟨9, 8, 7⟩)
          (configure_header (solid_image 32 32 ⟨9, 8, 7⟩) 0) table0 s0 =
          some (BASE_SUCCESS, table', scratch') ∧
        scratch'.holds acc ∧
        acc.length =
          (levels.map (trial_bytes (configure_header (solid_image 32 32 ⟨9, 8, 7⟩) 0))).sum ∧
        acc.length ≤ s0.data.data.length := by
  refine ⟨by decide, fun sqrt => ?_⟩
  obtain ⟨_, s0, table0, table', scratch', acc, levels, h1, _, _, h4, h5, _, _, h8, h9⟩ :=
    scratch_stream_capacity_suffices sqrt (solid_image 32 32 ⟨9, 8, 7⟩) 0
      (fun x y hx hy => ⟨_, solid_image_pixel_at 32 32 _ (by decide) hx hy⟩)
      (by decide) (by decide) (by decide) (by decide) (by decide) (by decide) (by decide)
  exact ⟨s0, table0, table', scratch', acc, levels, h1, h4, h5, h8, h9⟩

/-! ## the step widths quantize_image lets through -/

/-- The values of a `uint8` that `is_pow2` accepts: the powers of two and 0. -/
theorem is_pow2_uint8 (bits : Nat) (hb : bits < 256) :
    is_pow2 bits = true ↔
      (bits = 0 ∨ bits = 1 ∨ bits = 2 ∨ bits = 4 ∨ bits = 8 ∨ bits = 16 ∨ bits = 32 ∨
        bits = 64 ∨ bits = 128) := by
  have key : ∀ b, b < 256 → (is_pow2 b = true ↔
      (b = 0 ∨ b = 1 ∨ b = 2 ∨ b = 4 ∨ b = 8 ∨ b = 16 ∨ b = 32 ∨ b = 64 ∨ b = 128)) := by
    decide!
  exact key bits hb

/-- `quantize_image` returns `BASE_ERROR_INVALIDARG` only from its parameter check. -/
theorem quantize_image_invalidarg_iff (sqrt : Nat → Nat) (input : image)
    (header : PTCX_FILE_HEADER) (out_stream : memory_stream) :
    (is_pow2 header.quant_step_bits = false →
      quantize_image sqrt input header out_stream =
        some (BASE_ERROR_INVALIDARG, out_stream)) ∧
    (is_pow2 header.quant_step_bits = true →
      ∀ r, quantize_image sqrt input header out_stream = some r →
        r.1 ≠ BASE_ERROR_INVALIDARG) := by
  constructor
  · intro h
    unfold quantize_image
    simp [h, BASE_PARAM_CHECK, base_post_error]
  · intro h r hr
    unfold quantize_image at hr
    simp only [h, BASE_PARAM_CHECK, Bool.not_true, Bool.and_false, Bool.false_eq_true,
      if_false, base_post_error] at hr
    repeat' split at hr
    all_goals first
      | (simp at hr; done)
      | (simp only [Option.some.injEq] at hr; rw [← hr]; simp)

/-- A counted loop whose first iteration is undefined is undefined. -/
theorem for_loop_none_of_first {σ : Type} (body : Nat → σ → Option σ) (n i : Nat) (s : σ)
    (hn : 0 < n) (h : body i s = none) : for_loop body n i s = none := by
  obtain ⟨m, rfl⟩ : ∃ m, n = m + 1 := ⟨n - 1, by omega⟩
  simp only [for_loop, h]

/-- A counted loop with early exit whose first iteration is undefined is
undefined. -/
theorem for_loop_status_none_of_first {σ : Type} (body : Nat → σ → Option (status × σ))
    (n i : Nat) (s : σ) (hn : 0 < n) (h : body i s = none) :
    for_loop_status body n i s = none := by
  obtain ⟨m, rfl⟩ : ∃ m, n = m + 1 := ⟨n - 1, by omega⟩
  simp only [for_loop_status, h]

/-- With 0 step bits the step count of `quantize_pixel` is 0 and the
reconstruction divides by it. -/
theorem quantize_pixel_zero_bits (sqrt : Nat → Nat) (range : PTCX_PIXEL_RANGE) (p : color) :
    quantize_pixel sqrt 0 range p true = none := by
  simp [quantize_pixel, to_uint8]

/-- With 0 step bits `quantize_macroblock` is undefined on a macroblock of a
readable image: the first pixel of its first trial divides by the step count 0. -/
theorem quantize_macroblock_zero_bits (sqrt : Nat → Nat) (input : image)
    (header : PTCX_FILE_HEADER) (px py : Nat)
    (st : (ring_buffer × ring_buffer × ring_buffer) × List Nat × memory_stream)
    (hb : header.quant_step_bits = 0)
    (hbw : 2 ≤ header.block_width) (hbh : 2 ≤ header.block_height)
    (hbw16 : header.block_width < 65536) (hbh16 : header.block_height < 65536)
    (hread : ∀ x y, x < input.query_width → y < input.query_height →
      ∃ c, input.pixel_at x y = some c)
    (hx : px + header.block_width ≤ input.query_width)
    (hy : py + header.block_height ≤ input.query_height) :
    quantize_macroblock sqrt input header px py st = none := by
  have hmh : microblock_header header 0 = header := by
    cases header
    simp only [microblock_header, Nat.shiftRight_zero] at *
    rw [Nat.mod_eq_of_lt hbw16, Nat.mod_eq_of_lt hbh16,
      if_neg (by omega), if_neg (by omega)]
  have hW : input.query_width < U32 ∨ True := Or.inr trivial
  have hmicro : ∀ out e, quantize_microblock sqrt input header (px % U32) (py % U32) out e =
      none := by
    intro out e
    have h1 := Nat.mod_le px U32
    have h2 := Nat.mod_le py U32
    obtain ⟨range, hr⟩ := range_estimate_min_max_defined header input (px % U32) (py % U32)
      hread (by omega) (by omega)
    obtain ⟨c, hc⟩ := hread ((px % U32 + 0) % U32) ((py % U32 + 0) % U32)
      (by have := Nat.mod_le (px % U32 + 0) U32; omega)
      (by have := Nat.mod_le (py % U32 + 0) U32; omega)
    have hest : estimate_quantization_error sqrt header range input (px % U32) (py % U32) =
        none := by
      unfold estimate_quantization_error
      apply for_loop_none_of_first _ _ _ _ (by omega)
      apply for_loop_none_of_first _ _ _ _ (by omega)
      unfold estimate_quantization_error_step
      rw [hc]
      simp only [hb, quantize_pixel_zero_bits]
    unfold quantize_microblock
    rw [hr]
    simp only [hest]
  have htrial : ∀ buf, quantize_macroblock_trial sqrt input header px py 0 buf = none := by
    intro buf
    unfold quantize_macroblock_trial
    rw [hmh]
    have hd1 : 0 < header.block_width / header.block_width := Nat.div_pos (Nat.le_refl _) (by omega)
    have hd2 : 0 < header.block_height / header.block_height :=
      Nat.div_pos (Nat.le_refl _) (by omega)
    have : for_loop (fun micro_j => for_loop
        (quantize_macroblock_step sqrt input header px py micro_j)
        (header.block_width / header.block_width) 0)
        (header.block_height / header.block_height) 0 (buf.empty, 0) = none := by
      apply for_loop_none_of_first _ _ _ _ hd2
      apply for_loop_none_of_first _ _ _ _ hd1
      unfold quantize_macroblock_step
      simp only [Nat.zero_mul, Nat.add_zero]
      exact hmicro _ _
    rw [this]
  unfold quantize_macroblock
  rw [htrial]

/-- With 0 step bits `quantize_image` passes its parameter check and is then
undefined on a readable image of at least four macroblocks: `quantize_pixel`
divides by the step count 0. -/
theorem quantize_image_zero_bits (sqrt : Nat → Nat) (input : image)
    (header : PTCX_FILE_HEADER) (out_stream : memory_stream)
    (hb : header.quant_step_bits = 0)
    (hbw : 2 ≤ header.block_width) (hbh : 2 ≤ header.block_height)
    (hbw16 : header.block_width < 65536) (hbh16 : header.block_height < 65536)
    (hread : ∀ x y, x < input.query_width → y < input.query_height →
      ∃ c, input.pixel_at x y = some c)
    (hW : input.query_width % header.block_width = 0)
    (hH : input.query_height % header.block_height = 0)
    (hw : header.image_width = input.query_width)
    (hh : header.image_height = input.query_height)
    (hw2 : header.image_width % 2 = 0)
    (hcount : 4 ≤ (header.image_width / header.block_width) *
      (header.image_height / header.block_height))
    (hmax : 8 * (header.image_width * header.image_height) ≤ BASE_MAX_ARRAY_SIZE) :
    quantize_image sqrt input header out_stream = none := by
  obtain ⟨s0, hprep, _⟩ := prepare_temporary_buffers_total header (by omega) (by omega)
    hw2 hcount hmax
  have hwpos : 0 < input.query_width / header.block_width := by
    rw [← hw]
    rcases Nat.eq_zero_or_pos (header.image_width / header.block_width) with h | h
    · rw [h] at hcount; omega
    · exact h
  have hhpos : 0 < input.query_height / header.block_height := by
    rw [← hh]
    rcases Nat.eq_zero_or_pos (header.image_height / header.block_height) with h | h
    · rw [h] at hcount; omega
    · exact h
  have hwle : header.block_width ≤ input.query_width :=
    Nat.le_of_lt_succ (by
      by_contra hc
      have : input.query_width / header.block_width = 0 := Nat.div_eq_of_lt (by omega)
      omega)
  have hhle : header.block_height ≤ input.query_height :=
    Nat.le_of_lt_succ (by
      by_contra hc
      have : input.query_height / header.block_height = 0 := Nat.div_eq_of_lt (by omega)
      omega)
  have hwork : ∀ table s, quantize_worker sqrt input header table s = none := by
    intro table s
    unfold quantize_worker
    rw [trial_buffer_eq]
    rw [strided_count_of_multiple (by omega) hH, strided_count_of_multiple (by omega) hW]
    have h132 : PTCX_MAX_BLOCK_DATA_SIZE = 132 := by decide
    simp only [h132, ne_eq, not_true_eq_false, or_self, if_false]
    have : for_loop_status (fun j => for_loop_status (quantize_worker_step sqrt input header j)
        (input.query_width / header.block_width) 0)
        (input.query_height / header.block_height) 0
        ((⟨List.replicate 132 0, 0, 0⟩, ⟨List.replicate 132 0, 0, 0⟩,
          ⟨List.replicate 132 0, 0, 0⟩), table, s) = none := by
      apply for_loop_status_none_of_first _ _ _ _ hhpos
      apply for_loop_status_none_of_first _ _ _ _ hwpos
      unfold quantize_worker_step
      rw [quantize_macroblock_zero_bits sqrt input header _ _ _ hb hbw hbh hbw16 hbh16 hread
        (by omega) (by omega)]
    rw [this]
  unfold quantize_image
  have hp : is_pow2 header.quant_step_bits = true := by rw [hb]; decide
  simp only [hp, BASE_PARAM_CHECK, Bool.not_true, Bool.and_false, Bool.false_eq_true,
    if_false, hprep, base_failed_success, hwork]

/-- C34 (code defect): `quantize_image` returns `BASE_ERROR_INVALIDARG`, before
anything else, exactly for the step widths that `is_pow2` rejects, and `is_pow2`
accepts, besides 1, 2, 4 and 8, also 0 and 16, 32, 64, 128: for these the check
passes and `quantize_image` never returns `BASE_ERROR_INVALIDARG`. With 0 step
bits a header for a 2 x 2 image then gives `BASE_ERROR_OUTOFMEMORY`, and on the
32 x 32 image of one colour with 16 x 16 blocks the encoder goes on to divide by
the step count 0 in `quantize_pixel` (undefined). -/
theorem quantize_image_lets_zero_step_bits_through :
    (∀ bits, bits < 256 →
      (is_pow2 bits = true ↔
        (bits = 0 ∨ bits = 1 ∨ bits = 2 ∨ bits = 4 ∨ bits = 8 ∨ bits = 16 ∨ bits = 32 ∨
          bits = 64 ∨ bits = 128))) ∧
    (∀ (sqrt : Nat → Nat) (input : image) (header : PTCX_FILE_HEADER)
        (out_stream : memory_stream),
      (is_pow2 header.quant_step_bits = false →
        quantize_image sqrt input header out_stream =
          some (BASE_ERROR_INVALIDARG, out_stream)) ∧
      (is_pow2 header.quant_step_bits = true →
        ∀ r, quantize_image sqrt input header out_stream = some r →
          r.1 ≠ BASE_ERROR_INVALIDARG)) ∧
    (∀ (sqrt : Nat → Nat) (out_stream : memory_stream),
      quantize_image sqrt (solid_image 2 2 ⟨9, 8, 7⟩)
        { configure_header (solid_image 2 2 ⟨9, 8, 7⟩) 4 with quant_step_bits := 0 }
        out_stream = some (BASE_ERROR_OUTOFMEMORY, out_stream)) ∧
    (∀ (sqrt : Nat → Nat) (out_stream : memory_stream),
      quantize_image sqrt (solid_image 2 2 ⟨9, 8, 7⟩)
        { configure_header (solid_image 2 2 ⟨9, 8, 7⟩) 4 with quant_step_bits := 16 }
        out_stream = some (BASE_ERROR_OUTOFMEMORY, out_stream)) ∧
    ∀ (sqrt : Nat → Nat) (out_stream : memory_stream),
      quantize_image sqrt (solid_image 32 32 ⟨9, 8, 7⟩)
        { configure_header (solid_image 32 32 ⟨9, 8, 7⟩) 0 with quant_step_bits := 0 }
        out_stream = none := by
  refine ⟨is_pow2_uint8, quantize_image_invalidarg_iff, ?_, ?_, ?_⟩
  · intro sqrt out_stream
    have hp : prepare_temporary_buffers
        { configure_header (solid_image 2 2 ⟨9, 8, 7⟩) 4 with quant_step_bits := 0 }
        memory_stream.new [] = some (BASE_ERROR_INVALID_RESOURCE, memory_stream.new, []) := by
      decide
    have hq : is_pow2 ({ configure_header (solid_image 2 2 ⟨9, 8, 7⟩) 4 with
        quant_step_bits := 0 } : PTCX_FILE_HEADER).quant_step_bits = true := by decide
    unfold quantize_image
    simp only [hq, hp, BASE_PARAM_CHECK, Bool.not_true, Bool.and_false, Bool.false_eq_true,
      if_false]
    rw [if_pos (by decide)]
    rfl
  · intro sqrt out_stream
    have hp : prepare_temporary_buffers
        { configure_header (solid_image 2 2 ⟨9, 8, 7⟩) 4 with quant_step_bits := 16 }
        memory_stream.new [] = some (BASE_ERROR_INVALID_RESOURCE, memory_stream.new, []) := by
      decide
    have hq : is_pow2 ({ configure_header (solid_image 2 2 ⟨9, 8, 7⟩) 4 with
        quant_step_bits := 16 } : PTCX_FILE_HEADER).quant_step_bits = true := by decide
    unfold quantize_image
    simp only [hq, hp, BASE_PARAM_CHECK, Bool.not_true, Bool.and_false, Bool.false_eq_true,
      if_false]
    rw [if_pos (by decide)]
    rfl
  · intro sqrt out_stream
    exact quantize_image_zero_bits sqrt (solid_image 32 32 ⟨9, 8, 7⟩) _ out_stream rfl
      (by decide) (by decide) (by decide) (by decide)
      (fun x y hx hy => ⟨_, solid_image_pixel_at 32 32 _ (by decide) hx hy⟩)
      (by decide) (by decide) (by decide) (by decide) (by decide) (by decide) (by decide)

/-! ## headers the decoder does not check -/

/-- C35 (code defect): `load_ptcx` checks the magic value, the header size and the
version of a header and nothing else. A 24-byte stream whose header passes these
checks and has `block_width = 0` (for a 16 x 16 image) gets through
`create_image`, and `read_macroblock_table` then divides `image_width` by the
block width 0; a stream whose header has 2 x 2 blocks, `quant_step_bits = 0` and a
4 x 4 image gets through the table, and `read_macroblock` then divides by the
step mask `2^0 - 1 = 0`. Both runs are undefined; no error is returned first. -/
theorem load_ptcx_divides_by_zero_on_unchecked_header :
    (header_of_bytes (header_bytes ⟨PTCX_MAGIC_VALUE, 2, 24, 16, 16, 1, 0, 16, 4, 16, 0⟩)).magic =
      PTCX_MAGIC_VALUE ∧
    (header_of_bytes (header_bytes ⟨PTCX_MAGIC_VALUE, 2, 24, 16, 16, 1, 0, 16, 4, 16, 0⟩)).header_size =
      sizeof_PTCX_FILE_HEADER ∧
    (header_of_bytes (header_bytes ⟨PTCX_MAGIC_VALUE, 2, 24, 16, 16, 1, 0, 16, 4, 16, 0⟩)).version = 2 ∧
    (header_of_bytes (header_bytes ⟨PTCX_MAGIC_VALUE, 2, 24, 16, 16, 1, 0, 16, 4, 16, 0⟩)).block_width = 0 ∧
    (create_image IGN_IMAGE_FORMAT_R8G8B8 16 16 image.new).1 = BASE_SUCCESS ∧
    (∀ s : memory_stream, read_macroblock_table s
      (header_of_bytes (header_bytes ⟨PTCX_MAGIC_VALUE, 2, 24, 16, 16, 1, 0, 16, 4, 16, 0⟩)) = none) ∧
    load_ptcx ⟨⟨header_bytes ⟨PTCX_MAGIC_VALUE, 2, 24, 16, 16, 1, 0, 16, 4, 16, 0⟩, 0, 24⟩⟩
      image.new = none ∧
    (header_of_bytes (header_bytes ⟨PTCX_MAGIC_VALUE, 2, 24, 4, 4, 1, 2, 2, 0, 16, 0⟩)).quant_step_bits = 0 ∧
    (∀ (range : PTCX_PIXEL_RANGE) (x y subi subj step : Nat) (img : image),
      store_dequantized 0 range x y subi subj step img = none) ∧
    load_ptcx ⟨⟨header_bytes ⟨PTCX_MAGIC_VALUE, 2, 24, 4, 4, 1, 2, 2, 0, 16, 0⟩ ++
      [0, 1, 2, 3, 4, 5], 0, 30⟩⟩ image.new = none := by
  refine ⟨by decide, by decide, by decide, by decide, by decide!, ?_, by decide!, by decide,
    ?_, by decide!⟩
  · intro s
    have h0 : (header_of_bytes
        (header_bytes ⟨PTCX_MAGIC_VALUE, 2, 24, 16, 16, 1, 0, 16, 4, 16, 0⟩)).block_width = 0 := by
      decide
    unfold read_macroblock_table
    rw [if_pos (Or.inl h0)]
  · intro range x y subi subj step img
    unfold store_dequantized
    simp only [show ((1 <<< 0) + U32 - 1) % U32 = 0 by decide, if_true]

/-! ## the gather loop of range_estimate_regression -/

/-- Total correctness of a counted loop: when every iteration is defined under the
invariant and carries it over, the loop returns with the invariant. -/
theorem for_loop_total {σ : Type} (body : Nat → σ → Option σ) (I : Nat → σ → Prop) :
    ∀ n i s, (∀ k a, i ≤ k → k < i + n → I k a → ∃ a', body k a = some a' ∧ I (k + 1) a') →
      I i s → ∃ s', for_loop body n i s = some s' ∧ I (i + n) s' := by
  intro n
  induction n with
  | zero => intro i s _ h0; exact ⟨s, rfl, by simpa using h0⟩
  | succ n ih =>
    intro i s h h0
    obtain ⟨s1, h1, i1⟩ := h i s (Nat.le_refl _) (by omega) h0
    obtain ⟨s2, h2, i2⟩ := ih (i + 1) s1 (fun k a hk1 hk2 => h k a (by omega) (by omega)) i1
    refine ⟨s2, ?_, ?_⟩
    · simp only [for_loop, h1]; exact h2
    · rwa [show i + 1 + n = i + (n + 1) by omega] at i2

/-- The same for two nested loops, seen as one pass over `nh * nw` positions. -/
theorem nested_for_loop_total {σ : Type} (step : Nat → Nat → σ → Option σ)
    (I : Nat → σ → Prop) (nh nw : Nat) (s : σ)
    (hstep : ∀ j i a, j < nh → i < nw → I (j * nw + i) a →
      ∃ a', step j i a = some a' ∧ I (j * nw + i + 1) a')
    (h0 : I 0 s) :
    ∃ s', for_loop (fun j => for_loop (step j) nw 0) nh 0 s = some s' ∧ I (nh * nw) s' := by
  have key := for_loop_total (fun j => for_loop (step j) nw 0)
    (fun j a => I (j * nw) a) nh 0 s
    (by
      intro j a _ hj hI
      obtain ⟨a', h1, h2⟩ := for_loop_total (step j) (fun i a => I (j * nw + i) a) nw 0 a
        (by
          intro i b _ hi hIb
          exact hstep j i b (by omega) (by omega) hIb)
        (by simpa using hI)
      refine ⟨a', h1, ?_⟩
      simp only [Nat.zero_add] at h2
      show I ((j + 1) * nw) a'
      rw [Nat.add_mul, Nat.one_mul]
      exact h2)
    (by simpa using h0)
  simpa using key

/-- What the gather loop of `range_estimate_regression` leaves in `pixel_set` for
a block of `n = block_width * block_height` readable pixels, `pix k` being the
`k`-th pixel in raster order: channel 0 of pixel `k` at position `k` for every
`k < n`, channels 1 and 2 of the last pixel at positions `n` and `n + 1`, and
the initial contents everywhere else. -/
theorem range_estimate_regression_gather_result (header : PTCX_FILE_HEADER) (input : image)
    (x y : Nat) (pix : Nat → color) (initial : List Nat)
    (hbw : 0 < header.block_width) (hbh : 0 < header.block_height)
    (hsize : header.block_height * header.block_width + 2 ≤ initial.length)
    (hlen : initial.length < U32)
    (hpix : ∀ subi subj, subi < header.block_width → subj < header.block_height →
      input.pixel_at ((x + subi) % U32) ((y + subj) % U32) =
        some (pix (subj * header.block_width + subi))) :
    ∃ pixel_set, range_estimate_regression_gather header input x y initial = some pixel_set ∧
      pixel_set.length = initial.length ∧
      (∀ k, k < header.block_height * header.block_width →
        pixel_set[k]? = some (pix k).c0) ∧
      pixel_set[header.block_height * header.block_width]? =
        some (pix (header.block_height * header.block_width - 1)).c1 ∧
      pixel_set[header.block_height * header.block_width + 1]? =
        some (pix (header.block_height * header.block_width - 1)).c2 ∧
      ∀ k, header.block_height * header.block_width + 2 ≤ k → pixel_set[k]? = initial[k]? := by
  obtain ⟨ps, hloop, hI⟩ := nested_for_loop_total
    (range_estimate_regression_step input header.block_width x y)
    (fun t (ps : List Nat) =>
      ps.length = initial.length ∧
      (∀ k, k < t → ps[k]? = some (pix k).c0) ∧
      (0 < t → ps[t]? = some (pix (t - 1)).c1 ∧ ps[t + 1]? = some (pix (t - 1)).c2) ∧
      ∀ k, t + 2 ≤ k → ps[k]? = initial[k]?)
    header.block_height header.block_width initial
    (by
      intro j i a hj hi hI
      obtain ⟨i1, i2, i3, i4⟩ := hI
      have hlt := microblock_count_le hj hi
      have hmod : (j * header.block_width + i) % U32 = j * header.block_width + i :=
        Nat.mod_eq_of_lt (by omega)
      unfold range_estimate_regression_step
      rw [hpix i j hi hj]
      simp only [hmod]
      generalize j * header.block_width + i = t at *
      rw [if_pos (by omega)]
      refine ⟨_, rfl, by simp [i1], ?_, ?_, ?_⟩
      · intro k hk
        by_cases hkt : k = t
        · subst hkt
          rw [List.getElem?_set_ne (by omega), List.getElem?_set_ne (by omega),
            List.getElem?_set_self (by omega)]
        · rw [List.getElem?_set_ne (by omega), List.getElem?_set_ne (by omega),
            List.getElem?_set_ne (by omega)]
          exact i2 k (by omega)
      · intro _
        constructor
        · rw [List.getElem?_set_ne (by omega),
            List.getElem?_set_self (by rw [List.length_set]; omega)]
          simp
        · rw [List.getElem?_set_self (by rw [List.length_set, List.length_set]; omega)]
          simp
      · intro k hk
        rw [List.getElem?_set_ne (by omega), List.getElem?_set_ne (by omega),
          List.getElem?_set_ne (by omega)]
        exact i4 k (by omega))
    ⟨rfl, fun k hk => absurd hk (Nat.not_lt_zero _), fun h => absurd h (Nat.lt_irrefl _),
      fun _ _ => rfl⟩
  have hpos : 0 < header.block_height * header.block_width := Nat.mul_pos hbh hbw
  obtain ⟨i1, i2, i3, i4⟩ := hI
  exact ⟨ps, hloop, i1, i2, (i3 hpos).1, (i3 hpos).2, i4⟩

/-- C36 (code defect): the gather loop of `range_estimate_regression` does not
produce the layout `3k, 3k + 1, 3k + 2`. Its index starts at
`subj * block_width + subi`, not at three times that, so for a block of `n`
pixels it leaves channel 0 of pixel `k` at position `k` for `k < n`, channels 1
and 2 of the last pixel at `n` and `n + 1`, and does not write the other
positions. For the 2 x 2 image with pixels (1,2,3), (4,5,6), (7,8,9), (10,11,12)
and a zeroed array the result starts 1, 4, 7, 10, 11, 12, 0, ... where the layout
`compute_linear_squares_3` reads would be 1, 2, 3, 4, ...; the point list it
forms for channels 0 and 1 is (1,4), (10,11), (0,0), (0,0) instead of (1,2),
(4,5), (7,8), (10,11). -/
theorem gather_loop_stores_at_k_instead_of_3k :
    (∀ (header : PTCX_FILE_HEADER) (input : image) (x y : Nat) (pix : Nat → color)
        (initial : List Nat),
      0 < header.block_width → 0 < header.block_height →
      header.block_height * header.block_width + 2 ≤ initial.length →
      initial.length < U32 →
      (∀ subi subj, subi < header.block_width → subj < header.block_height →
        input.pixel_at ((x + subi) % U32) ((y + subj) % U32) =
          some (pix (subj * header.block_width + subi))) →
      ∃ pixel_set,
        range_estimate_regression_gather header input x y initial = some pixel_set ∧
        pixel_set.length = initial.length ∧
        (∀ k, k < header.block_height * header.block_width →
          pixel_set[k]? = some (pix k).c0) ∧
        pixel_set[header.block_height * header.block_width]? =
          some (pix (header.block_height * header.block_width - 1)).c1 ∧
        pixel_set[header.block_height * header.block_width + 1]? =
          some (pix (header.block_height * header.block_width - 1)).c2 ∧
        ∀ k, header.block_height * header.block_width + 2 ≤ k →
          pixel_set[k]? = initial[k]?) ∧
    range_estimate_regression_gather
        (configure_header ⟨IGN_IMAGE_FORMAT_R8G8B8, 2, 2, 24, 3,
          [1, 2, 3, 4, 5, 6, 7, 8, 9, 10, 11, 12]⟩ 4)
        ⟨IGN_IMAGE_FORMAT_R8G8B8, 2, 2, 24, 3, [1, 2, 3, 4, 5, 6, 7, 8, 9, 10, 11, 12]⟩ 0 0
        (List.replicate (PTCX_MAX_BLOCK_SIZE * PTCX_MAX_BLOCK_SIZE * 3) 0) =
      some ([1, 4, 7, 10, 11, 12] ++ List.replicate 762 0) ∧
    ([1, 4, 7, 10, 11, 12] ++ List.replicate 762 0).take 12 ≠
      [1, 2, 3, 4, 5, 6, 7, 8, 9, 10, 11, 12] ∧
    (compute_linear_squares_3_lists ([1, 4, 7, 10, 11, 12] ++ List.replicate 762 0) 4
        (List.replicate 512 0) (List.replicate 512 0)).map (fun r => r.1.take 8) =
      some [1, 4, 10, 11, 0, 0, 0, 0] ∧
    (compute_linear_squares_3_lists
        ([1, 2, 3, 4, 5, 6, 7, 8, 9, 10, 11, 12] ++ List.replicate 756 0) 4
        (List.replicate 512 0) (List.replicate 512 0)).map (fun r => r.1.take 8) =
      some [1, 2, 4, 5, 7, 8, 10, 11] := by
  refine ⟨?_, by decide!, by decide, by decide!, by decide!⟩
  intro header input x y pix initial hbw hbh hsize hlen hpix
  exact range_estimate_regression_gather_result header input x y pix initial hbw hbh hsize
    hlen hpix

/-! ## the ring buffer as a queue -/

/-- Two different positions of a window shorter than the capacity do not meet
modulo the capacity. -/
theorem mod_ne_of_lt_of_sub_lt {a b c : Nat} (hab : a < b) (hc : b - a < c) :
    a % c ≠ b % c := by
  intro h
  have hd : c ∣ b - a := (Nat.modEq_iff_dvd' (Nat.le_of_lt hab)).mp h
  have := Nat.le_of_dvd (by omega) hd
  omega

theorem ring_buffer.represents_occupancy {rb : ring_buffer} {c : Nat} {q : List Nat}
    (h : rb.represents c q) (hc : c < U32) : rb.query_occupancy = q.length := by
  obtain ⟨_, h2, h3, h4, _⟩ := h
  unfold ring_buffer.query_occupancy
  rw [h2] at h4 ⊢
  have : rb.read_index + q.length + U32 - rb.read_index = q.length + U32 := by omega
  rw [this, Nat.add_mod_right]
  exact Nat.mod_eq_of_lt (by omega)

/-- One call on a ring buffer that holds a queue, with room for one more step of
the write index below `2^32`: it returns what the queue specification returns
and holds the queue the specification gives. -/
theorem ring_buffer.call_represents {rb : ring_buffer} {c : Nat} {q : List Nat}
    (h : rb.represents c q) (hc1 : 1 ≤ c) (hc : c < U32) (hw : rb.write_index + 1 < U32)
    (call : ring_call) :
    ∃ rb', rb.call call = some ((fifo_call c q call).1, rb') ∧
      rb'.represents c (fifo_call c q call).2 ∧ rb'.write_index ≤ rb.write_index + 1 := by
  have hocc := ring_buffer.represents_occupancy h hc
  obtain ⟨h1, h2, h3, h4, h5⟩ := h
  cases call with
  | write e =>
    by_cases hfull : q.length < c
    · have hnf : rb.is_full = false := by
        unfold ring_buffer.is_full
        rw [hocc, h1]
        exact decide_eq_false (by omega)
      refine ⟨{ rb with data := rb.data.set (rb.write_index % rb.data.length) e,
                        write_index := (rb.write_index + 1) % U32 }, ?_, ?_, ?_⟩
      · simp only [ring_buffer.call, ring_buffer.write, hnf, fifo_call, hfull, if_true,
          Bool.not_false]
      · simp only [fifo_call, hfull, if_true]
        refine ⟨by simp [h1], ?_, by simp; omega, Nat.mod_lt _ (by simp [U32]), ?_⟩
        · simp only [List.length_append, List.length_singleton]
          rw [Nat.mod_eq_of_lt hw, h2]
          omega
        · intro k hk
          simp only [List.length_append, List.length_singleton] at hk
          simp only [h1]
          by_cases hkq : k < q.length
          · rw [List.getElem?_set_ne, List.getElem?_append_left hkq]
            · exact h5 k hkq
            · rw [h2]
              exact Ne.symm (mod_ne_of_lt_of_sub_lt (by omega) (by omega))
          · have hkq' : k = q.length := by omega
            subst hkq'
            rw [← h2, List.getElem?_set_self (by rw [h1]; exact Nat.mod_lt _ (by omega)),
              List.getElem?_append_right (Nat.le_refl _)]
            simp
      · simp only []
        exact Nat.le_trans (Nat.mod_le _ _) (Nat.le_refl _)
    · have hf : rb.is_full = true := by
        unfold ring_buffer.is_full
        rw [hocc, h1]
        exact decide_eq_true (by omega)
      refine ⟨rb, ?_, ?_, by omega⟩
      · simp only [ring_buffer.call, ring_buffer.write, hf, fifo_call, hfull, if_false,
          Bool.not_true, Bool.false_eq_true]
      · simp only [fifo_call, hfull, if_false]
        exact ⟨h1, h2, h3, h4, h5⟩
  | read =>
    cases q with
    | nil =>
      have he : rb.is_empty = true := by
        unfold ring_buffer.is_empty
        rw [hocc]
        rfl
      refine ⟨rb, ?_, ⟨h1, h2, h3, h4, h5⟩, by omega⟩
      simp only [ring_buffer.call, ring_buffer.read, he, fifo_call, Bool.not_true,
        Bool.false_eq_true, if_false]
    | cons e t =>
      have he : rb.is_empty = false := by
        unfold ring_buffer.is_empty
        rw [hocc]
        exact decide_eq_false (by simp)
      have h0 := h5 0 (by simp)
      simp only [Nat.add_zero, List.getElem?_cons_zero] at h0
      simp only [List.length_cons] at h2 h3
      refine ⟨{ rb with read_index := (rb.read_index + 1) % U32 }, ?_, ?_, by simp⟩
      · simp only [ring_buffer.call, ring_buffer.read, he, fifo_call, Bool.not_false, if_true,
          h1, h0]
      · simp only [fifo_call]
        rw [Nat.mod_eq_of_lt (by omega)]
        refine ⟨h1, by simp only []; omega, by omega, h4, ?_⟩
        intro k hk
        have := h5 (k + 1) (by simp; omega)
        simp only [List.getElem?_cons_succ] at this
        rw [← this]
        simp only []
        rw [Nat.add_assoc, Nat.add_comm 1 k]
  | skip =>
    cases q with
    | nil =>
      have he : rb.is_empty = true := by
        unfold ring_buffer.is_empty
        rw [hocc]
        rfl
      refine ⟨rb, ?_, ⟨h1, h2, h3, h4, h5⟩, by omega⟩
      simp only [ring_buffer.call, ring_buffer.skip, he, fifo_call, Bool.not_true,
        Bool.false_eq_true, if_false]
    | cons e t =>
      have he : rb.is_empty = false := by
        unfold ring_buffer.is_empty
        rw [hocc]
        exact decide_eq_false (by simp)
      simp only [List.length_cons] at h2 h3
      refine ⟨{ rb with read_index := (rb.read_index + 1) % U32 }, ?_, ?_, by simp⟩
      · simp only [ring_buffer.call, ring_buffer.skip, he, fifo_call, Bool.not_false, if_true]
      · simp only [fifo_call]
        rw [Nat.mod_eq_of_lt (by omega)]
        refine ⟨h1, by simp only []; omega, by omega, h4, ?_⟩
        intro k hk
        have := h5 (k + 1) (by simp; omega)
        simp only [List.getElem?_cons_succ] at this
        rw [← this]
        simp only []
        rw [Nat.add_assoc, Nat.add_comm 1 k]
  | empty =>
    refine ⟨rb.empty, rfl, ?_, by simp [ring_buffer.empty]⟩
    simp only [fifo_call]
    exact ⟨h1, rfl, Nat.zero_le _, by simp [ring_buffer.empty, U32],
      fun k hk => absurd hk (Nat.not_lt_zero _)⟩

/-- A sequence of calls on a ring buffer that holds a queue, short enough for the
write index to stay below `2^32`: it returns what the queue specification
returns. -/
theorem ring_buffer.run_represents (c : Nat) (hc1 : 1 ≤ c) (hc : c < U32) :
    ∀ (calls : List ring_call) (rb : ring_buffer) (q : List Nat),
      rb.represents c q → rb.write_index + calls.length < U32 →
      ∃ rb', rb.run calls = some ((fifo_run c q calls).1, rb') ∧
        rb'.represents c (fifo_run c q calls).2 := by
  intro calls
  induction calls with
  | nil => intro rb q h _; exact ⟨rb, rfl, h⟩
  | cons call rest ih =>
    intro rb q h hw
    simp only [List.length_cons] at hw
    obtain ⟨rb1, e1, r1, w1⟩ := ring_buffer.call_represents h hc1 hc (by omega) call
    obtain ⟨rb2, e2, r2⟩ := ih rb1 _ r1 (by omega)
    refine ⟨rb2, ?_, r2⟩
    simp only [ring_buffer.run, e1, e2, fifo_run]

/-- `write` succeeds exactly when the occupancy is below the capacity; otherwise
it returns `BASE_ERROR_CAPACITY_LIMIT` and leaves the buffer as it is. -/
theorem ring_buffer.write_status (rb : ring_buffer) (e : Nat) :
    ((rb.write e).1 = BASE_SUCCESS ↔ rb.query_occupancy < rb.data.length) ∧
    (¬ rb.query_occupancy < rb.data.length →
      (rb.write e).1 = BASE_ERROR_CAPACITY_LIMIT ∧ (rb.write e).2 = rb) := by
  by_cases h : rb.query_occupancy < rb.data.length
  · have hnf : rb.is_full = false := by
      unfold ring_buffer.is_full
      exact decide_eq_false (by omega)
    have hw : rb.write e = (BASE_SUCCESS,
        { rb with data := rb.data.set (rb.write_index % rb.data.length) e,
                  write_index := (rb.write_index + 1) % U32 }) := by
      simp only [ring_buffer.write, hnf, Bool.not_false, if_true]
    rw [hw]
    exact ⟨⟨fun _ => h, fun _ => rfl⟩, fun hn => absurd h hn⟩
  · have hf : rb.is_full = true := by
      unfold ring_buffer.is_full
      exact decide_eq_true (by omega)
    have hw : rb.write e = (BASE_ERROR_CAPACITY_LIMIT, rb) := by
      simp only [ring_buffer.write, hf, Bool.not_true, Bool.false_eq_true, if_false]
    rw [hw]
    exact ⟨⟨fun hc => (by cases hc), fun hc => absurd hc h⟩, fun _ => ⟨rfl, rfl⟩⟩

/-- `read` on a buffer of positive capacity is defined and succeeds exactly when
the occupancy is positive; otherwise it returns `BASE_ERROR_CAPACITY_LIMIT`,
delivers nothing and leaves the buffer as it is. -/
theorem ring_buffer.read_status (rb : ring_buffer) (hlen : 0 < rb.data.length) :
    ∃ r, rb.read = some r ∧ (r.1 = BASE_SUCCESS ↔ 0 < rb.query_occupancy) ∧
      (¬ 0 < rb.query_occupancy →
        r.1 = BASE_ERROR_CAPACITY_LIMIT ∧ r.2.1 = rb ∧ r.2.2 = none) := by
  have hin : rb.read_index % rb.data.length < rb.data.length := Nat.mod_lt _ hlen
  by_cases h : 0 < rb.query_occupancy
  · have he : rb.is_empty = false := by
      unfold ring_buffer.is_empty
      exact decide_eq_false (by omega)
    have hr : rb.read = some (BASE_SUCCESS,
        { rb with read_index := (rb.read_index + 1) % U32 },
        some (rb.data[rb.read_index % rb.data.length])) := by
      simp only [ring_buffer.read, he, Bool.not_false, if_true, List.getElem?_eq_getElem hin]
    exact ⟨_, hr, ⟨fun _ => h, fun _ => rfl⟩, fun hn => absurd h hn⟩
  · have he : rb.is_empty = true := by
      unfold ring_buffer.is_empty
      exact decide_eq_true (by omega)
    have hr : rb.read = some (BASE_ERROR_CAPACITY_LIMIT, rb, none) := by
      simp only [ring_buffer.read, he, Bool.not_true, Bool.false_eq_true, if_false]
    exact ⟨_, hr, ⟨fun hc => (by cases hc), fun hc => absurd hc h⟩, fun _ => ⟨rfl, rfl, rfl⟩⟩

/-- One call on a ring buffer of capacity `c` whose occupancy is at most `c`,
whatever its indices: the call is defined and keeps the capacity and the bound on
the occupancy. -/
theorem ring_buffer.call_occupancy (rb : ring_buffer) (c : Nat) (call : ring_call)
    (hlen : rb.data.length = c) (hc1 : 1 ≤ c) (hc : c < U32)
    (hr : rb.read_index < U32) (hw : rb.write_index < U32) (hocc : rb.query_occupancy ≤ c) :
    ∃ out rb2, rb.call call = some (out, rb2) ∧
      rb2.data.length = c ∧ rb2.read_index < U32 ∧ rb2.write_index < U32 ∧
      rb2.query_occupancy ≤ c := by
  have hU : (0 : Nat) < U32 := by simp [U32]
  cases call with
  | write e =>
    by_cases hfull : rb.query_occupancy < c
    · have hnf : rb.is_full = false := by
        unfold ring_buffer.is_full
        rw [hlen]
        exact decide_eq_false (by omega)
      refine ⟨(BASE_SUCCESS, none),
        { rb with data := rb.data.set (rb.write_index % rb.data.length) e,
                  write_index := (rb.write_index + 1) % U32 }, ?_, by simp [hlen], hr,
        Nat.mod_lt _ hU, ?_⟩
      · simp only [ring_buffer.call, ring_buffer.write, hnf, Bool.not_false, if_true]
      · unfold ring_buffer.query_occupancy at hfull ⊢
        simp only [U32] at *
        omega
    · have hf : rb.is_full = true := by
        unfold ring_buffer.is_full
        rw [hlen]
        exact decide_eq_true (by omega)
      refine ⟨(BASE_ERROR_CAPACITY_LIMIT, none), rb, ?_, hlen, hr, hw, hocc⟩
      simp only [ring_buffer.call, ring_buffer.write, hf, Bool.not_true, Bool.false_eq_true,
        if_false]
  | read =>
    by_cases hemp : 0 < rb.query_occupancy
    · have he : rb.is_empty = false := by
        unfold ring_buffer.is_empty
        exact decide_eq_false (by omega)
      have hin : rb.read_index % rb.data.length < rb.data.length :=
        Nat.mod_lt _ (by omega)
      refine ⟨(BASE_SUCCESS, some (rb.data[rb.read_index % rb.data.length])),
        { rb with read_index := (rb.read_index + 1) % U32 }, ?_, hlen, Nat.mod_lt _ hU, hw,
        ?_⟩
      · simp only [ring_buffer.call, ring_buffer.read, he, Bool.not_false, if_true,
          List.getElem?_eq_getElem hin]
      · unfold ring_buffer.query_occupancy at hemp hocc ⊢
        simp only [U32] at *
        omega
    · have he : rb.is_empty = true := by
        unfold ring_buffer.is_empty
        exact decide_eq_true (by omega)
      refine ⟨(BASE_ERROR_CAPACITY_LIMIT, none), rb, ?_, hlen, hr, hw, hocc⟩
      simp only [ring_buffer.call, ring_buffer.read, he, Bool.not_true, Bool.false_eq_true,
        if_false]
  | skip =>
    by_cases hemp : 0 < rb.query_occupancy
    · have he : rb.is_empty = false := by
        unfold ring_buffer.is_empty
        exact decide_eq_false (by omega)
      refine ⟨(BASE_SUCCESS, none), { rb with read_index := (rb.read_index + 1) % U32 }, ?_,
        hlen, Nat.mod_lt _ hU, hw, ?_⟩
      · simp only [ring_buffer.call, ring_buffer.skip, he, Bool.not_false, if_true]
      · unfold ring_buffer.query_occupancy at hemp hocc ⊢
        simp only [U32] at *
        omega
    · have he : rb.is_empty = true := by
        unfold ring_buffer.is_empty
        exact decide_eq_true (by omega)
      refine ⟨(BASE_ERROR_CAPACITY_LIMIT, none), rb, ?_, hlen, hr, hw, hocc⟩
      simp only [ring_buffer.call, ring_buffer.skip, he, Bool.not_true, Bool.false_eq_true,
        if_false]
  | empty =>
    refine ⟨(BASE_SUCCESS, none), rb.empty, rfl, hlen, hU, hU, ?_⟩
    simp [ring_buffer.empty, ring_buffer.query_occupancy]

/-- Every sequence of calls on a ring buffer of capacity `c` whose occupancy is at
most `c` is defined and ends with an occupancy of at most `c`. -/
theorem ring_buffer.run_occupancy (c : Nat) (hc1 : 1 ≤ c) (hc : c < U32) :
    ∀ (calls : List ring_call) (rb : ring_buffer),
      rb.data.length = c → rb.read_index < U32 → rb.write_index < U32 →
      rb.query_occupancy ≤ c →
      ∃ outs rb2, rb.run calls = some (outs, rb2) ∧ rb2.data.length = c ∧
        rb2.read_index < U32 ∧ rb2.write_index < U32 ∧ rb2.query_occupancy ≤ c := by
  intro calls
  induction calls with
  | nil => intro rb h1 h2 h3 h4; exact ⟨[], rb, rfl, h1, h2, h3, h4⟩
  | cons call rest ih =>
    intro rb h1 h2 h3 h4
    obtain ⟨out, rb1, e1, a1, a2, a3, a4⟩ :=
      ring_buffer.call_occupancy rb c call h1 hc1 hc h2 h3 h4
    obtain ⟨outs, rb2, e2, b⟩ := ih rb1 a1 a2 a3 a4
    exact ⟨out :: outs, rb2, by simp only [ring_buffer.run, e1, e2], b⟩

theorem ring_buffer.run_append (l1 l2 : List ring_call) :
    ∀ (rb rb1 rb2 : ring_buffer) (outs1 outs2 : List (status × Option Nat)),
      rb.run l1 = some (outs1, rb1) → rb1.run l2 = some (outs2, rb2) →
      rb.run (l1 ++ l2) = some (outs1 ++ outs2, rb2) := by
  induction l1 with
  | nil =>
    intro rb rb1 rb2 outs1 outs2 h1 h2
    simp only [ring_buffer.run, Option.some.injEq, Prod.mk.injEq] at h1
    obtain ⟨e1, e2⟩ := h1
    subst e1 e2
    exact h2
  | cons call rest ih =>
    intro rb rb1 rb2 outs1 outs2 h1 h2
    cases hcall : rb.call call with
    | none => simp [ring_buffer.run, hcall] at h1
    | some r =>
      obtain ⟨out, rbm⟩ := r
      cases hrest : rbm.run rest with
      | none => simp [ring_buffer.run, hcall, hrest] at h1
      | some r1 =>
        obtain ⟨outs, rbn⟩ := r1
        simp only [ring_buffer.run, hcall, hrest, Option.some.injEq, Prod.mk.injEq] at h1
        obtain ⟨e1, e2⟩ := h1
        subst e1 e2
        have := ih rbm rbn rb2 outs outs2 hrest h2
        rw [List.cons_append, List.cons_append]
        simp only [ring_buffer.run, hcall]
        rw [this]

theorem fifo_run_append (c : Nat) (q : List Nat) (l1 l2 : List ring_call) :
    fifo_run c q (l1 ++ l2) =
      ((fifo_run c q l1).1 ++ (fifo_run c (fifo_run c q l1).2 l2).1,
        (fifo_run c (fifo_run c q l1).2 l2).2) := by
  induction l1 generalizing q with
  | nil => rfl
  | cons call rest ih =>
    rw [List.cons_append]
    simp only [fifo_run]
    rw [ih]
    rfl

/-- A `write` followed by a `read` on an empty ring buffer of capacity 3 moves
both indices on by one, modulo `2^32`. -/
theorem ring_buffer.write_read_pair (rb : ring_buffer) (e : Nat)
    (hlen : rb.data.length = 3) (heq : rb.write_index = rb.read_index)
    (hr : rb.read_index < U32) :
    ∃ rb2, rb.run [ring_call.write e, ring_call.read] =
        some ([(BASE_SUCCESS, none), (BASE_SUCCESS, some e)], rb2) ∧
      rb2.data.length = 3 ∧ rb2.write_index = (rb.read_index + 1) % U32 ∧
      rb2.read_index = (rb.read_index + 1) % U32 := by
  have hocc : rb.query_occupancy = 0 := by
    unfold ring_buffer.query_occupancy
    rw [heq]
    simp only [U32] at *
    omega
  have hnf : rb.is_full = false := by
    unfold ring_buffer.is_full
    rw [hocc, hlen]
    rfl
  have hne : ring_buffer.is_empty
      { rb with data := rb.data.set (rb.write_index % rb.data.length) e,
                write_index := (rb.write_index + 1) % U32 } = false := by
    unfold ring_buffer.is_empty ring_buffer.query_occupancy
    simp only [heq]
    apply decide_eq_false
    simp only [U32] at *
    omega
  have hget : (rb.data.set (rb.write_index % rb.data.length) e)[rb.read_index %
      (rb.data.set (rb.write_index % rb.data.length) e).length]? = some e := by
    rw [List.length_set, heq]
    exact List.getElem?_set_self (Nat.mod_lt _ (by omega))
  refine ⟨
    { data := rb.data.set (rb.write_index % rb.data.length) e,
      read_index := (rb.read_index + 1) % U32,
      write_index := (rb.write_index + 1) % U32 }, ?_, ?_, ?_, ?_⟩
  · simp only [ring_buffer.run, ring_buffer.call, ring_buffer.write, hnf, Bool.not_false,
      if_true, ring_buffer.read, hne, hget]
  · simp [hlen]
  · simp only [heq]
  · rfl

/-- After `k` pairs of a `write` and a `read`, an empty ring buffer of capacity 3
has both indices `k` further, modulo `2^32`. -/
theorem ring_buffer.write_read_pairs (e : Nat) :
    ∀ (k : Nat) (rb : ring_buffer), rb.data.length = 3 → rb.write_index = rb.read_index →
      rb.read_index < U32 →
      ∃ rb2, rb.run (List.replicate k [ring_call.write e, ring_call.read]).flatten =
          some ((List.replicate k [(BASE_SUCCESS, none), (BASE_SUCCESS, some e)]).flatten,
            rb2) ∧
        rb2.data.length = 3 ∧ rb2.write_index = (rb.read_index + k) % U32 ∧
        rb2.read_index = (rb.read_index + k) % U32 := by
  intro k
  induction k with
  | zero =>
    intro rb h1 h2 h3
    exact ⟨rb, rfl, h1, by rw [h2, Nat.add_zero, Nat.mod_eq_of_lt h3],
      by rw [Nat.add_zero, Nat.mod_eq_of_lt h3]⟩
  | succ k ih =>
    intro rb h1 h2 h3
    obtain ⟨rb1, e1, a1, a2, a3⟩ := ring_buffer.write_read_pair rb e h1 h2 h3
    obtain ⟨rb2, e2, b1, b2, b3⟩ := ih rb1 a1 (by rw [a2, a3])
      (by rw [a3]; exact Nat.mod_lt _ (by simp [U32]))
    refine ⟨rb2, ?_, b1, ?_, ?_⟩
    · rw [List.replicate_succ, List.flatten_cons, List.replicate_succ, List.flatten_cons]
      exact ring_buffer.run_append _ _ rb rb1 rb2 _ _ e1 e2
    · rw [b2, a3]; simp only [U32]; omega
    · rw [b3, a3]; simp only [U32]; omega

/-- The queue specification on pairs of a `write` and a `read`: every pair
succeeds, the read delivers what was written, and the queue is empty again. -/
theorem fifo_run_write_read_pairs (c e : Nat) (hc : 1 ≤ c) :
    ∀ k, fifo_run c [] (List.replicate k [ring_call.write e, ring_call.read]).flatten =
      ((List.replicate k [(BASE_SUCCESS, none), (BASE_SUCCESS, some e)]).flatten, []) := by
  intro k
  induction k with
  | zero => rfl
  | succ k ih =>
    rw [List.replicate_succ, List.flatten_cons, fifo_run_append]
    have hc0 : 0 < c := hc
    have h1 : fifo_run c [] [ring_call.write e, ring_call.read] =
        ([(BASE_SUCCESS, none), (BASE_SUCCESS, some e)], []) := by
      simp [fifo_run, fifo_call, hc0]
    rw [h1]
    simp only [ih, List.replicate_succ, List.flatten_cons]

/-- A ring buffer right after `resize_capacity(c)` with `c` within the array
limit: `c` zero elements and both indices 0. -/
theorem ring_buffer.resize_capacity_new (c : Nat) (hc : c ≤ BASE_MAX_ARRAY_SIZE) :
    (ring_buffer.new.resize_capacity c).2 = ⟨List.replicate c 0, 0, 0⟩ := by
  have h : ¬ BASE_MAX_ARRAY_SIZE < c := by omega
  simp [ring_buffer.resize_capacity, h, ring_buffer.new, vector_resize]

/-- A `read` of a buffer that is not empty, given the slot of the read index and
the element in that slot. -/
theorem ring_buffer.read_of_slot (rb : ring_buffer) (i e : Nat) (hne : rb.is_empty = false)
    (hi : rb.read_index % rb.data.length = i) (he : rb.data[i]? = some e) :
    rb.read = some (BASE_SUCCESS, { rb with read_index := (rb.read_index + 1) % U32 },
      some e) := by
  unfold ring_buffer.read
  rw [hne, hi, he]
  rfl

theorem ring_buffer.run_cons_of_call (rb rb1 rb2 : ring_buffer) (call : ring_call)
    (calls : List ring_call) (out : status × Option Nat) (outs : List (status × Option Nat))
    (h1 : rb.call call = some (out, rb1)) (h2 : rb1.run calls = some (outs, rb2)) :
    rb.run (call :: calls) = some (out :: outs, rb2) := by
  simp only [ring_buffer.run, h1, h2]

theorem ring_buffer.call_write_eq (rb rb1 : ring_buffer) (e : Nat) (s : status)
    (h : rb.write e = (s, rb1)) : rb.call (ring_call.write e) = some ((s, none), rb1) := by
  simp only [ring_buffer.call, h]

theorem ring_buffer.call_read_eq (rb rb1 : ring_buffer) (e : Option Nat) (s : status)
    (h : rb.read = some (s, rb1, e)) : rb.call ring_call.read = some ((s, e), rb1) := by
  simp only [ring_buffer.call, h]

/-- The three calls `write 1`, `write 2`, `read` on an empty ring buffer of
capacity 3 whose indices both stand at `2^32 - 1`: both writes land in slot 0
(`(2^32 - 1) % 3 = 0` and `0 % 3 = 0`) and the read delivers 2. -/
theorem ring_buffer.run_across_the_wrap (a b c : Nat) :
    (⟨[a, b, c], 4294967295, 4294967295⟩ : ring_buffer).run
        [ring_call.write 1, ring_call.write 2, ring_call.read] =
      some ([(BASE_SUCCESS, none), (BASE_SUCCESS, none), (BASE_SUCCESS, some 2)],
        ⟨[2, b, c], 0, 1⟩) := by
  have o1 : (⟨[a, b, c], 4294967295, 4294967295⟩ : ring_buffer).query_occupancy = 0 := by
    unfold ring_buffer.query_occupancy
    simp only [U32]
  have o2 : (⟨[1, b, c], 4294967295, 0⟩ : ring_buffer).query_occupancy = 1 := by
    unfold ring_buffer.query_occupancy
    simp only [U32]
  have o3 : (⟨[2, b, c], 4294967295, 1⟩ : ring_buffer).query_occupancy = 2 := by
    unfold ring_buffer.query_occupancy
    simp only [U32]
  have m1 : 4294967295 % 3 = 0 := by norm_num
  have m2 : (4294967295 + 1) % U32 = 0 := by simp only [U32]
  have f1 : (⟨[a, b, c], 4294967295, 4294967295⟩ : ring_buffer).is_full = false := by
    unfold ring_buffer.is_full
    rw [o1]
    rfl
  have f2 : (⟨[1, b, c], 4294967295, 0⟩ : ring_buffer).is_full = false := by
    unfold ring_buffer.is_full
    rw [o2]
    rfl
  have f3 : (⟨[2, b, c], 4294967295, 1⟩ : ring_buffer).is_empty = false := by
    unfold ring_buffer.is_empty
    rw [o3]
    rfl
  have h1 : (⟨[a, b, c], 4294967295, 4294967295⟩ : ring_buffer).write 1 =
      (BASE_SUCCESS, ⟨[1, b, c], 4294967295, 0⟩) := by
    unfold ring_buffer.write
    rw [f1]
    simp only [Bool.not_false, if_true, List.length_cons, List.length_nil, Nat.reduceAdd,
      m1, m2, List.set_cons_zero]
  have h2 : (⟨[1, b, c], 4294967295, 0⟩ : ring_buffer).write 2 =
      (BASE_SUCCESS, ⟨[2, b, c], 4294967295, 1⟩) := by
    unfold ring_buffer.write
    rw [f2]
    rfl
  have h3 : (⟨[2, b, c], 4294967295, 1⟩ : ring_buffer).read =
      some (BASE_SUCCESS, ⟨[2, b, c], 0, 1⟩, some 2) := by
    rw [ring_buffer.read_of_slot _ 0 2 f3 m1 rfl]
    simp only [m2]
  exact ring_buffer.run_cons_of_call _ _ _ _ _ _ _ (ring_buffer.call_write_eq _ _ _ _ h1)
    (ring_buffer.run_cons_of_call _ _ _ _ _ _ _ (ring_buffer.call_write_eq _ _ _ _ h2)
      (ring_buffer.run_cons_of_call _ _ _ _ _ _ _ (ring_buffer.call_read_eq _ _ _ _ h3)
        rfl))

/-- C37 (code defect): for a ring buffer resized to a capacity `c` from 1 to
`BASE_MAX_ARRAY_SIZE`, every sequence of `write`, `read`, `skip` and `empty`
calls is defined and leaves an occupancy of at most `c`; `write` succeeds exactly
when the occupancy is below the capacity and otherwise returns
`BASE_ERROR_CAPACITY_LIMIT` and changes nothing; `read` succeeds exactly when the
occupancy is positive and otherwise returns `BASE_ERROR_CAPACITY_LIMIT`; and for
every sequence of fewer than `2^32` calls the statuses and the elements read are
those of a first-in, first-out queue. First-in, first-out is lost once the
`uint32` indices wrap, because slots are `index % capacity` and 3 does not divide
`2^32`: with capacity 3, after `2^32 - 1` pairs of `write 0`, `read`, the calls
`write 1`, `write 2`, `read` end with a read that succeeds and delivers 2, where
the queue delivers 1. -/
theorem ring_buffer_is_not_first_in_first_out_across_the_index_wrap :
    (∀ (c : Nat) (calls : List ring_call), 1 ≤ c → c ≤ BASE_MAX_ARRAY_SIZE →
      ∃ outs rb, (ring_buffer.new.resize_capacity c).2.run calls = some (outs, rb) ∧
        rb.data.length = c ∧ rb.query_occupancy ≤ c) ∧
    (∀ (rb : ring_buffer) (e : Nat),
      ((rb.write e).1 = BASE_SUCCESS ↔ rb.query_occupancy < rb.data.length) ∧
      (¬ rb.query_occupancy < rb.data.length →
        (rb.write e).1 = BASE_ERROR_CAPACITY_LIMIT ∧ (rb.write e).2 = rb)) ∧
    (∀ (rb : ring_buffer), 0 < rb.data.length →
      ∃ r, rb.read = some r ∧ (r.1 = BASE_SUCCESS ↔ 0 < rb.query_occupancy) ∧
        (¬ 0 < rb.query_occupancy →
          r.1 = BASE_ERROR_CAPACITY_LIMIT ∧ r.2.1 = rb ∧ r.2.2 = none)) ∧
    (∀ (c : Nat) (calls : List ring_call), 1 ≤ c → c ≤ BASE_MAX_ARRAY_SIZE →
      calls.length < U32 →
      ∃ rb, (ring_buffer.new.resize_capacity c).2.run calls =
        some ((fifo_run c [] calls).1, rb)) ∧
    (∃ rb,
      (ring_buffer.new.resize_capacity 3).2.run
          ((List.replicate (U32 - 1) [ring_call.write 0, ring_call.read]).flatten ++
            [ring_call.write 1, ring_call.write 2, ring_call.read]) =
        some ((List.replicate (U32 - 1) [(BASE_SUCCESS, none), (BASE_SUCCESS, some 0)]).flatten
          ++ [(BASE_SUCCESS, none), (BASE_SUCCESS, none), (BASE_SUCCESS, some 2)], rb)) ∧
    (fifo_run 3 []
        ((List.replicate (U32 - 1) [ring_call.write 0, ring_call.read]).flatten ++
          [ring_call.write 1, ring_call.write 2, ring_call.read])).1 =
      (List.replicate (U32 - 1) [(BASE_SUCCESS, none), (BASE_SUCCESS, some 0)]).flatten
        ++ [(BASE_SUCCESS, none), (BASE_SUCCESS, none), (BASE_SUCCESS, some 1)] := by
  have hmax : BASE_MAX_ARRAY_SIZE < U32 := by decide
  have hU : 0 < U32 := by decide
  refine ⟨?_, ring_buffer.write_status, ring_buffer.read_status, ?_, ?_, ?_⟩
  · intro c calls hc1 hc
    rw [ring_buffer.resize_capacity_new c hc]
    obtain ⟨outs, rb, e, h1, _, _, h4⟩ :=
      ring_buffer.run_occupancy c hc1 (by omega) calls ⟨List.replicate c 0, 0, 0⟩
        (by simp) hU hU (by simp [ring_buffer.query_occupancy])
    exact ⟨outs, rb, e, h1, h4⟩
  · intro c calls hc1 hc hlen
    rw [ring_buffer.resize_capacity_new c hc]
    have hrep : (⟨List.replicate c 0, 0, 0⟩ : ring_buffer).represents c [] :=
      ⟨by simp, rfl, Nat.zero_le _, hU, fun k hk => absurd hk (Nat.not_lt_zero _)⟩
    obtain ⟨rb, e, _⟩ := ring_buffer.run_represents c hc1 (by omega) calls _ [] hrep
      (by simpa using hlen)
    exact ⟨rb, e⟩
  · rw [ring_buffer.resize_capacity_new 3 (by decide)]
    obtain ⟨rb1, e1, hl, hw, hr⟩ :=
      ring_buffer.write_read_pairs 0 (U32 - 1) ⟨List.replicate 3 0, 0, 0⟩ rfl rfl hU
    have hw1 : rb1.write_index = 4294967295 := by rw [hw]; rfl
    have hr1 : rb1.read_index = 4294967295 := by rw [hr]; rfl
    obtain ⟨data, r, w⟩ := rb1
    simp only at hl hw1 hr1
    subst hw1 hr1
    obtain ⟨a, b, c, rfl⟩ := List.length_eq_three.mp hl
    exact ⟨_, ring_buffer.run_append _ _ _ _ _ _ _ e1 (ring_buffer.run_across_the_wrap a b c)⟩
  · rw [fifo_run_append, fifo_run_write_read_pairs 3 0 (by decide)]
    rfl

/-! ## copies of memory_stream past the end of the buffer -/

/-- C38 (code defect): `memory_stream::write_data` copies `min(size, free space)`
bytes with one `memcpy` to `query_item(write_index % capacity)` and does not
split the copy at the end of the buffer. On a stream of capacity 4, after
`write_data` of 3 bytes and `read_data` of 3 bytes (both inside the buffer,
leaving the stream empty with both positions at 3), `write_data` of 3 bytes
finds 4 free bytes and copies 3 bytes to positions 3, 4 and 5, of which 4 and 5
lie behind the buffer of 4 bytes: write position + bytes written = 6 > 4, and
the run is undefined. -/
theorem write_data_copies_past_the_end_of_the_buffer :
    (fresh_stream 4).data.data.length = 4 ∧
    (fresh_stream 4).write_data [1, 2, 3] =
      some (BASE_SUCCESS, ⟨⟨[1, 2, 3, 0], 0, 3⟩⟩, some 3) ∧
    (⟨⟨[1, 2, 3, 0], 0, 3⟩⟩ : memory_stream).read_data 3 =
      some (BASE_SUCCESS, ⟨⟨[1, 2, 3, 0], 3, 3⟩⟩, [1, 2, 3], some 3) ∧
    (⟨⟨[1, 2, 3, 0], 3, 3⟩⟩ : memory_stream).is_empty = true ∧
    (⟨⟨[1, 2, 3, 0], 3, 3⟩⟩ : memory_stream).is_full = false ∧
    (⟨[1, 2, 3, 0], 3, 3⟩ : ring_buffer).query_write_position = some 3 ∧
    ((⟨[1, 2, 3, 0], 3, 3⟩ : ring_buffer).query_capacity + U32 -
      (⟨[1, 2, 3, 0], 3, 3⟩ : ring_buffer).query_occupancy) % U32 = 4 ∧
    4 < 3 + min 3 4 ∧
    (⟨⟨[1, 2, 3, 0], 3, 3⟩⟩ : memory_stream).write_data [4, 5, 6] = none := by
  refine ⟨by decide, by decide, by decide, by decide, by decide, by decide, by decide,
    by decide, by decide⟩

/-- C39 (code defect): `memory_stream::read_data` returns `BASE_SUCCESS` with the
first `min(size, n)` of the `n >= 1` unread bytes, in order, reports that count
and leaves the other bytes unread, and on an empty stream returns
`BASE_ERROR_INVALID_RESOURCE`, reports 0 and changes nothing, on every stream
whose unread bytes lie in one piece inside the buffer; but it copies with one
`memcpy` from `peek()`, so when the unread bytes run around the end of the
buffer the copy leaves the buffer. On a stream of capacity 4, after `write_data`
of 3 bytes, `read_data` of 3 bytes, `write_data` of 1 byte and `write_data` of 2
bytes (every copy inside the buffer) the unread bytes 4, 5, 6 lie at positions
3, 0 and 1, and `read_data` of 3 bytes copies from positions 3, 4 and 5: the
run is undefined where the claim has the bytes 4, 5, 6. -/
theorem read_data_copies_past_the_end_of_the_buffer :
    (∀ (s : memory_stream) (size : Nat), s.linear → 0 < size → s.unread ≠ [] →
      s.read_data size =
        some (BASE_SUCCESS, s.advance (min size s.unread.length), s.unread.take size,
          some (min size s.unread.length)) ∧
      (s.unread.take size).length = min size s.unread.length ∧
      (s.advance (min size s.unread.length)).linear ∧
      (s.advance (min size s.unread.length)).unread = s.unread.drop size ∧
      (s.advance (min size s.unread.length)).unread.length =
        s.unread.length - min size s.unread.length) ∧
    (∀ (s : memory_stream) (size : Nat), 0 < size → s.is_empty = true →
      s.read_data size = some (BASE_ERROR_INVALID_RESOURCE, s, [], some 0)) ∧
    (fresh_stream 4).write_data [1, 2, 3] =
      some (BASE_SUCCESS, ⟨⟨[1, 2, 3, 0], 0, 3⟩⟩, some 3) ∧
    (⟨⟨[1, 2, 3, 0], 0, 3⟩⟩ : memory_stream).read_data 3 =
      some (BASE_SUCCESS, ⟨⟨[1, 2, 3, 0], 3, 3⟩⟩, [1, 2, 3], some 3) ∧
    (⟨⟨[1, 2, 3, 0], 3, 3⟩⟩ : memory_stream).write_data [4] =
      some (BASE_SUCCESS, ⟨⟨[1, 2, 3, 4], 3, 4⟩⟩, some 1) ∧
    (⟨⟨[1, 2, 3, 4], 3, 4⟩⟩ : memory_stream).write_data [5, 6] =
      some (BASE_SUCCESS, ⟨⟨[5, 6, 3, 4], 3, 6⟩⟩, some 2) ∧
    (⟨⟨[5, 6, 3, 4], 3, 6⟩⟩ : memory_stream).query_occupancy = 3 ∧
    (⟨[5, 6, 3, 4], 3, 6⟩ : ring_buffer).query_read_position = some 3 ∧
    4 < 3 + min 3 3 ∧
    (⟨⟨[5, 6, 3, 4], 3, 6⟩⟩ : memory_stream).read_data 3 = none := by
  refine ⟨?_, ?_, by decide, by decide, by decide, by decide, by decide, by decide, by decide,
    by decide⟩
  · intro s size hl hs hne
    have hlen : (s.unread.take size).length = min size s.unread.length := List.length_take _ _
    obtain ⟨l1, u1⟩ := memory_stream.advance_linear hl (min size s.unread.length)
      (Nat.min_le_right _ _)
    have hdrop : s.unread.drop (min size s.unread.length) = s.unread.drop size := by
      rcases Nat.le_total size s.unread.length with h | h
      · rw [Nat.min_eq_left h]
      · rw [Nat.min_eq_right h, List.drop_of_length_le (Nat.le_refl _),
          List.drop_of_length_le h]
    refine ⟨memory_stream.read_data_linear hl hs hne, hlen, l1, by rw [u1, hdrop], ?_⟩
    rw [u1, List.length_drop]
  · intro s size hs he
    unfold memory_stream.read_data
    have h0 : ¬ (size = 0) := by omega
    simp [BASE_PARAM_CHECK, h0, he]

/-- The number of pairs two nested counted loops visit. -/
theorem length_flatMap_range_map {α : Type} (f : Nat → Nat → α) (nh nw : Nat) :
    ((List.range nh).flatMap (fun j => (List.range nw).map (f j))).length = nh * nw := by
  induction nh with
  | zero => simp
  | succ n ih =>
    rw [List.range_succ, List.flatMap_append, List.length_append, ih]
    simp [Nat.succ_mul]

/-- The `k`-th pair two nested counted loops visit is the pair of row `k / nw` and
column `k % nw`. -/
theorem getElem?_flatMap_range_map {α : Type} (f : Nat → Nat → α) (nh nw k : Nat) :
    ((List.range nh).flatMap (fun j => (List.range nw).map (f j)))[k]? =
      if k < nh * nw then some (f (k / nw) (k % nw)) else none := by
  induction nh with
  | zero => simp
  | succ n ih =>
    rw [List.range_succ, List.flatMap_append]
    have hlen := length_flatMap_range_map f n nw
    by_cases hk : k < n * nw
    · rw [List.getElem?_append_left (by rw [hlen]; exact hk), ih, if_pos hk,
        if_pos (by rw [Nat.succ_mul]; omega)]
    · rw [List.getElem?_append_right (by rw [hlen]; omega), hlen]
      simp only [List.flatMap_cons, List.flatMap_nil, List.append_nil, List.getElem?_map]
      by_cases hk2 : k < (n + 1) * nw
      · have hr : k - n * nw < nw := by rw [Nat.succ_mul] at hk2; omega
        have hnw : 0 < nw := by omega
        have hkk : k = (k - n * nw) + n * nw := by omega
        have hd : k / nw = n := by
          rw [hkk, Nat.add_mul_div_right _ _ hnw, Nat.div_eq_of_lt hr, Nat.zero_add]
        have hm : k % nw = k - n * nw := by
          rw [hkk, Nat.add_mul_mod_self_right, Nat.mod_eq_of_lt hr]
          omega
        rw [if_pos hk2, List.getElem?_range hr, hd, hm]
        rfl
      · rw [if_neg hk2]
        have hr : ¬ k - n * nw < nw := by rw [Nat.succ_mul] at hk2; omega
        rw [List.getElem?_eq_none (by simpa using hr)]
        rfl

/-- Blocks of `mw x mh` pixels at the origins two nested counted loops visit,
`nw` in a row and `nh` rows, inside the 32-bit range: each block lies inside the
`(nw * mw) x (nh * mh)` rectangle at `(x, y)`, and every pixel of the rectangle
lies in the block of exactly one position of the list. -/
theorem origins_partition (x y mw mh nw nh : Nat) (hmw : 0 < mw) (hmh : 0 < mh)
    (hx : x + nw * mw ≤ U32) (hy : y + nh * mh ≤ U32) :
    (∀ (k : Nat) (o : Nat × Nat), ((List.range nh).flatMap (fun j => (List.range nw).map
          (fun i => ((x + i * mw) % U32, (y + j * mh) % U32))))[k]? = some o →
        x ≤ o.1 ∧ o.1 + mw ≤ x + nw * mw ∧ y ≤ o.2 ∧ o.2 + mh ≤ y + nh * mh) ∧
    ∀ px py, x ≤ px → px < x + nw * mw → y ≤ py → py < y + nh * mh →
      ∃ (k : Nat) (o : Nat × Nat), ((List.range nh).flatMap (fun j => (List.range nw).map
          (fun i => ((x + i * mw) % U32, (y + j * mh) % U32))))[k]? = some o ∧
        o.1 ≤ px ∧ px < o.1 + mw ∧ o.2 ≤ py ∧ py < o.2 + mh ∧
        ∀ (k2 : Nat) (o2 : Nat × Nat), ((List.range nh).flatMap (fun j => (List.range nw).map
            (fun i => ((x + i * mw) % U32, (y + j * mh) % U32))))[k2]? = some o2 →
          o2.1 ≤ px → px < o2.1 + mw → o2.2 ≤ py → py < o2.2 + mh → k2 = k := by
  have hU : U32 = 4294967296 := rfl
  have origin_of : ∀ (k : Nat) (o : Nat × Nat), ((List.range nh).flatMap (fun j => (List.range nw).map
      (fun i => ((x + i * mw) % U32, (y + j * mh) % U32))))[k]? = some o →
      k < nh * nw ∧ k % nw < nw ∧ k / nw < nh ∧
      o = (x + (k % nw) * mw, y + (k / nw) * mh) ∧
      (k % nw) * mw + mw ≤ nw * mw ∧ (k / nw) * mh + mh ≤ nh * mh := by
    intro k o hk
    rw [getElem?_flatMap_range_map] at hk
    by_cases hlt : k < nh * nw
    · rw [if_pos hlt] at hk
      have hnw : 0 < nw := by
        rcases Nat.eq_zero_or_pos nw with h | h
        · subst h; simp at hlt
        · exact h
      have h1 : k % nw < nw := Nat.mod_lt _ hnw
      have h2 : k / nw < nh := by
        rw [Nat.div_lt_iff_lt_mul hnw]; exact hlt
      have h3 : (k % nw) * mw + mw ≤ nw * mw := by
        have := Nat.mul_le_mul_right mw (Nat.succ_le_of_lt h1)
        rw [Nat.succ_mul] at this
        exact this
      have h4 : (k / nw) * mh + mh ≤ nh * mh := by
        have := Nat.mul_le_mul_right mh (Nat.succ_le_of_lt h2)
        rw [Nat.succ_mul] at this
        exact this
      refine ⟨hlt, h1, h2, ?_, h3, h4⟩
      simp only [Option.some.injEq] at hk
      rw [← hk, Nat.mod_eq_of_lt (show x + k % nw * mw < U32 by omega),
        Nat.mod_eq_of_lt (show y + k / nw * mh < U32 by omega)]
    · rw [if_neg hlt] at hk
      simp at hk
  refine ⟨?_, ?_⟩
  · intro k o hk
    obtain ⟨_, _, _, ho, h3, h4⟩ := origin_of k o hk
    subst ho
    simp only
    omega
  · intro px py hx1 hx2 hy1 hy2
    obtain ⟨bi, si, a1, a2, a3, a4⟩ := offsets_tile mw nw (px - x) hmw (by omega)
    obtain ⟨bj, sj, b1, b2, b3, b4⟩ := offsets_tile mh nh (py - y) hmh (by omega)
    have hk : bj * nw + bi < nh * nw := by
      have := Nat.mul_le_mul_right nw (Nat.succ_le_of_lt b1)
      rw [Nat.succ_mul] at this
      omega
    have hd : (bj * nw + bi) / nw = bj := by
      rw [Nat.add_comm, Nat.add_mul_div_right _ _ (by omega), Nat.div_eq_of_lt a1,
        Nat.zero_add]
    have hm : (bj * nw + bi) % nw = bi := by
      rw [Nat.add_comm, Nat.add_mul_mod_self_right, Nat.mod_eq_of_lt a1]
    have h3 : bi * mw + mw ≤ nw * mw := by
      have := Nat.mul_le_mul_right mw (Nat.succ_le_of_lt a1)
      rw [Nat.succ_mul] at this
      exact this
    have h4 : bj * mh + mh ≤ nh * mh := by
      have := Nat.mul_le_mul_right mh (Nat.succ_le_of_lt b1)
      rw [Nat.succ_mul] at this
      exact this
    refine ⟨bj * nw + bi, (x + bi * mw, y + bj * mh), ?_, ?_, ?_, ?_, ?_, ?_⟩
    · rw [getElem?_flatMap_range_map, if_pos hk, hd, hm,
        Nat.mod_eq_of_lt (show x + bi * mw < U32 by omega),
        Nat.mod_eq_of_lt (show y + bj * mh < U32 by omega)]
    · simp only; omega
    · simp only; omega
    · simp only; omega
    · simp only; omega
    · intro k2 o2 hk2 c1 c2 c3 c4
      obtain ⟨hlt, m1, m2, ho, _, _⟩ := origin_of k2 o2 hk2
      subst ho
      simp only at c1 c2 c3 c4
      obtain ⟨d1, _⟩ := a4 (k2 % nw) (px - x - (k2 % nw) * mw) m1 (by omega) (by omega)
      obtain ⟨d3, _⟩ := b4 (k2 / nw) (py - y - (k2 / nw) * mh) m2 (by omega) (by omega)
      rw [← Nat.div_add_mod k2 nw, d1, d3, Nat.mul_comm]

/-- C27: for a header whose block width and height are each one of 2, 4, 8, 16 and
a shift of at most 2, the microblock size of `microblock_header` is
`max 2 (size >> shift)` in each dimension and divides the macroblock size; the
microblock loops of `quantize_macroblock` for that shift visit, in order, exactly
the microblocks at the origins `microblock_origins` lists, and so do the
microblock loops of `inverse_quantize` for a macroblock whose table entry is that
shift; and these microblocks tile the macroblock at `(x, y)`: each lies inside
the macroblock, and every pixel of the macroblock lies in the microblock of
exactly one position of the list, so the microblocks are pairwise disjoint and
cover every pixel exactly once. -/
theorem microblocks_partition_the_macroblock (header : PTCX_FILE_HEADER) (shift : Nat)
    (hw : header.block_width = 2 ∨ header.block_width = 4 ∨ header.block_width = 8 ∨
      header.block_width = 16)
    (hh : header.block_height = 2 ∨ header.block_height = 4 ∨ header.block_height = 8 ∨
      header.block_height = 16)
    (hshift : shift ≤ 2) :
    (microblock_header header shift).block_width = max 2 (header.block_width >>> shift) ∧
    (microblock_header header shift).block_height = max 2 (header.block_height >>> shift) ∧
    (microblock_header header shift).block_width ∣ header.block_width ∧
    (microblock_header header shift).block_height ∣ header.block_height ∧
    (∀ (sqrt : Nat → Nat) (input : image) (pixel_x pixel_y : Nat) (buffer : ring_buffer),
      quantize_macroblock_trial sqrt input header pixel_x pixel_y shift buffer =
        match visit_in_order
            (fun origin st => quantize_microblock sqrt input (microblock_header header shift)
              origin.1 origin.2 st.1 st.2)
            (microblock_origins header shift pixel_x pixel_y) (buffer.empty, 0) with
        | none => none
        | some st =>
          if (header.block_width * header.block_height) % U32 = 0 then none
          else some (st.1, st.2 / ((header.block_width * header.block_height) % U32))) ∧
    (∀ (table : List Nat) (jb ib : Nat) (st : memory_stream × image),
      query_macroblock_shift table ib (header.image_width / header.block_width) jb =
        some shift →
      inverse_quantize_macroblock header table jb ib st =
        visit_in_order_status
          (fun origin st =>
            match read_macroblock st.1 (microblock_header header shift) origin.1 origin.2
                st.2 with
            | none => none
            | some r =>
              if base_failed r.1 then some (base_post_error BASE_ERROR_EXECUTION_FAILURE, r.2)
              else some (BASE_SUCCESS, r.2))
          (microblock_origins header shift (ib * header.block_width)
            (jb * header.block_height)) st) ∧
    ∀ x y, x + header.block_width ≤ U32 → y + header.block_height ≤ U32 →
      (microblock_origins header shift x y).length =
        (header.block_height / (microblock_header header shift).block_height) *
          (header.block_width / (microblock_header header shift).block_width) ∧
      (∀ (k : Nat) (o : Nat × Nat), (microblock_origins header shift x y)[k]? = some o →
        x ≤ o.1 ∧ o.1 + (microblock_header header shift).block_width ≤
            x + header.block_width ∧
          y ≤ o.2 ∧ o.2 + (microblock_header header shift).block_height ≤
            y + header.block_height) ∧
      (∀ px py, x ≤ px → px < x + header.block_width → y ≤ py →
        py < y + header.block_height →
        ∃ (k : Nat) (o : Nat × Nat), (microblock_origins header shift x y)[k]? = some o ∧
          o.1 ≤ px ∧ px < o.1 + (microblock_header header shift).block_width ∧
          o.2 ≤ py ∧ py < o.2 + (microblock_header header shift).block_height ∧
          ∀ (k2 : Nat) (o2 : Nat × Nat),
            (microblock_origins header shift x y)[k2]? = some o2 →
            o2.1 ≤ px → px < o2.1 + (microblock_header header shift).block_width →
            o2.2 ≤ py → py < o2.2 + (microblock_header header shift).block_height →
            k2 = k) ∧
      ∀ (k1 k2 : Nat) (o1 o2 : Nat × Nat) (px py : Nat),
        (microblock_origins header shift x y)[k1]? = some o1 →
        (microblock_origins header shift x y)[k2]? = some o2 → k1 ≠ k2 →
        ¬ (o1.1 ≤ px ∧ px < o1.1 + (microblock_header header shift).block_width ∧
          o1.2 ≤ py ∧ py < o1.2 + (microblock_header header shift).block_height ∧
          o2.1 ≤ px ∧ px < o2.1 + (microblock_header header shift).block_width ∧
          o2.2 ≤ py ∧ py < o2.2 + (microblock_header header shift).block_height) := by
  obtain ⟨w1, w2, w3, w4⟩ := microblock_size_divides header.block_width shift hw hshift
  obtain ⟨h1, h2, h3, h4⟩ := microblock_size_divides header.block_height shift hh hshift
  have ew : (microblock_header header shift).block_width =
      max 2 (header.block_width >>> shift) := w1
  have eh : (microblock_header header shift).block_height =
      max 2 (header.block_height >>> shift) := h1
  have hbw : 0 < header.block_width := by omega
  have hbh : 0 < header.block_height := by omega
  refine ⟨ew, eh, ew ▸ w3, eh ▸ h3, ?_, ?_, ?_⟩
  · intro sqrt input px py buffer
    unfold quantize_macroblock_trial microblock_origins
    rw [nested_for_loop_eq_visit
      (quantize_macroblock_step sqrt input (microblock_header header shift) px py)
      (fun origin st => quantize_microblock sqrt input (microblock_header header shift)
        origin.1 origin.2 st.1 st.2)
      (fun micro_j micro_i =>
        ((px + micro_i * (microblock_header header shift).block_width) % U32,
          (py + micro_j * (microblock_header header shift).block_height) % U32))
      (fun _ _ _ => rfl)]
    try rfl
  · intro table jb ib st hq
    unfold inverse_quantize_macroblock microblock_origins
    have hne : ¬ (header.block_width = 0 ∨ header.block_height = 0) := by omega
    rw [if_neg hne, Nat.mul_div_cancel _ hbw, Nat.mul_div_cancel _ hbh, hq]
    simp only []
    rw [nested_for_loop_status_eq_visit
      (inverse_quantize_step (microblock_header header shift) (ib * header.block_width)
        (jb * header.block_height))
      (fun origin st =>
        match read_macroblock st.1 (microblock_header header shift) origin.1 origin.2
            st.2 with
        | none => none
        | some r =>
          if base_failed r.1 then some (base_post_error BASE_ERROR_EXECUTION_FAILURE, r.2)
          else some (BASE_SUCCESS, r.2))
      (fun micro_j micro_i =>
        ((ib * header.block_width + micro_i * (microblock_header header shift).block_width)
            % U32,
          (jb * header.block_height + micro_j * (microblock_header header shift).block_height)
            % U32))
      (fun _ _ _ => rfl)]
    try rfl
  · intro x y hx hy
    have hmw : 0 < (microblock_header header shift).block_width := by rw [ew]; omega
    have hmh : 0 < (microblock_header header shift).block_height := by rw [eh]; omega
    have ewid : header.block_width / (microblock_header header shift).block_width *
        (microblock_header header shift).block_width = header.block_width := by
      rw [ew]; exact w4
    have ehei : header.block_height / (microblock_header header shift).block_height *
        (microblock_header header shift).block_height = header.block_height := by
      rw [eh]; exact h4
    obtain ⟨p1, p2⟩ := origins_partition x y (microblock_header header shift).block_width
      (microblock_header header shift).block_height
      (header.block_width / (microblock_header header shift).block_width)
      (header.block_height / (microblock_header header shift).block_height) hmw hmh
      (by rw [ewid]; exact hx) (by rw [ehei]; exact hy)
    rw [ewid, ehei] at p1 p2
    refine ⟨?_, p1, p2, ?_⟩
    · unfold microblock_origins
      exact length_flatMap_range_map _ _ _
    · intro k1 k2 o1 o2 px py g1 g2 hne hboth
      obtain ⟨c1, c2, c3, c4, c5, c6, c7, c8⟩ := hboth
      obtain ⟨q1, q2, q3, q4⟩ := p1 k1 o1 g1
      obtain ⟨k, o, _, _, _, _, _, huniq⟩ := p2 px py (by omega) (by omega) (by omega)
        (by omega)
      have e1 := huniq k1 o1 g1 c1 c2 c3 c4
      have e2 := huniq k2 o2 g2 c5 c6 c7 c8
      exact hne (by rw [e1, e2])

/-- Witness of `microblocks_partition_the_macroblock`: the 16 x 16 macroblock of
quality 0 at `(16, 0)` and shift 1 has the four 8 x 8 microblocks at (16,0),
(24,0), (16,8), (24,8), and the pixel (25, 3) lies in the second of them only. -/
theorem microblocks_partition_the_macroblock_witness :
    microblock_origins (configure_header (solid_image 32 32 ⟨1, 2, 3⟩) 0) 1 16 0 =
      [(16, 0), (24, 0), (16, 8), (24, 8)] ∧
    (microblock_header (configure_header (solid_image 32 32 ⟨1, 2, 3⟩) 0) 1).block_width = 8 ∧
    (microblock_header (configure_header (solid_image 32 32 ⟨1, 2, 3⟩) 0) 1).block_height = 8 ∧
    ∃ (k : Nat) (o : Nat × Nat),
      (microblock_origins (configure_header (solid_image 32 32 ⟨1, 2, 3⟩) 0) 1 16 0)[k]? =
        some o ∧
      o.1 ≤ 25 ∧ 25 < o.1 +
        (microblock_header (configure_header (solid_image 32 32 ⟨1, 2, 3⟩) 0) 1).block_width ∧
      o.2 ≤ 3 ∧ 3 < o.2 +
        (microblock_header (configure_header (solid_image 32 32 ⟨1, 2, 3⟩) 0) 1).block_height ∧
      ∀ (k2 : Nat) (o2 : Nat × Nat),
        (microblock_origins (configure_header (solid_image 32 32 ⟨1, 2, 3⟩) 0) 1 16 0)[k2]? =
          some o2 →
        o2.1 ≤ 25 → 25 < o2.1 +
          (microblock_header (configure_header (solid_image 32 32 ⟨1, 2, 3⟩) 0) 1).block_width →
        o2.2 ≤ 3 → 3 < o2.2 +
          (microblock_header (configure_header (solid_image 32 32 ⟨1, 2, 3⟩) 0) 1).block_height →
        k2 = k :=
  ⟨by decide, by decide, by decide,
    ((microblocks_partition_the_macroblock (configure_header (solid_image 32 32 ⟨1, 2, 3⟩) 0)
      1 (by decide) (by decide) (by decide)).2.2.2.2.2.2 16 0 (by decide) (by decide)).2.2.1
      25 3 (by decide) (by decide) (by decide) (by decide)⟩

/-! ## the level selected and the level the size table holds -/

/-- The step values and errors `quantize_pixel` finds with 4 step bits for the
colours (0,0,0) and (239,0,0) in the range between them, for a square root that
is exact at 0 and at 239 * 239: the step is 239 / 15 = 15, and (239,0,0) is
reconstructed as 225 at index 15, an error of 14 * 14 = 196. -/
theorem quantize_pixel_0_239 (sqrt : Nat → Nat) (h0 : sqrt 0 = 0) (h1 : sqrt 57121 = 239) :
    quantize_pixel sqrt 4 ⟨⟨0, 0, 0⟩, ⟨239, 0, 0⟩⟩ ⟨0, 0, 0⟩ true = some (0, 0) ∧
    quantize_pixel sqrt 4 ⟨⟨0, 0, 0⟩, ⟨239, 0, 0⟩⟩ ⟨239, 0, 0⟩ true = some (15, 196) := by
  refine ⟨?_, ?_⟩ <;>
  · simp [quantize_pixel, to_int16, to_uint8, h0, h1, sum_square_differences, for_loop]
    try decide

/-- The error `estimate_quantization_error` adds up for a block of stripes that
starts in an even column and has an even width, when the colour of the even
columns is quantized without error and that of the odd columns with the error
`eb`: `eb` for every second pixel. -/
theorem estimate_quantization_error_stripes (sqrt : Nat → Nat) (header : PTCX_FILE_HEADER)
    (range : PTCX_PIXEL_RANGE) (input : image) (x y : Nat) (a b : color) (ia ib eb q : Nat)
    (hpix : ∀ px py, px < input.query_width → py < input.query_height →
      input.pixel_at px py = some (stripes a b px))
    (hqa : quantize_pixel sqrt header.quant_step_bits range a true = some (ia, 0))
    (hqb : quantize_pixel sqrt header.quant_step_bits range b true = some (ib, eb))
    (heb : eb ≤ 195075)
    (hxe : x % 2 = 0)
    (hx : x + header.block_width ≤ input.query_width)
    (hy : y + header.block_height ≤ input.query_height)
    (hbwe : header.block_width % 2 = 0)
    (hbw : header.block_width ≤ 16) (hbh : header.block_height ≤ 16)
    (h : estimate_quantization_error sqrt header range input x y = some q) :
    q = eb * (header.block_height * header.block_width / 2) := by
  unfold estimate_quantization_error at h
  exact nested_for_loop_inv
    (estimate_quantization_error_step sqrt header range input x y)
    (fun t e => e = eb * (t / 2)) header.block_height header.block_width 0 q
    (by
      intro j i e e2 hj hi hI hstep
      have hjw : j * header.block_width ≤ 15 * 16 := Nat.mul_le_mul (by omega) hbw
      have hpar : (j * header.block_width + i) % 2 = i % 2 := by
        rw [Nat.add_mod, Nat.mul_mod, hbwe]; simp
      have g1 := Nat.mod_le (x + i) U32
      have g2 := Nat.mod_le (y + j) U32
      unfold estimate_quantization_error_step at hstep
      rw [hpix _ _ (by omega) (by omega)] at hstep
      have hcol : (x + i) % U32 % 2 = i % 2 := by simp only [U32]; omega
      unfold stripes at hstep
      rw [hcol] at hstep
      by_cases hev : i % 2 = 0
      · rw [if_pos hev] at hstep
        simp only [hqa, Option.some.injEq, Nat.add_zero] at hstep
        have hlt : eb * ((j * header.block_width + i) / 2) < U32 := by
          have : eb * ((j * header.block_width + i) / 2) ≤ 195075 * 128 :=
            Nat.mul_le_mul heb (by omega)
          simp only [U32]; omega
        rw [← hstep, hI, Nat.mod_eq_of_lt hlt]
        congr 1
        omega
      · rw [if_neg hev] at hstep
        simp only [hqb, Option.some.injEq] at hstep
        have hhalf : (j * header.block_width + i + 1) / 2 =
            (j * header.block_width + i) / 2 + 1 := by omega
        have hlt : eb * ((j * header.block_width + i) / 2) + eb < U32 := by
          have : eb * ((j * header.block_width + i) / 2 + 1) ≤ 195075 * 128 :=
            Nat.mul_le_mul heb (by omega)
          rw [Nat.mul_succ] at this
          simp only [U32]; omega
        rw [← hstep, hI, Nat.mod_eq_of_lt hlt, hhalf, Nat.mul_succ])
    (by simp) h

/-- A trial whose microblock is the whole macroblock (shift 0, and every shift of
a 2 x 2 macroblock): its microblock loops accumulate the error
`estimate_quantization_error` finds for the range of the macroblock, and the
error of the trial is that total divided by the number of pixels. -/
theorem quantize_macroblock_trial_error (sqrt : Nat → Nat) (input : image)
    (header : PTCX_FILE_HEADER) (px py shift : Nat) (buf b0 : ring_buffer) (e0 q : Nat)
    (st : status) (range : PTCX_PIXEL_RANGE)
    (hmh : microblock_header header shift = header)
    (hbw : 0 < header.block_width) (hbh : 0 < header.block_height)
    (hsize : header.block_width * header.block_height < U32)
    (hre : range_estimate_min_max header input (px % U32) (py % U32) = some (st, range))
    (hqe : estimate_quantization_error sqrt header range input (px % U32) (py % U32) = some q)
    (hq : q < U32)
    (h : quantize_macroblock_trial sqrt input header px py shift buf = some (b0, e0)) :
    for_loop (fun micro_j => for_loop
        (quantize_macroblock_step sqrt input (microblock_header header shift) px py micro_j)
        (header.block_width / (microblock_header header shift).block_width) 0)
      (header.block_height / (microblock_header header shift).block_height) 0
      (buf.empty, 0) = some (b0, q) ∧
    e0 = q / (header.block_width * header.block_height) := by
  obtain ⟨total, hloop, he⟩ := quantize_macroblock_trial_mean sqrt input header px py shift buf
    b0 e0 h
  have hloop2 := hloop
  rw [hmh, Nat.div_self hbw, Nat.div_self hbh, for_loop_one, for_loop_one] at hloop2
  unfold quantize_macroblock_step at hloop2
  simp only [Nat.zero_mul, Nat.add_zero] at hloop2
  unfold quantize_microblock at hloop2
  rw [hre] at hloop2
  simp only [] at hloop2
  rw [hqe] at hloop2
  simp only [] at hloop2
  cases hw : write_quantization_table sqrt header range input (px % U32) (py % U32)
      (write_control_values range header buf.empty) with
  | none => rw [hw] at hloop2; simp at hloop2
  | some o2 =>
    rw [hw] at hloop2
    simp only [Option.some.injEq, Prod.mk.injEq] at hloop2
    obtain ⟨_, he2⟩ := hloop2
    have hBM : BASE_MAX_UINT32 = 4294967295 := by decide
    have hle : q ≤ BASE_MAX_UINT32 := by rw [hBM]; simp only [U32] at hq; omega
    rw [if_pos hle, Nat.zero_add, Nat.mod_eq_of_lt hq] at he2
    subst he2
    exact ⟨hloop, by rw [he, Nat.mod_eq_of_lt hsize]⟩

/-- The error of the trial at shift 0 of a macroblock of stripes that starts in an
even column, when the colour of the even columns is quantized without error and
that of the odd columns with the error `eb`: the microblock loops accumulate `eb`
for every second pixel, and the error of the trial is half of `eb`, rounded
down. -/
theorem quantize_macroblock_trial_stripes_error (sqrt : Nat → Nat) (input : image)
    (header : PTCX_FILE_HEADER) (px py : Nat) (buf b0 : ring_buffer) (e0 : Nat)
    (a b : color) (ia ib eb : Nat)
    (hcf : header.configured)
    (hab : a.c0 ≤ b.c0 ∧ a.c1 ≤ b.c1 ∧ a.c2 ≤ b.c2)
    (hb : b.c0 < 256 ∧ b.c1 < 256 ∧ b.c2 < 256)
    (hpix : ∀ x y, x < input.query_width → y < input.query_height →
      input.pixel_at x y = some (stripes a b x))
    (hqa : quantize_pixel sqrt header.quant_step_bits ⟨a, b⟩ a true = some (ia, 0))
    (hqb : quantize_pixel sqrt header.quant_step_bits ⟨a, b⟩ b true = some (ib, eb))
    (heb : eb ≤ 195075)
    (hpxe : px % 2 = 0)
    (hx : px + header.block_width ≤ input.query_width)
    (hy : py + header.block_height ≤ input.query_height)
    (h : quantize_macroblock_trial sqrt input header px py 0 buf = some (b0, e0)) :
    for_loop (fun micro_j => for_loop
        (quantize_macroblock_step sqrt input (microblock_header header 0) px py micro_j)
        (header.block_width / (microblock_header header 0).block_width) 0)
      (header.block_height / (microblock_header header 0).block_height) 0
      (buf.empty, 0) = some (b0, eb * (header.block_height * header.block_width / 2)) ∧
    e0 = eb / 2 := by
  have hread : ∀ x y, x < input.query_width → y < input.query_height →
      ∃ c, input.pixel_at x y = some c := fun x y hx hy => ⟨_, hpix x y hx hy⟩
  obtain ⟨hbw2, hbh2, hbw16, hbh16, _⟩ := configured_divides header hcf (n := 0) rfl
  obtain ⟨_, _, _, _, _, _, hmh⟩ := trial_bytes_configured header hcf 0 (by omega)
  have hfields : (header.quant_step_bits = 2 ∨ header.quant_step_bits = 4) ∧
      header.block_width % 2 = 0 ∧ header.block_height = header.block_width := by
    obtain ⟨_, hcase⟩ := hcf
    rcases hcase with ⟨e1, e2, e3⟩ | ⟨e1, e2, e3⟩ | ⟨e1, e2, e3⟩ | ⟨e1, e2, e3⟩ <;>
    · rw [e1, e2, e3]
      decide
  obtain ⟨hbits, hbwe, hsq⟩ := hfields
  have hpx2 : (px % U32) % 2 = 0 := by simp only [U32]; omega
  have g1 := Nat.mod_le px U32
  have g2 := Nat.mod_le py U32
  obtain ⟨range, hre⟩ := range_estimate_min_max_defined header input (px % U32) (py % U32)
    hread (by omega) (by omega)
  have hrange := range_estimate_min_max_stripes header input (px % U32) (py % U32) a b _ range
    hab hb hpix hpx2 (by omega) (by omega) hbw2 (by omega) hre
  subst hrange
  obtain ⟨q, hqe⟩ := estimate_quantization_error_defined sqrt header ⟨a, b⟩ input (px % U32)
    (py % U32) hbits hread (by omega) (by omega)
  have hqv := estimate_quantization_error_stripes sqrt header ⟨a, b⟩ input (px % U32)
    (py % U32) a b ia ib eb q hpix hqa hqb heb hpx2 (by omega) (by omega) hbwe hbw16 hbh16 hqe
  have hsize : header.block_width * header.block_height ≤ 16 * 16 :=
    Nat.mul_le_mul hbw16 hbh16
  have hhalf : header.block_height * header.block_width / 2 ≤ 128 := by
    rw [Nat.mul_comm]; omega
  have hqlt : q < U32 := by
    rw [hqv]
    have : eb * (header.block_height * header.block_width / 2) ≤ 195075 * 128 :=
      Nat.mul_le_mul heb hhalf
    simp only [U32]; omega
  obtain ⟨hloop, he⟩ := quantize_macroblock_trial_error sqrt input header px py 0 buf b0 e0 q
    _ _ hmh (by omega) (by omega) (by simp only [U32]; omega) hre hqe hqlt h
  rw [hqv] at hloop
  refine ⟨hloop, ?_⟩
  rw [he, hqv, hsq]
  obtain ⟨m, hm⟩ : ∃ m, header.block_width = 2 * m := ⟨header.block_width / 2, by omega⟩
  have hm0 : 0 < m := by omega
  have hK : 2 * m * (2 * m) = 2 * (m * (2 * m)) := by ring
  rw [hm, hK, Nat.mul_div_cancel_left _ (by norm_num : 0 < 2),
    Nat.mul_div_mul_right _ _ (Nat.mul_pos hm0 (by omega))]

/-- One call of `quantize_macroblock` on a size table of zero bytes (the table
`prepare_temporary_buffers` hands over), for a macroblock inside a readable
image and a stream with room for 132 more bytes: the three trials run, the call
returns `BASE_SUCCESS`, the stream receives the contents of the trial buffer of
the level selected by the errors, and the table is left with zero bytes only, so
the entry of the macroblock reads 0 whichever level was selected. -/
theorem quantize_macroblock_on_zero_table (sqrt : Nat → Nat) (input : image)
    (header : PTCX_FILE_HEADER) (i j : Nat)
    (st : (ring_buffer × ring_buffer × ring_buffer) × List Nat × memory_stream)
    (acc : List Nat) (T : Nat) (hc : header.configured)
    (hread : ∀ x y, x < input.query_width → y < input.query_height →
      ∃ c, input.pixel_at x y = some c)
    (hx : i * header.block_width + header.block_width ≤ input.query_width)
    (hy : j * header.block_height + header.block_height ≤ input.query_height)
    (hb0 : st.1.1.data.length = 132) (hb1 : st.1.2.1.data.length = 132)
    (hb2 : st.1.2.2.data.length = 132)
    (htab : st.2.1 = List.replicate T 0) (hacc : st.2.2.holds acc)
    (hroom : acc.length + 132 ≤ st.2.2.data.data.length)
    (hin : ((j * (header.image_width / header.block_width) + i) % U32) >>> 2 < T) :
    ∃ st2 b0 b1 b2 mse0 mse1 mse2 bytes0 bytes,
      quantize_macroblock_trial sqrt input header (i * header.block_width)
        (j * header.block_height) 0 st.1.1 = some (b0, mse0) ∧
      quantize_macroblock_trial sqrt input header (i * header.block_width)
        (j * header.block_height) 1 st.1.2.1 = some (b1, mse1) ∧
      quantize_macroblock_trial sqrt input header (i * header.block_width)
        (j * header.block_height) 2 st.1.2.2 = some (b2, mse2) ∧
      quantize_macroblock sqrt input header (i * header.block_width)
        (j * header.block_height) st = some (BASE_SUCCESS, st2) ∧
      b0.filling bytes0 ∧ bytes0.length = trial_bytes header 0 ∧
      (if mse0 ≤ 64 then b0 else if mse1 ≤ 64 then b1 else b2).filling bytes ∧
      bytes.length = trial_bytes header (if mse0 ≤ 64 then 0 else if mse1 ≤ 64 then 1 else 2) ∧
      st2.2.2.holds (acc ++ bytes) ∧
      st2.2.1 = List.replicate T 0 ∧
      query_macroblock_shift st2.2.1 i (header.image_width / header.block_width) j =
        some 0 := by
  have hU : (132 : Nat) < U32 := by decide
  obtain ⟨hbw2, hbh2, _⟩ := configured_divides header hc (n := 0) rfl
  obtain ⟨⟨b0, e0⟩, h0⟩ := quantize_macroblock_trial_defined sqrt input header
    (i * header.block_width) (j * header.block_height) 0 st.1.1 hc hread hx hy
  obtain ⟨⟨b1, e1⟩, h1⟩ := quantize_macroblock_trial_defined sqrt input header
    (i * header.block_width) (j * header.block_height) 1 st.1.2.1 hc hread hx hy
  obtain ⟨⟨b2, e2⟩, h2⟩ := quantize_macroblock_trial_defined sqrt input header
    (i * header.block_width) (j * header.block_height) 2 st.1.2.2 hc hread hx hy
  obtain ⟨t0, _, _⟩ := trial_bytes_configured header hc 0 (by omega)
  obtain ⟨t1, _, _⟩ := trial_bytes_configured header hc 1 (by omega)
  obtain ⟨t2, _, _⟩ := trial_bytes_configured header hc 2 (by omega)
  obtain ⟨bs0, f0, l0, _⟩ := quantize_macroblock_trial_filling sqrt input header _ _ 0 _ b0 e0
    hc.1 (by rw [hb0]; exact hU) (by rw [hb0]; exact t0) h0
  obtain ⟨bs1, f1, l1, _⟩ := quantize_macroblock_trial_filling sqrt input header _ _ 1 _ b1 e1
    hc.1 (by rw [hb1]; exact hU) (by rw [hb1]; exact t1) h1
  obtain ⟨bs2, f2, l2, _⟩ := quantize_macroblock_trial_filling sqrt input header _ _ 2 _ b2 e2
    hc.1 (by rw [hb2]; exact hU) (by rw [hb2]; exact t2) h2
  obtain ⟨st2, hq⟩ := quantize_macroblock_total sqrt input header i j st acc T hc hread hx hy
    hb0 hb1 hb2 htab hacc hin
  have hsel : ∃ bytes, (if e0 ≤ 64 then b0 else if e1 ≤ 64 then b1 else b2).filling bytes ∧
      bytes.length = trial_bytes header (if e0 ≤ 64 then 0 else if e1 ≤ 64 then 1 else 2) := by
    by_cases c0 : e0 ≤ 64
    · exact ⟨bs0, by simp only [c0, if_true]; exact f0, by simp only [c0, if_true]; exact l0⟩
    · by_cases c1 : e1 ≤ 64
      · exact ⟨bs1, by simp only [c0, c1, if_true, if_false]; exact f1,
          by simp only [c0, c1, if_true, if_false]; exact l1⟩
      · exact ⟨bs2, by simp only [c0, c1, if_false]; exact f2,
          by simp only [c0, c1, if_false]; exact l2⟩
  obtain ⟨bytes, fb, lb⟩ := hsel
  have hblen : bytes.length ≤ 132 := by
    rw [lb]
    by_cases c0 : e0 ≤ 64
    · simp only [c0, if_true]; exact t0
    · by_cases c1 : e1 ≤ 64
      · simp only [c0, c1, if_true, if_false]; exact t1
      · simp only [c0, c1, if_false]; exact t2
  obtain ⟨_, r2, r3, _, _⟩ := quantize_macroblock_selects_level sqrt input header
    (i * header.block_width) (j * header.block_height) st st2 BASE_SUCCESS b0 b1 b2 e0 e1 e2
    acc bytes h0 h1 h2 (peeked_occupants_filling fb) (by simp only [U32]; omega) hacc
    (by omega) hq
  rw [htab, write_macroblock_table_entry_zero] at r2
  have hidx : i * header.block_width / header.block_width = i :=
    Nat.mul_div_cancel _ (by omega)
  have hidy : j * header.block_height / header.block_height = j :=
    Nat.mul_div_cancel _ (by omega)
  rw [hidx, hidy, if_pos hin] at r2
  simp only [Option.some.injEq] at r2
  refine ⟨st2, b0, b1, b2, e0, e1, e2, bs0, bytes, h0, h1, h2, hq, f0, l0, fb, lb, r3, r2.symm,
    ?_⟩
  rw [← r2, query_macroblock_shift_zero, if_pos hin]

/-- Every pixel of an image of `w x h` pixels whose buffer holds exactly its
pixels can be read. -/
theorem image.pixel_at_defined {img : image} {w h x y : Nat} (hs : img.shaped w h)
    (hsz : 24 * (w * h) < U32) (hx : x < w) (hy : y < h) :
    ∃ c, img.pixel_at x y = some c := by
  have hin := image.offset_in_bounds hs hx hy
  unfold image.pixel_at
  rw [image.offset_shaped hs hsz hx hy]
  unfold image.load_pixel
  rw [List.getElem?_eq_getElem (by omega : 3 * (w * y + x) < img.data_buffer.length),
    List.getElem?_eq_getElem (by omega : 3 * (w * y + x) + 1 < img.data_buffer.length),
    List.getElem?_eq_getElem hin]
  exact ⟨_, rfl⟩

theorem corner_image_shaped (p00 p10 p01 p11 : color) :
    (corner_image p00 p10 p01 p11).shaped 16 16 :=
  ⟨rfl, rfl, rfl,
    by simp only [corner_image, List.length_append, List.length_cons, List.length_nil,
      List.length_replicate], rfl⟩

/-- The step values and errors `quantize_pixel` finds with 4 step bits in the
range (0,0,0) .. (239,0,0) for the colours (6,0,0) and (5,0,0), for a square root
that is exact at 25, 36 and 239 * 239: the step is 239 / 15 = 15, both colours
get index 0 and are reconstructed as 0, errors 36 and 25. -/
theorem quantize_pixel_6_5 (sqrt : Nat → Nat) (h5 : sqrt 25 = 5) (h6 : sqrt 36 = 6)
    (h1 : sqrt 57121 = 239) :
    quantize_pixel sqrt 4 ⟨⟨0, 0, 0⟩, ⟨239, 0, 0⟩⟩ ⟨6, 0, 0⟩ true = some (0, 36) ∧
    quantize_pixel sqrt 4 ⟨⟨0, 0, 0⟩, ⟨239, 0, 0⟩⟩ ⟨5, 0, 0⟩ true = some (0, 25) := by
  refine ⟨?_, ?_⟩ <;>
  · simp [quantize_pixel, to_int16, to_uint8, h5, h6, h1, sum_square_differences, for_loop]
    try decide

/-- The error `estimate_quantization_error` adds up for the 2 x 2 block at (0,0):
the sum of the errors of its four pixels. -/
theorem estimate_quantization_error_2x2 (sqrt : Nat → Nat) (header : PTCX_FILE_HEADER)
    (range : PTCX_PIXEL_RANGE) (input : image) (c00 c10 c01 c11 : color)
    (s00 s10 s01 s11 e00 e10 e01 e11 : Nat)
    (hbw : header.block_width = 2) (hbh : header.block_height = 2)
    (p00 : input.pixel_at 0 0 = some c00) (p10 : input.pixel_at 1 0 = some c10)
    (p01 : input.pixel_at 0 1 = some c01) (p11 : input.pixel_at 1 1 = some c11)
    (q00 : quantize_pixel sqrt header.quant_step_bits range c00 true = some (s00, e00))
    (q10 : quantize_pixel sqrt header.quant_step_bits range c10 true = some (s10, e10))
    (q01 : quantize_pixel sqrt header.quant_step_bits range c01 true = some (s01, e01))
    (q11 : quantize_pixel sqrt header.quant_step_bits range c11 true = some (s11, e11))
    (hsum : e00 + e10 + e01 + e11 < U32) :
    estimate_quantization_error sqrt header range input 0 0 =
      some (e00 + e10 + e01 + e11) := by
  have z0 : (0 + 0) % U32 = 0 := rfl
  have z1 : (0 + 1) % U32 = 1 := rfl
  have m1 : e00 % U32 = e00 := Nat.mod_eq_of_lt (by omega)
  have m2 : (e00 + e10) % U32 = e00 + e10 := Nat.mod_eq_of_lt (by omega)
  have m3 : (e00 + e10 + e01) % U32 = e00 + e10 + e01 := Nat.mod_eq_of_lt (by omega)
  have m4 : (e00 + e10 + e01 + e11) % U32 = e00 + e10 + e01 + e11 := Nat.mod_eq_of_lt hsum
  unfold estimate_quantization_error
  rw [hbw, hbh]
  simp only [for_loop, estimate_quantization_error_step, z0, z1, Nat.zero_add, p00, p10, p01,
    p11, q00, q10, q01, q11, m1, m2, m3, m4]

/-- C13 (code defect): `quantize_macroblock` selects level 0 when the error of the
trial at shift 0 is at most 64, else level 1 when that of shift 1 is, else
level 2, and appends the contents of the trial buffer of the selected level to
the stream; but the level is not recorded. On the size table of zero bytes that
`prepare_temporary_buffers` hands over, for every macroblock inside a readable
image and a stream with room, the call returns `BASE_SUCCESS` and leaves the
table with zero bytes only, so the entry of the macroblock reads 0 whichever
level was selected. For the first macroblock of the 16 x 16 image of stripes
(0,0,0) / (239,0,0) at quality 3 (4 x 4 macroblocks, 4 step bits), for every
`base::sqrt` that is exact at 0 and at 239 * 239: the error of the trial at shift
0 is 98 > 64, so level 1 or 2 is selected and the 24 bytes of that trial buffer
are appended, while the table entry reads 0 and the trial buffer of level 0 holds
12 bytes. -/
theorem selected_level_is_not_recorded_in_the_size_table :
    (∀ (sqrt : Nat → Nat) (input : image) (header : PTCX_FILE_HEADER) (i j : Nat)
        (st : (ring_buffer × ring_buffer × ring_buffer) × List Nat × memory_stream)
        (acc : List Nat) (T : Nat),
      header.configured →
      (∀ x y, x < input.query_width → y < input.query_height →
        ∃ c, input.pixel_at x y = some c) →
      i * header.block_width + header.block_width ≤ input.query_width →
      j * header.block_height + header.block_height ≤ input.query_height →
      st.1.1.data.length = 132 → st.1.2.1.data.length = 132 → st.1.2.2.data.length = 132 →
      st.2.1 = List.replicate T 0 → st.2.2.holds acc →
      acc.length + 132 ≤ st.2.2.data.data.length →
      ((j * (header.image_width / header.block_width) + i) % U32) >>> 2 < T →
      ∃ st2 b0 b1 b2 mse0 mse1 mse2 bytes0 bytes,
        quantize_macroblock_trial sqrt input header (i * header.block_width)
          (j * header.block_height) 0 st.1.1 = some (b0, mse0) ∧
        quantize_macroblock_trial sqrt input header (i * header.block_width)
          (j * header.block_height) 1 st.1.2.1 = some (b1, mse1) ∧
        quantize_macroblock_trial sqrt input header (i * header.block_width)
          (j * header.block_height) 2 st.1.2.2 = some (b2, mse2) ∧
        quantize_macroblock sqrt input header (i * header.block_width)
          (j * header.block_height) st = some (BASE_SUCCESS, st2) ∧
        b0.filling bytes0 ∧ bytes0.length = trial_bytes header 0 ∧
        (if mse0 ≤ 64 then b0 else if mse1 ≤ 64 then b1 else b2).filling bytes ∧
        bytes.length =
          trial_bytes header (if mse0 ≤ 64 then 0 else if mse1 ≤ 64 then 1 else 2) ∧
        st2.2.2.holds (acc ++ bytes) ∧
        st2.2.1 = List.replicate T 0 ∧
        query_macroblock_shift st2.2.1 i (header.image_width / header.block_width) j =
          some 0) ∧
    prepare_temporary_buffers
        (configure_header (column_image 16 16 (stripes ⟨0, 0, 0⟩ ⟨239, 0, 0⟩)) 3)
        memory_stream.new [] = some (BASE_SUCCESS, fresh_stream 2048, [0, 0, 0, 0]) ∧
    ∀ sqrt : Nat → Nat, sqrt 0 = 0 → sqrt 57121 = 239 →
      ∃ st2 b0 b1 b2 mse1 mse2 bytes0 bytes,
        quantize_macroblock_trial sqrt (column_image 16 16 (stripes ⟨0, 0, 0⟩ ⟨239, 0, 0⟩))
          (configure_header (column_image 16 16 (stripes ⟨0, 0, 0⟩ ⟨239, 0, 0⟩)) 3) 0 0 0
          (ring_buffer.new.resize_capacity PTCX_MAX_BLOCK_DATA_SIZE).2 = some (b0, 98) ∧
        ¬ (98 ≤ PTCX_QUALITY_DELTA) ∧
        quantize_macroblock_trial sqrt (column_image 16 16 (stripes ⟨0, 0, 0⟩ ⟨239, 0, 0⟩))
          (configure_header (column_image 16 16 (stripes ⟨0, 0, 0⟩ ⟨239, 0, 0⟩)) 3) 0 0 1
          (ring_buffer.new.resize_capacity PTCX_MAX_BLOCK_DATA_SIZE).2 = some (b1, mse1) ∧
        quantize_macroblock_trial sqrt (column_image 16 16 (stripes ⟨0, 0, 0⟩ ⟨239, 0, 0⟩))
          (configure_header (column_image 16 16 (stripes ⟨0, 0, 0⟩ ⟨239, 0, 0⟩)) 3) 0 0 2
          (ring_buffer.new.resize_capacity PTCX_MAX_BLOCK_DATA_SIZE).2 = some (b2, mse2) ∧
        quantize_macroblock sqrt (column_image 16 16 (stripes ⟨0, 0, 0⟩ ⟨239, 0, 0⟩))
          (configure_header (column_image 16 16 (stripes ⟨0, 0, 0⟩ ⟨239, 0, 0⟩)) 3) 0 0
          (((ring_buffer.new.resize_capacity PTCX_MAX_BLOCK_DATA_SIZE).2,
            (ring_buffer.new.resize_capacity PTCX_MAX_BLOCK_DATA_SIZE).2,
            (ring_buffer.new.resize_capacity PTCX_MAX_BLOCK_DATA_SIZE).2),
            [0, 0, 0, 0], fresh_stream 2048) = some (BASE_SUCCESS, st2) ∧
        st2.2.1 = [0, 0, 0, 0] ∧
        query_macroblock_shift st2.2.1 0 4 0 = some 0 ∧
        b0.filling bytes0 ∧ bytes0.length = 12 ∧
        (if mse1 ≤ 64 then b1 else b2).filling bytes ∧ bytes.length = 24 ∧
        st2.2.2.holds bytes := by
  refine ⟨?_, by decide!, ?_⟩
  · intro sqrt input header i j st acc T hc hread hx hy hb0 hb1 hb2 htab hacc hroom hin
    exact quantize_macroblock_on_zero_table sqrt input header i j st acc T hc hread hx hy hb0
      hb1 hb2 htab hacc hroom hin
  · intro sqrt h0 h1
    have hc := configure_header_configured
      (column_image 16 16 (stripes ⟨0, 0, 0⟩ ⟨239, 0, 0⟩)) 3
    obtain ⟨hout, hcap⟩ := fresh_stream_holds 2048 (by decide)
    have h132 : (ring_buffer.new.resize_capacity PTCX_MAX_BLOCK_DATA_SIZE).2.data.length =
        132 := by rw [trial_buffer_eq]; rfl
    obtain ⟨st2, b0, b1, b2, e0, e1, e2, bs0, bytes, t0, t1, t2, hq, f0, l0, fb, lb, hs, htab,
        hquery⟩ :=
      quantize_macroblock_on_zero_table sqrt
        (column_image 16 16 (stripes ⟨0, 0, 0⟩ ⟨239, 0, 0⟩))
        (configure_header (column_image 16 16 (stripes ⟨0, 0, 0⟩ ⟨239, 0, 0⟩)) 3) 0 0
        (((ring_buffer.new.resize_capacity PTCX_MAX_BLOCK_DATA_SIZE).2,
          (ring_buffer.new.resize_capacity PTCX_MAX_BLOCK_DATA_SIZE).2,
          (ring_buffer.new.resize_capacity PTCX_MAX_BLOCK_DATA_SIZE).2),
          [0, 0, 0, 0], fresh_stream 2048) [] 4 hc
        (fun x y hx hy => ⟨_, column_image_pixel_at 16 16 _ (by decide) hx hy⟩)
        (by decide) (by decide) h132 h132 h132 rfl hout (by rw [hcap]; decide) (by decide)
    simp only [Nat.zero_mul] at t0 t1 t2 hq
    obtain ⟨qa, qb⟩ := quantize_pixel_0_239 sqrt h0 h1
    have he0 : e0 = 98 := (quantize_macroblock_trial_stripes_error sqrt
      (column_image 16 16 (stripes ⟨0, 0, 0⟩ ⟨239, 0, 0⟩))
      (configure_header (column_image 16 16 (stripes ⟨0, 0, 0⟩ ⟨239, 0, 0⟩)) 3) 0 0 _ b0 e0
      ⟨0, 0, 0⟩ ⟨239, 0, 0⟩ 0 15 196 hc (by decide) (by decide)
      (fun x y hx hy => column_image_pixel_at 16 16 _ (by decide) hx hy) qa qb (by decide) rfl
      (by decide) (by decide) t0).2
    subst he0
    have hn : ¬ (98 ≤ 64) := by decide
    simp only [hn, if_false] at fb lb
    have hl0 : trial_bytes (configure_header
        (column_image 16 16 (stripes ⟨0, 0, 0⟩ ⟨239, 0, 0⟩)) 3) 0 = 12 := by decide
    have hl12 : trial_bytes (configure_header
        (column_image 16 16 (stripes ⟨0, 0, 0⟩ ⟨239, 0, 0⟩)) 3)
        (if e1 ≤ 64 then 1 else 2) = 24 := by
      by_cases c1 : e1 ≤ 64
      · rw [if_pos c1]; decide
      · rw [if_neg c1]; decide
    refine ⟨st2, b0, b1, b2, e1, e2, bs0, bytes, t0, by decide, t1, t2, hq, htab, ?_, f0,
      by rw [l0, hl0], fb, by rw [lb, hl12], by simpa using hs⟩
    exact hquery

/-- C32 (code defect): `quantize_macroblock` compares the quotient `S_k / N` of the
integer division of the accumulated squared error of a trial by
`N = block_width * block_height` with 64, so the level it selects and hands to
`write_macroblock_table_entry` is 0 exactly when `S_0 < 65 * N`, else 1 exactly
when `S_1 < 65 * N`, else 2; a trial whose exact mean lies strictly between 64
and 65 is accepted: for the first macroblock of the 16 x 16 image with the pixels
(0,0,0), (239,0,0), (6,0,0), (5,0,0) in its first 2 x 2 block at quality 4
(`N = 4`) the trial at shift 0 accumulates `S_0 = 257` (mean 64.25), its error is
64, and the contents of the trial buffer of shift 0 are appended to the stream.
But the selected level is not recorded: the size table of zero bytes is left
with zero bytes only, so level 0 is what the table holds also when
`S_0 >= 65 * N`; for the first macroblock of the 16 x 16 image of stripes (0,0,0)
/ (239,0,0) at quality 4 the trial at shift 0 accumulates `S_0 = 392 >= 260`,
level 1 or 2 is selected and its buffer appended, and the table entry reads 0.
Both for every `base::sqrt` that is exact at the squares 0, 25, 36 and
239 * 239. -/
theorem rounded_mean_threshold_is_not_recorded_in_the_size_table :
    (∀ (sqrt : Nat → Nat) (input : image) (header : PTCX_FILE_HEADER) (px py : Nat)
        (st st2 : (ring_buffer × ring_buffer × ring_buffer) × List Nat × memory_stream)
        (result : status) (b0 b1 b2 : ring_buffer) (total0 total1 total2 : Nat),
      (header.block_width * header.block_height) % U32 ≠ 0 →
      for_loop (fun micro_j => for_loop
          (quantize_macroblock_step sqrt input (microblock_header header 0) px py micro_j)
          (header.block_width / (microblock_header header 0).block_width) 0)
        (header.block_height / (microblock_header header 0).block_height) 0
        (st.1.1.empty, 0) = some (b0, total0) →
      for_loop (fun micro_j => for_loop
          (quantize_macroblock_step sqrt input (microblock_header header 1) px py micro_j)
          (header.block_width / (microblock_header header 1).block_width) 0)
        (header.block_height / (microblock_header header 1).block_height) 0
        (st.1.2.1.empty, 0) = some (b1, total1) →
      for_loop (fun micro_j => for_loop
          (quantize_macroblock_step sqrt input (microblock_header header 2) px py micro_j)
          (header.block_width / (microblock_header header 2).block_width) 0)
        (header.block_height / (microblock_header header 2).block_height) 0
        (st.1.2.2.empty, 0) = some (b2, total2) →
      quantize_macroblock sqrt input header px py st = some (result, st2) →
      quantize_macroblock_trial sqrt input header px py 0 st.1.1 =
        some (b0, total0 / ((header.block_width * header.block_height) % U32)) ∧
      quantize_macroblock_trial sqrt input header px py 1 st.1.2.1 =
        some (b1, total1 / ((header.block_width * header.block_height) % U32)) ∧
      quantize_macroblock_trial sqrt input header px py 2 st.1.2.2 =
        some (b2, total2 / ((header.block_width * header.block_height) % U32)) ∧
      write_macroblock_table_entry st.2.1 (px / header.block_width)
        (header.image_width / header.block_width) (py / header.block_height)
        (if total0 < 65 * ((header.block_width * header.block_height) % U32) then 0
          else if total1 < 65 * ((header.block_width * header.block_height) % U32) then 1
          else 2) = some st2.2.1) ∧
    (∀ sqrt : Nat → Nat, sqrt 0 = 0 → sqrt 25 = 5 → sqrt 36 = 6 → sqrt 57121 = 239 →
      ∃ st2 b0 bytes0,
        for_loop (fun micro_j => for_loop
            (quantize_macroblock_step sqrt
              (corner_image ⟨0, 0, 0⟩ ⟨239, 0, 0⟩ ⟨6, 0, 0⟩ ⟨5, 0, 0⟩)
              (microblock_header (configure_header
                (corner_image ⟨0, 0, 0⟩ ⟨239, 0, 0⟩ ⟨6, 0, 0⟩ ⟨5, 0, 0⟩) 4) 0) 0 0 micro_j)
            ((configure_header
                (corner_image ⟨0, 0, 0⟩ ⟨239, 0, 0⟩ ⟨6, 0, 0⟩ ⟨5, 0, 0⟩) 4).block_width /
              (microblock_header (configure_header
                (corner_image ⟨0, 0, 0⟩ ⟨239, 0, 0⟩ ⟨6, 0, 0⟩ ⟨5, 0, 0⟩) 4) 0).block_width) 0)
          ((configure_header
              (corner_image ⟨0, 0, 0⟩ ⟨239, 0, 0⟩ ⟨6, 0, 0⟩ ⟨5, 0, 0⟩) 4).block_height /
            (microblock_header (configure_header
              (corner_image ⟨0, 0, 0⟩ ⟨239, 0, 0⟩ ⟨6, 0, 0⟩ ⟨5, 0, 0⟩) 4) 0).block_height) 0
          ((ring_buffer.new.resize_capacity PTCX_MAX_BLOCK_DATA_SIZE).2.empty, 0) =
          some (b0, 257) ∧
        ((configure_header
            (corner_image ⟨0, 0, 0⟩ ⟨239, 0, 0⟩ ⟨6, 0, 0⟩ ⟨5, 0, 0⟩) 4).block_width *
          (configure_header
            (corner_image ⟨0, 0, 0⟩ ⟨239, 0, 0⟩ ⟨6, 0, 0⟩ ⟨5, 0, 0⟩) 4).block_height) % U32 =
          4 ∧
        64 * 4 < 257 ∧ 257 < 65 * 4 ∧
        quantize_macroblock_trial sqrt (corner_image ⟨0, 0, 0⟩ ⟨239, 0, 0⟩ ⟨6, 0, 0⟩ ⟨5, 0, 0⟩)
          (configure_header (corner_image ⟨0, 0, 0⟩ ⟨239, 0, 0⟩ ⟨6, 0, 0⟩ ⟨5, 0, 0⟩) 4) 0 0 0
          (ring_buffer.new.resize_capacity PTCX_MAX_BLOCK_DATA_SIZE).2 = some (b0, 64) ∧
        quantize_macroblock sqrt (corner_image ⟨0, 0, 0⟩ ⟨239, 0, 0⟩ ⟨6, 0, 0⟩ ⟨5, 0, 0⟩)
          (configure_header (corner_image ⟨0, 0, 0⟩ ⟨239, 0, 0⟩ ⟨6, 0, 0⟩ ⟨5, 0, 0⟩) 4) 0 0
          (((ring_buffer.new.resize_capacity PTCX_MAX_BLOCK_DATA_SIZE).2,
            (ring_buffer.new.resize_capacity PTCX_MAX_BLOCK_DATA_SIZE).2,
            (ring_buffer.new.resize_capacity PTCX_MAX_BLOCK_DATA_SIZE).2),
            List.replicate 16 0, fresh_stream 2048) = some (BASE_SUCCESS, st2) ∧
        b0.filling bytes0 ∧ st2.2.2.holds bytes0 ∧
        query_macroblock_shift st2.2.1 0 8 0 = some 0) ∧
    ∀ sqrt : Nat → Nat, sqrt 0 = 0 → sqrt 57121 = 239 →
      ∃ st2 b0 b1 b2 mse1 mse2 bytes,
        for_loop (fun micro_j => for_loop
            (quantize_macroblock_step sqrt
              (column_image 16 16 (stripes ⟨0, 0, 0⟩ ⟨239, 0, 0⟩))
              (microblock_header (configure_header
                (column_image 16 16 (stripes ⟨0, 0, 0⟩ ⟨239, 0, 0⟩)) 4) 0) 0 0 micro_j)
            ((configure_header
                (column_image 16 16 (stripes ⟨0, 0, 0⟩ ⟨239, 0, 0⟩)) 4).block_width /
              (microblock_header (configure_header
                (column_image 16 16 (stripes ⟨0, 0, 0⟩ ⟨239, 0, 0⟩)) 4) 0).block_width) 0)
          ((configure_header
              (column_image 16 16 (stripes ⟨0, 0, 0⟩ ⟨239, 0, 0⟩)) 4).block_height /
            (microblock_header (configure_header
              (column_image 16 16 (stripes ⟨0, 0, 0⟩ ⟨239, 0, 0⟩)) 4) 0).block_height) 0
          ((ring_buffer.new.resize_capacity PTCX_MAX_BLOCK_DATA_SIZE).2.empty, 0) =
          some (b0, 392) ∧
        ((configure_header
            (column_image 16 16 (stripes ⟨0, 0, 0⟩ ⟨239, 0, 0⟩)) 4).block_width *
          (configure_header
            (column_image 16 16 (stripes ⟨0, 0, 0⟩ ⟨239, 0, 0⟩)) 4).block_height) % U32 = 4 ∧
        ¬ (392 < 65 * 4) ∧
        quantize_macroblock_trial sqrt (column_image 16 16 (stripes ⟨0, 0, 0⟩ ⟨239, 0, 0⟩))
          (configure_header (column_image 16 16 (stripes ⟨0, 0, 0⟩ ⟨239, 0, 0⟩)) 4) 0 0 0
          (ring_buffer.new.resize_capacity PTCX_MAX_BLOCK_DATA_SIZE).2 = some (b0, 98) ∧
        quantize_macroblock_trial sqrt (column_image 16 16 (stripes ⟨0, 0, 0⟩ ⟨239, 0, 0⟩))
          (configure_header (column_image 16 16 (stripes ⟨0, 0, 0⟩ ⟨239, 0, 0⟩)) 4) 0 0 1
          (ring_buffer.new.resize_capacity PTCX_MAX_BLOCK_DATA_SIZE).2 = some (b1, mse1) ∧
        quantize_macroblock_trial sqrt (column_image 16 16 (stripes ⟨0, 0, 0⟩ ⟨239, 0, 0⟩))
          (configure_header (column_image 16 16 (stripes ⟨0, 0, 0⟩ ⟨239, 0, 0⟩)) 4) 0 0 2
          (ring_buffer.new.resize_capacity PTCX_MAX_BLOCK_DATA_SIZE).2 = some (b2, mse2) ∧
        quantize_macroblock sqrt (column_image 16 16 (stripes ⟨0, 0, 0⟩ ⟨239, 0, 0⟩))
          (configure_header (column_image 16 16 (stripes ⟨0, 0, 0⟩ ⟨239, 0, 0⟩)) 4) 0 0
          (((ring_buffer.new.resize_capacity PTCX_MAX_BLOCK_DATA_SIZE).2,
            (ring_buffer.new.resize_capacity PTCX_MAX_BLOCK_DATA_SIZE).2,
            (ring_buffer.new.resize_capacity PTCX_MAX_BLOCK_DATA_SIZE).2),
            List.replicate 16 0, fresh_stream 2048) = some (BASE_SUCCESS, st2) ∧
        (if mse1 ≤ 64 then b1 else b2).filling bytes ∧ st2.2.2.holds bytes ∧
        st2.2.1 = List.replicate 16 0 ∧
        query_macroblock_shift st2.2.1 0 8 0 = some 0 := by
  have h132 : (ring_buffer.new.resize_capacity PTCX_MAX_BLOCK_DATA_SIZE).2.data.length =
      132 := by rw [trial_buffer_eq]; rfl
  obtain ⟨hout, hcap⟩ := fresh_stream_holds 2048 (by decide)
  refine ⟨?_, ?_, ?_⟩
  · intro sqrt input header px py st st2 result b0 b1 b2 total0 total1 total2 hN h0 h1 h2 h
    obtain ⟨t0, t1, t2, hw, _⟩ := quantize_macroblock_threshold_is_on_the_rounded_mean sqrt
      input header px py st st2 result b0 b1 b2 total0 total1 total2 hN h0 h1 h2 h
    exact ⟨t0, t1, t2, hw⟩
  · intro sqrt h0 h5 h6 h1
    have hc := configure_header_configured
      (corner_image ⟨0, 0, 0⟩ ⟨239, 0, 0⟩ ⟨6, 0, 0⟩ ⟨5, 0, 0⟩) 4
    obtain ⟨st2, b0, b1, b2, e0, e1, e2, bs0, bytes, t0, t1, t2, hq, f0, l0, fb, lb, hs, htab,
        hquery⟩ :=
      quantize_macroblock_on_zero_table sqrt
        (corner_image ⟨0, 0, 0⟩ ⟨239, 0, 0⟩ ⟨6, 0, 0⟩ ⟨5, 0, 0⟩)
        (configure_header (corner_image ⟨0, 0, 0⟩ ⟨239, 0, 0⟩ ⟨6, 0, 0⟩ ⟨5, 0, 0⟩) 4) 0 0
        (((ring_buffer.new.resize_capacity PTCX_MAX_BLOCK_DATA_SIZE).2,
          (ring_buffer.new.resize_capacity PTCX_MAX_BLOCK_DATA_SIZE).2,
          (ring_buffer.new.resize_capacity PTCX_MAX_BLOCK_DATA_SIZE).2),
          List.replicate 16 0, fresh_stream 2048) [] 16 hc
        (fun x y hx hy => image.pixel_at_defined (corner_image_shaped _ _ _ _) (by decide)
          hx hy)
        (by decide) (by decide) h132 h132 h132 rfl hout (by rw [hcap]; decide) (by decide)
    simp only [Nat.zero_mul] at t0 t1 t2 hq
    obtain ⟨_, _, _, _, _, _, hmh⟩ := trial_bytes_configured _ hc 0 (by omega)
    obtain ⟨qa, qb⟩ := quantize_pixel_0_239 sqrt h0 h1
    obtain ⟨q6, q5⟩ := quantize_pixel_6_5 sqrt h5 h6 h1
    have hre : range_estimate_min_max
        (configure_header (corner_image ⟨0, 0, 0⟩ ⟨239, 0, 0⟩ ⟨6, 0, 0⟩ ⟨5, 0, 0⟩) 4)
        (corner_image ⟨0, 0, 0⟩ ⟨239, 0, 0⟩ ⟨6, 0, 0⟩ ⟨5, 0, 0⟩) (0 % U32) (0 % U32) =
        some (BASE_SUCCESS, ⟨⟨0, 0, 0⟩, ⟨239, 0, 0⟩⟩) := by decide!
    have hqe : estimate_quantization_error sqrt
        (configure_header (corner_image ⟨0, 0, 0⟩ ⟨239, 0, 0⟩ ⟨6, 0, 0⟩ ⟨5, 0, 0⟩) 4)
        ⟨⟨0, 0, 0⟩, ⟨239, 0, 0⟩⟩
        (corner_image ⟨0, 0, 0⟩ ⟨239, 0, 0⟩ ⟨6, 0, 0⟩ ⟨5, 0, 0⟩) (0 % U32) (0 % U32) =
        some 257 :=
      estimate_quantization_error_2x2 sqrt _ _ _ ⟨0, 0, 0⟩ ⟨239, 0, 0⟩ ⟨6, 0, 0⟩ ⟨5, 0, 0⟩
        0 15 0 0 0 196 36 25 rfl rfl (by decide!) (by decide!) (by decide!) (by decide!)
        qa qb q6 q5 (by decide)
    obtain ⟨hloop, he⟩ := quantize_macroblock_trial_error sqrt _ _ 0 0 0 _ b0 e0 257 _ _ hmh
      (by decide) (by decide) (by decide) hre hqe (by decide) t0
    have he64 : e0 = 64 := by rw [he]; rfl
    subst he64
    simp only [Nat.le_refl, if_true] at fb
    have hbytes : bytes = bs0 := ring_buffer.filling_unique fb f0
    subst hbytes
    exact ⟨st2, b0, bytes, hloop, rfl, by decide, by decide, t0, hq, f0,
      by simpa using hs, hquery⟩
  · intro sqrt h0 h1
    have hc := configure_header_configured
      (column_image 16 16 (stripes ⟨0, 0, 0⟩ ⟨239, 0, 0⟩)) 4
    obtain ⟨st2, b0, b1, b2, e0, e1, e2, bs0, bytes, t0, t1, t2, hq, f0, l0, fb, lb, hs, htab,
        hquery⟩ :=
      quantize_macroblock_on_zero_table sqrt
        (column_image 16 16 (stripes ⟨0, 0, 0⟩ ⟨239, 0, 0⟩))
        (configure_header (column_image 16 16 (stripes ⟨0, 0, 0⟩ ⟨239, 0, 0⟩)) 4) 0 0
        (((ring_buffer.new.resize_capacity PTCX_MAX_BLOCK_DATA_SIZE).2,
          (ring_buffer.new.resize_capacity PTCX_MAX_BLOCK_DATA_SIZE).2,
          (ring_buffer.new.resize_capacity PTCX_MAX_BLOCK_DATA_SIZE).2),
          List.replicate 16 0, fresh_stream 2048) [] 16 hc
        (fun x y hx hy => ⟨_, column_image_pixel_at 16 16 _ (by decide) hx hy⟩)
        (by decide) (by decide) h132 h132 h132 rfl hout (by rw [hcap]; decide) (by decide)
    simp only [Nat.zero_mul] at t0 t1 t2 hq
    obtain ⟨qa, qb⟩ := quantize_pixel_0_239 sqrt h0 h1
    obtain ⟨hloop, he0⟩ := quantize_macroblock_trial_stripes_error sqrt
      (column_image 16 16 (stripes ⟨0, 0, 0⟩ ⟨239, 0, 0⟩))
      (configure_header (column_image 16 16 (stripes ⟨0, 0, 0⟩ ⟨239, 0, 0⟩)) 4) 0 0 _ b0 e0
      ⟨0, 0, 0⟩ ⟨239, 0, 0⟩ 0 15 196 hc (by decide) (by decide)
      (fun x y hx hy => column_image_pixel_at 16 16 _ (by decide) hx hy) qa qb (by decide) rfl
      (by decide) (by decide) t0
    have he98 : e0 = 98 := he0
    subst he98
    have hn : ¬ (98 ≤ 64) := by decide
    simp only [hn, if_false] at fb
    exact ⟨st2, b0, b1, b2, e1, e2, bytes, hloop, rfl, by decide, t0, t1, t2, hq, fb,
      by simpa using hs, htab, hquery⟩

end Ptcx
